import Mathlib

/-!
# blockSimGo: a shallow embedding of the simulation kernel and the node state machine

The definitions below follow `src/blockchain.go`, `src/event.go`, `src/util.go`, `src/pow.go`,
`src/tx_source.go`, `src/node.go` and `src/simulation.go`.

Modelling conventions.

* Go maps are association lists (`GoMap`) read with first-binding-wins lookup; `set` and `del`
  keep at most one binding per key.  Iteration over a map visits the distinct keys in list
  order (Go leaves the order unspecified).
* Go `int`, `time.Time` and `time.Duration` are unbounded integers (`Int`); times are
  nanoseconds on the simulation clock.  No counter, height or timestamp of a run comes near
  the 64-bit range.  Wrap-around is modelled where transaction sizes, which the flags set,
  are added up: the byte count of `canAttemptMiningNow` and the running byte count of the
  packing loop of `AttemptMining` are 64-bit `int` values (`wrapInt64`).
* A `float64` value is a pair of a mantissa and a binary exponent (`F64`); every operation
  computes the exact result and rounds it to 53 significant bits, ties to even.  Overflow,
  subnormals, infinities and NaN are not modelled.
* The global `math/rand` source is the field `Rng` of `Simulation`: a stream of draws and a
  cursor.  `time.Now()` and the SHA-256 digest of `CalculateHash` are inputs.
* A pointer to an `Event` is the event together with a `handle`, fresh at every allocation;
  pointer equality is handle equality.  The heap bookkeeping field `index` is not modelled.
* The `Sim` and `Cfg` pointers of a node are the `Simulation` passed to each method.
* Logging is not modelled.  Some log calls print the six-byte prefix `h[:6]` of a hash or of a
  transaction id; every digest of `CalculateHash` and every generated id has that prefix.
* A Go run-time panic or a loop that never exits is the result `none`.
-/

namespace BlockSim

/-! ## Go maps -/

/-- Association-list model of a Go map. -/
abbrev GoMap (K V : Type) := List (K × V)

namespace GoMap

variable {K V : Type} [DecidableEq K]

/-- The comma-ok lookup `v, ok := m[k]`. -/
def get? : GoMap K V → K → Option V
  | [], _ => none
  | (k', v) :: m, k => if k' = k then some v else get? m k

/-- Presence of a key. -/
def contains (m : GoMap K V) (k : K) : Bool := (get? m k).isSome

/-- The plain lookup `m[k]`, which yields the zero value `d` for a missing key. -/
def getD (m : GoMap K V) (k : K) (d : V) : V := (get? m k).getD d

/-- The builtin `delete(m, k)`. -/
def del (m : GoMap K V) (k : K) : GoMap K V := m.filter (fun p => decide (p.1 ≠ k))

/-- The assignment `m[k] = v`. -/
def set (m : GoMap K V) (k : K) (v : V) : GoMap K V := (k, v) :: del m k

/-- The distinct keys of the map. -/
def keys (m : GoMap K V) : List K := (m.map Prod.fst).dedup

/-- The values of the map, one per distinct key. -/
def values (m : GoMap K V) : List V := (keys m).filterMap (fun k => get? m k)

end GoMap

/-! ## `blockchain.go` -/

/-- The struct `Transaction`. -/
structure Transaction where
  ID : String
  Timestamp : Int
  Data : String
  Size : Int
deriving DecidableEq

/-- The struct `BlockHeader`. -/
structure BlockHeader where
  Height : Int
  Timestamp : Int
  PrevHash : String
  MinerID : Int
  NumTx : Int
deriving DecidableEq

/-- The struct `Block`. -/
structure Block where
  Header : BlockHeader
  Transactions : List Transaction
  Hash : String
  FoundTime : Int
deriving DecidableEq

/-- The method `CalculateHash`: the digest `sha` applied to the header fields and the
transaction ids in block order. -/
def Block.CalculateHash (sha : BlockHeader → List String → String) (b : Block) : String :=
  sha b.Header (b.Transactions.map (fun tx => tx.ID))

/-- The constructor `NewBlock`; `FoundTime` keeps its zero value. -/
def NewBlock (sha : BlockHeader → List String → String) (height : Int) (prevHash : String)
    (attemptTime : Int) (minerID : Int) (txs : List Transaction) : Block :=
  let b : Block :=
    { Header :=
        { Height := height, Timestamp := attemptTime, PrevHash := prevHash, MinerID := minerID,
          NumTx := (txs.length : Int) },
      Transactions := txs, Hash := "", FoundTime := 0 }
  { b with Hash := b.CalculateHash sha }

/-! ## `event.go` and `container/heap` -/

/-- The event kinds, in `iota` order. -/
inductive EventType where
  | EvInjectTransaction
  | EvReceiveTransaction
  | EvAttemptMining
  | EvBlockFound
  | EvReceiveBlock
deriving DecidableEq

/-- The conversion `int(et)`. -/
def EventType.toInt : EventType → Int
  | .EvInjectTransaction => 0
  | .EvReceiveTransaction => 1
  | .EvAttemptMining => 2
  | .EvBlockFound => 3
  | .EvReceiveBlock => 4

/-- The payload structs carried in `Event.Data`. -/
inductive EventData where
  | InjectTransactionData
  | ReceiveTransactionData (TargetNodeID : Int) (Tx : Transaction)
  | AttemptMiningData (MinerNodeID : Int) (ParentBlockHash : String) (Height : Int)
  | BlockFoundData (MinerNodeID : Int) (Block : Block)
  | ReceiveBlockData (TargetNodeID : Int) (Block : Block)
deriving DecidableEq

/-- The struct `Event`, with the identity of its allocation in `handle`; the field `Type` is
spelled `Type_`. -/
structure Event where
  Timestamp : Int
  Type_ : EventType
  Data : EventData
  Priority : Int
  handle : Nat
deriving DecidableEq

/-- The slice type `EventQueue`. -/
abbrev EventQueue := List Event

/-- The method `Less`: earlier timestamp first, then lower priority. -/
def EventQueue.Less (eq : EventQueue) (i j : Nat) : Bool :=
  match eq[i]?, eq[j]? with
  | some a, some b =>
    if a.Timestamp < b.Timestamp then true
    else if b.Timestamp < a.Timestamp then false
    else decide (a.Priority < b.Priority)
  | _, _ => false

/-- The method `Swap`. -/
def EventQueue.Swap (eq : EventQueue) (i j : Nat) : EventQueue :=
  match eq[i]?, eq[j]? with
  | some a, some b => (eq.set i b).set j a
  | _, _ => eq

/-- The loop of `heap.up`; every round moves `j` to its parent, so `j + 1` rounds suffice. -/
def heapUpLoop : Nat → EventQueue → Nat → EventQueue
  | 0, q, _ => q
  | fuel + 1, q, j =>
    let i := (j - 1) / 2
    if i = j ∨ EventQueue.Less q j i = false then q
    else heapUpLoop fuel (EventQueue.Swap q i j) i

/-- The function `up` of `container/heap`. -/
def heapUp (q : EventQueue) (j : Nat) : EventQueue := heapUpLoop (j + 1) q j

/-- The loop of `heap.down`; every round moves `i` to a child below `n`, so `n` rounds
suffice. -/
def heapDownLoop : Nat → EventQueue → Nat → Nat → EventQueue
  | 0, q, _, _ => q
  | fuel + 1, q, i, n =>
    let j1 := 2 * i + 1
    if n ≤ j1 then q
    else
      let j := if j1 + 1 < n ∧ EventQueue.Less q (j1 + 1) j1 = true then j1 + 1 else j1
      if EventQueue.Less q j i = false then q
      else heapDownLoop fuel (EventQueue.Swap q i j) j n

/-- The function `down` of `container/heap`. -/
def heapDown (q : EventQueue) (i0 n : Nat) : EventQueue := heapDownLoop n q i0 n

/-- The function `heap.Push`: append, then sift up. -/
def heapPush (q : EventQueue) (e : Event) : EventQueue := heapUp (q ++ [e]) q.length

/-- The function `heap.Pop`: swap the root to the end, sift down, cut the last element off.
It panics on an empty queue. -/
def heapPop (q : EventQueue) : Option (Event × EventQueue) :=
  let n := q.length - 1
  let q' := heapDown (EventQueue.Swap q 0 n) 0 n
  match q'.getLast? with
  | some e => some (e, q'.dropLast)
  | none => none

/-! ## Floating point and `math/rand` -/

/-- Floor of the binary logarithm of `n ≥ 1`, by at most `fuel` halvings. -/
def log2Loop : Nat → Nat → Nat
  | 0, _ => 0
  | fuel + 1, n => if n < 2 then 0 else log2Loop fuel (n / 2) + 1

/-- Number of binary digits of `n`. -/
def bitLen (n : Nat) : Nat := if n = 0 then 0 else log2Loop n n + 1

/-- A finite `float64` value: the number `m * 2 ^ e`. -/
structure F64 where
  m : Int
  e : Int
deriving DecidableEq

/-- Rounding to 53 significant bits, ties to even: the rounding of every `float64` result. -/
def F64.round (x : F64) : F64 :=
  let a := x.m.natAbs
  if bitLen a ≤ 53 then x
  else
    let sh := bitLen a - 53
    let q := a / 2 ^ sh
    let r := a % 2 ^ sh
    let half := 2 ^ (sh - 1)
    let q1 := if half < r ∨ (r = half ∧ q % 2 = 1) then q + 1 else q
    { m := if x.m < 0 then -(q1 : Int) else (q1 : Int), e := x.e + (sh : Int) }

/-- The comparison `x <= y` of two floats. -/
def F64.le (x y : F64) : Bool :=
  decide (x.m * 2 ^ (x.e - min x.e y.e).toNat ≤ y.m * 2 ^ (y.e - min x.e y.e).toNat)

/-- The comparison `x < y` of two floats. -/
def F64.lt (x y : F64) : Bool :=
  decide (x.m * 2 ^ (x.e - min x.e y.e).toNat < y.m * 2 ^ (y.e - min x.e y.e).toNat)

/-- The float sum `x + y`: the exact sum, rounded. -/
def F64.add (x y : F64) : F64 :=
  F64.round
    { m := x.m * 2 ^ (x.e - min x.e y.e).toNat + y.m * 2 ^ (y.e - min x.e y.e).toNat,
      e := min x.e y.e }

/-- The float difference `x - y`: the exact difference, rounded. -/
def F64.sub (x y : F64) : F64 := F64.add x { m := -y.m, e := y.e }

/-- The float product `x * y`: the exact product, rounded. -/
def F64.mul (x y : F64) : F64 := F64.round { m := x.m * y.m, e := x.e + y.e }

/-- The float quotient `x / y` for `y ≠ 0`: the quotient to at least 64 bits with a sticky bit
for the remainder, rounded.  (For `y = 0`, which no call site reaches, the result is 0.) -/
def F64.div (x y : F64) : F64 :=
  if y.m = 0 then { m := 0, e := 0 }
  else
    let k := 64 + bitLen y.m.natAbs
    let q := (x.m.natAbs * 2 ^ k) / y.m.natAbs
    let sticky := if (x.m.natAbs * 2 ^ k) % y.m.natAbs = 0 then 0 else 1
    let mag : Int := ((2 * q + sticky : Nat) : Int)
    F64.round
      { m := if (x.m < 0) = (y.m < 0) then mag else -mag, e := x.e - y.e - (k : Int) - 1 }

/-- The function `math.Max`. -/
def F64.max (x y : F64) : F64 := if F64.le x y then y else x

/-- The function `math.Min`. -/
def F64.min (x y : F64) : F64 := if F64.le x y then x else y

/-- The conversion `float64(n)` of an integer. -/
def float64OfInt (n : Int) : F64 := F64.round { m := n, e := 0 }

/-- The conversion of a `float64` to an integer type: truncation toward zero. -/
def intOfFloat64 (x : F64) : Int :=
  if 0 ≤ x.e then x.m * 2 ^ x.e.toNat
  else if x.m < 0 then -((x.m.natAbs / 2 ^ (-x.e).toNat : Nat) : Int)
  else ((x.m.natAbs / 2 ^ (-x.e).toNat : Nat) : Int)

/-- The function `math.Round`: nearest integer, halves away from zero. -/
def mathRound (x : F64) : F64 :=
  if 0 ≤ x.e then x
  else
    let d := 2 ^ (-x.e).toNat
    let q := x.m.natAbs / d
    let q1 := if d ≤ 2 * (x.m.natAbs % d) then q + 1 else q
    { m := if x.m < 0 then -(q1 : Int) else (q1 : Int), e := 0 }

/-- The method `Duration.Seconds`: `float64(sec) + float64(nsec)/1e9`. -/
def Seconds (d : Int) : F64 :=
  let sec := Int.tdiv d 1000000000
  let nsec := Int.tmod d 1000000000
  F64.add (float64OfInt sec) (F64.div (float64OfInt nsec) { m := 1000000000, e := 0 })

/-- The delay `time.Duration(float64(time.Second) / rate)` between two injections. -/
def injectDelay (rate : F64) : Int :=
  intOfFloat64 (F64.div (float64OfInt 1000000000) rate)

/-- The state of the global random source: the stream of raw draws and the cursor. -/
structure Rand where
  seq : Nat → Int
  pos : Nat

/-- One raw draw. -/
def Rand.next (r : Rand) : Int × Rand := (r.seq r.pos, { r with pos := r.pos + 1 })

/-- The function `rand.Intn`: a draw in `[0, n)`; it panics for `n ≤ 0`. -/
def Rand.Intn (r : Rand) (n : Int) : Option (Int × Rand) :=
  if n ≤ 0 then none else some ((r.seq r.pos) % n, { r with pos := r.pos + 1 })

/-- The exchange of two slice elements `xs[i], xs[j] = xs[j], xs[i]`. -/
def swapAt {α : Type} (xs : List α) (i j : Nat) : List α :=
  match xs[i]?, xs[j]? with
  | some a, some b => (xs.set i b).set j a
  | _, _ => xs

/-- The loop of `rand.Shuffle`: `for i := n-1; i > 0; i-- { j := draw in [0, i]; swap(i, j) }`;
the first argument counts `i` down. -/
def shuffleLoop {α : Type} : Nat → List α → Rand → List α × Rand
  | 0, xs, r => (xs, r)
  | i + 1, xs, r =>
    let j := ((r.seq r.pos) % ((i : Int) + 2)).toNat
    shuffleLoop i (swapAt xs (i + 1) j) { r with pos := r.pos + 1 }

/-- The function `rand.Shuffle` applied to a slice with the swap of its elements. -/
def Rand.Shuffle {α : Type} (r : Rand) (xs : List α) : List α × Rand :=
  shuffleLoop (xs.length - 1) xs r

/-- The loop of `rand.Perm`: `for i := 0; i < n; i++ { j := Intn(i+1); m[i] = m[j]; m[j] = i }`. -/
def permLoop : List Nat → List Int → Rand → List Int × Rand
  | [], m, r => (m, r)
  | i :: rest, m, r =>
    let j := ((r.seq r.pos) % ((i : Int) + 1)).toNat
    let m1 := m.set i (m.getD j 0)
    permLoop rest (m1.set j (i : Int)) { r with pos := r.pos + 1 }

/-- The function `rand.Perm`; it panics for negative `n`. -/
def Rand.Perm (r : Rand) (n : Int) : Option (List Int × Rand) :=
  if n < 0 then none
  else some (permLoop (List.range n.toNat) (List.replicate n.toNat 0) r)

/-! ## `config.go`, `util.go`, `pow.go` -/

/-- The struct `Config`. -/
structure Config where
  NumNodes : Int
  NumMiners : Int
  BlockSizeLimitBytes : Int
  TargetBlockInterval : Int
  TransactionRatePerSec : F64
  MinTransactionSizeBytes : Int
  MaxTransactionSizeBytes : Int
  MeanTransactionSizeBytes : F64
  StdDevTransactionSizeBytes : F64
  NetworkDelayMin : Int
  NetworkDelayMax : Int
  TotalInputTransactions : Int
  SimulationDuration : Int
  FindTimeMin : Int
  FindTimeMax : Int

/-- The function `contains` of `util.go`. -/
def contains (slice : List Int) (item : Int) : Bool := slice.any (fun a => decide (a = item))

/-- The function `CalculateNetworkDelay`.  In the random branch the raw draw is the duration
`time.Duration(minDelay + rand.Float64()*(maxDelay-minDelay))` itself. -/
def CalculateNetworkDelay (cfg : Config) (r : Rand) : Int × Rand :=
  if F64.le (float64OfInt cfg.NetworkDelayMax) (float64OfInt cfg.NetworkDelayMin) then
    (cfg.NetworkDelayMin, r)
  else r.next

/-- The function `CalculateTimeToFind`.  In the random branch the raw draw is the duration
`time.Duration(totalSeconds * float64(time.Second))` itself. -/
def CalculateTimeToFind (cfg : Config) (r : Rand) : Int × Rand :=
  let rangeSeconds := F64.sub (Seconds cfg.FindTimeMax) (Seconds cfg.FindTimeMin)
  if F64.le rangeSeconds { m := 0, e := 0 } then (cfg.FindTimeMin, r) else r.next

/-! ## State: `node.go`, `tx_source.go`, `simulation.go` -/

/-- The struct `NodeStats`. -/
structure NodeStats where
  ReceivedTx : Int
  AddedToMempool : Int
  RelayedTx : Int
  ReceivedBlocks : Int
  ValidatedBlocks : Int
  RelayedBlocks : Int
  ReceivedOrphans : Int
  ProcessedOrphans : Int
  HandledReorgs : Int
  StaleBlocksInReorg : Int
  MiningAttempts : Int
  MinedBlocks : Int
deriving DecidableEq

/-- The struct `Node`, without its `Sim` and `Cfg` pointers. -/
structure Node where
  ID : Int
  IsMiner : Bool
  Peers : List Int
  Mempool : GoMap String Transaction
  KnownTx : GoMap String Bool
  Blocks : GoMap String Block
  ChainHeight : GoMap Int (List String)
  BestChainTip : String
  ChainWork : GoMap String Int
  OrphanBlocks : GoMap String (List Block)
  CurrentMiningJob : Option Event
  Stats : NodeStats
  isWaitingToMine : Bool
deriving DecidableEq

/-- The struct `TxMetadata`. -/
structure TxMetadata where
  InjectTime : Int
  FirstBlockTime : Int
  ConfirmedTime : Int
  IncludedInBlock : String
  IsConfirmed : Bool
deriving DecidableEq

/-- The struct `SimpleTxSource`, without its `Cfg` pointer. -/
structure SimpleTxSource where
  TotalToGenerate : Int
  GeneratedCount : Int
  StartTime : Int
deriving DecidableEq

/-- The struct `Simulation`, with the random source, the allocation counter of events and the
digest function made explicit. -/
structure Simulation where
  Cfg : Config
  Nodes : GoMap Int Node
  EventQueue : EventQueue
  CurrentTime : Int
  StartTime : Int
  GlobalStaleCount : Int
  MinerIDs : List Int
  TxSource : SimpleTxSource
  AllInputTxHashes : GoMap String Bool
  TxStatus : GoMap String TxMetadata
  ProcessedTxCount : Int
  GenesisBlock : Block
  Rng : Rand
  NextHandle : Nat
  Sha : BlockHeader → List String → String

/-- The method `ScheduleEventWithPriority`: allocate the event and push it on the heap. -/
def Simulation.ScheduleEventWithPriority (s : Simulation) (t : Int) (et : EventType)
    (data : EventData) (priority : Int) : Simulation :=
  { s with
    EventQueue :=
      heapPush s.EventQueue
        { Timestamp := t, Type_ := et, Data := data, Priority := priority,
          handle := s.NextHandle },
    NextHandle := s.NextHandle + 1 }

/-- The method `ScheduleEvent`: the priority is the ordinal of the kind. -/
def Simulation.ScheduleEvent (s : Simulation) (t : Int) (et : EventType) (data : EventData) :
    Simulation :=
  s.ScheduleEventWithPriority t et data et.toInt

/-- The method `IncrementStaleCounterBy`. -/
def Simulation.IncrementStaleCounterBy (s : Simulation) (count : Int) : Simulation :=
  { s with GlobalStaleCount := s.GlobalStaleCount + count }

/-- The constructor `NewNode`. -/
def NewNode (id : Int) (isMiner : Bool) (sim : Simulation) : Node :=
  let genesisBlock := sim.GenesisBlock
  { ID := id, IsMiner := isMiner, Peers := [],
    Mempool := [],
    KnownTx := GoMap.set [] genesisBlock.Hash true,
    Blocks := GoMap.set [] genesisBlock.Hash genesisBlock,
    ChainHeight := GoMap.set [] 0 [genesisBlock.Hash],
    BestChainTip := genesisBlock.Hash,
    ChainWork := GoMap.set [] genesisBlock.Hash 0,
    OrphanBlocks := [],
    CurrentMiningJob := none,
    Stats := ⟨0, 0, 0, 0, 0, 0, 0, 0, 0, 0, 0, 0⟩,
    isWaitingToMine := isMiner }

/-- The method `AddPeer`. -/
def Node.AddPeer (n : Node) (peerID : Int) : Node :=
  if contains n.Peers peerID then n else { n with Peers := n.Peers ++ [peerID] }

/-! ## Mining policy -/

/-- The value of a Go `int` (64 bits, two's complement) that holds the sum `x` of two `int`
values: `x` wrapped around into the range from `-2 ^ 63` to `2 ^ 63 - 1`. -/
def wrapInt64 (x : Int) : Int :=
  (x + 9223372036854775808) % 18446744073709551616 - 9223372036854775808

/-- The method `canAttemptMiningNow`; the constant `95.0 / 100.0` is the double nearest to
19/20, which is the rounded quotient of the doubles 95 and 100.  The byte count
`currentMempoolTotalBytes` is a Go `int` and wraps around. -/
def Node.canAttemptMiningNow (n : Node) (s : Simulation) : Bool :=
  if n.IsMiner = false then false
  else
    let requiredBytesFloat :=
      F64.mul (float64OfInt s.Cfg.BlockSizeLimitBytes)
        (F64.div (float64OfInt 95) (float64OfInt 100))
    if F64.le requiredBytesFloat { m := 0, e := 0 } then true
    else
      let currentMempoolTotalBytes : Int :=
        (GoMap.values n.Mempool).foldl (fun acc tx => wrapInt64 (acc + tx.Size)) 0
      F64.le requiredBytesFloat (float64OfInt currentMempoolTotalBytes)

/-- The method `scheduleMiningAttempt`. -/
def Node.scheduleMiningAttempt (n : Node) (s : Simulation) : Simulation :=
  if n.CurrentMiningJob.isSome then s
  else
    let tipHeight := GoMap.getD n.ChainWork n.BestChainTip 0
    let parentHash := n.BestChainTip
    let nextHeight := tipHeight + 1
    s.ScheduleEvent s.CurrentTime EventType.EvAttemptMining
      (EventData.AttemptMiningData n.ID parentHash nextHeight)

/-- The method `restartMining`. -/
def Node.restartMining (n : Node) (s : Simulation) : Node × Simulation :=
  if n.IsMiner = false then (n, s)
  else
    let n1 := { n with CurrentMiningJob := none, isWaitingToMine := false }
    if n1.canAttemptMiningNow s then (n1, n1.scheduleMiningAttempt s)
    else ({ n1 with isWaitingToMine := true }, s)

/-! ## Relay -/

/-- One round of the loop in `relayBlock`, for the target `targetNodeID`. -/
def relayBlockStep (b : Block) (acc : Node × Simulation) (targetNodeID : Int) :
    Node × Simulation :=
  if targetNodeID = acc.1.ID then acc
  else
    let dr := CalculateNetworkDelay acc.2.Cfg acc.2.Rng
    let s1 := { acc.2 with Rng := dr.2 }
    ({ acc.1 with Stats := { acc.1.Stats with RelayedBlocks := acc.1.Stats.RelayedBlocks + 1 } },
      s1.ScheduleEvent (s1.CurrentTime + dr.1) EventType.EvReceiveBlock
        (EventData.ReceiveBlockData targetNodeID b))

/-- The method `relayBlock`: one `ReceiveBlock` event for every node id but the own one. -/
def Node.relayBlock (n : Node) (s : Simulation) (b : Block) : Node × Simulation :=
  (GoMap.keys s.Nodes).foldl (relayBlockStep b) (n, s)

/-- One round of the relay loop in `ReceiveTransaction`. -/
def relayTxStep (tx : Transaction) (acc : Node × Simulation) (targetNodeID : Int) :
    Node × Simulation :=
  if targetNodeID = acc.1.ID then acc
  else
    let dr := CalculateNetworkDelay acc.2.Cfg acc.2.Rng
    let s1 := { acc.2 with Rng := dr.2 }
    ({ acc.1 with Stats := { acc.1.Stats with RelayedTx := acc.1.Stats.RelayedTx + 1 } },
      s1.ScheduleEvent (s1.CurrentTime + dr.1) EventType.EvReceiveTransaction
        (EventData.ReceiveTransactionData targetNodeID tx))

/-- The method `ReceiveTransaction`. -/
def Node.ReceiveTransaction (n : Node) (s : Simulation) (tx : Transaction) :
    Node × Simulation :=
  let n0 := { n with Stats := { n.Stats with ReceivedTx := n.Stats.ReceivedTx + 1 } }
  if GoMap.contains n0.KnownTx tx.ID then (n0, s)
  else
    let n1 :=
      { n0 with
        Mempool := GoMap.set n0.Mempool tx.ID tx,
        KnownTx := GoMap.set n0.KnownTx tx.ID true,
        Stats := { n0.Stats with AddedToMempool := n0.Stats.AddedToMempool + 1 } }
    let ns2 : Node × Simulation :=
      if n1.IsMiner ∧ n1.isWaitingToMine ∧ n1.CurrentMiningJob = none then
        if n1.canAttemptMiningNow s then
          ({ n1 with isWaitingToMine := false }, n1.scheduleMiningAttempt s)
        else (n1, s)
      else (n1, s)
    (GoMap.keys ns2.2.Nodes).foldl (relayTxStep tx) ns2

/-! ## Block reception, fork choice and reorg -/

/-- The method `updateMempoolForNewBlock`. -/
def Node.updateMempoolForNewBlock (n : Node) (b : Block) : Node :=
  b.Transactions.foldl
    (fun (acc : Node) tx =>
      { acc with Mempool := GoMap.del acc.Mempool tx.ID, KnownTx := GoMap.set acc.KnownTx tx.ID true })
    n

/-- The first two loops of `findCommonAncestor`: `k` steps along `PrevHash`; `none` when a block
is missing (the function then returns the empty string). -/
def climb (blocks : GoMap String Block) : Nat → String → Option String
  | 0, curr => some curr
  | k + 1, curr =>
    match GoMap.get? blocks curr with
    | none => none
    | some b => climb blocks k b.Header.PrevHash

/-- The third loop of `findCommonAncestor`, walking both chains in lockstep; `genesis` is
`n.Sim.GenesisBlock.Hash`.  The outer `none` is a loop that never exits. -/
def lockstep (blocks : GoMap String Block) (genesis : String) :
    Nat → String → String → Option String
  | 0, _, _ => none
  | fuel + 1, curr1, curr2 =>
    if curr1 = curr2 then some curr1
    else
      match GoMap.get? blocks curr1, GoMap.get? blocks curr2 with
      | some b1, some b2 =>
        if b1.Header.PrevHash = "" ∨ b2.Header.PrevHash = "" then some genesis
        else lockstep blocks genesis fuel b1.Header.PrevHash b2.Header.PrevHash
      | _, _ => some ""

/-- Number of rounds after which a walk over the block map must have revisited a pair of
positions, and so can never exit. -/
def walkFuel (blocks : GoMap String Block) : Nat := (blocks.length + 1) * (blocks.length + 1)

/-- The method `findCommonAncestor`. -/
def Node.findCommonAncestor (n : Node) (s : Simulation) (hash1 hash2 : String) :
    Option String :=
  match GoMap.get? n.ChainWork hash1, GoMap.get? n.ChainWork hash2 with
  | some h1, some h2 =>
    match climb n.Blocks (h1 - h2).toNat hash1 with
    | none => some ""
    | some curr1 =>
      match climb n.Blocks (h2 - h1).toNat hash2 with
      | none => some ""
      | some curr2 => lockstep n.Blocks s.GenesisBlock.Hash (walkFuel n.Blocks) curr1 curr2
  | _, _ => some ""

/-- The stale-block loop of `handleReorg`: from `currentHash` back to `ancestorHash`, appending
every block met and counting it in `StaleBlocksInReorg`.  The result `none` is a loop that
never exits. -/
def staleWalk (blocks : GoMap String Block) (ancestorHash : String) :
    Nat → String → List Block → Int → Option (List Block × Int)
  | 0, _, _, _ => none
  | fuel + 1, currentHash, staleBlocks, stale =>
    if currentHash = ancestorHash then some (staleBlocks, stale)
    else
      match GoMap.get? blocks currentHash with
      | none => some (staleBlocks, stale)
      | some block =>
        staleWalk blocks ancestorHash fuel block.Header.PrevHash (staleBlocks ++ [block])
          (stale + 1)

/-- The new-path loop of `handleReorg`: from `currentHash` back to `ancestorHash`, prepending
every block met. -/
def newWalk (blocks : GoMap String Block) (ancestorHash : String) :
    Nat → String → List Block → Option (List Block)
  | 0, _, _ => none
  | fuel + 1, currentHash, newBlocks =>
    if currentHash = ancestorHash then some newBlocks
    else
      match GoMap.get? blocks currentHash with
      | none => some newBlocks
      | some block => newWalk blocks ancestorHash fuel block.Header.PrevHash (block :: newBlocks)

/-- The search of the two inner loops of `handleReorg`: does `tx` occur in a new block. -/
def inNewChain (newBlocks : List Block) (tx : Transaction) : Bool :=
  newBlocks.any (fun newBlock => newBlock.Transactions.any (fun newTx => decide (tx.ID = newTx.ID)))

/-- The body of the reconciliation loop of `handleReorg` for one stale transaction. -/
def restoreTx (newBlocks : List Block) (n : Node) (tx : Transaction) : Node :=
  if inNewChain newBlocks tx then n
  else if GoMap.contains n.KnownTx tx.ID = false then
    { n with Mempool := GoMap.set n.Mempool tx.ID tx, KnownTx := GoMap.set n.KnownTx tx.ID true }
  else if GoMap.contains n.Mempool tx.ID = false then
    { n with Mempool := GoMap.set n.Mempool tx.ID tx }
  else n

/-- The method `handleReorg`. -/
def Node.handleReorg (n : Node) (s : Simulation) (oldTipHash newTipHash : String) :
    Option (Node × Simulation) :=
  let n0 := { n with Stats := { n.Stats with HandledReorgs := n.Stats.HandledReorgs + 1 } }
  match n0.findCommonAncestor s oldTipHash newTipHash with
  | none => none
  | some ancestorHash =>
    if ancestorHash = "" then some (n0, s)
    else
      let initialStaleCount := n0.Stats.StaleBlocksInReorg
      match staleWalk n0.Blocks ancestorHash (walkFuel n0.Blocks) oldTipHash []
          n0.Stats.StaleBlocksInReorg with
      | none => none
      | some (staleBlocks, stale) =>
        let n1 := { n0 with Stats := { n0.Stats with StaleBlocksInReorg := stale } }
        let s1 := s.IncrementStaleCounterBy (n1.Stats.StaleBlocksInReorg - initialStaleCount)
        match newWalk n1.Blocks ancestorHash (walkFuel n1.Blocks) newTipHash [] with
        | none => none
        | some newBlocks =>
          some
            (staleBlocks.foldl
              (fun (acc : Node) staleBlock => staleBlock.Transactions.foldl (restoreTx newBlocks) acc)
              n1,
            s1)

/-- The orphan branch of `ReceiveBlock`: count the parked blocks of `b` as processed, drop
their entry and schedule each of them at the current time with priority 0. -/
def Node.replayOrphans (n : Node) (s : Simulation) (b : Block) : Node × Simulation :=
  match GoMap.get? n.OrphanBlocks b.Hash with
  | none => (n, s)
  | some orphans =>
    ({ n with
        Stats := { n.Stats with ProcessedOrphans := n.Stats.ProcessedOrphans + (orphans.length : Int) },
        OrphanBlocks := GoMap.del n.OrphanBlocks b.Hash },
      orphans.foldl
        (fun (acc : Simulation) orphanBlock =>
          acc.ScheduleEventWithPriority acc.CurrentTime EventType.EvReceiveBlock
            (EventData.ReceiveBlockData n.ID orphanBlock) 0)
        s)

/-- The recording step of `ReceiveBlock` for a validated block. -/
def Node.recordBlock (n : Node) (b : Block) : Node :=
  { n with
    Stats := { n.Stats with ValidatedBlocks := n.Stats.ValidatedBlocks + 1 },
    Blocks := GoMap.set n.Blocks b.Hash b,
    KnownTx := GoMap.set n.KnownTx b.Hash true,
    ChainHeight :=
      GoMap.set n.ChainHeight b.Header.Height (GoMap.getD n.ChainHeight b.Header.Height [] ++ [b.Hash]),
    ChainWork := GoMap.set n.ChainWork b.Hash (GoMap.getD n.ChainWork b.Header.PrevHash 0 + 1) }

/-- The fork choice at the end of `ReceiveBlock`. -/
def Node.forkChoice (n : Node) (s : Simulation) (b : Block) : Option (Node × Simulation) :=
  let currentBestHeight := GoMap.getD n.ChainWork n.BestChainTip 0
  let newBlockHeight := GoMap.getD n.ChainWork b.Hash 0
  if currentBestHeight < newBlockHeight then
    let oldTipHash := n.BestChainTip
    let n1 := { n with BestChainTip := b.Hash }
    match
      (if b.Header.PrevHash ≠ oldTipHash then n1.handleReorg s oldTipHash b.Hash
       else some (n1, s)) with
    | none => none
    | some (n2, s2) =>
      let r := n2.relayBlock s2 b
      some (r.1.restartMining r.2)
  else some (n.relayBlock s b)

/-- The method `ReceiveBlock`. -/
def Node.ReceiveBlock (n : Node) (s : Simulation) (b : Block) : Option (Node × Simulation) :=
  let n0 := { n with Stats := { n.Stats with ReceivedBlocks := n.Stats.ReceivedBlocks + 1 } }
  if GoMap.contains n0.Blocks b.Hash then some (n0, s)
  else
    match GoMap.get? n0.Blocks b.Header.PrevHash with
    | none =>
      some
        ({ n0 with
            Stats := { n0.Stats with ReceivedOrphans := n0.Stats.ReceivedOrphans + 1 },
            OrphanBlocks :=
              GoMap.set n0.OrphanBlocks b.Header.PrevHash
                (GoMap.getD n0.OrphanBlocks b.Header.PrevHash [] ++ [b]) },
          s)
    | some parentBlock =>
      if b.Header.Height ≠ parentBlock.Header.Height + 1 then some (n0, s)
      else
        let n1 := (n0.recordBlock b).updateMempoolForNewBlock b
        let r := n1.replayOrphans s b
        r.1.forkChoice r.2 b

/-! ## Mining -/

/-- The greedy packing loop of `AttemptMining`; the sum `currentBlockSizeBytes + tx.Size` is a
sum of Go `int` values and wraps around. -/
def packTxs (limit : Int) : List Transaction → List Transaction → Int → List Transaction × Int
  | [], selectedTxs, currentBlockSizeBytes => (selectedTxs, currentBlockSizeBytes)
  | tx :: rest, selectedTxs, currentBlockSizeBytes =>
    if wrapInt64 (currentBlockSizeBytes + tx.Size) ≤ limit then
      packTxs limit rest (selectedTxs ++ [tx]) (wrapInt64 (currentBlockSizeBytes + tx.Size))
    else packTxs limit rest selectedTxs currentBlockSizeBytes

/-- The method `AttemptMining`, on the fields of `AttemptMiningData`. -/
def Node.AttemptMining (n : Node) (s : Simulation) (ParentBlockHash : String) (Height : Int) :
    Node × Simulation :=
  if n.IsMiner = false then (n, s)
  else if ParentBlockHash ≠ n.BestChainTip then (n, s)
  else if Height ≠ GoMap.getD n.ChainWork n.BestChainTip 0 + 1 then (n, s)
  else
    let n1 := { n with Stats := { n.Stats with MiningAttempts := n.Stats.MiningAttempts + 1 } }
    let mempoolTxs := GoMap.values n1.Mempool
    let sh := s.Rng.Shuffle mempoolTxs
    let selectedTxs := (packTxs s.Cfg.BlockSizeLimitBytes sh.1 [] 0).1
    let candidateBlock := NewBlock s.Sha Height ParentBlockHash s.CurrentTime n1.ID selectedTxs
    let tf := CalculateTimeToFind s.Cfg sh.2
    let s1 := { s with Rng := tf.2 }
    let foundTimestamp := s1.CurrentTime + tf.1
    if foundTimestamp - s1.StartTime < s1.Cfg.SimulationDuration then
      let foundEvent : Event :=
        { Timestamp := foundTimestamp, Type_ := EventType.EvBlockFound,
          Data := EventData.BlockFoundData n1.ID candidateBlock,
          Priority := EventType.EvBlockFound.toInt, handle := s1.NextHandle }
      ({ n1 with CurrentMiningJob := some foundEvent },
        { s1 with EventQueue := heapPush s1.EventQueue foundEvent, NextHandle := s1.NextHandle + 1 })
    else ({ n1 with CurrentMiningJob := none }, s1)

/-- The metadata loop of `ProcessFoundBlock`: record the first inclusion of each transaction. -/
def markIncluded (foundBlock : Block) (blockFoundTime : Int) (status : GoMap String TxMetadata) :
    GoMap String TxMetadata :=
  foundBlock.Transactions.foldl
    (fun (acc : GoMap String TxMetadata) tx =>
      match GoMap.get? acc tx.ID with
      | some meta =>
        if meta.IncludedInBlock = "" then
          GoMap.set acc tx.ID
            { meta with IncludedInBlock := foundBlock.Hash, FirstBlockTime := blockFoundTime }
        else acc
      | none => acc)
    status

/-- The method `ProcessFoundBlock`, on the block of `BlockFoundData` and the dispatched event. -/
def Node.ProcessFoundBlock (n : Node) (s : Simulation) (dataBlock : Block) (event : Event) :
    Option (Node × Simulation) :=
  if n.IsMiner = false then some (n, s)
  else if n.CurrentMiningJob.map (fun e => e.handle) = some event.handle then
    let n1 :=
      { n with
        CurrentMiningJob := none,
        Stats := { n.Stats with MinedBlocks := n.Stats.MinedBlocks + 1 } }
    let foundBlock := { dataBlock with FoundTime := event.Timestamp }
    let s1 := { s with TxStatus := markIncluded foundBlock event.Timestamp s.TxStatus }
    n1.ReceiveBlock s1 foundBlock
  else some (n, s)

/-! ## Transaction source and injection -/

/-- The method `GetNextTransaction`; the source, the random source and the transaction, or
`none` for an exhausted source.  With a positive standard deviation the raw draw is
`rand.NormFloat64()*stdDev + mean` rounded to an integer (rounding commutes with the clamp to
the integer bounds). -/
def SimpleTxSource.GetNextTransaction (src : SimpleTxSource) (cfg : Config) (r : Rand)
    (currentTime : Int) : SimpleTxSource × Rand × Option Transaction :=
  if src.TotalToGenerate ≤ src.GeneratedCount then (src, r, none)
  else
    let src1 := { src with GeneratedCount := src.GeneratedCount + 1 }
    let mean := cfg.MeanTransactionSizeBytes
    let stdDev := cfg.StdDevTransactionSizeBytes
    let minClamp := float64OfInt cfg.MinTransactionSizeBytes
    let maxClamp := float64OfInt cfg.MaxTransactionSizeBytes
    let d : F64 × Rand :=
      if F64.lt { m := 0, e := 0 } stdDev then (float64OfInt r.next.1, r.next.2) else (mean, r)
    let sizeFloat := F64.min maxClamp (F64.max minClamp d.1)
    let size := intOfFloat64 (mathRound sizeFloat)
    let tag := (d.2.seq d.2.pos) % 1000000
    let tx : Transaction :=
      { ID := "tx-" ++ toString src1.GeneratedCount ++ "-" ++ toString tag,
        Timestamp := currentTime, Data := "simulated payload data", Size := size }
    (src1, { d.2 with pos := d.2.pos + 1 }, some tx)

/-- The method `handleInjectTransaction`. -/
def Simulation.handleInjectTransaction (s : Simulation) : Option Simulation :=
  if s.TxSource.TotalToGenerate ≤ s.TxSource.GeneratedCount then some s
  else
    match s.TxSource.GetNextTransaction s.Cfg s.Rng s.CurrentTime with
    | (_, _, none) => some s
    | (src1, r1, some tx) =>
      let s1 :=
        { s with
          TxSource := src1,
          AllInputTxHashes := GoMap.set s.AllInputTxHashes tx.ID true,
          TxStatus :=
            GoMap.set s.TxStatus tx.ID
              { InjectTime := s.CurrentTime, FirstBlockTime := 0, ConfirmedTime := 0,
                IncludedInBlock := "", IsConfirmed := false } }
      match r1.Intn s1.Cfg.NumNodes with
      | none => none
      | some (originNodeID, r2) =>
        let s2 :=
          ({ s1 with Rng := r2 }).ScheduleEventWithPriority s1.CurrentTime
            EventType.EvReceiveTransaction (EventData.ReceiveTransactionData originNodeID tx) 1
        if s2.TxSource.GeneratedCount < s2.TxSource.TotalToGenerate ∧
            F64.lt { m := 0, e := 0 } s2.Cfg.TransactionRatePerSec = true then
          let nextInjectDelay := injectDelay s2.Cfg.TransactionRatePerSec
          let nextInjectTime := s2.CurrentTime + nextInjectDelay
          if nextInjectTime - s2.StartTime < s2.Cfg.SimulationDuration then
            some
              (s2.ScheduleEvent nextInjectTime EventType.EvInjectTransaction
                EventData.InjectTransactionData)
          else some s2
        else some s2

/-! ## The kernel: `NewSimulation`, `Setup`, `Run` -/

/-- The constructor `NewSimulation`; `genesisTime` is the reading of `time.Now()`. -/
def NewSimulation (cfg : Config) (genesisTime : Int) (rng : Rand)
    (sha : BlockHeader → List String → String) : Simulation :=
  let genesis0 : Block :=
    { Header :=
        { Height := 0, Timestamp := genesisTime, PrevHash := String.mk (List.replicate 64 '0'),
          MinerID := -1, NumTx := 0 },
      Transactions := [], Hash := "", FoundTime := 0 }
  let genesis := { genesis0 with Hash := genesis0.CalculateHash sha, FoundTime := genesisTime }
  { Cfg := cfg, Nodes := [], EventQueue := [], StartTime := genesisTime,
    CurrentTime := genesisTime, GlobalStaleCount := 0, MinerIDs := [],
    AllInputTxHashes := [], TxStatus := [],
    TxSource := { TotalToGenerate := cfg.TotalInputTransactions, StartTime := genesisTime,
                  GeneratedCount := 0 },
    GenesisBlock := genesis, ProcessedTxCount := 0,
    Rng := rng, NextHandle := 0, Sha := sha }

/-- The first loop of `Setup`: create the nodes and designate the miners. -/
def setupNodes (nodeIDs : List Int) : List Nat → Simulation → Int → Simulation
  | [], s, _ => s
  | i :: rest, s, minerCount =>
    let nodeID : Int := (i : Int)
    let originalIndex := nodeIDs.getD i 0
    let isMinerCandidate := decide (originalIndex < s.Cfg.NumMiners)
    if isMinerCandidate = true ∧ minerCount < s.Cfg.NumMiners then
      let s1 := { s with MinerIDs := s.MinerIDs ++ [nodeID] }
      setupNodes nodeIDs rest { s1 with Nodes := GoMap.set s1.Nodes nodeID (NewNode nodeID true s1) }
        (minerCount + 1)
    else
      setupNodes nodeIDs rest { s with Nodes := GoMap.set s.Nodes nodeID (NewNode nodeID false s) }
        minerCount

/-- The reverse edge of the peer wiring in `Setup`:
`if !contains(s.Nodes[peerID].Peers, i) { s.Nodes[peerID].AddPeer(i) }`, with `np` the node
`s.Nodes[peerID]`. -/
def addReverseEdge (s : Simulation) (peerID i : Int) (np : Node) : Simulation :=
  if contains np.Peers i = false then { s with Nodes := GoMap.set s.Nodes peerID (np.AddPeer i) }
  else s

/-- The inner loop of the peer wiring in `Setup` for node `i`; the counter `attemptCounter`
ends it after at most `2 * NumNodes + 1` rounds. -/
def connectPeers (i : Int) (numPeersToAttempt : Int) :
    Nat → Simulation → Int → Int → Option Simulation
  | 0, _, _, _ => none
  | fuel + 1, s, peersConnected, attemptCounter =>
    if peersConnected < numPeersToAttempt then
      match GoMap.get? s.Nodes i with
      | none => none
      | some ni =>
        if (ni.Peers.length : Int) < s.Cfg.NumNodes - 1 then
          match s.Rng.Intn s.Cfg.NumNodes with
          | none => none
          | some (peerID, r1) =>
            let s1 := { s with Rng := r1 }
            if peerID ≠ i ∧ contains ni.Peers peerID = false then
              let s2 := { s1 with Nodes := GoMap.set s1.Nodes i (ni.AddPeer peerID) }
              match GoMap.get? s2.Nodes peerID with
              | none => none
              | some np =>
                let s3 := addReverseEdge s2 peerID i np
                if s3.Cfg.NumNodes * 2 < attemptCounter + 1 then some s3
                else
                  connectPeers i numPeersToAttempt fuel s3 (peersConnected + 1)
                    (attemptCounter + 1)
            else if s1.Cfg.NumNodes * 2 < attemptCounter + 1 then some s1
            else connectPeers i numPeersToAttempt fuel s1 peersConnected (attemptCounter + 1)
        else some s
    else some s

/-- The second loop of `Setup`: wire the peers of every node. -/
def setupPeers : List Nat → Simulation → Option Simulation
  | [], s => some s
  | i :: rest, s =>
    match s.Rng.Intn 3 with
    | none => none
    | some (k, r1) =>
      match connectPeers (i : Int) (3 + k) ((2 * s.Cfg.NumNodes + 2).toNat) { s with Rng := r1 } 0 0 with
      | none => none
      | some s1 => setupPeers rest s1

/-- The method `Setup`. -/
def Simulation.Setup (s : Simulation) : Option Simulation :=
  match s.Rng.Perm s.Cfg.NumNodes with
  | none => none
  | some (nodeIDs, r1) =>
    let s1 := setupNodes nodeIDs (List.range s.Cfg.NumNodes.toNat) { s with Rng := r1 } 0
    setupPeers (List.range s1.Cfg.NumNodes.toNat) s1

/-- The part of `Run` before the main loop: `Setup` and the first injection event. -/
def Simulation.runStart (s : Simulation) : Option Simulation :=
  match s.Setup with
  | none => none
  | some s1 =>
    if F64.lt { m := 0, e := 0 } s1.Cfg.TransactionRatePerSec = true ∧
        0 < s1.Cfg.TotalInputTransactions then
      let firstTxDelay := injectDelay s1.Cfg.TransactionRatePerSec
      let firstTxTime := s1.StartTime + firstTxDelay
      some (s1.ScheduleEvent firstTxTime EventType.EvInjectTransaction EventData.InjectTransactionData)
    else some s1

/-- The `switch` of `Run`: hand the popped event to its handler and store the node back.  A
payload that does not fit the kind fails the type assertion. -/
def Simulation.dispatch (s : Simulation) (event : Event) : Option Simulation :=
  match event.Type_, event.Data with
  | EventType.EvInjectTransaction, _ => s.handleInjectTransaction
  | EventType.EvReceiveTransaction, EventData.ReceiveTransactionData target tx =>
    match GoMap.get? s.Nodes target with
    | some node =>
      let r := node.ReceiveTransaction s tx
      some { r.2 with Nodes := GoMap.set r.2.Nodes target r.1 }
    | none => some s
  | EventType.EvAttemptMining, EventData.AttemptMiningData miner parent height =>
    match GoMap.get? s.Nodes miner with
    | some node =>
      let r := node.AttemptMining s parent height
      some { r.2 with Nodes := GoMap.set r.2.Nodes miner r.1 }
    | none => some s
  | EventType.EvBlockFound, EventData.BlockFoundData miner block =>
    match GoMap.get? s.Nodes miner with
    | some node =>
      match node.ProcessFoundBlock s block event with
      | some r => some { r.2 with Nodes := GoMap.set r.2.Nodes miner r.1 }
      | none => none
    | none => some s
  | EventType.EvReceiveBlock, EventData.ReceiveBlockData target block =>
    match GoMap.get? s.Nodes target with
    | some node =>
      match node.ReceiveBlock s block with
      | some r => some { r.2 with Nodes := GoMap.set r.2.Nodes target r.1 }
      | none => none
    | none => some s
  | _, _ => none

/-- Outcome of one round of the main loop of `Run`. -/
inductive LoopStep where
  | stopped (s : Simulation)
  | dispatched (s : Simulation)
  | failed

/-- One round of the main loop of `Run`. -/
def Simulation.loopStep (s : Simulation) : LoopStep :=
  match s.EventQueue with
  | [] => LoopStep.stopped s
  | first :: _ =>
    let nextEventTimestamp := first.Timestamp
    if s.Cfg.SimulationDuration ≤ nextEventTimestamp - s.StartTime then
      LoopStep.stopped { s with CurrentTime := s.StartTime + s.Cfg.SimulationDuration }
    else
      match heapPop s.EventQueue with
      | none => LoopStep.failed
      | some (event0, queue) =>
        let event :=
          if event0.Timestamp < s.CurrentTime then { event0 with Timestamp := s.CurrentTime }
          else event0
        let s1 := { s with EventQueue := queue, CurrentTime := event.Timestamp }
        match s1.dispatch event with
        | none => LoopStep.failed
        | some s2 => LoopStep.dispatched s2

/-- The main loop of `Run`, cut off after `fuel` rounds (`none`: failed or still running). -/
def runLoop : Nat → Simulation → Option Simulation
  | 0, _ => none
  | fuel + 1, s =>
    match s.loopStep with
    | LoopStep.stopped s1 => some s1
    | LoopStep.dispatched s1 => runLoop fuel s1
    | LoopStep.failed => none

/-- The method `Run`, with a bound on the rounds of its main loop. -/
def Simulation.Run (s : Simulation) (fuel : Nat) : Option Simulation :=
  match s.runStart with
  | none => none
  | some s1 => runLoop fuel s1

/-! ## Specification vocabulary -/

/-- The Go read `n.ChainWork[h]`. -/
def Node.work (n : Node) (h : String) : Int := GoMap.getD n.ChainWork h 0

/-- Node states reachable from `NewNode` by `ReceiveBlock` calls, in a simulation whose genesis
block is `g`; the rest of the simulation state is arbitrary at every call. -/
inductive ReachableByBlocks (g : Block) : Node → Prop where
  | init (id : Int) (isMiner : Bool) (s : Simulation) :
      s.GenesisBlock = g → ReachableByBlocks g (NewNode id isMiner s)
  | step (n : Node) (s : Simulation) (b : Block) (n1 : Node) (s1 : Simulation) :
      ReachableByBlocks g n → s.GenesisBlock = g → n.ReceiveBlock s b = some (n1, s1) →
      ReachableByBlocks g n1

/-- Well-formedness of the block tree of a node with genesis hash `genesis`: the genesis has
chain work 0, and every other block has its parent in `blocks` with chain work one less. -/
def Node.WellFormed (genesis : String) (n : Node) : Prop :=
  GoMap.get? n.ChainWork genesis = some 0 ∧
  ∀ h blk, GoMap.get? n.Blocks h = some blk → h ≠ genesis →
    GoMap.contains n.Blocks blk.Header.PrevHash = true ∧
    ∃ w, GoMap.get? n.ChainWork blk.Header.PrevHash = some w ∧
      GoMap.get? n.ChainWork h = some (w + 1)

/-- The hash `a` is reached from `h` by following `PrevHash` through `blocks`; the genesis is
the root and is not followed further. -/
inductive Reaches (blocks : GoMap String Block) (genesis : String) : String → String → Prop where
  | here (h : String) : Reaches blocks genesis h h
  | back (h a : String) (blk : Block) :
      h ≠ genesis → GoMap.get? blocks h = some blk →
      Reaches blocks genesis blk.Header.PrevHash a → Reaches blocks genesis h a

/-- The lowest common ancestor of `x` and `y`: a block reached from both, of the greatest chain
work among the blocks reached from both. -/
def Node.LowestCommonAncestor (n : Node) (genesis x y a : String) : Prop :=
  GoMap.contains n.Blocks a = true ∧
  Reaches n.Blocks genesis x a ∧ Reaches n.Blocks genesis y a ∧
  ∀ c, GoMap.contains n.Blocks c = true → Reaches n.Blocks genesis x c →
    Reaches n.Blocks genesis y c → n.work c ≤ n.work a

/-- The first `k` blocks met from `h` along `PrevHash`. -/
def pathBlocks (blocks : GoMap String Block) : Nat → String → List Block
  | 0, _ => []
  | k + 1, h =>
    match GoMap.get? blocks h with
    | none => []
    | some blk => blk :: pathBlocks blocks k blk.Header.PrevHash

/-- The blocks from `h` back to, but excluding, its ancestor `a`. -/
def Node.pathTo (n : Node) (h a : String) : List Block :=
  pathBlocks n.Blocks (n.work h - n.work a).toNat h

/-- The blocks on the path from `h` back to the genesis, both included. -/
def Node.pathToGenesis (n : Node) (h : String) : List Block :=
  pathBlocks n.Blocks ((n.work h).toNat + 1) h

/-- Number of blocks parked in the orphan pool. -/
def parkedCount : GoMap String (List Block) → Int
  | [] => 0
  | (_, l) :: m => (l.length : Int) + parkedCount m

/-- The event that the orphan replay of node `n` schedules for the parked block `ob`. -/
def orphanEvent (n : Node) (s : Simulation) (ob : Block) (handle : Nat) : Event :=
  { Timestamp := s.CurrentTime, Type_ := EventType.EvReceiveBlock,
    Data := EventData.ReceiveBlockData n.ID ob, Priority := 0, handle := handle }

/-- The events of the orphan replay for the parked list, with handles from `handle` on. -/
def orphanEvents (n : Node) (s : Simulation) : List Block → Nat → List Event
  | [], _ => []
  | ob :: rest, handle => orphanEvent n s ob handle :: orphanEvents n s rest (handle + 1)

/-- The event is a `ReceiveBlock` delivery to node `id`. -/
def Event.deliversBlockTo (e : Event) (id : Int) : Prop :=
  e.Type_ = EventType.EvReceiveBlock ∧ ∃ blk, e.Data = EventData.ReceiveBlockData id blk

/-- Simulation states at the head of the main loop of `Run`, from the loop entry `s0` on. -/
inductive LoopReaches (s0 : Simulation) : Simulation → Prop where
  | entry : LoopReaches s0 s0
  | round (s s1 : Simulation) :
      LoopReaches s0 s → s.loopStep = LoopStep.dispatched s1 → LoopReaches s0 s1

/-- Delivery of a list of blocks to a node, one `ReceiveBlock` call after the other. -/
def deliverBlocks : List Block → Node × Simulation → Option (Node × Simulation)
  | [], r => some r
  | b :: rest, r =>
    match r.1.ReceiveBlock r.2 b with
    | none => none
    | some r1 => deliverBlocks rest r1

/-- The node `n1` has the block tree, the tip, the orphan pool and the orphan counters of `n`. -/
def Node.sameTree (n n1 : Node) : Prop :=
  n1.ID = n.ID ∧ n1.IsMiner = n.IsMiner ∧ n1.Blocks = n.Blocks ∧ n1.ChainWork = n.ChainWork ∧
  n1.BestChainTip = n.BestChainTip ∧ n1.OrphanBlocks = n.OrphanBlocks ∧
  n1.Stats.ReceivedOrphans = n.Stats.ReceivedOrphans ∧
  n1.Stats.ProcessedOrphans = n.Stats.ProcessedOrphans

/-- The node `n1` has the mempool and the known-transaction set of `n`. -/
def Node.samePool (n n1 : Node) : Prop :=
  n1.Mempool = n.Mempool ∧ n1.KnownTx = n.KnownTx

/-- The simulation `s1` has the clock, the configuration and the genesis block of `s`. -/
def Simulation.sameClock (s s1 : Simulation) : Prop :=
  s1.CurrentTime = s.CurrentTime ∧ s1.StartTime = s.StartTime ∧ s1.Cfg = s.Cfg ∧
  s1.GenesisBlock = s.GenesisBlock

/-- The queue of `s1` is the queue of `s` with the events `pushed` added. -/
def Simulation.pushed (s s1 : Simulation) (pushed : List Event) : Prop :=
  s1.EventQueue.Perm (s.EventQueue ++ pushed)

/-- The node and simulation state in which the fork choice of an accepted block `b` is
taken: after the recording, the mempool update and the orphan replay. -/
def beforeChoice (n : Node) (s : Simulation) (b : Block) : Node × Simulation :=
  ((({ n with Stats := { n.Stats with ReceivedBlocks := n.Stats.ReceivedBlocks + 1 } }).recordBlock
      b).updateMempoolForNewBlock b).replayOrphans s b

/-- The invariant of the node states reachable by block deliveries: the tree is well formed
and holds the genesis, the tip is a block of greatest chain work, and the processed orphans
together with the parked ones do not exceed the received ones. -/
def Node.Inv (gh : String) (n : Node) : Prop :=
  n.WellFormed gh ∧ GoMap.contains n.Blocks gh = true ∧
  GoMap.contains n.Blocks n.BestChainTip = true ∧
  (∀ h, GoMap.contains n.Blocks h = true → n.work h ≤ n.work n.BestChainTip) ∧
  n.Stats.ProcessedOrphans + parkedCount n.OrphanBlocks ≤ n.Stats.ReceivedOrphans

/-! ## Example data -/

/-- A digest for the examples. -/
def exSha : BlockHeader → List String → String :=
  fun h ids => String.join (toString h.Height :: h.PrevHash :: ids)

/-- A configuration for the examples: three nodes, no delay, one hour. -/
def exCfg : Config :=
  { NumNodes := 3, NumMiners := 0, BlockSizeLimitBytes := 1000, TargetBlockInterval := 0,
    TransactionRatePerSec := float64OfInt 1, MinTransactionSizeBytes := 100,
    MaxTransactionSizeBytes := 600, MeanTransactionSizeBytes := float64OfInt 300,
    StdDevTransactionSizeBytes := float64OfInt 0, NetworkDelayMin := 0,
    NetworkDelayMax := 0, TotalInputTransactions := 5, SimulationDuration := 3600000000000,
    FindTimeMin := 1000000000, FindTimeMax := 1000000000 }

/-- The genesis block of the examples. -/
def exGenesis : Block :=
  { Header := { Height := 0, Timestamp := 0, PrevHash := "000000", MinerID := -1, NumTx := 0 },
    Transactions := [], Hash := "genesis", FoundTime := 0 }

/-- A simulation without nodes and events around `exGenesis`. -/
def exSim : Simulation :=
  { Cfg := exCfg, Nodes := [], EventQueue := [], CurrentTime := 0, StartTime := 0,
    GlobalStaleCount := 0, MinerIDs := [],
    TxSource := { TotalToGenerate := 5, GeneratedCount := 0, StartTime := 0 },
    AllInputTxHashes := [], TxStatus := [], ProcessedTxCount := 0, GenesisBlock := exGenesis,
    Rng := { seq := fun _ => 0, pos := 0 }, NextHandle := 0, Sha := exSha }

/-- A fresh node of `exSim`. -/
def exNode : Node := NewNode 0 false exSim

/-- A transaction for the examples. -/
def exTx : Transaction :=
  { ID := "tx-1-7", Timestamp := 0, Data := "simulated payload data", Size := 100 }

/-- A block with the given height, parent, transactions and hash. -/
def exBlock (height : Int) (prev : String) (txs : List Transaction) (hash : String) : Block :=
  { Header := { Height := height, Timestamp := 0, PrevHash := prev, MinerID := 1,
                NumTx := (txs.length : Int) },
    Transactions := txs, Hash := hash, FoundTime := 0 }

/-- Chain A, height 1, carrying `exTx`. -/
def exA1 : Block := exBlock 1 "genesis" [exTx] "blockA1"

/-- Chain A, height 2. -/
def exA2 : Block := exBlock 2 "blockA1" [] "blockA2"

/-- Chain A, height 3. -/
def exA3 : Block := exBlock 3 "blockA2" [] "blockA3"

/-- Chain B, height 1. -/
def exB1 : Block := exBlock 1 "genesis" [] "blockB1"

/-- Chain B, height 2. -/
def exB2 : Block := exBlock 2 "blockB1" [] "blockB2"

/-- The state of `exNode` in `exSim` after the delivery of the blocks `bs`. -/
def exRun (bs : List Block) : Node × Simulation :=
  (deliverBlocks bs (exNode, exSim)).getD (exNode, exSim)

/-- Chain B, height 3. -/
def exB3 : Block := exBlock 3 "blockB2" [] "blockB3"

/-- The simulation of `exCfg` at the entry of the main loop of `Run`, created at time 1000
with the draws 0, 1, 2, ... -/
def exEntry : Simulation :=
  ((NewSimulation exCfg 1000 { seq := fun i => (i : Int), pos := 0 } exSha).runStart).getD exSim

/-- The state after `k` dispatching rounds of the main loop. -/
def exAfterRounds : Nat → Simulation → Simulation
  | 0, s => s
  | k + 1, s =>
    match s.loopStep with
    | LoopStep.dispatched s1 => exAfterRounds k s1
    | _ => s

/-! ## Transaction delivery: vocabulary and examples -/

/-- The events that the relay loop of `ReceiveTransaction` schedules for the targets, one
after the other: the delays are drawn from `r` in turn and the handles count up from `h`. -/
def relayTxEvents (tx : Transaction) (cfg : Config) (now : Int) :
    List Int → Rand → Nat → List Event
  | [], _, _ => []
  | t :: rest, r, h =>
    { Timestamp := now + (CalculateNetworkDelay cfg r).1,
      Type_ := EventType.EvReceiveTransaction,
      Data := EventData.ReceiveTransactionData t tx,
      Priority := EventType.EvReceiveTransaction.toInt, handle := h } ::
      relayTxEvents tx cfg now rest (CalculateNetworkDelay cfg r).2 (h + 1)

/-- Delivery of a list of transactions to a node, one `ReceiveTransaction` call after the
other. -/
def deliverTxs : List Transaction → Node × Simulation → Node × Simulation
  | [], r => r
  | tx :: rest, r => deliverTxs rest (r.1.ReceiveTransaction r.2 tx)

/-- The simulation `exSim` with the three nodes 0, 1, 2, none of them a miner. -/
def exSim3 : Simulation :=
  { exSim with
    Nodes := [(0, NewNode 0 false exSim), (1, NewNode 1 false exSim), (2, NewNode 2 false exSim)] }

/-- A second transaction for the examples. -/
def exTx2 : Transaction :=
  { ID := "tx-2-9", Timestamp := 0, Data := "simulated payload data", Size := 250 }

/-! ## Mining: vocabulary and examples -/

/-- The node `n1` has the mined-block counter of `n`, and no mining job if `n` has none. -/
def Node.sameMined (n n1 : Node) : Prop :=
  n1.Stats.MinedBlocks = n.Stats.MinedBlocks ∧
  (n.CurrentMiningJob = none → n1.CurrentMiningJob = none)

/-- A miner of `exSim` with a mining job for a block above the genesis, found at time 5 under
the handle 3. -/
def exMiner : Node :=
  { NewNode 1 true exSim with
    CurrentMiningJob :=
      some { Timestamp := 5, Type_ := EventType.EvBlockFound,
             Data := EventData.BlockFoundData 1 exA1, Priority := 3, handle := 3 } }

/-- The event of the mining job of `exMiner`. -/
def exFoundJob : Event :=
  { Timestamp := 5, Type_ := EventType.EvBlockFound, Data := EventData.BlockFoundData 1 exA1,
    Priority := 3, handle := 3 }

/-- An event that carries the block of the mining job of `exMiner` under another handle. -/
def exFoundStale : Event := { exFoundJob with handle := 4 }

/-- The candidate block of `AttemptMining`: the mempool transactions, shuffled and packed
greedily up to the size limit, in a block above the parent. -/
def Node.candidateBlock (n : Node) (s : Simulation) (ParentBlockHash : String) (Height : Int) :
    Block :=
  NewBlock s.Sha Height ParentBlockHash s.CurrentTime n.ID
    (packTxs s.Cfg.BlockSizeLimitBytes (s.Rng.Shuffle (GoMap.values n.Mempool)).1 [] 0).1

/-- A third transaction for the examples, larger than the rest. -/
def exTx3 : Transaction :=
  { ID := "tx-3-4", Timestamp := 0, Data := "simulated payload data", Size := 700 }

/-- A miner of `exSim` without a mining job and with three transactions in the mempool. -/
def exMinerFull : Node :=
  { NewNode 1 true exSim with
    Mempool := [("tx-1-7", exTx), ("tx-2-9", exTx2), ("tx-3-4", exTx3)] }

/-! ## The event queue: vocabulary -/

/-- The order of `Less` on two events: earlier timestamp first, then lower priority. -/
def Event.before (a b : Event) : Bool :=
  if a.Timestamp < b.Timestamp then true
  else if b.Timestamp < a.Timestamp then false
  else decide (a.Priority < b.Priority)

/-- The element at index `c`, if any, is not before the element at index `p`, if any. -/
def okPair (q : EventQueue) (c p : Nat) : Prop :=
  ∀ a b, q[c]? = some a → q[p]? = some b → a.before b = false

/-- The heap order of `container/heap`: no element of the slice is before its parent. -/
def IsHeap (q : EventQueue) : Prop := ∀ c, 0 < c → okPair q c ((c - 1) / 2)

/-- The queues made from the empty queue by `heap.Push` and `heap.Pop`. -/
inductive HeapReachable : EventQueue → Prop where
  | empty : HeapReachable []
  | push (q : EventQueue) (e : Event) : HeapReachable q → HeapReachable (heapPush q e)
  | pop (q : EventQueue) (e : Event) (q1 : EventQueue) :
      HeapReachable q → heapPop q = some (e, q1) → HeapReachable q1

/-- Three events for the examples: at time 5, at time 3 with priority 4, at time 3 with
priority 1. -/
def exEvA : Event :=
  { Timestamp := 5, Type_ := EventType.EvInjectTransaction,
    Data := EventData.InjectTransactionData, Priority := 4, handle := 1 }

/-- The event at time 3 with priority 4. -/
def exEvB : Event := { exEvA with Timestamp := 3, handle := 2 }

/-- The event at time 3 with priority 1. -/
def exEvC : Event := { exEvA with Timestamp := 3, Priority := 1, handle := 3 }

/-- The queue after pushing `exEvA`, `exEvB` and `exEvC` in this order. -/
def exQueue : EventQueue := heapPush (heapPush (heapPush [] exEvA) exEvB) exEvC

/-- Popping the queue until it is empty, at most `fuel` times: the events in pop order. -/
def drain : Nat → EventQueue → List Event
  | 0, _ => []
  | fuel + 1, q =>
    match heapPop q with
    | none => []
    | some (e, q1) => e :: drain fuel q1

/-- Three events with the same timestamp and the same priority, told apart by their
handles 1, 2, 3. -/
def exTie (handle : Nat) : Event :=
  { Timestamp := 7, Type_ := EventType.EvInjectTransaction,
    Data := EventData.InjectTransactionData, Priority := 0, handle := handle }

/-! ## Floating point: vocabulary -/

/-- The mantissa that `F64.round` computes for the magnitude `a` and the shift `sh`: the
quotient of `a` by `2 ^ sh`, rounded to nearest, ties to even. -/
def rne (a sh : Nat) : Nat :=
  if 2 ^ (sh - 1) < a % 2 ^ sh ∨ (a % 2 ^ sh = 2 ^ (sh - 1) ∧ (a / 2 ^ sh) % 2 = 1) then
    a / 2 ^ sh + 1
  else a / 2 ^ sh

/-! ## The mining threshold and the main loop: vocabulary and examples -/

/-- The byte sum of the mempool, in exact arithmetic; `canAttemptMiningNow` adds it up in a
64-bit `int`. -/
def Node.mempoolBytes (n : Node) : Int :=
  (GoMap.values n.Mempool).foldl (fun acc tx => acc + tx.Size) 0

/-- A configuration with a block size limit of `5 * 2 ^ 57` bytes. -/
def exCfgHuge : Config := { exCfg with BlockSizeLimitBytes := 720575940379279360 }

/-- A miner whose mempool holds one transaction of `19 * 2 ^ 55 - 1` bytes, one byte less
than 95% of the limit of `exCfgHuge`. -/
def exMinerHuge : Node :=
  { NewNode 1 true exSim with
    Mempool := [("tx-1-7", { exTx with Size := 684547143360315391 })] }

/-- The simulation `exSim` under the configuration `exCfgHuge`. -/
def exSimHuge : Simulation := { exSim with Cfg := exCfgHuge }

/-- The clamp of `Run`: a popped event that lies before the current time is moved to it. -/
def Simulation.clamp (s : Simulation) (event0 : Event) : Event :=
  if event0.Timestamp < s.CurrentTime then { event0 with Timestamp := s.CurrentTime } else event0

/-- The state in which `Run` dispatches the popped event: the rest of the queue, and the clock
at the time of the event. -/
def Simulation.afterPop (s : Simulation) (queue : List Event) (event : Event) : Simulation :=
  { s with EventQueue := queue, CurrentTime := event.Timestamp }

/-! ## Injection: vocabulary and examples -/

/-- The simulation `exSim3` with two thousand million transactions a second, so that the delay
between two injections is zero. -/
def exSimFast : Simulation :=
  { exSim3 with Cfg := { exCfg with TransactionRatePerSec := float64OfInt 2000000000 } }

/-! ## Chain work and height: vocabulary -/

/-- The maps `Blocks` and `ChainWork` have the same keys, and the chain work of every block is
the height in its header. -/
def Node.WorkIsHeight (n : Node) : Prop :=
  (∀ h, GoMap.contains n.ChainWork h = GoMap.contains n.Blocks h) ∧
  ∀ h blk, GoMap.get? n.Blocks h = some blk → GoMap.get? n.ChainWork h = some blk.Header.Height

/-! ## Bookkeeping of a handler: vocabulary -/

/-- The step of a handler of node `n` from the simulation `s` to the pair `r` leaves the node
table, the transaction source and the miner list as they are, keeps the keys of `TxStatus`,
and raises the global stale counter by what it adds to the stale counter of the node. -/
def Node.booked (n : Node) (s : Simulation) (r : Node × Simulation) : Prop :=
  r.2.Nodes = s.Nodes ∧ r.2.TxSource = s.TxSource ∧ r.2.MinerIDs = s.MinerIDs ∧
  (∀ k, GoMap.contains r.2.TxStatus k = GoMap.contains s.TxStatus k) ∧
  n.Stats.StaleBlocksInReorg ≤ r.1.Stats.StaleBlocksInReorg ∧
  r.2.GlobalStaleCount - s.GlobalStaleCount =
    r.1.Stats.StaleBlocksInReorg - n.Stats.StaleBlocksInReorg

/-! ## Mining jobs: vocabulary -/

/-- Node states reachable from `NewNode` through the four handlers `ReceiveTransaction`,
`ReceiveBlock`, `AttemptMining` and `ProcessFoundBlock`, in a simulation whose genesis block
is `g`; the arguments and the rest of the simulation state are arbitrary at every call. -/
inductive ReachableByHandlers (g : Block) : Node → Prop where
  | init (id : Int) (isMiner : Bool) (s : Simulation) :
      s.GenesisBlock = g → ReachableByHandlers g (NewNode id isMiner s)
  | tx (n : Node) (s : Simulation) (t : Transaction) :
      ReachableByHandlers g n → ReachableByHandlers g (n.ReceiveTransaction s t).1
  | block (n : Node) (s : Simulation) (b : Block) (r : Node × Simulation) :
      ReachableByHandlers g n → s.GenesisBlock = g → n.ReceiveBlock s b = some r →
      ReachableByHandlers g r.1
  | attempt (n : Node) (s : Simulation) (parent : String) (height : Int) :
      ReachableByHandlers g n → ReachableByHandlers g (n.AttemptMining s parent height).1
  | found (n : Node) (s : Simulation) (blk : Block) (e : Event) (r : Node × Simulation) :
      ReachableByHandlers g n → s.GenesisBlock = g → n.ProcessFoundBlock s blk e = some r →
      ReachableByHandlers g r.1

/-- The pending mining job, if any, is a found-block event whose candidate block builds on the
current best tip, one above its chain work. -/
def Node.JobOnTip (n : Node) : Prop :=
  ∀ ev, n.CurrentMiningJob = some ev →
    ∃ id blk, ev.Data = EventData.BlockFoundData id blk ∧
      blk.Header.PrevHash = n.BestChainTip ∧ blk.Header.Height = n.work n.BestChainTip + 1

/-- The node `n1` has the mining job and the reorg counter of `n`. -/
def Node.sameJob (n n1 : Node) : Prop :=
  n1.CurrentMiningJob = n.CurrentMiningJob ∧ n1.Stats.HandledReorgs = n.Stats.HandledReorgs

/-- A fresh miner of `exSim` after a mining attempt on the genesis: it has a pending job. -/
def exMinerJob : Node := ((NewNode 1 true exSim).AttemptMining exSim "genesis" 1).1

/-! ## The simulation as a whole: vocabulary -/

/-- Simulation states reached from `s0` by dispatching events: before each dispatch the kernel
may have replaced the queue and the clock, as `Run` does when it pops the event. -/
inductive DispatchReaches (s0 : Simulation) : Simulation → Prop where
  | start : DispatchReaches s0 s0
  | step (s s1 : Simulation) (q : List Event) (t : Int) (e : Event) :
      DispatchReaches s0 s →
      ({ s with EventQueue := q, CurrentTime := t } : Simulation).dispatch e = some s1 →
      DispatchReaches s0 s1

/-- The sum of `Stats.StaleBlocksInReorg` over the nodes of the node table. -/
def staleSum (nodes : GoMap Int Node) : Int :=
  ((GoMap.values nodes).map (fun n => n.Stats.StaleBlocksInReorg)).sum

/-- The simulation of `exCfg` with one miner after `Setup`, created at time 1000 with the
draws 0, 1, 2, ... -/
def exSetup : Simulation :=
  ((NewSimulation { exCfg with NumMiners := 1 } 1000 { seq := fun i => (i : Int), pos := 0 }
    exSha).Setup).getD exSim

/-- The state after the dispatch, at the current time, of a delivery of the block `b` to
node 0. -/
def exDeliver (s : Simulation) (b : Block) : Simulation :=
  (s.dispatch
    { Timestamp := s.CurrentTime, Type_ := EventType.EvReceiveBlock,
      Data := EventData.ReceiveBlockData 0 b, Priority := 4, handle := 0 }).getD s

/-- The state of `exSetup` after node 0 got a block `blockA1` and a block `blockB1` above the
genesis. -/
def exForked : Simulation :=
  exDeliver (exDeliver exSetup (exBlock 1 exSetup.GenesisBlock.Hash [exTx] "blockA1"))
    (exBlock 1 exSetup.GenesisBlock.Hash [] "blockB1")

/-- The state of `exForked` after node 0 got `blockB2`, which displaces `blockA1`. -/
def exReorged : Simulation := exDeliver exForked exB2

/-! ## Injection cap: vocabulary -/

/-- The number that a string of decimal digits denotes, read from the left. -/
def decimalValue (l : List Char) : Nat := l.foldl (fun a c => 10 * a + (c.toNat - 48)) 0

/-- The injection counter is within its bounds, and every key of `TxStatus` is the id of an
injected transaction: it carries a count between 1 and the counter. -/
def Simulation.Injected (s : Simulation) : Prop :=
  0 ≤ s.TxSource.GeneratedCount ∧ s.TxSource.GeneratedCount ≤ s.TxSource.TotalToGenerate ∧
  ∀ k, GoMap.contains s.TxStatus k = true →
    ∃ c g : Int, 1 ≤ c ∧ c ≤ s.TxSource.GeneratedCount ∧
      k = "tx-" ++ toString c ++ "-" ++ toString g

/-! ## Miner designation: examples -/

/-- The configuration `exCfg` with two miners among its three nodes. -/
def exCfgTwo : Config := { exCfg with NumMiners := 2 }

/-! ## The byte counts at the end of the `int` range: an example run -/

/-- The configuration `exCfg` with one miner, two transactions of `2 ^ 62` bytes (both clamp
bounds) injected without delay, and a block size limit of `2 ^ 62 + 10` bytes. -/
def exCfgWrap : Config :=
  { exCfg with
    NumMiners := 1,
    BlockSizeLimitBytes := 4611686018427387914,
    TargetBlockInterval := 1000000000,
    TransactionRatePerSec := float64OfInt 2000000000,
    MinTransactionSizeBytes := 4611686018427387904,
    MaxTransactionSizeBytes := 4611686018427387904,
    TotalInputTransactions := 2 }

/-- The simulation of `exCfgWrap` at the entry of the main loop of `Run`, created at time 1000
with the draws 0, 1, 2, ... -/
def exWrapEntry : Simulation :=
  ((NewSimulation exCfgWrap 1000 { seq := fun i => (i : Int), pos := 0 } exSha).runStart).getD
    exSim

/-- The run of `exCfgWrap` after sixteen rounds of the main loop: both injections and every
delivery of a transaction are done, the next event is the mining attempt of node 0. -/
def exWrapBefore : Simulation := exAfterRounds 16 exWrapEntry

/-- The miner of the run of `exCfgWrap` before its mining attempt. -/
def exWrapMiner : Node := (GoMap.get? exWrapBefore.Nodes 0).getD exNode

/-! ## Lemmas on Go maps -/

theorem GoMap.get?_del {K V : Type} [DecidableEq K] (m : GoMap K V) (k k' : K) :
    GoMap.get? (GoMap.del m k) k' = if k' = k then none else GoMap.get? m k' := by
  induction m with
  | nil => simp [GoMap.del, GoMap.get?]
  | cons p m ih =>
    obtain ⟨k0, v0⟩ := p
    unfold GoMap.del at ih ⊢
    by_cases h0 : k0 = k
    · subst h0
      by_cases h1 : k' = k0
      · subst h1; simpa [List.filter, GoMap.get?] using ih
      · have h2 : ¬ k0 = k' := fun h => h1 h.symm
        simpa [List.filter, GoMap.get?, h1, h2] using ih
    · by_cases h1 : k' = k
      · subst h1
        simpa [List.filter, GoMap.get?, h0] using ih
      · by_cases h2 : k0 = k'
        · simp [List.filter, GoMap.get?, h0, h1, h2]
        · simpa [List.filter, GoMap.get?, h0, h1, h2] using ih

theorem GoMap.get?_set {K V : Type} [DecidableEq K] (m : GoMap K V) (k k' : K) (v : V) :
    GoMap.get? (GoMap.set m k v) k' = if k' = k then some v else GoMap.get? m k' := by
  by_cases h : k' = k
  · subst h; simp [GoMap.set, GoMap.get?]
  · have h2 : ¬ k = k' := fun e => h e.symm
    simp [GoMap.set, GoMap.get?, GoMap.get?_del, h, h2]

theorem GoMap.contains_set {K V : Type} [DecidableEq K] (m : GoMap K V) (k k' : K) (v : V) :
    GoMap.contains (GoMap.set m k v) k' = (decide (k' = k) || GoMap.contains m k') := by
  by_cases h : k' = k <;> simp [GoMap.contains, GoMap.get?_set, h]

theorem GoMap.contains_del {K V : Type} [DecidableEq K] (m : GoMap K V) (k k' : K) :
    GoMap.contains (GoMap.del m k) k' = (!decide (k' = k) && GoMap.contains m k') := by
  by_cases h : k' = k <;> simp [GoMap.contains, GoMap.get?_del, h]

theorem GoMap.contains_iff {K V : Type} [DecidableEq K] (m : GoMap K V) (k : K) :
    GoMap.contains m k = true ↔ ∃ v, GoMap.get? m k = some v := by
  unfold GoMap.contains
  cases GoMap.get? m k <;> simp

theorem GoMap.mem_of_get? {K V : Type} [DecidableEq K] (m : GoMap K V) (k : K) (v : V)
    (h : GoMap.get? m k = some v) : (k, v) ∈ m := by
  induction m with
  | nil => simp [GoMap.get?] at h
  | cons p m ih =>
    obtain ⟨k0, v0⟩ := p
    by_cases h0 : k0 = k
    · simp [GoMap.get?, h0] at h; simp [h0, h]
    · simp [GoMap.get?, h0] at h; simp [ih h]

/-! ## Lemmas on the heap -/

theorem set_set_perm {α : Type} [DecidableEq α] (l : List α) (i j : Nat) (a b : α)
    (ha : l[i]? = some a) (hb : l[j]? = some b) : ((l.set i b).set j a).Perm l := by
  rw [List.perm_iff_count]
  intro e
  obtain ⟨hi, hai⟩ := List.getElem?_eq_some_iff.1 ha
  obtain ⟨hj, hbj⟩ := List.getElem?_eq_some_iff.1 hb
  have hj' : j < (l.set i b).length := by simpa using hj
  rw [List.count_set _ _ _ _ hj', List.count_set _ _ _ _ hi]
  have hget : (l.set i b)[j] = b := by
    rw [List.getElem_set]
    split
    · rfl
    · exact hbj
  rw [hget, hai]
  have hca : (if (a == e) = true then 1 else 0) ≤ List.count e l := by
    split
    · rename_i h
      have : a = e := by simpa using h
      subst this
      exact List.count_pos_iff.2 (hai ▸ List.getElem_mem hi)
    · exact Nat.zero_le _
  omega

theorem swap_perm (q : EventQueue) (i j : Nat) : (EventQueue.Swap q i j).Perm q := by
  unfold EventQueue.Swap
  split
  · rename_i a b ha hb
    exact set_set_perm q i j a b ha hb
  · exact List.Perm.refl _

theorem heapUpLoop_perm (fuel : Nat) (q : EventQueue) (j : Nat) : (heapUpLoop fuel q j).Perm q := by
  induction fuel generalizing q j with
  | zero => exact List.Perm.refl _
  | succ fuel ih =>
    unfold heapUpLoop
    simp only
    split
    · exact List.Perm.refl _
    · exact (ih _ _).trans (swap_perm q _ _)

theorem heapPush_perm (q : EventQueue) (e : Event) : (heapPush q e).Perm (q ++ [e]) :=
  heapUpLoop_perm _ _ _

/-! ## What the helpers of `ReceiveBlock` leave unchanged -/

theorem sameTree_refl (n : Node) : n.sameTree n := by simp [Node.sameTree]

theorem sameTree_trans {a b c : Node} (h1 : a.sameTree b) (h2 : b.sameTree c) : a.sameTree c := by
  obtain ⟨a1, a2, a3, a4, a5, a6, a7, a8⟩ := h1
  obtain ⟨b1, b2, b3, b4, b5, b6, b7, b8⟩ := h2
  exact ⟨b1.trans a1, b2.trans a2, b3.trans a3, b4.trans a4, b5.trans a5, b6.trans a6,
    b7.trans a7, b8.trans a8⟩

theorem samePool_trans {a b c : Node} (h1 : a.samePool b) (h2 : b.samePool c) : a.samePool c :=
  ⟨h2.1.trans h1.1, h2.2.trans h1.2⟩

theorem sameClock_trans {a b c : Simulation} (h1 : a.sameClock b) (h2 : b.sameClock c) :
    a.sameClock c :=
  ⟨h2.1.trans h1.1, h2.2.1.trans h1.2.1, h2.2.2.1.trans h1.2.2.1, h2.2.2.2.trans h1.2.2.2⟩

theorem relayBlockStep_frame (b : Block) (acc : Node × Simulation) (t : Int) :
    acc.1.sameTree (relayBlockStep b acc t).1 ∧ acc.1.samePool (relayBlockStep b acc t).1 ∧
    acc.2.sameClock (relayBlockStep b acc t).2 := by
  unfold relayBlockStep
  split <;>
    simp [Node.sameTree, Node.samePool, Simulation.sameClock, Simulation.ScheduleEvent,
      Simulation.ScheduleEventWithPriority]

theorem relayBlock_fold_frame (b : Block) (l : List Int) (acc : Node × Simulation) :
    acc.1.sameTree (l.foldl (relayBlockStep b) acc).1 ∧
    acc.1.samePool (l.foldl (relayBlockStep b) acc).1 ∧
    acc.2.sameClock (l.foldl (relayBlockStep b) acc).2 := by
  induction l generalizing acc with
  | nil => simp [Node.sameTree, Node.samePool, Simulation.sameClock]
  | cons t l ih =>
    obtain ⟨h1, h2, h3⟩ := relayBlockStep_frame b acc t
    obtain ⟨g1, g2, g3⟩ := ih (relayBlockStep b acc t)
    exact ⟨sameTree_trans h1 g1, samePool_trans h2 g2, sameClock_trans h3 g3⟩

theorem relayBlock_frame (n : Node) (s : Simulation) (b : Block) :
    n.sameTree (n.relayBlock s b).1 ∧ n.samePool (n.relayBlock s b).1 ∧
    s.sameClock (n.relayBlock s b).2 :=
  relayBlock_fold_frame b _ (n, s)

theorem scheduleMiningAttempt_clock (n : Node) (s : Simulation) :
    s.sameClock (n.scheduleMiningAttempt s) := by
  unfold Node.scheduleMiningAttempt
  split <;> simp [Simulation.sameClock, Simulation.ScheduleEvent,
      Simulation.ScheduleEventWithPriority]

theorem restartMining_frame (n : Node) (s : Simulation) :
    n.sameTree (n.restartMining s).1 ∧ n.samePool (n.restartMining s).1 ∧
    s.sameClock (n.restartMining s).2 := by
  unfold Node.restartMining
  split
  · simp [Node.sameTree, Node.samePool, Simulation.sameClock]
  · simp only
    split
    · exact ⟨by simp [Node.sameTree], by simp [Node.samePool], scheduleMiningAttempt_clock _ _⟩
    · simp [Node.sameTree, Node.samePool, Simulation.sameClock]

theorem restoreTx_tree (newBlocks : List Block) (n : Node) (tx : Transaction) :
    n.sameTree (restoreTx newBlocks n tx) := by
  unfold restoreTx
  split
  · exact sameTree_refl n
  · split
    · simp [Node.sameTree]
    · split <;> simp [Node.sameTree]

theorem restoreTx_fold_tree (newBlocks : List Block) (txs : List Transaction) (n : Node) :
    n.sameTree (txs.foldl (restoreTx newBlocks) n) := by
  induction txs generalizing n with
  | nil => exact sameTree_refl n
  | cons tx txs ih => exact sameTree_trans (restoreTx_tree newBlocks n tx) (ih _)

theorem restoreAll_tree (newBlocks staleBlocks : List Block) (n : Node) :
    n.sameTree
      (staleBlocks.foldl
        (fun (acc : Node) staleBlock => staleBlock.Transactions.foldl (restoreTx newBlocks) acc) n) := by
  induction staleBlocks generalizing n with
  | nil => exact sameTree_refl n
  | cons sb l ih => exact sameTree_trans (restoreTx_fold_tree newBlocks sb.Transactions n) (ih _)

theorem handleReorg_frame (n : Node) (s : Simulation) (x y : String) (r : Node × Simulation)
    (h : n.handleReorg s x y = some r) :
    n.sameTree r.1 ∧ s.sameClock r.2 ∧ r.2.EventQueue = s.EventQueue ∧
    r.2.NextHandle = s.NextHandle := by
  unfold Node.handleReorg at h
  simp only at h
  split at h
  · exact absurd h (by simp)
  · split at h
    · cases h
      simp [Node.sameTree, Simulation.sameClock]
    · split at h
      · exact absurd h (by simp)
      · rename_i staleBlocks stale _
        split at h
        · exact absurd h (by simp)
        · rename_i newBlocks _
          cases h
          refine ⟨sameTree_trans ?_ (restoreAll_tree newBlocks staleBlocks _), ?_, rfl, rfl⟩
          · simp [Node.sameTree]
          · simp [Simulation.sameClock, Simulation.IncrementStaleCounterBy]

theorem updateMempool_tree (b : Block) (n : Node) : n.sameTree (n.updateMempoolForNewBlock b) := by
  unfold Node.updateMempoolForNewBlock
  generalize b.Transactions = txs
  induction txs generalizing n with
  | nil => exact sameTree_refl n
  | cons tx txs ih =>
    refine sameTree_trans ?_ (ih _)
    simp [Node.sameTree]

/-! ## The branches of `ReceiveBlock` -/

theorem receiveBlock_known (n : Node) (s : Simulation) (b : Block)
    (h : GoMap.contains n.Blocks b.Hash = true) :
    n.ReceiveBlock s b =
      some ({ n with Stats := { n.Stats with ReceivedBlocks := n.Stats.ReceivedBlocks + 1 } }, s) := by
  unfold Node.ReceiveBlock
  simp [h]

theorem receiveBlock_orphan (n : Node) (s : Simulation) (b : Block)
    (h : GoMap.contains n.Blocks b.Hash = false)
    (hp : GoMap.get? n.Blocks b.Header.PrevHash = none) :
    n.ReceiveBlock s b =
      some ({ n with
              Stats := { n.Stats with ReceivedBlocks := n.Stats.ReceivedBlocks + 1,
                                      ReceivedOrphans := n.Stats.ReceivedOrphans + 1 },
              OrphanBlocks :=
                GoMap.set n.OrphanBlocks b.Header.PrevHash
                  (GoMap.getD n.OrphanBlocks b.Header.PrevHash [] ++ [b]) }, s) := by
  unfold Node.ReceiveBlock
  simp [h, hp]

theorem receiveBlock_badHeight (n : Node) (s : Simulation) (b parent : Block)
    (h : GoMap.contains n.Blocks b.Hash = false)
    (hp : GoMap.get? n.Blocks b.Header.PrevHash = some parent)
    (hh : b.Header.Height ≠ parent.Header.Height + 1) :
    n.ReceiveBlock s b =
      some ({ n with Stats := { n.Stats with ReceivedBlocks := n.Stats.ReceivedBlocks + 1 } }, s) := by
  unfold Node.ReceiveBlock
  simp [h, hp, hh]

theorem receiveBlock_accept (n : Node) (s : Simulation) (b parent : Block)
    (h : GoMap.contains n.Blocks b.Hash = false)
    (hp : GoMap.get? n.Blocks b.Header.PrevHash = some parent)
    (hh : b.Header.Height = parent.Header.Height + 1) :
    n.ReceiveBlock s b = (beforeChoice n s b).1.forkChoice (beforeChoice n s b).2 b := by
  unfold Node.ReceiveBlock beforeChoice
  simp [h, hp, hh]

theorem forkChoice_frame (n : Node) (s : Simulation) (b : Block) (r : Node × Simulation)
    (h : n.forkChoice s b = some r) :
    ({ n with BestChainTip :=
        if n.work n.BestChainTip < n.work b.Hash then b.Hash else n.BestChainTip }).sameTree r.1 ∧
    s.sameClock r.2 := by
  unfold Node.forkChoice at h
  simp only at h
  split at h
  · rename_i hlt
    split at h
    · exact absurd h (by simp)
    · rename_i n2 s2 hre
      cases h
      have hre2 : ({ n with BestChainTip := b.Hash } : Node).sameTree n2 ∧ s.sameClock s2 := by
        split at hre
        · obtain ⟨h1, h2, _, _⟩ := handleReorg_frame _ _ _ _ _ hre
          exact ⟨h1, h2⟩
        · cases hre
          exact ⟨sameTree_refl _, by simp [Simulation.sameClock]⟩
      obtain ⟨a1, _, a3⟩ := relayBlock_frame n2 s2 b
      obtain ⟨b1, _, b3⟩ := restartMining_frame (n2.relayBlock s2 b).1 (n2.relayBlock s2 b).2
      have hlt' : n.work n.BestChainTip < n.work b.Hash := hlt
      rw [if_pos hlt']
      exact ⟨sameTree_trans hre2.1 (sameTree_trans a1 b1),
        sameClock_trans hre2.2 (sameClock_trans a3 b3)⟩
  · rename_i hlt
    cases h
    have hlt' : ¬ n.work n.BestChainTip < n.work b.Hash := hlt
    rw [if_neg hlt']
    obtain ⟨a1, _, a3⟩ := relayBlock_frame n s b
    exact ⟨a1, a3⟩

/-! ## Well-formed block trees -/

theorem GoMap.contains_iff_mem_keys {K V : Type} [DecidableEq K] (m : GoMap K V) (k : K) :
    GoMap.contains m k = true ↔ k ∈ m.map Prod.fst := by
  induction m with
  | nil => simp [GoMap.contains, GoMap.get?]
  | cons p m ih =>
    obtain ⟨k0, v0⟩ := p
    by_cases h0 : k0 = k
    · simp [GoMap.contains, GoMap.get?, h0]
    · have h1 : ¬ k = k0 := fun e => h0 e.symm
      simp only [GoMap.contains, GoMap.get?, h0, if_false, List.map_cons, List.mem_cons, h1,
        false_or]
      exact ih

theorem work_of_get? (n : Node) (h : String) (w : Int) (e : GoMap.get? n.ChainWork h = some w) :
    n.work h = w := by
  simp [Node.work, GoMap.getD, e]

/-- In a well-formed tree with a block, the genesis is a block and no chain work is negative. -/
theorem wf_genesis_and_nonneg (n : Node) (gh : String) (hwf : n.WellFormed gh) (h0 : String)
    (hin : GoMap.contains n.Blocks h0 = true) :
    GoMap.contains n.Blocks gh = true ∧ ∀ h, GoMap.contains n.Blocks h = true → 0 ≤ n.work h := by
  have hne : (n.Blocks.map Prod.fst).toFinset.Nonempty :=
    ⟨h0, by simpa using (GoMap.contains_iff_mem_keys n.Blocks h0).1 hin⟩
  obtain ⟨k, hk, hmin⟩ := Finset.exists_min_image _ (fun h => n.work h) hne
  have hkin : GoMap.contains n.Blocks k = true :=
    (GoMap.contains_iff_mem_keys n.Blocks k).2 (by simpa using hk)
  have hkg : k = gh := by
    by_contra hne'
    obtain ⟨blk, hblk⟩ := (GoMap.contains_iff n.Blocks k).1 hkin
    obtain ⟨hp, w, hw1, hw2⟩ := hwf.2 k blk hblk hne'
    have h1 := hmin blk.Header.PrevHash
      (by simpa using (GoMap.contains_iff_mem_keys n.Blocks _).1 hp)
    simp only [work_of_get? n _ _ hw1, work_of_get? n _ _ hw2] at h1
    omega
  subst hkg
  refine ⟨hkin, fun h hh => ?_⟩
  have h1 := hmin h (by simpa using (GoMap.contains_iff_mem_keys n.Blocks _).1 hh)
  simpa [work_of_get? n _ _ hwf.1] using h1

theorem wf_parent (n : Node) (gh : String) (hwf : n.WellFormed gh) (h : String) (blk : Block)
    (hb : GoMap.get? n.Blocks h = some blk) (hne : h ≠ gh) :
    GoMap.contains n.Blocks blk.Header.PrevHash = true ∧
    n.work h = n.work blk.Header.PrevHash + 1 := by
  obtain ⟨hp, w, hw1, hw2⟩ := hwf.2 h blk hb hne
  exact ⟨hp, by rw [work_of_get? n _ _ hw1, work_of_get? n _ _ hw2]⟩

theorem wf_work_zero (n : Node) (gh : String) (hwf : n.WellFormed gh) (h : String)
    (hin : GoMap.contains n.Blocks h = true) (hz : n.work h = 0) : h = gh := by
  by_contra hne
  obtain ⟨blk, hblk⟩ := (GoMap.contains_iff n.Blocks h).1 hin
  obtain ⟨hp, hw⟩ := wf_parent n gh hwf h blk hblk hne
  have := (wf_genesis_and_nonneg n gh hwf h hin).2 _ hp
  omega

theorem wf_entry (n : Node) (gh : String) (hwf : n.WellFormed gh) (h : String)
    (hin : GoMap.contains n.Blocks h = true) : GoMap.get? n.ChainWork h = some (n.work h) := by
  by_cases hg : h = gh
  · subst hg; rw [work_of_get? n _ _ hwf.1]; exact hwf.1
  · obtain ⟨blk, hblk⟩ := (GoMap.contains_iff n.Blocks h).1 hin
    obtain ⟨_, w, _, hw2⟩ := hwf.2 h blk hblk hg
    rw [work_of_get? n _ _ hw2]; exact hw2

theorem wf_climb (n : Node) (gh : String) (hwf : n.WellFormed gh) (k : Nat) (h : String)
    (hin : GoMap.contains n.Blocks h = true) (hk : (k : Int) ≤ n.work h) :
    ∃ c, climb n.Blocks k h = some c ∧ GoMap.contains n.Blocks c = true ∧
      n.work c = n.work h - k ∧ Reaches n.Blocks gh h c := by
  induction k generalizing h with
  | zero => exact ⟨h, rfl, hin, by simp, Reaches.here h⟩
  | succ k ih =>
    have hne : h ≠ gh := by
      intro e; subst e
      rw [work_of_get? n _ _ hwf.1] at hk
      omega
    obtain ⟨blk, hblk⟩ := (GoMap.contains_iff n.Blocks h).1 hin
    obtain ⟨hp, hw⟩ := wf_parent n gh hwf h blk hblk hne
    obtain ⟨c, hc1, hc2, hc3, hc4⟩ := ih blk.Header.PrevHash hp (by omega)
    refine ⟨c, ?_, hc2, ?_, Reaches.back h c blk hne hblk hc4⟩
    · simp [climb, hblk, hc1]
    · push_cast; omega

theorem wf_reaches (n : Node) (gh : String) (hwf : n.WellFormed gh) (h c : String)
    (hr : Reaches n.Blocks gh h c) (hin : GoMap.contains n.Blocks h = true) :
    GoMap.contains n.Blocks c = true ∧ n.work c ≤ n.work h ∧
    climb n.Blocks (n.work h - n.work c).toNat h = some c := by
  induction hr with
  | here h => exact ⟨hin, le_refl _, by simp [climb]⟩
  | back h a blk hne hblk _ ih =>
    obtain ⟨hp, hw⟩ := wf_parent n gh hwf h blk hblk hne
    obtain ⟨i1, i2, i3⟩ := ih hp
    refine ⟨i1, by omega, ?_⟩
    have e : (n.work h - n.work a).toNat = (n.work blk.Header.PrevHash - n.work a).toNat + 1 := by
      omega
    rw [e]
    simp [climb, hblk, i3]

theorem wf_reaches_genesis (n : Node) (gh : String) (hwf : n.WellFormed gh) (h : String)
    (hin : GoMap.contains n.Blocks h = true) : Reaches n.Blocks gh h gh := by
  have h0 := (wf_genesis_and_nonneg n gh hwf h hin).2 h hin
  obtain ⟨c, _, hc2, hc3, hc4⟩ := wf_climb n gh hwf (n.work h).toNat h hin (by omega)
  have : c = gh := wf_work_zero n gh hwf c hc2 (by omega)
  rw [this] at hc4
  exact hc4

/-- A chain in a well-formed tree is shorter than the number of map entries. -/
theorem wf_work_lt_length (n : Node) (gh : String) (hwf : n.WellFormed gh) (h : String)
    (hin : GoMap.contains n.Blocks h = true) : n.work h < (n.Blocks.length : Int) := by
  have h0 := (wf_genesis_and_nonneg n gh hwf h hin).2 h hin
  let f : Nat → String := fun i => (climb n.Blocks i h).getD ""
  have hf : ∀ i : Nat, (i : Int) ≤ n.work h →
      GoMap.contains n.Blocks (f i) = true ∧ n.work (f i) = n.work h - i := by
    intro i hi
    obtain ⟨c, hc1, hc2, hc3, _⟩ := wf_climb n gh hwf i h hin hi
    simp only [f, hc1, Option.getD_some]
    exact ⟨hc2, hc3⟩
  let l : List String := (List.range ((n.work h).toNat + 1)).map f
  have hnd : l.Nodup := by
    refine List.Nodup.map_on ?_ (List.nodup_range _)
    intro i hi j hj e
    have hi' := (hf i (by have := List.mem_range.1 hi; omega)).2
    have hj' := (hf j (by have := List.mem_range.1 hj; omega)).2
    rw [e] at hi'
    omega
  have hsub : l ⊆ n.Blocks.map Prod.fst := by
    intro x hx
    obtain ⟨i, hi, rfl⟩ := List.mem_map.1 hx
    exact (GoMap.contains_iff_mem_keys n.Blocks _).1
      (hf i (by have := List.mem_range.1 hi; omega)).1
  have hlen := (List.subperm_of_subset hnd hsub).length_le
  simp only [l, List.length_map, List.length_range] at hlen
  omega

theorem wf_work_lt_walkFuel (n : Node) (gh : String) (hwf : n.WellFormed gh) (h : String)
    (hin : GoMap.contains n.Blocks h = true) : n.work h < (walkFuel n.Blocks : Int) := by
  have h1 := wf_work_lt_length n gh hwf h hin
  unfold walkFuel
  push_cast
  nlinarith

/-- The lockstep walk from two blocks of equal chain work ends: at their lowest common
ancestor, or at `genesis` because a block with an empty parent hash was met. -/
theorem wf_lockstep (n : Node) (gh genesis : String) (hwf : n.WellFormed gh) (m : Nat) :
    ∀ (fuel : Nat) (c1 c2 : String), m < fuel →
      GoMap.contains n.Blocks c1 = true → GoMap.contains n.Blocks c2 = true →
      n.work c1 = m → n.work c2 = m →
      ∃ a, lockstep n.Blocks genesis fuel c1 c2 = some a ∧
        (n.LowestCommonAncestor gh c1 c2 a ∨
          (a = genesis ∧ GoMap.contains n.Blocks "" = true)) := by
  induction m with
  | zero =>
    intro fuel c1 c2 hf h1 h2 w1 w2
    obtain ⟨f, rfl⟩ : ∃ f, fuel = f + 1 := ⟨fuel - 1, by omega⟩
    have e1 := wf_work_zero n gh hwf c1 h1 (by simpa using w1)
    have e2 := wf_work_zero n gh hwf c2 h2 (by simpa using w2)
    rw [e1, e2]
    rw [e1] at h1
    refine ⟨gh, by simp [lockstep], Or.inl ⟨h1, Reaches.here _, Reaches.here _, ?_⟩⟩
    intro c _ hc _
    exact (wf_reaches n gh hwf gh c hc h1).2.1
  | succ m ih =>
    intro fuel c1 c2 hf h1 h2 w1 w2
    obtain ⟨f, rfl⟩ : ∃ f, fuel = f + 1 := ⟨fuel - 1, by omega⟩
    by_cases e : c1 = c2
    · subst e
      refine ⟨c1, by simp [lockstep], Or.inl ⟨h1, Reaches.here _, Reaches.here _, ?_⟩⟩
      intro c _ hc _
      exact (wf_reaches n gh hwf c1 c hc h1).2.1
    · have g1 : c1 ≠ gh := by
        intro e1; subst e1; rw [work_of_get? n _ _ hwf.1] at w1; omega
      have g2 : c2 ≠ gh := by
        intro e1; subst e1; rw [work_of_get? n _ _ hwf.1] at w2; omega
      obtain ⟨b1, hb1⟩ := (GoMap.contains_iff n.Blocks c1).1 h1
      obtain ⟨b2, hb2⟩ := (GoMap.contains_iff n.Blocks c2).1 h2
      obtain ⟨p1, pw1⟩ := wf_parent n gh hwf c1 b1 hb1 g1
      obtain ⟨p2, pw2⟩ := wf_parent n gh hwf c2 b2 hb2 g2
      by_cases hempty : b1.Header.PrevHash = "" ∨ b2.Header.PrevHash = ""
      · refine ⟨genesis, by simp [lockstep, e, hb1, hb2, hempty], Or.inr ⟨rfl, ?_⟩⟩
        rcases hempty with h | h
        · rw [← h]; exact p1
        · rw [← h]; exact p2
      · obtain ⟨a, ha, hcase⟩ := ih f b1.Header.PrevHash b2.Header.PrevHash (by omega) p1 p2
          (by push_cast at w1; omega) (by push_cast at w2; omega)
        refine ⟨a, by simp [lockstep, e, hb1, hb2, hempty, ha], ?_⟩
        rcases hcase with ⟨ca, r1, r2, hmax⟩ | hg
        · refine Or.inl ⟨ca, Reaches.back _ _ _ g1 hb1 r1, Reaches.back _ _ _ g2 hb2 r2, ?_⟩
          intro c hc rc1 rc2
          have q1 := wf_reaches n gh hwf c1 c rc1 h1
          have q2 := wf_reaches n gh hwf c2 c rc2 h2
          have hne1 : c ≠ c1 := by
            intro ec; subst ec
            have := q2.2.2
            rw [w1, w2] at this
            simp [climb] at this
            exact e this.symm
          have hne2 : c ≠ c2 := by
            intro ec; subst ec
            have := q1.2.2
            rw [w1, w2] at this
            simp [climb] at this
            exact e this
          cases rc1 with
          | here => exact absurd rfl hne1
          | back _ _ blk1 _ hblk1 rr1 =>
            cases rc2 with
            | here => exact absurd rfl hne2
            | back _ _ blk2 _ hblk2 rr2 =>
              rw [hb1] at hblk1; cases hblk1
              rw [hb2] at hblk2; cases hblk2
              exact hmax c hc rr1 rr2
        · exact Or.inr hg

theorem reaches_trans (blocks : GoMap String Block) (gh a b c : String)
    (h1 : Reaches blocks gh a b) (h2 : Reaches blocks gh b c) : Reaches blocks gh a c := by
  induction h1 with
  | here _ => exact h2
  | back h _ blk hne hblk _ ih => exact Reaches.back h c blk hne hblk (ih h2)

theorem climb_add (blocks : GoMap String Block) (i j : Nat) (h c : String)
    (hc : climb blocks i h = some c) : climb blocks (i + j) h = climb blocks j c := by
  induction i generalizing h with
  | zero => simp [climb] at hc; subst hc; simp
  | succ i ih =>
    rw [Nat.add_right_comm]
    cases hblk : GoMap.get? blocks h with
    | none => simp [climb, hblk] at hc
    | some blk =>
      simp only [climb, hblk] at hc ⊢
      exact ih _ hc

/-- The common-ancestor search of a well-formed node returns the lowest common ancestor,
unless a block with the empty hash makes it fall back to the genesis of the simulation. -/
theorem wf_findCommonAncestor (n : Node) (s : Simulation) (gh : String) (hwf : n.WellFormed gh)
    (x y : String) (hx : GoMap.contains n.Blocks x = true)
    (hy : GoMap.contains n.Blocks y = true) :
    ∃ a, n.findCommonAncestor s x y = some a ∧
      (n.LowestCommonAncestor gh x y a ∨
        (a = s.GenesisBlock.Hash ∧ GoMap.contains n.Blocks "" = true)) := by
  have nx := (wf_genesis_and_nonneg n gh hwf x hx).2 x hx
  have ny := (wf_genesis_and_nonneg n gh hwf y hy).2 y hy
  obtain ⟨c1, k1, i1, w1, r1⟩ := wf_climb n gh hwf (n.work x - n.work y).toNat x hx (by omega)
  obtain ⟨c2, k2, i2, w2, r2⟩ := wf_climb n gh hwf (n.work y - n.work x).toNat y hy (by omega)
  have hm1 : n.work c1 = ((min (n.work x) (n.work y)).toNat : Int) := by omega
  have hm2 : n.work c2 = ((min (n.work x) (n.work y)).toNat : Int) := by omega
  have hfuel : (min (n.work x) (n.work y)).toNat < walkFuel n.Blocks := by
    have := wf_work_lt_walkFuel n gh hwf x hx
    omega
  obtain ⟨a, ha, hcase⟩ := wf_lockstep n gh s.GenesisBlock.Hash hwf _ (walkFuel n.Blocks) c1 c2
    hfuel i1 i2 hm1 hm2
  refine ⟨a, ?_, ?_⟩
  · unfold Node.findCommonAncestor
    simp [wf_entry n gh hwf x hx, wf_entry n gh hwf y hy, k1, k2, ha]
  · rcases hcase with ⟨ca, ra1, ra2, hmax⟩ | hg
    · refine Or.inl ⟨ca, reaches_trans _ _ _ _ _ r1 ra1, reaches_trans _ _ _ _ _ r2 ra2, ?_⟩
      intro c hc rc1 rc2
      obtain ⟨_, q1, q1c⟩ := wf_reaches n gh hwf x c rc1 hx
      obtain ⟨_, q2, q2c⟩ := wf_reaches n gh hwf y c rc2 hy
      have nc := (wf_genesis_and_nonneg n gh hwf x hx).2 c hc
      have key : ∀ (z cz : String) (kz : Nat), GoMap.contains n.Blocks z = true →
          climb n.Blocks kz z = some cz → GoMap.contains n.Blocks cz = true →
          n.work cz = n.work z - kz → n.work c ≤ n.work cz →
          climb n.Blocks (n.work z - n.work c).toNat z = some c → Reaches n.Blocks gh cz c := by
        intro z cz kz hz hk hcz hw hle hcl
        obtain ⟨c', e1, _, _, e4⟩ := wf_climb n gh hwf (n.work cz - n.work c).toNat cz hcz (by omega)
        have hsum : (n.work z - n.work c).toNat = kz + (n.work cz - n.work c).toNat := by omega
        rw [hsum, climb_add _ _ _ _ _ hk, e1] at hcl
        cases hcl
        exact e4
      exact hmax c hc (key x c1 _ hx k1 i1 w1 (by omega) q1c) (key y c2 _ hy k2 i2 w2 (by omega) q2c)
    · exact Or.inr hg

theorem wf_reaches_ne (n : Node) (gh : String) (hwf : n.WellFormed gh) (h a : String) (blk : Block)
    (hne : h ≠ gh) (hblk : GoMap.get? n.Blocks h = some blk)
    (hr : Reaches n.Blocks gh blk.Header.PrevHash a) :
    h ≠ a ∧ n.work a < n.work h ∧ GoMap.contains n.Blocks blk.Header.PrevHash = true ∧
    n.work h = n.work blk.Header.PrevHash + 1 := by
  obtain ⟨hp, hw⟩ := wf_parent n gh hwf h blk hblk hne
  obtain ⟨_, q, _⟩ := wf_reaches n gh hwf _ a hr hp
  refine ⟨?_, by omega, hp, hw⟩
  intro e; subst e; omega

/-- The stale walk towards an ancestor collects the path to it. -/
theorem wf_staleWalk (n : Node) (gh : String) (hwf : n.WellFormed gh) (h a : String)
    (hr : Reaches n.Blocks gh h a) (hin : GoMap.contains n.Blocks h = true) :
    ∀ (fuel : Nat) (acc : List Block) (cnt : Int), n.work h - n.work a < fuel →
      staleWalk n.Blocks a fuel h acc cnt =
        some (acc ++ n.pathTo h a, cnt + (n.work h - n.work a)) := by
  induction hr with
  | here h =>
    intro fuel acc cnt hf
    obtain ⟨f, rfl⟩ : ∃ f, fuel = f + 1 := ⟨fuel - 1, by omega⟩
    simp [staleWalk, Node.pathTo, pathBlocks]
  | back h a blk hne hblk hr ih =>
    intro fuel acc cnt hf
    obtain ⟨hna, hlt, hp, hw⟩ := wf_reaches_ne n gh hwf h a blk hne hblk hr
    obtain ⟨f, rfl⟩ : ∃ f, fuel = f + 1 := ⟨fuel - 1, by omega⟩
    have e : (n.work h - n.work a).toNat = (n.work blk.Header.PrevHash - n.work a).toNat + 1 := by
      omega
    unfold staleWalk
    rw [if_neg hna]
    simp only [hblk]
    rw [ih hp f _ _ (by push_cast at hf; omega)]
    simp only [Node.pathTo, e, pathBlocks, hblk, List.append_assoc, List.singleton_append,
      Option.some.injEq, Prod.mk.injEq, true_and]
    omega

/-- The new-path walk towards an ancestor collects the path to it, oldest block first. -/
theorem wf_newWalk (n : Node) (gh : String) (hwf : n.WellFormed gh) (h a : String)
    (hr : Reaches n.Blocks gh h a) (hin : GoMap.contains n.Blocks h = true) :
    ∀ (fuel : Nat) (acc : List Block), n.work h - n.work a < fuel →
      newWalk n.Blocks a fuel h acc = some ((n.pathTo h a).reverse ++ acc) := by
  induction hr with
  | here h =>
    intro fuel acc hf
    obtain ⟨f, rfl⟩ : ∃ f, fuel = f + 1 := ⟨fuel - 1, by omega⟩
    simp [newWalk, Node.pathTo, pathBlocks]
  | back h a blk hne hblk hr ih =>
    intro fuel acc hf
    obtain ⟨hna, hlt, hp, hw⟩ := wf_reaches_ne n gh hwf h a blk hne hblk hr
    obtain ⟨f, rfl⟩ : ∃ f, fuel = f + 1 := ⟨fuel - 1, by omega⟩
    have e : (n.work h - n.work a).toNat = (n.work blk.Header.PrevHash - n.work a).toNat + 1 := by
      omega
    unfold newWalk
    rw [if_neg hna]
    simp only [hblk]
    rw [ih hp f _ (by push_cast at hf; omega)]
    simp [Node.pathTo, e, pathBlocks, hblk]

/-! ## Mempool reconciliation -/

theorem inNewChain_false (newBlocks : List Block) (tx : Transaction) :
    inNewChain newBlocks tx = false ↔
      ∀ nb ∈ newBlocks, ∀ ntx ∈ nb.Transactions, ntx.ID ≠ tx.ID := by
  unfold inNewChain
  rw [Bool.eq_false_iff]
  simp only [ne_eq, List.any_eq_true, decide_eq_true_eq, not_exists, not_and]
  constructor
  · intro h nb hnb ntx hntx e; exact h nb hnb ntx hntx e.symm
  · intro h nb hnb ntx hntx e; exact h nb hnb ntx hntx e.symm

theorem restoreTx_mono (newBlocks : List Block) (n : Node) (tx : Transaction) (key : String) :
    (GoMap.contains n.Mempool key = true → GoMap.contains (restoreTx newBlocks n tx).Mempool key = true) ∧
    (GoMap.contains n.KnownTx key = true → GoMap.contains (restoreTx newBlocks n tx).KnownTx key = true) := by
  unfold restoreTx
  split
  · exact ⟨id, id⟩
  · split
    · constructor <;> intro h <;> simp [GoMap.contains_set, h]
    · split
      · constructor
        · intro h; simp [GoMap.contains_set, h]
        · exact id
      · exact ⟨id, id⟩

theorem restoreTx_adds (newBlocks : List Block) (n : Node) (tx : Transaction)
    (h : inNewChain newBlocks tx = false) :
    GoMap.contains (restoreTx newBlocks n tx).Mempool tx.ID = true ∧
    GoMap.contains (restoreTx newBlocks n tx).KnownTx tx.ID = true := by
  unfold restoreTx
  rw [h]
  simp only [Bool.false_eq_true, if_false]
  split
  · simp [GoMap.contains_set]
  · rename_i hk
    have hk' : GoMap.contains n.KnownTx tx.ID = true := by simpa using hk
    split
    · simp [GoMap.contains_set, hk']
    · rename_i hm
      exact ⟨by simpa using hm, hk'⟩

theorem restoreTx_fold_mono (newBlocks : List Block) (txs : List Transaction) (n : Node)
    (key : String) :
    (GoMap.contains n.Mempool key = true →
      GoMap.contains (txs.foldl (restoreTx newBlocks) n).Mempool key = true) ∧
    (GoMap.contains n.KnownTx key = true →
      GoMap.contains (txs.foldl (restoreTx newBlocks) n).KnownTx key = true) := by
  induction txs generalizing n with
  | nil => exact ⟨id, id⟩
  | cons tx txs ih =>
    obtain ⟨a1, a2⟩ := restoreTx_mono newBlocks n tx key
    obtain ⟨b1, b2⟩ := ih (restoreTx newBlocks n tx)
    exact ⟨fun h => b1 (a1 h), fun h => b2 (a2 h)⟩

theorem restoreTx_fold_adds (newBlocks : List Block) (txs : List Transaction) (n : Node)
    (tx : Transaction) (hin : tx ∈ txs) (h : inNewChain newBlocks tx = false) :
    GoMap.contains (txs.foldl (restoreTx newBlocks) n).Mempool tx.ID = true ∧
    GoMap.contains (txs.foldl (restoreTx newBlocks) n).KnownTx tx.ID = true := by
  induction txs generalizing n with
  | nil => simp at hin
  | cons t txs ih =>
    rw [List.foldl_cons]
    rcases List.mem_cons.1 hin with e | hin'
    · subst e
      obtain ⟨a1, a2⟩ := restoreTx_adds newBlocks n tx h
      obtain ⟨b1, b2⟩ := restoreTx_fold_mono newBlocks txs (restoreTx newBlocks n tx) tx.ID
      exact ⟨b1 a1, b2 a2⟩
    · exact ih _ hin'

theorem restoreAll_mono (newBlocks staleBlocks : List Block) (n : Node) (key : String) :
    (GoMap.contains n.Mempool key = true →
      GoMap.contains (staleBlocks.foldl
        (fun (acc : Node) sb => sb.Transactions.foldl (restoreTx newBlocks) acc) n).Mempool key = true) ∧
    (GoMap.contains n.KnownTx key = true →
      GoMap.contains (staleBlocks.foldl
        (fun (acc : Node) sb => sb.Transactions.foldl (restoreTx newBlocks) acc) n).KnownTx key = true) := by
  induction staleBlocks generalizing n with
  | nil => exact ⟨id, id⟩
  | cons sb l ih =>
    obtain ⟨a1, a2⟩ := restoreTx_fold_mono newBlocks sb.Transactions n key
    obtain ⟨b1, b2⟩ := ih (sb.Transactions.foldl (restoreTx newBlocks) n)
    exact ⟨fun h => b1 (a1 h), fun h => b2 (a2 h)⟩

theorem restoreAll_adds (newBlocks staleBlocks : List Block) (n : Node) (sb : Block)
    (hsb : sb ∈ staleBlocks) (tx : Transaction) (hin : tx ∈ sb.Transactions)
    (h : inNewChain newBlocks tx = false) :
    GoMap.contains (staleBlocks.foldl
      (fun (acc : Node) sb => sb.Transactions.foldl (restoreTx newBlocks) acc) n).Mempool tx.ID = true ∧
    GoMap.contains (staleBlocks.foldl
      (fun (acc : Node) sb => sb.Transactions.foldl (restoreTx newBlocks) acc) n).KnownTx tx.ID = true := by
  induction staleBlocks generalizing n with
  | nil => simp at hsb
  | cons b0 l ih =>
    rw [List.foldl_cons]
    rcases List.mem_cons.1 hsb with e | hsb'
    · subst e
      obtain ⟨a1, a2⟩ := restoreTx_fold_adds newBlocks sb.Transactions n tx hin h
      obtain ⟨b1, b2⟩ := restoreAll_mono newBlocks l (sb.Transactions.foldl (restoreTx newBlocks) n) tx.ID
      exact ⟨b1 a1, b2 a2⟩
    · exact ih _ hsb'

/-- In a well-formed node the reorg returns when the simulation has the node's genesis. -/
theorem wf_handleReorg_total (n : Node) (s : Simulation) (gh : String) (hwf : n.WellFormed gh)
    (x y : String) (hx : GoMap.contains n.Blocks x = true) (hy : GoMap.contains n.Blocks y = true)
    (hg : s.GenesisBlock.Hash = gh) : ∃ r, n.handleReorg s x y = some r := by
  obtain ⟨a, ha, hcase⟩ := wf_findCommonAncestor n s gh hwf x y hx hy
  have hreach : Reaches n.Blocks gh x a ∧ Reaches n.Blocks gh y a := by
    rcases hcase with ⟨_, r1, r2, _⟩ | ⟨e, _⟩
    · exact ⟨r1, r2⟩
    · rw [e, hg]
      exact ⟨wf_reaches_genesis n gh hwf x hx, wf_reaches_genesis n gh hwf y hy⟩
  have wa := (wf_reaches n gh hwf x a hreach.1 hx).1
  have na := (wf_genesis_and_nonneg n gh hwf x hx).2 a wa
  have fx := wf_work_lt_walkFuel n gh hwf x hx
  have fy := wf_work_lt_walkFuel n gh hwf y hy
  have ha' : ({ n with Stats := { n.Stats with HandledReorgs := n.Stats.HandledReorgs + 1 } } :
      Node).findCommonAncestor s x y = some a := ha
  unfold Node.handleReorg
  simp only [ha']
  by_cases e : a = ""
  · simp [e]
  · simp only [e, if_false]
    rw [wf_staleWalk n gh hwf x a hreach.1 hx _ _ _ (by omega)]
    simp only
    rw [wf_newWalk n gh hwf y a hreach.2 hy _ _ (by omega)]
    exact ⟨_, rfl⟩

/-- In a well-formed node without an empty block hash the reorg restores to the mempool every
transaction of the displaced path that no block of the new path carries. -/
theorem wf_handleReorg_restores (n : Node) (s : Simulation) (gh : String)
    (hwf : n.WellFormed gh) (x y : String) (hx : GoMap.contains n.Blocks x = true)
    (hy : GoMap.contains n.Blocks y = true) (hne : GoMap.contains n.Blocks "" = false) :
    ∃ a r, n.LowestCommonAncestor gh x y a ∧ n.handleReorg s x y = some r ∧
      ∀ sb ∈ n.pathTo x a, ∀ tx ∈ sb.Transactions,
        (∀ nb ∈ n.pathTo y a, ∀ ntx ∈ nb.Transactions, ntx.ID ≠ tx.ID) →
        GoMap.contains r.1.Mempool tx.ID = true ∧ GoMap.contains r.1.KnownTx tx.ID = true := by
  obtain ⟨a, ha, hcase⟩ := wf_findCommonAncestor n s gh hwf x y hx hy
  have hlca : n.LowestCommonAncestor gh x y a := by
    rcases hcase with h | ⟨_, h⟩
    · exact h
    · rw [hne] at h; exact absurd h (by simp)
  obtain ⟨wa, r1, r2, _⟩ := id hlca
  have na := (wf_genesis_and_nonneg n gh hwf x hx).2 a wa
  have fx := wf_work_lt_walkFuel n gh hwf x hx
  have fy := wf_work_lt_walkFuel n gh hwf y hy
  have ha' : ({ n with Stats := { n.Stats with HandledReorgs := n.Stats.HandledReorgs + 1 } } :
      Node).findCommonAncestor s x y = some a := ha
  have e : a ≠ "" := by
    intro e; rw [e, hne] at wa; exact absurd wa (by simp)
  have hrun : ∃ r, n.handleReorg s x y = some r ∧
      ∀ sb ∈ n.pathTo x a, ∀ tx ∈ sb.Transactions,
        (∀ nb ∈ n.pathTo y a, ∀ ntx ∈ nb.Transactions, ntx.ID ≠ tx.ID) →
        GoMap.contains r.1.Mempool tx.ID = true ∧ GoMap.contains r.1.KnownTx tx.ID = true := by
    unfold Node.handleReorg
    simp only [ha', e, if_false]
    rw [wf_staleWalk n gh hwf x a r1 hx _ _ _ (by omega)]
    simp only
    rw [wf_newWalk n gh hwf y a r2 hy _ _ (by omega)]
    refine ⟨_, rfl, ?_⟩
    intro sb hsb tx htx hnew
    simp only [List.nil_append, List.append_nil]
    refine restoreAll_adds _ _ _ sb hsb tx htx ((inNewChain_false _ _).2 ?_)
    intro nb hnb
    exact hnew nb (List.mem_reverse.1 hnb)
  obtain ⟨r, h1, h2⟩ := hrun
  exact ⟨a, r, hlca, h1, h2⟩

/-! ## The invariant of block delivery -/

theorem wf_congr (n n1 : Node) (gh : String) (hb : n1.Blocks = n.Blocks)
    (hc : n1.ChainWork = n.ChainWork) (hwf : n.WellFormed gh) : n1.WellFormed gh := by
  unfold Node.WellFormed at hwf ⊢
  rw [hb, hc]
  exact hwf

theorem work_congr (n n1 : Node) (hc : n1.ChainWork = n.ChainWork) (h : String) :
    n1.work h = n.work h := by
  unfold Node.work
  rw [hc]

theorem inv_of_sameTree (n n1 : Node) (gh : String) (hs : n.sameTree n1) (hi : n.Inv gh) :
    n1.Inv gh := by
  obtain ⟨_, _, hb, hc, ht, ho, hr, hp⟩ := hs
  obtain ⟨i1, i2, i3, i4, i5⟩ := hi
  refine ⟨wf_congr n n1 gh hb hc i1, by rw [hb]; exact i2, by rw [hb, ht]; exact i3, ?_, ?_⟩
  · intro h hh
    rw [work_congr n n1 hc, work_congr n n1 hc, ht]
    exact i4 h (by rw [← hb]; exact hh)
  · rw [ho, hr, hp]; exact i5

theorem parkedCount_nonneg (m : GoMap String (List Block)) : 0 ≤ parkedCount m := by
  induction m with
  | nil => simp [parkedCount]
  | cons p m ih => obtain ⟨k, l⟩ := p; simp only [parkedCount]; omega

theorem GoMap.del_cons {K V : Type} [DecidableEq K] (m : GoMap K V) (k0 k : K) (v : V) :
    GoMap.del ((k0, v) :: m) k = if k0 = k then GoMap.del m k else (k0, v) :: GoMap.del m k := by
  unfold GoMap.del
  by_cases h : k0 = k <;> simp [List.filter, h]

theorem parkedCount_del (m : GoMap String (List Block)) (k : String) :
    parkedCount (GoMap.del m k) + ((GoMap.getD m k []).length : Int) ≤ parkedCount m := by
  induction m with
  | nil => simp [parkedCount, GoMap.del, GoMap.getD, GoMap.get?]
  | cons p m ih =>
    obtain ⟨k0, l⟩ := p
    have hnn := parkedCount_nonneg (GoMap.del m k)
    rw [GoMap.del_cons]
    by_cases h0 : k0 = k
    · have hd : (0 : Int) ≤ ((GoMap.getD m k []).length : Int) := Int.natCast_nonneg _
      have e : GoMap.getD ((k0, l) :: m) k [] = l := by simp [GoMap.getD, GoMap.get?, h0]
      rw [if_pos h0, e]
      simp only [parkedCount]
      omega
    · have e : GoMap.getD ((k0, l) :: m) k [] = GoMap.getD m k [] := by
        simp [GoMap.getD, GoMap.get?, h0]
      rw [if_neg h0, e]
      simp only [parkedCount]
      omega

theorem inv_newNode (id : Int) (isMiner : Bool) (s : Simulation) :
    (NewNode id isMiner s).Inv s.GenesisBlock.Hash := by
  refine ⟨⟨?_, ?_⟩, ?_, ?_, ?_, ?_⟩
  · simp [NewNode, GoMap.get?_set]
  · intro h blk hb hne
    simp [NewNode, GoMap.get?_set, hne, GoMap.get?] at hb
    exact absurd hb.1.symm hne
  · simp [NewNode, GoMap.contains_set]
  · simp [NewNode, GoMap.contains_set]
  · intro h hh
    have : s.GenesisBlock.Hash = h := by
      simpa [NewNode, GoMap.contains_set, GoMap.contains, GoMap.get?] using hh
    rw [← this]
    simp [NewNode]
  · simp [NewNode, parkedCount]

/-- The tree after the insertion of a new block under a known parent. -/
theorem wf_insert (n n1 : Node) (gh : String) (hwf : n.WellFormed gh)
    (hg : GoMap.contains n.Blocks gh = true) (b : Block)
    (hnew : GoMap.contains n.Blocks b.Hash = false)
    (hp : GoMap.contains n.Blocks b.Header.PrevHash = true)
    (hB : n1.Blocks = GoMap.set n.Blocks b.Hash b)
    (hC : n1.ChainWork = GoMap.set n.ChainWork b.Hash (n.work b.Header.PrevHash + 1)) :
    n1.WellFormed gh ∧ (∀ h, GoMap.contains n.Blocks h = true → n1.work h = n.work h) ∧
    n1.work b.Hash = n.work b.Header.PrevHash + 1 ∧
    (∀ h, GoMap.contains n1.Blocks h = true ↔ (h = b.Hash ∨ GoMap.contains n.Blocks h = true)) := by
  have hne : ∀ h, GoMap.contains n.Blocks h = true → h ≠ b.Hash := by
    intro h hh e; rw [e, hnew] at hh; exact absurd hh (by simp)
  have hold : ∀ h, GoMap.contains n.Blocks h = true →
      GoMap.get? n1.ChainWork h = GoMap.get? n.ChainWork h := by
    intro h hh
    rw [hC, GoMap.get?_set, if_neg (hne h hh)]
  have hmem : ∀ h, GoMap.contains n1.Blocks h = true ↔
      (h = b.Hash ∨ GoMap.contains n.Blocks h = true) := by
    intro h
    rw [hB, GoMap.contains_set]
    simp
  refine ⟨⟨?_, ?_⟩, ?_, ?_, hmem⟩
  · rw [hold gh hg]; exact hwf.1
  · intro h blk hb hhg
    rw [hB, GoMap.get?_set] at hb
    by_cases e : h = b.Hash
    · rw [if_pos e] at hb
      cases hb
      refine ⟨(hmem _).2 (Or.inr hp), n.work b.Header.PrevHash, ?_, ?_⟩
      · rw [hold _ hp]; exact wf_entry n gh hwf _ hp
      · rw [e, hC, GoMap.get?_set, if_pos rfl]
    · rw [if_neg e] at hb
      obtain ⟨q1, w, q2, q3⟩ := hwf.2 h blk hb hhg
      refine ⟨(hmem _).2 (Or.inr q1), w, ?_, ?_⟩
      · rw [hold _ q1]; exact q2
      · rw [hold _ ((GoMap.contains_iff _ _).2 ⟨blk, hb⟩)]; exact q3
  · intro h hh
    unfold Node.work GoMap.getD
    rw [hold h hh]
  · unfold Node.work GoMap.getD
    rw [hC, GoMap.get?_set, if_pos rfl]
    rfl

theorem GoMap.del_absent {K V : Type} [DecidableEq K] (m : GoMap K V) (k : K)
    (h : GoMap.get? m k = none) : GoMap.del m k = m := by
  induction m with
  | nil => rfl
  | cons p m ih =>
    obtain ⟨k0, v⟩ := p
    by_cases h0 : k0 = k
    · simp [GoMap.get?, h0] at h
    · simp only [GoMap.get?, h0, if_false] at h
      rw [GoMap.del_cons, if_neg h0, ih h]

/-- The node in which the fork choice of an accepted block is taken. -/
theorem beforeChoice_node (n : Node) (s : Simulation) (b : Block) :
    (beforeChoice n s b).1.ID = n.ID ∧ (beforeChoice n s b).1.IsMiner = n.IsMiner ∧
    (beforeChoice n s b).1.Blocks = GoMap.set n.Blocks b.Hash b ∧
    (beforeChoice n s b).1.ChainWork =
      GoMap.set n.ChainWork b.Hash (n.work b.Header.PrevHash + 1) ∧
    (beforeChoice n s b).1.BestChainTip = n.BestChainTip ∧
    (beforeChoice n s b).1.OrphanBlocks = GoMap.del n.OrphanBlocks b.Hash ∧
    (beforeChoice n s b).1.Stats.ReceivedOrphans = n.Stats.ReceivedOrphans ∧
    (beforeChoice n s b).1.Stats.ProcessedOrphans =
      n.Stats.ProcessedOrphans + ((GoMap.getD n.OrphanBlocks b.Hash []).length : Int) ∧
    (beforeChoice n s b).1.Stats.ReceivedBlocks = n.Stats.ReceivedBlocks + 1 := by
  obtain ⟨t1, t2, t3, t4, t5, t6, t7, t8⟩ := updateMempool_tree b
    (({ n with Stats := { n.Stats with ReceivedBlocks := n.Stats.ReceivedBlocks + 1 } } :
      Node).recordBlock b)
  have t9 : ∀ (b : Block) (m : Node), (m.updateMempoolForNewBlock b).Stats = m.Stats := by
    intro b m
    unfold Node.updateMempoolForNewBlock
    generalize b.Transactions = txs
    induction txs generalizing m with
    | nil => rfl
    | cons tx txs ih => rw [List.foldl_cons, ih]
  have t10 := t9 b (({ n with Stats := { n.Stats with ReceivedBlocks := n.Stats.ReceivedBlocks + 1 } } :
      Node).recordBlock b)
  unfold beforeChoice Node.replayOrphans
  cases ho : GoMap.get? (Node.updateMempoolForNewBlock
      (({ n with Stats := { n.Stats with ReceivedBlocks := n.Stats.ReceivedBlocks + 1 } } :
        Node).recordBlock b) b).OrphanBlocks b.Hash with
  | none =>
    simp only
    rw [t6] at ho
    have ho' : GoMap.get? n.OrphanBlocks b.Hash = none := ho
    refine ⟨t1, t2, t3, t4, t5, ?_, t7, ?_, ?_⟩
    · rw [t6, GoMap.del_absent _ _ ho']; rfl
    · rw [t8]; simp [Node.recordBlock, GoMap.getD, ho']
    · rw [t10]; rfl
  | some orphans =>
    simp only
    rw [t6] at ho
    have ho' : GoMap.get? n.OrphanBlocks b.Hash = some orphans := ho
    refine ⟨t1, t2, t3, t4, t5, ?_, t7, ?_, ?_⟩
    · rw [t6]; rfl
    · rw [t8]; simp [Node.recordBlock, GoMap.getD, ho']
    · rw [t10]; rfl

theorem orphanEvents_congr (nd : Node) (s s1 : Simulation) (h : s1.CurrentTime = s.CurrentTime)
    (l : List Block) (k : Nat) : orphanEvents nd s1 l k = orphanEvents nd s l k := by
  induction l generalizing k with
  | nil => rfl
  | cons o l ih => simp only [orphanEvents, orphanEvent, h, ih]

/-- The orphan replay pushes one event per parked block, with fresh consecutive handles. -/
theorem replayFold_spec (nd : Node) (l : List Block) (s : Simulation) :
    s.sameClock
      (l.foldl (fun (acc : Simulation) ob =>
        acc.ScheduleEventWithPriority acc.CurrentTime EventType.EvReceiveBlock
          (EventData.ReceiveBlockData nd.ID ob) 0) s) ∧
    (l.foldl (fun (acc : Simulation) ob =>
        acc.ScheduleEventWithPriority acc.CurrentTime EventType.EvReceiveBlock
          (EventData.ReceiveBlockData nd.ID ob) 0) s).EventQueue.Perm
      (s.EventQueue ++ orphanEvents nd s l s.NextHandle) ∧
    (l.foldl (fun (acc : Simulation) ob =>
        acc.ScheduleEventWithPriority acc.CurrentTime EventType.EvReceiveBlock
          (EventData.ReceiveBlockData nd.ID ob) 0) s).NextHandle = s.NextHandle + l.length := by
  induction l generalizing s with
  | nil => simp [Simulation.sameClock, orphanEvents]
  | cons ob l ih =>
    obtain ⟨c1, c2, c3⟩ := ih (s.ScheduleEventWithPriority s.CurrentTime EventType.EvReceiveBlock
      (EventData.ReceiveBlockData nd.ID ob) 0)
    rw [List.foldl_cons]
    refine ⟨sameClock_trans (by simp [Simulation.sameClock, Simulation.ScheduleEventWithPriority]) c1,
      ?_, ?_⟩
    · refine c2.trans ?_
      have hp := heapPush_perm s.EventQueue (orphanEvent nd s ob s.NextHandle)
      have e := orphanEvents_congr nd s (s.ScheduleEventWithPriority s.CurrentTime
        EventType.EvReceiveBlock (EventData.ReceiveBlockData nd.ID ob) 0) rfl l (s.NextHandle + 1)
      simp only [Simulation.ScheduleEventWithPriority] at e ⊢
      rw [e]
      simp only [orphanEvents]
      have := List.Perm.append_right (orphanEvents nd s l (s.NextHandle + 1)) hp
      simpa [orphanEvent] using this
    · rw [c3]
      simp [Simulation.ScheduleEventWithPriority]
      omega

theorem replayOrphans_clock (n : Node) (s : Simulation) (b : Block) :
    s.sameClock (n.replayOrphans s b).2 := by
  unfold Node.replayOrphans
  split
  · simp [Simulation.sameClock]
  · exact (replayFold_spec n _ s).1

theorem forkChoice_total (n : Node) (s : Simulation) (b : Block) (gh : String)
    (hwf : n.WellFormed gh) (hb : GoMap.contains n.Blocks b.Hash = true)
    (ht : GoMap.contains n.Blocks n.BestChainTip = true) (hg : s.GenesisBlock.Hash = gh) :
    ∃ r, n.forkChoice s b = some r := by
  unfold Node.forkChoice
  simp only
  split
  · split
    · rename_i hre
      split at hre
      · obtain ⟨r, hr⟩ := wf_handleReorg_total { n with BestChainTip := b.Hash } s gh
          (wf_congr n _ gh rfl rfl hwf) n.BestChainTip b.Hash ht hb hg
        rw [hr] at hre
        exact absurd hre (by simp)
      · exact absurd hre (by simp)
    · exact ⟨_, rfl⟩
  · exact ⟨_, rfl⟩

/-- Block delivery returns in a state of the invariant and keeps the invariant. -/
theorem inv_receiveBlock (n : Node) (s : Simulation) (b : Block) (gh : String) (hi : n.Inv gh)
    (hg : s.GenesisBlock.Hash = gh) : ∃ r, n.ReceiveBlock s b = some r ∧ r.1.Inv gh := by
  obtain ⟨i1, i2, i3, i4, i5⟩ := id hi
  by_cases hk : GoMap.contains n.Blocks b.Hash = true
  · refine ⟨_, receiveBlock_known n s b hk, inv_of_sameTree n _ gh ?_ hi⟩
    simp [Node.sameTree]
  · have hk' : GoMap.contains n.Blocks b.Hash = false := by simpa using hk
    cases hp : GoMap.get? n.Blocks b.Header.PrevHash with
    | none =>
      refine ⟨_, receiveBlock_orphan n s b hk' hp, ⟨i1, i2, i3, i4, ?_⟩⟩
      have h1 := parkedCount_del n.OrphanBlocks b.Header.PrevHash
      simp only [GoMap.set, parkedCount, List.length_append, List.length_singleton]
      push_cast
      omega
    | some parent =>
      by_cases hh : b.Header.Height = parent.Header.Height + 1
      · rw [receiveBlock_accept n s b parent hk' hp hh]
        obtain ⟨f1, f2, f3, f4, f5, f6, f7, f8, _⟩ := beforeChoice_node n s b
        have hpc : GoMap.contains n.Blocks b.Header.PrevHash = true :=
          (GoMap.contains_iff _ _).2 ⟨parent, hp⟩
        obtain ⟨w1, w2, w3, w4⟩ := wf_insert n (beforeChoice n s b).1 gh i1 i2 b hk' hpc f3 f4
        have hb2 : GoMap.contains (beforeChoice n s b).1.Blocks b.Hash = true := (w4 _).2 (Or.inl rfl)
        have ht2 : GoMap.contains (beforeChoice n s b).1.Blocks
            (beforeChoice n s b).1.BestChainTip = true := by
          rw [f5]; exact (w4 _).2 (Or.inr i3)
        have hg2 : (beforeChoice n s b).2.GenesisBlock.Hash = gh := by
          rw [← hg]
          exact congrArg Block.Hash (replayOrphans_clock _ s b).2.2.2
        obtain ⟨r, hr⟩ := forkChoice_total _ _ b gh w1 hb2 ht2 hg2
        refine ⟨r, hr, ?_⟩
        obtain ⟨hs, _⟩ := forkChoice_frame _ _ b r hr
        refine inv_of_sameTree _ r.1 gh hs ?_
        have wtip : (beforeChoice n s b).1.work n.BestChainTip = n.work n.BestChainTip := w2 _ i3
        refine ⟨wf_congr _ _ gh rfl rfl w1, (w4 _).2 (Or.inr i2), ?_, ?_, ?_⟩
        · show GoMap.contains (beforeChoice n s b).1.Blocks
            (if _ then b.Hash else (beforeChoice n s b).1.BestChainTip) = true
          split
          · exact hb2
          · exact ht2
        · intro h hh'
          have hh2 : GoMap.contains (beforeChoice n s b).1.Blocks h = true := hh'
          show (beforeChoice n s b).1.work h ≤ (beforeChoice n s b).1.work
            (if (beforeChoice n s b).1.work (beforeChoice n s b).1.BestChainTip <
                (beforeChoice n s b).1.work b.Hash
              then b.Hash else (beforeChoice n s b).1.BestChainTip)
          rw [f5]
          rcases (w4 h).1 hh2 with e | hin
          · rw [e]
            split
            · exact le_refl _
            · omega
          · have := i4 h hin
            rw [w2 h hin]
            split
            · omega
            · omega
        · show (beforeChoice n s b).1.Stats.ProcessedOrphans +
            parkedCount (beforeChoice n s b).1.OrphanBlocks ≤
            (beforeChoice n s b).1.Stats.ReceivedOrphans
          rw [f6, f7, f8]
          have := parkedCount_del n.OrphanBlocks b.Hash
          omega
      · refine ⟨_, receiveBlock_badHeight n s b parent hk' hp hh, inv_of_sameTree n _ gh ?_ hi⟩
        simp [Node.sameTree]

theorem inv_of_reachable (g : Block) (n : Node) (h : ReachableByBlocks g n) : n.Inv g.Hash := by
  induction h with
  | init id isMiner s hs => rw [← hs]; exact inv_newNode id isMiner s
  | step n s b n1 s1 _ hs hr ih =>
    obtain ⟨r, h1, h2⟩ := inv_receiveBlock n s b g.Hash ih (by rw [hs])
    rw [hr] at h1
    cases h1
    exact h2

/-! ## Block delivery: clock, reachability -/

theorem receiveBlock_clock (n : Node) (s : Simulation) (b : Block) (r : Node × Simulation)
    (h : n.ReceiveBlock s b = some r) : s.sameClock r.2 := by
  have hrefl : s.sameClock s := by simp [Simulation.sameClock]
  by_cases hk : GoMap.contains n.Blocks b.Hash = true
  · rw [receiveBlock_known n s b hk] at h; cases h; exact hrefl
  · have hk' : GoMap.contains n.Blocks b.Hash = false := by simpa using hk
    cases hp : GoMap.get? n.Blocks b.Header.PrevHash with
    | none => rw [receiveBlock_orphan n s b hk' hp] at h; cases h; exact hrefl
    | some parent =>
      by_cases hh : b.Header.Height = parent.Header.Height + 1
      · rw [receiveBlock_accept n s b parent hk' hp hh] at h
        exact sameClock_trans (replayOrphans_clock _ s b) (forkChoice_frame _ _ b r h).2
      · rw [receiveBlock_badHeight n s b parent hk' hp hh] at h; cases h; exact hrefl

theorem reachable_deliver (g : Block) (bs : List Block) (r r1 : Node × Simulation)
    (hr : ReachableByBlocks g r.1) (hg : r.2.GenesisBlock = g)
    (hd : deliverBlocks bs r = some r1) : ReachableByBlocks g r1.1 := by
  induction bs generalizing r with
  | nil => simp [deliverBlocks] at hd; subst hd; exact hr
  | cons b bs ih =>
    unfold deliverBlocks at hd
    cases hb : r.1.ReceiveBlock r.2 b with
    | none => simp [hb] at hd
    | some r2 =>
      simp only [hb] at hd
      refine ih r2 (ReachableByBlocks.step r.1 r.2 b r2.1 r2.2 hr hg hb) ?_ hd
      rw [(receiveBlock_clock _ _ _ _ hb).2.2.2, hg]

theorem reachable_exRun (bs : List Block) (r : Node × Simulation)
    (hd : deliverBlocks bs (exNode, exSim) = some r) : ReachableByBlocks exGenesis r.1 :=
  reachable_deliver exGenesis bs (exNode, exSim) r (ReachableByBlocks.init 0 false exSim rfl) rfl hd

/-- Every block delivery to a reachable node state returns. -/
theorem returns_of_reachable (g : Block) (n : Node) (s : Simulation) (b : Block)
    (hr : ReachableByBlocks g n) (hg : s.GenesisBlock = g) : ∃ r, n.ReceiveBlock s b = some r := by
  obtain ⟨r, h, _⟩ := inv_receiveBlock n s b g.Hash (inv_of_reachable g n hr) (by rw [hg])
  exact ⟨r, h⟩

/-! ## C1, C2, C9: invariants of block delivery -/

/-- C1: in every node state reachable from `NewNode` by `ReceiveBlock` calls with arbitrary
blocks, the genesis has chain work 0 and every block other than the genesis has its parent in
`blocks`, with a chain work one above the parent's.  Every further `ReceiveBlock` call on such
a state returns, so the sequences of calls are not restricted. -/
theorem C1_block_tree_well_formed (g : Block) (n : Node) (hr : ReachableByBlocks g n) :
    (n.work g.Hash = 0 ∧
      ∀ h blk, GoMap.get? n.Blocks h = some blk → h ≠ g.Hash →
        GoMap.contains n.Blocks blk.Header.PrevHash = true ∧
        n.work h = n.work blk.Header.PrevHash + 1) ∧
    ∀ (s : Simulation) (b : Block), s.GenesisBlock = g → ∃ r, n.ReceiveBlock s b = some r := by
  obtain ⟨hwf, _⟩ := inv_of_reachable g n hr
  exact ⟨⟨work_of_get? n _ _ hwf.1, fun h blk hb hne => wf_parent n g.Hash hwf h blk hb hne⟩,
    fun s b hg => returns_of_reachable g n s b hr hg⟩

/-- C1 at the node that received the two chains of the examples. -/
theorem C1_block_tree_well_formed_witness :
    ReachableByBlocks exGenesis (exRun [exA1, exB1, exB2]).1 ∧
    (((exRun [exA1, exB1, exB2]).1.work exGenesis.Hash = 0 ∧
      ∀ h blk, GoMap.get? (exRun [exA1, exB1, exB2]).1.Blocks h = some blk → h ≠ exGenesis.Hash →
        GoMap.contains (exRun [exA1, exB1, exB2]).1.Blocks blk.Header.PrevHash = true ∧
        (exRun [exA1, exB1, exB2]).1.work h =
          (exRun [exA1, exB1, exB2]).1.work blk.Header.PrevHash + 1) ∧
    ∀ (s : Simulation) (b : Block), s.GenesisBlock = exGenesis →
      ∃ r, (exRun [exA1, exB1, exB2]).1.ReceiveBlock s b = some r) :=
  ⟨reachable_exRun [exA1, exB1, exB2] _ rfl,
    C1_block_tree_well_formed exGenesis _ (reachable_exRun [exA1, exB1, exB2] _ rfl)⟩

/-- C2: in every node state reachable from `NewNode` by `ReceiveBlock` calls, the best tip is a
block and no block has more chain work than the best tip. -/
theorem C2_best_tip_maximal (g : Block) (n : Node) (hr : ReachableByBlocks g n) :
    GoMap.contains n.Blocks n.BestChainTip = true ∧
    ∀ h, GoMap.contains n.Blocks h = true → n.work h ≤ n.work n.BestChainTip := by
  obtain ⟨_, _, h3, h4, _⟩ := inv_of_reachable g n hr
  exact ⟨h3, h4⟩

/-- C2 at the node that received the two chains of the examples. -/
theorem C2_best_tip_maximal_witness :
    ReachableByBlocks exGenesis (exRun [exA1, exB1, exB2]).1 ∧
    (GoMap.contains (exRun [exA1, exB1, exB2]).1.Blocks (exRun [exA1, exB1, exB2]).1.BestChainTip = true ∧
      ∀ h, GoMap.contains (exRun [exA1, exB1, exB2]).1.Blocks h = true →
        (exRun [exA1, exB1, exB2]).1.work h ≤
          (exRun [exA1, exB1, exB2]).1.work (exRun [exA1, exB1, exB2]).1.BestChainTip) :=
  ⟨reachable_exRun [exA1, exB1, exB2] _ rfl,
    C2_best_tip_maximal exGenesis _ (reachable_exRun [exA1, exB1, exB2] _ rfl)⟩

/-- C9: in every node state reachable from `NewNode` by `ReceiveBlock` calls the processed
orphans do not exceed the received orphans; hence over any set of such nodes the sum of the
processed orphans does not exceed the sum of the received orphans. -/
theorem C9_processed_le_received (g : Block) (nodes : List Node)
    (hr : ∀ m ∈ nodes, ReachableByBlocks g m) :
    (∀ m ∈ nodes, m.Stats.ProcessedOrphans ≤ m.Stats.ReceivedOrphans) ∧
    (nodes.map (fun m => m.Stats.ProcessedOrphans)).sum ≤
      (nodes.map (fun m => m.Stats.ReceivedOrphans)).sum := by
  have key : ∀ m ∈ nodes, m.Stats.ProcessedOrphans ≤ m.Stats.ReceivedOrphans := by
    intro m hm
    obtain ⟨_, _, _, _, h5⟩ := inv_of_reachable g m (hr m hm)
    have := parkedCount_nonneg m.OrphanBlocks
    omega
  exact ⟨key, List.sum_le_sum key⟩

/-- C9 at two nodes: one that parked a block and replayed it, one that only parked it. -/
theorem C9_processed_le_received_witness :
    (∀ m ∈ [(exRun [exA2, exA1]).1, (exRun [exA2]).1], ReachableByBlocks exGenesis m) ∧
    ((∀ m ∈ [(exRun [exA2, exA1]).1, (exRun [exA2]).1],
        m.Stats.ProcessedOrphans ≤ m.Stats.ReceivedOrphans) ∧
      ([(exRun [exA2, exA1]).1, (exRun [exA2]).1].map (fun m => m.Stats.ProcessedOrphans)).sum ≤
        ([(exRun [exA2, exA1]).1, (exRun [exA2]).1].map (fun m => m.Stats.ReceivedOrphans)).sum) :=
  have hr : ∀ m ∈ [(exRun [exA2, exA1]).1, (exRun [exA2]).1], ReachableByBlocks exGenesis m := by
    intro m hm
    rcases List.mem_cons.1 hm with e | hm
    · rw [e]; exact reachable_exRun [exA2, exA1] _ rfl
    · rcases List.mem_cons.1 hm with e | hm
      · rw [e]; exact reachable_exRun [exA2] _ rfl
      · simp at hm
  ⟨hr, C9_processed_le_received exGenesis _ hr⟩

/-! ## C3: fork choice -/

/-- C3: when `ReceiveBlock` accepts a block `b` (hash not in `blocks`, parent in `blocks`,
height one above the parent's), the best tip afterwards is `b.Hash` if the chain work of the
parent plus one exceeds the chain work of the old tip, and is the old tip otherwise, so a block
of equal work never displaces the tip.  In a reachable node state the call returns. -/
theorem C3_fork_choice (n : Node) (s : Simulation) (b parent : Block)
    (hnew : GoMap.contains n.Blocks b.Hash = false)
    (hp : GoMap.get? n.Blocks b.Header.PrevHash = some parent)
    (hh : b.Header.Height = parent.Header.Height + 1) :
    (∀ r, n.ReceiveBlock s b = some r →
      r.1.BestChainTip =
        if n.work n.BestChainTip < n.work b.Header.PrevHash + 1 then b.Hash
        else n.BestChainTip) ∧
    (∀ g, ReachableByBlocks g n → s.GenesisBlock = g → ∃ r, n.ReceiveBlock s b = some r) := by
  refine ⟨?_, fun g hr hg => returns_of_reachable g n s b hr hg⟩
  intro r hr
  rw [receiveBlock_accept n s b parent hnew hp hh] at hr
  obtain ⟨⟨_, _, _, _, ht, _⟩, _⟩ := forkChoice_frame _ _ b r hr
  obtain ⟨_, _, _, f4, f5, _⟩ := beforeChoice_node n s b
  have wb : (beforeChoice n s b).1.work b.Hash = n.work b.Header.PrevHash + 1 := by
    unfold Node.work GoMap.getD
    rw [f4, GoMap.get?_set, if_pos rfl]
    rfl
  rw [ht]
  show (if (beforeChoice n s b).1.work (beforeChoice n s b).1.BestChainTip <
      (beforeChoice n s b).1.work b.Hash then b.Hash else (beforeChoice n s b).1.BestChainTip) = _
  rw [f5, wb]
  by_cases e : n.BestChainTip = b.Hash
  · rw [e]; simp
  · have wt : (beforeChoice n s b).1.work n.BestChainTip = n.work n.BestChainTip := by
      unfold Node.work GoMap.getD
      rw [f4, GoMap.get?_set, if_neg e]
    rw [wt]

/-- C3 for the second block of chain B, which ties with the tip `blockA1` of equal work. -/
theorem C3_fork_choice_witness :
    (GoMap.contains (exRun [exA1]).1.Blocks exB1.Hash = false ∧
      GoMap.get? (exRun [exA1]).1.Blocks exB1.Header.PrevHash = some exGenesis ∧
      exB1.Header.Height = exGenesis.Header.Height + 1) ∧
    ((∀ r, (exRun [exA1]).1.ReceiveBlock (exRun [exA1]).2 exB1 = some r →
      r.1.BestChainTip =
        if (exRun [exA1]).1.work (exRun [exA1]).1.BestChainTip <
            (exRun [exA1]).1.work exB1.Header.PrevHash + 1 then exB1.Hash
        else (exRun [exA1]).1.BestChainTip) ∧
    (∀ g, ReachableByBlocks g (exRun [exA1]).1 → (exRun [exA1]).2.GenesisBlock = g →
      ∃ r, (exRun [exA1]).1.ReceiveBlock (exRun [exA1]).2 exB1 = some r)) :=
  ⟨⟨by decide, by decide, by decide⟩,
    C3_fork_choice (exRun [exA1]).1 (exRun [exA1]).2 exB1 exGenesis (by decide) (by decide)
      (by decide)⟩

/-! ## C7: orphan parking -/

/-- C7: for every node state and block `b` whose hash and whose parent hash are not in
`blocks`, `ReceiveBlock` appends `b` to the end of `orphan_blocks[b.prev_hash]`, increments
the received blocks and the received orphans by one, leaves `blocks`, `chain_work`, the best
tip, the mempool and `known_tx` unchanged, and returns the simulation as it was: no event is
pushed on the queue. -/
theorem C7_orphan_parking (n : Node) (s : Simulation) (b : Block)
    (hnew : GoMap.contains n.Blocks b.Hash = false)
    (hp : GoMap.contains n.Blocks b.Header.PrevHash = false) :
    ∃ n1, n.ReceiveBlock s b = some (n1, s) ∧
      GoMap.get? n1.OrphanBlocks b.Header.PrevHash =
        some (GoMap.getD n.OrphanBlocks b.Header.PrevHash [] ++ [b]) ∧
      (∀ k, k ≠ b.Header.PrevHash → GoMap.get? n1.OrphanBlocks k = GoMap.get? n.OrphanBlocks k) ∧
      n1.Stats.ReceivedBlocks = n.Stats.ReceivedBlocks + 1 ∧
      n1.Stats.ReceivedOrphans = n.Stats.ReceivedOrphans + 1 ∧
      n1.Blocks = n.Blocks ∧ n1.ChainWork = n.ChainWork ∧ n1.BestChainTip = n.BestChainTip ∧
      n1.Mempool = n.Mempool ∧ n1.KnownTx = n.KnownTx := by
  have hp' : GoMap.get? n.Blocks b.Header.PrevHash = none := by
    cases h : GoMap.get? n.Blocks b.Header.PrevHash with
    | none => rfl
    | some p => simp [GoMap.contains, h] at hp
  refine ⟨_, receiveBlock_orphan n s b hnew hp', ?_, ?_, rfl, rfl, rfl, rfl, rfl, rfl, rfl⟩
  · simp [GoMap.get?_set]
  · intro k hk
    simp [GoMap.get?_set, hk]

/-- C7 for the height-2 block of chain A delivered to a fresh node. -/
theorem C7_orphan_parking_witness :
    (GoMap.contains exNode.Blocks exA2.Hash = false ∧
      GoMap.contains exNode.Blocks exA2.Header.PrevHash = false) ∧
    ∃ n1, exNode.ReceiveBlock exSim exA2 = some (n1, exSim) ∧
      GoMap.get? n1.OrphanBlocks exA2.Header.PrevHash =
        some (GoMap.getD exNode.OrphanBlocks exA2.Header.PrevHash [] ++ [exA2]) ∧
      (∀ k, k ≠ exA2.Header.PrevHash →
        GoMap.get? n1.OrphanBlocks k = GoMap.get? exNode.OrphanBlocks k) ∧
      n1.Stats.ReceivedBlocks = exNode.Stats.ReceivedBlocks + 1 ∧
      n1.Stats.ReceivedOrphans = exNode.Stats.ReceivedOrphans + 1 ∧
      n1.Blocks = exNode.Blocks ∧ n1.ChainWork = exNode.ChainWork ∧
      n1.BestChainTip = exNode.BestChainTip ∧
      n1.Mempool = exNode.Mempool ∧ n1.KnownTx = exNode.KnownTx :=
  ⟨⟨by decide, by decide⟩, C7_orphan_parking exNode exSim exA2 (by decide) (by decide)⟩

/-! ## C6: delivering a block twice -/

/-- C6 fails as stated: a second delivery counts the block again in `ReceivedBlocks`, and
a block without known parent is parked a second time. -/
theorem C6_twice_differs :
    (deliverBlocks [exA1, exA1] (exNode, exSim)).map Prod.fst ≠
      (deliverBlocks [exA1] (exNode, exSim)).map Prod.fst ∧
    (deliverBlocks [exA1, exA1] (exNode, exSim)).map (fun r => r.1.Stats.ReceivedBlocks) = some 2 ∧
    (deliverBlocks [exA1] (exNode, exSim)).map (fun r => r.1.Stats.ReceivedBlocks) = some 1 ∧
    (deliverBlocks [exA2, exA2] (exNode, exSim)).map (fun r => r.1.OrphanBlocks) =
      some [("blockA1", [exA2, exA2])] ∧
    (deliverBlocks [exA2] (exNode, exSim)).map (fun r => r.1.OrphanBlocks) =
      some [("blockA1", [exA2])] := by
  decide

/-- C6, amended: when the hash or the parent hash of `b` is in `blocks`, a second
`ReceiveBlock(b)` right after the first leaves the node and the simulation as the first
delivery left them, except that `ReceivedBlocks` is one higher.  In a reachable node state
the first call returns. -/
theorem C6_redelivery (n : Node) (s : Simulation) (b : Block) (r1 : Node × Simulation)
    (h1 : n.ReceiveBlock s b = some r1)
    (hk : GoMap.contains n.Blocks b.Hash = true ∨
      GoMap.contains n.Blocks b.Header.PrevHash = true) :
    r1.1.ReceiveBlock r1.2 b =
      some ({ r1.1 with
              Stats := { r1.1.Stats with ReceivedBlocks := r1.1.Stats.ReceivedBlocks + 1 } },
            r1.2) ∧
    (∀ g, ReachableByBlocks g n → s.GenesisBlock = g → ∃ r, n.ReceiveBlock s b = some r) := by
  refine ⟨?_, fun g hr hg => returns_of_reachable g n s b hr hg⟩
  by_cases hb : GoMap.contains n.Blocks b.Hash = true
  · rw [receiveBlock_known n s b hb] at h1
    cases h1
    exact receiveBlock_known _ s b hb
  · have hb' : GoMap.contains n.Blocks b.Hash = false := by simpa using hb
    have hpc : GoMap.contains n.Blocks b.Header.PrevHash = true := by
      rcases hk with h | h
      · exact absurd h hb
      · exact h
    obtain ⟨parent, hp⟩ := (GoMap.contains_iff _ _).1 hpc
    by_cases hh : b.Header.Height = parent.Header.Height + 1
    · rw [receiveBlock_accept n s b parent hb' hp hh] at h1
      obtain ⟨⟨_, _, hB, _⟩, _⟩ := forkChoice_frame _ _ b r1 h1
      obtain ⟨_, _, f3, _⟩ := beforeChoice_node n s b
      refine receiveBlock_known r1.1 r1.2 b ?_
      rw [hB]
      show GoMap.contains (beforeChoice n s b).1.Blocks b.Hash = true
      rw [f3, GoMap.contains_set]
      simp
    · rw [receiveBlock_badHeight n s b parent hb' hp hh] at h1
      cases h1
      exact receiveBlock_badHeight _ s b parent hb' hp hh

/-- C6, amended, at the first block of chain A delivered to a fresh node. -/
theorem C6_redelivery_witness :
    (exNode.ReceiveBlock exSim exA1 = some (exRun [exA1]) ∧
      (GoMap.contains exNode.Blocks exA1.Hash = true ∨
        GoMap.contains exNode.Blocks exA1.Header.PrevHash = true)) ∧
    ((exRun [exA1]).1.ReceiveBlock (exRun [exA1]).2 exA1 =
      some ({ (exRun [exA1]).1 with
              Stats := { (exRun [exA1]).1.Stats with
                         ReceivedBlocks := (exRun [exA1]).1.Stats.ReceivedBlocks + 1 } },
            (exRun [exA1]).2) ∧
    (∀ g, ReachableByBlocks g exNode → exSim.GenesisBlock = g →
      ∃ r, exNode.ReceiveBlock exSim exA1 = some r)) :=
  ⟨⟨rfl, Or.inr (by decide)⟩,
    C6_redelivery exNode exSim exA1 (exRun [exA1]) rfl (Or.inr (by decide))⟩

/-! ## C8: orphan replay -/

theorem pushed_trans (s s1 s2 : Simulation) (l1 l2 : List Event) (h1 : s.pushed s1 l1)
    (h2 : s1.pushed s2 l2) : s.pushed s2 (l1 ++ l2) := by
  unfold Simulation.pushed at *
  rw [← List.append_assoc]
  exact h2.trans (List.Perm.append_right l2 h1)

theorem relayBlock_fold_pushed (b : Block) (l : List Int) (acc : Node × Simulation) :
    ∃ evs, acc.2.pushed (l.foldl (relayBlockStep b) acc).2 evs ∧
      ∀ e ∈ evs, ¬ e.deliversBlockTo acc.1.ID := by
  induction l generalizing acc with
  | nil => exact ⟨[], by simp [Simulation.pushed], by simp⟩
  | cons t l ih =>
    obtain ⟨evs, h1, h2⟩ := ih (relayBlockStep b acc t)
    have hid : (relayBlockStep b acc t).1.ID = acc.1.ID := (relayBlockStep_frame b acc t).1.1
    rw [hid] at h2
    rw [List.foldl_cons]
    by_cases ht : t = acc.1.ID
    · have e : relayBlockStep b acc t = acc := by simp [relayBlockStep, ht]
      rw [e] at h1 ⊢
      exact ⟨evs, h1, h2⟩
    · have hstep : ∃ ev, acc.2.pushed (relayBlockStep b acc t).2 [ev] ∧
          ¬ ev.deliversBlockTo acc.1.ID := by
        refine ⟨{ Timestamp := acc.2.CurrentTime + (CalculateNetworkDelay acc.2.Cfg acc.2.Rng).1,
                  Type_ := EventType.EvReceiveBlock, Data := EventData.ReceiveBlockData t b,
                  Priority := EventType.EvReceiveBlock.toInt, handle := acc.2.NextHandle }, ?_, ?_⟩
        · unfold Simulation.pushed relayBlockStep
          rw [if_neg ht]
          exact heapPush_perm _ _
        · simp only [Event.deliversBlockTo, EventData.ReceiveBlockData.injEq, not_and, not_exists]
          intro _ blk hb
          exact absurd hb ht
      obtain ⟨ev, g1, g2⟩ := hstep
      refine ⟨[ev] ++ evs, pushed_trans _ _ _ _ _ g1 h1, ?_⟩
      intro e he
      rcases List.mem_append.1 he with h | h
      · rw [List.mem_singleton.1 h]; exact g2
      · exact h2 e h

theorem restartMining_pushed (n : Node) (s : Simulation) (id : Int) :
    ∃ evs, s.pushed (n.restartMining s).2 evs ∧ ∀ e ∈ evs, ¬ e.deliversBlockTo id := by
  have hnil : s.pushed s [] := by simp [Simulation.pushed]
  unfold Node.restartMining
  split
  · exact ⟨[], hnil, by simp⟩
  · simp only
    split
    · unfold Node.scheduleMiningAttempt
      simp only [Option.isSome_none, Bool.false_eq_true, if_false]
      refine ⟨[_], heapPush_perm _ _, ?_⟩
      intro e he
      rw [List.mem_singleton.1 he]
      simp [Event.deliversBlockTo]
    · exact ⟨[], hnil, by simp⟩

theorem forkChoice_pushed (n : Node) (s : Simulation) (b : Block) (r : Node × Simulation)
    (h : n.forkChoice s b = some r) :
    ∃ evs, s.pushed r.2 evs ∧ ∀ e ∈ evs, ¬ e.deliversBlockTo n.ID := by
  unfold Node.forkChoice at h
  simp only at h
  split at h
  · split at h
    · exact absurd h (by simp)
    · rename_i n2 s2 hre
      cases h
      have hre2 : n2.ID = n.ID ∧ s2.EventQueue = s.EventQueue := by
        split at hre
        · obtain ⟨h1, _, h3, _⟩ := handleReorg_frame _ _ _ _ _ hre
          exact ⟨h1.1, h3⟩
        · cases hre
          exact ⟨rfl, rfl⟩
      obtain ⟨e1, p1, q1⟩ := relayBlock_fold_pushed b (GoMap.keys s2.Nodes) (n2, s2)
      obtain ⟨e2, p2, q2⟩ := restartMining_pushed (n2.relayBlock s2 b).1 (n2.relayBlock s2 b).2 n.ID
      refine ⟨e1 ++ e2, ?_, ?_⟩
      · have := pushed_trans _ _ _ _ _ p1 p2
        unfold Simulation.pushed at this ⊢
        rw [← hre2.2]
        exact this
      · intro e he
        rcases List.mem_append.1 he with h | h
        · have := q1 e h
          rw [hre2.1] at this
          exact this
        · exact q2 e h
  · cases h
    exact relayBlock_fold_pushed b (GoMap.keys s.Nodes) (n, s)

theorem orphanEvents_node (n n1 : Node) (h : n1.ID = n.ID) (s : Simulation) (l : List Block)
    (k : Nat) : orphanEvents n1 s l k = orphanEvents n s l k := by
  induction l generalizing k with
  | nil => rfl
  | cons o l ih => simp only [orphanEvents, orphanEvent, h, ih]

/-- C8: when `ReceiveBlock` accepts a block `b` and `orphan_blocks[b.hash]` holds the list
`L`, then afterwards `orphan_blocks` has no entry for `b.hash`, the processed orphans have
grown by the length of `L`, and the events pushed on the queue are, for each block of `L`, one
`ReceiveBlock` event for this node at the current time with priority 0, and otherwise only
events that are not block deliveries to this node.  In a reachable node state the call
returns. -/
theorem C8_orphan_replay (n : Node) (s : Simulation) (b parent : Block) (L : List Block)
    (hnew : GoMap.contains n.Blocks b.Hash = false)
    (hp : GoMap.get? n.Blocks b.Header.PrevHash = some parent)
    (hh : b.Header.Height = parent.Header.Height + 1)
    (hL : GoMap.get? n.OrphanBlocks b.Hash = some L) :
    (∀ r, n.ReceiveBlock s b = some r →
      GoMap.get? r.1.OrphanBlocks b.Hash = none ∧
      r.1.Stats.ProcessedOrphans = n.Stats.ProcessedOrphans + (L.length : Int) ∧
      ∃ others, r.2.EventQueue.Perm (s.EventQueue ++ orphanEvents n s L s.NextHandle ++ others) ∧
        ∀ e ∈ others, ¬ e.deliversBlockTo n.ID) ∧
    (∀ g, ReachableByBlocks g n → s.GenesisBlock = g → ∃ r, n.ReceiveBlock s b = some r) := by
  refine ⟨?_, fun g hr hg => returns_of_reachable g n s b hr hg⟩
  intro r hr
  rw [receiveBlock_accept n s b parent hnew hp hh] at hr
  obtain ⟨⟨_, _, _, _, _, ho, _, hpo⟩, _⟩ := forkChoice_frame _ _ b r hr
  obtain ⟨f1, _, _, _, _, f6, _, f8, _⟩ := beforeChoice_node n s b
  obtain ⟨others, q1, q2⟩ := forkChoice_pushed _ _ b r hr
  refine ⟨?_, ?_, others, ?_, ?_⟩
  · rw [ho]
    show GoMap.get? (beforeChoice n s b).1.OrphanBlocks b.Hash = none
    rw [f6, GoMap.get?_del, if_pos rfl]
  · rw [hpo]
    show (beforeChoice n s b).1.Stats.ProcessedOrphans = _
    rw [f8]
    simp [GoMap.getD, hL]
  · have hq : (beforeChoice n s b).2.EventQueue.Perm
        (s.EventQueue ++ orphanEvents n s L s.NextHandle) := by
      have ht := (updateMempool_tree b
        (({ n with Stats := { n.Stats with ReceivedBlocks := n.Stats.ReceivedBlocks + 1 } } :
          Node).recordBlock b))
      have hL2 : GoMap.get? (Node.updateMempoolForNewBlock
          (({ n with Stats := { n.Stats with ReceivedBlocks := n.Stats.ReceivedBlocks + 1 } } :
            Node).recordBlock b) b).OrphanBlocks b.Hash = some L := by
        rw [ht.2.2.2.2.2.1]; exact hL
      unfold beforeChoice Node.replayOrphans
      simp only [hL2]
      rw [← orphanEvents_node n _ ht.1 s L s.NextHandle]
      exact (replayFold_spec _ L s).2.1
    unfold Simulation.pushed at q1
    exact q1.trans (List.Perm.append_right others hq)
  · rw [f1] at q2
    exact q2

/-- C8 for the height-2 block of chain A delivered before its height-1 parent. -/
theorem C8_orphan_replay_witness :
    (GoMap.contains (exRun [exA2]).1.Blocks exA1.Hash = false ∧
      GoMap.get? (exRun [exA2]).1.Blocks exA1.Header.PrevHash = some exGenesis ∧
      exA1.Header.Height = exGenesis.Header.Height + 1 ∧
      GoMap.get? (exRun [exA2]).1.OrphanBlocks exA1.Hash = some [exA2]) ∧
    ((∀ r, (exRun [exA2]).1.ReceiveBlock (exRun [exA2]).2 exA1 = some r →
      GoMap.get? r.1.OrphanBlocks exA1.Hash = none ∧
      r.1.Stats.ProcessedOrphans = (exRun [exA2]).1.Stats.ProcessedOrphans + (([exA2] : List Block).length : Int) ∧
      ∃ others, r.2.EventQueue.Perm ((exRun [exA2]).2.EventQueue ++
          orphanEvents (exRun [exA2]).1 (exRun [exA2]).2 [exA2] (exRun [exA2]).2.NextHandle ++ others) ∧
        ∀ e ∈ others, ¬ e.deliversBlockTo (exRun [exA2]).1.ID) ∧
    (∀ g, ReachableByBlocks g (exRun [exA2]).1 → (exRun [exA2]).2.GenesisBlock = g →
      ∃ r, (exRun [exA2]).1.ReceiveBlock (exRun [exA2]).2 exA1 = some r)) :=
  ⟨⟨by decide, by decide, by decide, by decide⟩,
    C8_orphan_replay (exRun [exA2]).1 (exRun [exA2]).2 exA1 exGenesis [exA2] (by decide)
      (by decide) (by decide) (by decide)⟩

/-! ## C5: reorg and the mempool -/

theorem pathTo_congr (n n1 : Node) (hb : n1.Blocks = n.Blocks) (hc : n1.ChainWork = n.ChainWork)
    (h a : String) : n1.pathTo h a = n.pathTo h a := by
  unfold Node.pathTo
  rw [hb, work_congr n n1 hc, work_congr n n1 hc]

theorem lca_congr (n n1 : Node) (hb : n1.Blocks = n.Blocks) (hc : n1.ChainWork = n.ChainWork)
    (gh x y a : String) (h : n.LowestCommonAncestor gh x y a) :
    n1.LowestCommonAncestor gh x y a := by
  unfold Node.LowestCommonAncestor at h ⊢
  rw [hb, work_congr n n1 hc]
  simp only [work_congr n n1 hc]
  exact h

/-- The fork choice in the reorg case: the tip moves to `b`, the reorg runs from the old tip,
then the block is relayed and mining restarts. -/
theorem forkChoice_reorg (n : Node) (s : Simulation) (b : Block) (r0 : Node × Simulation)
    (hmove : n.work n.BestChainTip < n.work b.Hash) (hfork : b.Header.PrevHash ≠ n.BestChainTip)
    (hre : ({ n with BestChainTip := b.Hash } : Node).handleReorg s n.BestChainTip b.Hash = some r0) :
    n.forkChoice s b =
      some ((r0.1.relayBlock r0.2 b).1.restartMining (r0.1.relayBlock r0.2 b).2) := by
  unfold Node.forkChoice
  have hmove' : GoMap.getD n.ChainWork n.BestChainTip 0 < GoMap.getD n.ChainWork b.Hash 0 := hmove
  simp only [hmove', if_true, ne_eq, hfork, not_false_eq_true, hre]

/-- C5: in a well-formed node none of whose blocks has the empty hash (every hash of a run is
a digest of 64 hex digits), when an accepted block `b` with a non-empty hash moves the best
tip and its parent is not the old tip,
`ReceiveBlock(b)` returns, and afterwards every transaction of every block on the old path
(from the old tip back to, but excluding, the lowest common ancestor) whose id occurs in no
block of the new path (from `b` back to, but excluding, that ancestor) is a key of the mempool
and of `known_tx`. -/
theorem C5_reorg_restores (n : Node) (s : Simulation) (b parent : Block) (gh : String)
    (hwf : n.WellFormed gh) (htip : GoMap.contains n.Blocks n.BestChainTip = true)
    (hempty : GoMap.contains n.Blocks "" = false) (hbe : b.Hash ≠ "")
    (hnew : GoMap.contains n.Blocks b.Hash = false)
    (hp : GoMap.get? n.Blocks b.Header.PrevHash = some parent)
    (hh : b.Header.Height = parent.Header.Height + 1)
    (hmove : n.work n.BestChainTip < n.work b.Header.PrevHash + 1)
    (hfork : b.Header.PrevHash ≠ n.BestChainTip) :
    ∃ n1 s1 a, n.ReceiveBlock s b = some (n1, s1) ∧ n1.BestChainTip = b.Hash ∧
      n1.LowestCommonAncestor gh n.BestChainTip b.Hash a ∧
      ∀ sb ∈ n1.pathTo n.BestChainTip a, ∀ tx ∈ sb.Transactions,
        (∀ nb ∈ n1.pathTo b.Hash a, ∀ ntx ∈ nb.Transactions, ntx.ID ≠ tx.ID) →
        GoMap.contains n1.Mempool tx.ID = true ∧ GoMap.contains n1.KnownTx tx.ID = true := by
  obtain ⟨_, _, f3, f4, f5, _⟩ := beforeChoice_node n s b
  have hg := (wf_genesis_and_nonneg n gh hwf _ htip).1
  have hpc : GoMap.contains n.Blocks b.Header.PrevHash = true := (GoMap.contains_iff _ _).2 ⟨parent, hp⟩
  obtain ⟨w1, w2, w3, w4⟩ := wf_insert n (beforeChoice n s b).1 gh hwf hg b hnew hpc f3 f4
  have hx : GoMap.contains (beforeChoice n s b).1.Blocks n.BestChainTip = true :=
    (w4 _).2 (Or.inr htip)
  have hy : GoMap.contains (beforeChoice n s b).1.Blocks b.Hash = true := (w4 _).2 (Or.inl rfl)
  have he : GoMap.contains (beforeChoice n s b).1.Blocks "" = false := by
    rw [Bool.eq_false_iff]
    intro h
    rcases (w4 _).1 h with e | e
    · exact hbe e.symm
    · rw [hempty] at e; exact absurd e (by simp)
  obtain ⟨a, r0, hlca, hre, hrest⟩ := wf_handleReorg_restores
    { (beforeChoice n s b).1 with BestChainTip := b.Hash } (beforeChoice n s b).2 gh
    (wf_congr _ _ gh rfl rfl w1) n.BestChainTip b.Hash hx hy he
  have hmove2 : (beforeChoice n s b).1.work (beforeChoice n s b).1.BestChainTip <
      (beforeChoice n s b).1.work b.Hash := by
    rw [f5, w2 _ htip, w3]; exact hmove
  have hfork2 : b.Header.PrevHash ≠ (beforeChoice n s b).1.BestChainTip := by rw [f5]; exact hfork
  have hre2 : ({ (beforeChoice n s b).1 with BestChainTip := b.Hash } : Node).handleReorg
      (beforeChoice n s b).2 (beforeChoice n s b).1.BestChainTip b.Hash = some r0 := by
    rw [f5]; exact hre
  have hrun := forkChoice_reorg _ _ b r0 hmove2 hfork2 hre2
  obtain ⟨t0, _⟩ := handleReorg_frame _ _ _ _ _ hre
  obtain ⟨t1, p1, _⟩ := relayBlock_frame r0.1 r0.2 b
  obtain ⟨t2, p2, _⟩ := restartMining_frame (r0.1.relayBlock r0.2 b).1 (r0.1.relayBlock r0.2 b).2
  have tt := sameTree_trans t0 (sameTree_trans t1 t2)
  have pp := samePool_trans p1 p2
  obtain ⟨_, _, hB, hC, hT, _⟩ := tt
  refine ⟨((r0.1.relayBlock r0.2 b).1.restartMining (r0.1.relayBlock r0.2 b).2).1,
    ((r0.1.relayBlock r0.2 b).1.restartMining (r0.1.relayBlock r0.2 b).2).2, a, ?_, hT,
    lca_congr _ _ hB hC _ _ _ _ hlca, ?_⟩
  · rw [receiveBlock_accept n s b parent hnew hp hh, hrun]
  · intro sb hsb tx htx hnewpath
    rw [pathTo_congr _ _ hB hC] at hsb
    rw [pp.1, pp.2]
    refine hrest sb hsb tx htx ?_
    intro nb hnb
    exact hnewpath nb (by rw [pathTo_congr _ _ hB hC]; exact hnb)

/-- C5 for chains of length 2 and 3 above the genesis, with `exTx` only in the
shorter chain: the delivery of the third block of chain B puts `exTx` back in the mempool. -/
theorem C5_reorg_restores_witness :
    ((exRun [exA1, exA2, exB1, exB2]).1.WellFormed "genesis" ∧
      GoMap.contains (exRun [exA1, exA2, exB1, exB2]).1.Blocks
        (exRun [exA1, exA2, exB1, exB2]).1.BestChainTip = true ∧
      GoMap.contains (exRun [exA1, exA2, exB1, exB2]).1.Blocks "" = false ∧ exB3.Hash ≠ "" ∧
      GoMap.contains (exRun [exA1, exA2, exB1, exB2]).1.Blocks exB3.Hash = false ∧
      GoMap.get? (exRun [exA1, exA2, exB1, exB2]).1.Blocks exB3.Header.PrevHash = some exB2 ∧
      exB3.Header.Height = exB2.Header.Height + 1 ∧
      (exRun [exA1, exA2, exB1, exB2]).1.work (exRun [exA1, exA2, exB1, exB2]).1.BestChainTip <
        (exRun [exA1, exA2, exB1, exB2]).1.work exB3.Header.PrevHash + 1 ∧
      exB3.Header.PrevHash ≠ (exRun [exA1, exA2, exB1, exB2]).1.BestChainTip) ∧
    (∃ n1 s1 a,
      (exRun [exA1, exA2, exB1, exB2]).1.ReceiveBlock (exRun [exA1, exA2, exB1, exB2]).2 exB3 =
        some (n1, s1) ∧
      n1.BestChainTip = exB3.Hash ∧
      n1.LowestCommonAncestor "genesis" (exRun [exA1, exA2, exB1, exB2]).1.BestChainTip exB3.Hash a ∧
      ∀ sb ∈ n1.pathTo (exRun [exA1, exA2, exB1, exB2]).1.BestChainTip a, ∀ tx ∈ sb.Transactions,
        (∀ nb ∈ n1.pathTo exB3.Hash a, ∀ ntx ∈ nb.Transactions, ntx.ID ≠ tx.ID) →
        GoMap.contains n1.Mempool tx.ID = true ∧ GoMap.contains n1.KnownTx tx.ID = true) ∧
    GoMap.contains (exRun [exA1, exA2, exB1, exB2]).1.Mempool exTx.ID = false ∧
    GoMap.contains (exRun [exA1, exA2, exB1, exB2, exB3]).1.Mempool exTx.ID = true :=
  have hwf : (exRun [exA1, exA2, exB1, exB2]).1.WellFormed "genesis" :=
    (inv_of_reachable exGenesis _ (reachable_exRun [exA1, exA2, exB1, exB2] _ rfl)).1
  ⟨⟨hwf, by decide, by decide, by decide, by decide, by decide, by decide, by decide, by decide⟩,
    C5_reorg_restores (exRun [exA1, exA2, exB1, exB2]).1 (exRun [exA1, exA2, exB1, exB2]).2 exB3
      exB2 "genesis" hwf (by decide) (by decide) (by decide) (by decide) (by decide) (by decide)
      (by decide) (by decide),
    by decide, by decide⟩

/-! ## C4: the mempool and the best path -/

/-- C4 on the code: chain A (`blockA1` carrying `exTx`) is displaced by chain B and then
overtakes it again; after the five deliveries `exTx` is a key of the mempool although it is in
`blockA1` on the path from the best tip `blockA3` back to the genesis. -/
theorem C4_mempool_tx_on_best_path :
    deliverBlocks [exA1, exB1, exB2, exA2, exA3] (exNode, exSim) =
      some (exRun [exA1, exB1, exB2, exA2, exA3]) ∧
    GoMap.contains (exRun [exA1, exB1]).1.Mempool exTx.ID = false ∧
    GoMap.contains (exRun [exA1, exB1, exB2]).1.Mempool exTx.ID = true ∧
    (exRun [exA1, exB1, exB2, exA2, exA3]).1.BestChainTip = "blockA3" ∧
    (exRun [exA1, exB1, exB2, exA2, exA3]).1.pathToGenesis "blockA3" =
      [exA3, exA2, exA1, exGenesis] ∧
    exTx ∈ exA1.Transactions ∧
    GoMap.contains (exRun [exA1, exB1, exB2, exA2, exA3]).1.Mempool exTx.ID = true := by
  refine ⟨rfl, by decide, by decide, by decide, by decide, by decide, by decide⟩

/-! ## The handlers keep the clock -/

theorem sameClock_refl (s : Simulation) : s.sameClock s := by simp [Simulation.sameClock]

theorem relayTx_fold_clock (tx : Transaction) (l : List Int) (acc : Node × Simulation) :
    acc.2.sameClock (l.foldl (relayTxStep tx) acc).2 := by
  induction l generalizing acc with
  | nil => exact sameClock_refl _
  | cons t l ih =>
    refine sameClock_trans ?_ (ih _)
    unfold relayTxStep
    split <;> simp [Simulation.sameClock, Simulation.ScheduleEvent,
      Simulation.ScheduleEventWithPriority]

theorem receiveTransaction_clock (n : Node) (s : Simulation) (tx : Transaction) :
    s.sameClock (n.ReceiveTransaction s tx).2 := by
  unfold Node.ReceiveTransaction
  simp only
  split
  · exact sameClock_refl _
  · refine sameClock_trans ?_ (relayTx_fold_clock tx _ _)
    split
    · split
      · exact scheduleMiningAttempt_clock _ _
      · exact sameClock_refl _
    · exact sameClock_refl _

theorem attemptMining_clock (n : Node) (s : Simulation) (parent : String) (height : Int) :
    s.sameClock (n.AttemptMining s parent height).2 := by
  unfold Node.AttemptMining
  split
  · exact sameClock_refl _
  · split
    · exact sameClock_refl _
    · split
      · exact sameClock_refl _
      · simp only
        split <;> simp [Simulation.sameClock]

theorem processFoundBlock_clock (n : Node) (s : Simulation) (blk : Block) (event : Event)
    (r : Node × Simulation) (h : n.ProcessFoundBlock s blk event = some r) : s.sameClock r.2 := by
  unfold Node.ProcessFoundBlock at h
  split at h
  · cases h; exact sameClock_refl _
  · split at h
    · exact sameClock_trans (by simp [Simulation.sameClock]) (receiveBlock_clock _ _ _ _ h)
    · cases h; exact sameClock_refl _

theorem handleInjectTransaction_clock (s s1 : Simulation) (h : s.handleInjectTransaction = some s1) :
    s.sameClock s1 := by
  unfold Simulation.handleInjectTransaction at h
  split at h
  · cases h; exact sameClock_refl _
  · split at h
    · cases h; exact sameClock_refl _
    · simp only at h
      split at h
      · exact absurd h (by simp)
      · split at h
        · split at h <;> cases h <;>
            simp [Simulation.sameClock, Simulation.ScheduleEvent,
              Simulation.ScheduleEventWithPriority]
        · cases h
          simp [Simulation.sameClock, Simulation.ScheduleEventWithPriority]

theorem sameClock_setNodes (s s1 : Simulation) (m : GoMap Int Node) (h : s.sameClock s1) :
    s.sameClock { s1 with Nodes := m } := h

theorem dispatch_clock (s s1 : Simulation) (event : Event) (h : s.dispatch event = some s1) :
    s.sameClock s1 := by
  unfold Simulation.dispatch at h
  split at h
  · exact handleInjectTransaction_clock s s1 h
  · split at h
    · cases h
      exact sameClock_setNodes _ _ _ (receiveTransaction_clock _ _ _)
    · cases h; exact sameClock_refl _
  · split at h
    · cases h
      exact sameClock_setNodes _ _ _ (attemptMining_clock _ _ _ _)
    · cases h; exact sameClock_refl _
  · split at h
    · split at h
      · rename_i r hr
        cases h
        exact sameClock_setNodes _ _ _ (processFoundBlock_clock _ s _ _ r hr)
      · exact absurd h (by simp)
    · cases h; exact sameClock_refl _
  · split at h
    · split at h
      · rename_i r hr
        cases h
        exact sameClock_setNodes _ _ _ (receiveBlock_clock _ s _ r hr)
      · exact absurd h (by simp)
    · cases h; exact sameClock_refl _
  · exact absurd h (by simp)

/-! ## `heap.Pop` returns the element at index 0 -/

theorem swap_length (q : EventQueue) (i j : Nat) : (EventQueue.Swap q i j).length = q.length := by
  unfold EventQueue.Swap
  split <;> simp

theorem swap_getElem_other (q : EventQueue) (i j k : Nat) (hi : k ≠ i) (hj : k ≠ j) :
    (EventQueue.Swap q i j)[k]? = q[k]? := by
  unfold EventQueue.Swap
  split
  · rw [List.getElem?_set, if_neg (fun e => hj e.symm), List.getElem?_set,
      if_neg (fun e => hi e.symm)]
  · rfl

theorem heapDownLoop_last (fuel : Nat) (q : EventQueue) (i n : Nat) :
    (heapDownLoop fuel q i n)[n]? = q[n]? ∧ (heapDownLoop fuel q i n).length = q.length := by
  induction fuel generalizing q i with
  | zero => exact ⟨rfl, rfl⟩
  | succ fuel ih =>
    unfold heapDownLoop
    simp only
    by_cases hn : n ≤ 2 * i + 1
    · rw [if_pos hn]; exact ⟨rfl, rfl⟩
    · rw [if_neg hn]
      have hj : (if 2 * i + 1 + 1 < n ∧ EventQueue.Less q (2 * i + 1 + 1) (2 * i + 1) = true
          then 2 * i + 1 + 1 else 2 * i + 1) < n := by
        split
        · rename_i hc; exact hc.1
        · omega
      generalize (if 2 * i + 1 + 1 < n ∧ EventQueue.Less q (2 * i + 1 + 1) (2 * i + 1) = true
          then 2 * i + 1 + 1 else 2 * i + 1) = j at hj
      by_cases hl : EventQueue.Less q j i = false
      · rw [if_pos hl]; exact ⟨rfl, rfl⟩
      · rw [if_neg hl]
        obtain ⟨h1, h2⟩ := ih (EventQueue.Swap q i j) j
        exact ⟨h1.trans (swap_getElem_other q _ _ n (by omega) (by omega)),
          h2.trans (swap_length q _ _)⟩

theorem heapPop_head (q : EventQueue) (e : Event) (q1 : EventQueue)
    (h : heapPop q = some (e, q1)) : q.head? = some e := by
  unfold heapPop at h
  simp only at h
  obtain ⟨h1, h2⟩ := heapDownLoop_last (q.length - 1) (EventQueue.Swap q 0 (q.length - 1)) 0
    (q.length - 1)
  split at h
  · rename_i e0 hl
    cases h
    unfold heapDown at hl
    rw [List.getLast?_eq_getElem?, h2, swap_length, h1] at hl
    cases q with
    | nil => simp [EventQueue.Swap] at hl
    | cons a t =>
      have hlast : (a :: t)[(a :: t).length - 1]? = some ((a :: t).getLast (by simp)) := by
        rw [← List.getLast?_eq_getElem?, List.getLast?_eq_getLast]
      unfold EventQueue.Swap at hl
      simp only [List.getElem?_cons_zero, hlast] at hl
      rw [List.getElem?_set] at hl
      simp only [List.length_set, if_true] at hl
      have : (a :: t).length - 1 < (a :: t).length := by simp
      simp only [this, if_true, Option.some.injEq] at hl
      simp [hl]
  · exact absurd h (by simp)

/-! ## C10: the clock of `Run` -/

/-- A dispatching round pops the first event of the queue, which lies before the horizon, and
leaves the clock at the later of the old time and the time of that event. -/
theorem loopStep_dispatched (s s2 : Simulation) (h : s.loopStep = LoopStep.dispatched s2) :
    ∃ first, s.EventQueue.head? = some first ∧
      first.Timestamp - s.StartTime < s.Cfg.SimulationDuration ∧
      s2.CurrentTime = max first.Timestamp s.CurrentTime ∧
      s2.StartTime = s.StartTime ∧ s2.Cfg = s.Cfg := by
  unfold Simulation.loopStep at h
  split at h
  · exact absurd h (by simp)
  · rename_i first rest hq
    simp only at h
    split at h
    · exact absurd h (by simp)
    · rename_i hlt
      split at h
      · exact absurd h (by simp)
      · rename_i event0 queue hpop
        split at h
        · exact absurd h (by simp)
        · rename_i s3 hd
          cases h
          have hh := heapPop_head _ _ _ hpop
          rw [hq] at hh
          simp only [List.head?_cons, Option.some.injEq] at hh
          subst hh
          obtain ⟨c1, c2, c3, _⟩ := dispatch_clock _ _ _ hd
          refine ⟨first, by rw [hq]; rfl, by omega, ?_, c2, c3⟩
          rw [c1]
          show (if first.Timestamp < s.CurrentTime then { first with Timestamp := s.CurrentTime }
            else first).Timestamp = max first.Timestamp s.CurrentTime
          split
          · rename_i hc; simp only; omega
          · omega

/-- A stopping round leaves the state as it is (empty queue) or sets the clock to the horizon
and leaves the queue as it is. -/
theorem loopStep_stopped (s s1 : Simulation) (h : s.loopStep = LoopStep.stopped s1) :
    s1 = s ∨ (s1 = { s with CurrentTime := s.StartTime + s.Cfg.SimulationDuration } ∧
      ∃ first, s.EventQueue.head? = some first ∧
        s.Cfg.SimulationDuration ≤ first.Timestamp - s.StartTime) := by
  unfold Simulation.loopStep at h
  split at h
  · cases h; exact Or.inl rfl
  · rename_i first rest hq
    simp only at h
    split at h
    · rename_i hge
      cases h
      exact Or.inr ⟨rfl, first, by rw [hq]; rfl, hge⟩
    · split at h
      · exact absurd h (by simp)
      · split at h <;> exact absurd h (by simp)

/-- At the head of every round the clock lies before the horizon. -/
theorem loop_within_horizon (s0 s : Simulation) (hD : 0 < s0.Cfg.SimulationDuration)
    (h0 : s0.CurrentTime = s0.StartTime) (hr : LoopReaches s0 s) :
    s.CurrentTime - s.StartTime < s.Cfg.SimulationDuration := by
  induction hr with
  | entry => omega
  | round s s1 _ hstep ih =>
    obtain ⟨first, _, h2, h3, h4, h5⟩ := loopStep_dispatched s s1 hstep
    rw [h3, h4, h5]
    omega

/-- C10: for a positive `SimulationDuration` and a main loop entered with the clock at the
start time, every round of the main loop of `Run` (an event dispatch with its clamp, or the
duration stop that sets the clock to start time plus duration) leaves the current time at or
after the time before the round, whatever the timestamps of the queued events. -/
theorem C10_clock_monotone (s0 s s1 : Simulation) (hD : 0 < s0.Cfg.SimulationDuration)
    (h0 : s0.CurrentTime = s0.StartTime) (hr : LoopReaches s0 s)
    (hstep : s.loopStep = LoopStep.dispatched s1 ∨ s.loopStep = LoopStep.stopped s1) :
    s.CurrentTime ≤ s1.CurrentTime := by
  rcases hstep with h | h
  · obtain ⟨first, _, _, h3, _⟩ := loopStep_dispatched s s1 h
    rw [h3]
    exact le_max_right _ _
  · rcases loopStep_stopped s s1 h with e | ⟨e, _⟩
    · rw [e]
    · have := loop_within_horizon s0 s hD h0 hr
      rw [e]
      show s.CurrentTime ≤ s.StartTime + s.Cfg.SimulationDuration
      omega

theorem setupNodes_clock (nodeIDs : List Int) (l : List Nat) (s : Simulation) (c : Int) :
    s.sameClock (setupNodes nodeIDs l s c) := by
  induction l generalizing s c with
  | nil => exact sameClock_refl _
  | cons i l ih =>
    unfold setupNodes
    simp only
    split
    · exact sameClock_trans (by simp [Simulation.sameClock]) (ih _ _)
    · exact sameClock_trans (by simp [Simulation.sameClock]) (ih _ _)

theorem connectPeers_clock (i k : Int) (fuel : Nat) (s s1 : Simulation) (pc ac : Int)
    (h : connectPeers i k fuel s pc ac = some s1) : s.sameClock s1 := by
  induction fuel generalizing s pc ac with
  | zero => simp [connectPeers] at h
  | succ fuel ih =>
    unfold connectPeers at h
    by_cases hc0 : pc < k
    · rw [if_pos hc0] at h
      cases hn : GoMap.get? s.Nodes i with
      | none => simp [hn] at h
      | some ni =>
        simp only [hn] at h
        by_cases hc : (ni.Peers.length : Int) < s.Cfg.NumNodes - 1
        · rw [if_pos hc] at h
          cases hr : s.Rng.Intn s.Cfg.NumNodes with
          | none => simp [hr] at h
          | some pr =>
            obtain ⟨peerID, r1⟩ := pr
            simp only [hr] at h
            by_cases hp : peerID ≠ i ∧ contains ni.Peers peerID = false
            · rw [if_pos hp] at h
              cases hq : GoMap.get? (GoMap.set s.Nodes i (ni.AddPeer peerID)) peerID with
              | none => simp [hq] at h
              | some np =>
                simp only [hq] at h
                have h3 : s.sameClock (addReverseEdge
                    { ({ s with Rng := r1 } : Simulation) with
                      Nodes := GoMap.set s.Nodes i (ni.AddPeer peerID) } peerID i np) := by
                  unfold addReverseEdge
                  split <;> simp [Simulation.sameClock]
                split at h
                · cases h; exact h3
                · exact sameClock_trans h3 (ih _ _ _ h)
            · rw [if_neg hp] at h
              split at h
              · cases h; simp [Simulation.sameClock]
              · exact sameClock_trans (by simp [Simulation.sameClock]) (ih _ _ _ h)
        · rw [if_neg hc] at h
          cases h; exact sameClock_refl _
    · rw [if_neg hc0] at h
      cases h; exact sameClock_refl _

theorem setupPeers_clock (l : List Nat) (s s1 : Simulation) (h : setupPeers l s = some s1) :
    s.sameClock s1 := by
  induction l generalizing s with
  | nil => simp [setupPeers] at h; subst h; exact sameClock_refl _
  | cons i l ih =>
    unfold setupPeers at h
    split at h
    · exact absurd h (by simp)
    · split at h
      · exact absurd h (by simp)
      · rename_i s2 hc
        exact sameClock_trans
          (sameClock_trans (by simp [Simulation.sameClock]) (connectPeers_clock _ _ _ _ _ _ _ hc))
          (ih _ h)

/-- The part of `Run` before the main loop keeps the clock: a simulation made by
`NewSimulation` enters the main loop with the current time at the start time. -/
theorem runStart_clock (s s1 : Simulation) (h : s.runStart = some s1) : s.sameClock s1 := by
  unfold Simulation.runStart at h
  split at h
  · exact absurd h (by simp)
  · rename_i s2 hs
    have h2 : s.sameClock s2 := by
      unfold Simulation.Setup at hs
      split at hs
      · exact absurd hs (by simp)
      · exact sameClock_trans
          (sameClock_trans (by simp [Simulation.sameClock]) (setupNodes_clock _ _ _ _))
          (setupPeers_clock _ _ _ hs)
    split at h
    · cases h
      exact sameClock_trans h2
        (by simp [Simulation.sameClock, Simulation.ScheduleEvent,
          Simulation.ScheduleEventWithPriority])
    · cases h; exact h2

theorem newSimulation_entry (cfg : Config) (t : Int) (rng : Rand)
    (sha : BlockHeader → List String → String) (s0 : Simulation)
    (h : (NewSimulation cfg t rng sha).runStart = some s0) :
    s0.CurrentTime = s0.StartTime ∧ s0.Cfg = cfg := by
  obtain ⟨h1, h2, h3, _⟩ := runStart_clock _ _ h
  rw [h1, h2, h3]
  exact ⟨rfl, rfl⟩

set_option maxRecDepth 100000 in
/-- C10 on the simulation of `exCfg`: the third round of the main loop, which dispatches a
transaction relayed at the current instant. -/
theorem C10_clock_monotone_witness :
    (0 < exEntry.Cfg.SimulationDuration ∧ exEntry.CurrentTime = exEntry.StartTime ∧
      LoopReaches exEntry (exAfterRounds 2 exEntry) ∧
      ((exAfterRounds 2 exEntry).loopStep = LoopStep.dispatched (exAfterRounds 3 exEntry) ∨
        (exAfterRounds 2 exEntry).loopStep = LoopStep.stopped (exAfterRounds 3 exEntry))) ∧
    (exAfterRounds 2 exEntry).CurrentTime ≤ (exAfterRounds 3 exEntry).CurrentTime :=
  have hreach : LoopReaches exEntry (exAfterRounds 2 exEntry) :=
    LoopReaches.round (exAfterRounds 1 exEntry) (exAfterRounds 2 exEntry)
      (LoopReaches.round exEntry (exAfterRounds 1 exEntry) LoopReaches.entry rfl) rfl
  ⟨⟨by decide, by decide, hreach, Or.inl rfl⟩,
    C10_clock_monotone exEntry (exAfterRounds 2 exEntry) (exAfterRounds 3 exEntry) (by decide)
      (by decide) hreach (Or.inl rfl)⟩

/-! ## C14: transaction dedup -/

/-- C14: for every node state and transaction `tx` whose id is in `known_tx`,
`ReceiveTransaction(tx)` increments the received transactions by one and changes nothing
else: the mempool, `known_tx`, the mining flags and all other counters are as before, and the
simulation, with its event queue, is returned as it was. -/
theorem C14_tx_dedup (n : Node) (s : Simulation) (tx : Transaction)
    (hk : GoMap.contains n.KnownTx tx.ID = true) :
    n.ReceiveTransaction s tx =
      ({ n with Stats := { n.Stats with ReceivedTx := n.Stats.ReceivedTx + 1 } }, s) := by
  unfold Node.ReceiveTransaction
  simp only [hk, if_true]

/-- C14 for a second delivery of `exTx` to node 0 of `exSim3`. -/
theorem C14_tx_dedup_witness :
    GoMap.contains (exNode.ReceiveTransaction exSim3 exTx).1.KnownTx exTx.ID = true ∧
    (exNode.ReceiveTransaction exSim3 exTx).1.ReceiveTransaction
        (exNode.ReceiveTransaction exSim3 exTx).2 exTx =
      ({ (exNode.ReceiveTransaction exSim3 exTx).1 with
          Stats := { (exNode.ReceiveTransaction exSim3 exTx).1.Stats with
            ReceivedTx := (exNode.ReceiveTransaction exSim3 exTx).1.Stats.ReceivedTx + 1 } },
        (exNode.ReceiveTransaction exSim3 exTx).2) :=
  ⟨by decide, C14_tx_dedup _ _ exTx (by decide)⟩

/-! ## C15: transaction flooding -/

/-- A round of the relay loop for the node itself does nothing. -/
theorem relayTxStep_self (tx : Transaction) (acc : Node × Simulation) :
    relayTxStep tx acc acc.1.ID = acc := by
  simp [relayTxStep]

/-- The relay loop of `ReceiveTransaction` leaves the node as it is but for the relayed
counter, and pushes one event per target other than the node itself. -/
theorem relayTx_fold_spec (tx : Transaction) (l : List Int) (acc : Node × Simulation) :
    (l.foldl (relayTxStep tx) acc).1 =
      { acc.1 with
        Stats := { acc.1.Stats with
          RelayedTx := acc.1.Stats.RelayedTx +
            ((l.filter (fun t => decide (t ≠ acc.1.ID))).length : Int) } } ∧
    (l.foldl (relayTxStep tx) acc).2.EventQueue.Perm
      (acc.2.EventQueue ++
        relayTxEvents tx acc.2.Cfg acc.2.CurrentTime (l.filter (fun t => decide (t ≠ acc.1.ID)))
          acc.2.Rng acc.2.NextHandle) := by
  induction l generalizing acc with
  | nil => simp [relayTxEvents]
  | cons t l ih =>
    rw [List.foldl_cons]
    by_cases ht : t = acc.1.ID
    · subst ht
      rw [relayTxStep_self]
      obtain ⟨h1, h2⟩ := ih acc
      simp only [ne_eq, not_true_eq_false, decide_False, Bool.false_eq_true,
        not_false_eq_true, List.filter_cons_of_neg]
      exact ⟨h1, h2⟩
    · obtain ⟨h1, h2⟩ := ih (relayTxStep tx acc t)
      have hstep : relayTxStep tx acc t =
          ({ acc.1 with Stats := { acc.1.Stats with RelayedTx := acc.1.Stats.RelayedTx + 1 } },
            ({ acc.2 with Rng := (CalculateNetworkDelay acc.2.Cfg acc.2.Rng).2 } :
              Simulation).ScheduleEvent
              (acc.2.CurrentTime + (CalculateNetworkDelay acc.2.Cfg acc.2.Rng).1)
              EventType.EvReceiveTransaction (EventData.ReceiveTransactionData t tx)) := by
        simp [relayTxStep, ht]
      rw [hstep] at h1 h2
      rw [hstep]
      have hf : (t :: l).filter (fun t => decide (t ≠ acc.1.ID)) =
          t :: l.filter (fun t => decide (t ≠ acc.1.ID)) := by
        simp [ht]
      rw [hf]
      refine ⟨?_, ?_⟩
      · rw [h1]
        simp only [List.length_cons, Nat.cast_add, Nat.cast_one]
        congr 2
        omega
      · refine h2.trans ?_
        simp only [Simulation.ScheduleEvent, Simulation.ScheduleEventWithPriority, relayTxEvents]
        have hp := heapPush_perm acc.2.EventQueue
          { Timestamp := acc.2.CurrentTime + (CalculateNetworkDelay acc.2.Cfg acc.2.Rng).1,
            Type_ := EventType.EvReceiveTransaction,
            Data := EventData.ReceiveTransactionData t tx,
            Priority := EventType.EvReceiveTransaction.toInt, handle := acc.2.NextHandle }
        have := List.Perm.append_right
          (relayTxEvents tx acc.2.Cfg acc.2.CurrentTime
            (l.filter (fun t => decide (t ≠ acc.1.ID)))
            (CalculateNetworkDelay acc.2.Cfg acc.2.Rng).2 (acc.2.NextHandle + 1)) hp
        simpa using this

theorem relayTxEvents_data (tx : Transaction) (cfg : Config) (now : Int) (l : List Int)
    (r : Rand) (h : Nat) :
    (relayTxEvents tx cfg now l r h).map (fun e => e.Data) =
      l.map (fun t => EventData.ReceiveTransactionData t tx) := by
  induction l generalizing r h with
  | nil => rfl
  | cons t l ih => simp [relayTxEvents, ih]

theorem relayTxEvents_each (tx : Transaction) (cfg : Config) (now : Int) (l : List Int)
    (r : Rand) (h : Nat) :
    ∀ e ∈ relayTxEvents tx cfg now l r h,
      e.Type_ = EventType.EvReceiveTransaction ∧
      e.Priority = EventType.EvReceiveTransaction.toInt ∧
      ∃ r1, e.Timestamp = now + (CalculateNetworkDelay cfg r1).1 := by
  induction l generalizing r h with
  | nil => simp [relayTxEvents]
  | cons t l ih =>
    intro e he
    simp only [relayTxEvents, List.mem_cons] at he
    rcases he with he | he
    · subst he
      exact ⟨rfl, rfl, r, rfl⟩
    · exact ih _ _ e he

/-- C15: for every node `n` and transaction `tx` whose id is not in `known_tx`,
`ReceiveTransaction(tx)` puts `tx` in the mempool and its id in `known_tx`, increments the
added-to-mempool counter by one and the relayed counter by the number of the other node ids,
and pushes, besides at most one mining-attempt event of its own, exactly one
`ReceiveTransaction` event carrying `tx` for each node id of the simulation other than `n.ID`
(none for `n.ID`), each at the current time plus a drawn delay and with the default
priority. -/
theorem C15_tx_flooding (n : Node) (s : Simulation) (tx : Transaction)
    (hk : GoMap.contains n.KnownTx tx.ID = false) :
    (n.ReceiveTransaction s tx).1.Mempool = GoMap.set n.Mempool tx.ID tx ∧
    GoMap.get? (n.ReceiveTransaction s tx).1.Mempool tx.ID = some tx ∧
    (n.ReceiveTransaction s tx).1.KnownTx = GoMap.set n.KnownTx tx.ID true ∧
    GoMap.contains (n.ReceiveTransaction s tx).1.KnownTx tx.ID = true ∧
    (n.ReceiveTransaction s tx).1.Stats.AddedToMempool = n.Stats.AddedToMempool + 1 ∧
    (n.ReceiveTransaction s tx).1.Stats.RelayedTx = n.Stats.RelayedTx +
      (((GoMap.keys s.Nodes).filter (fun t => decide (t ≠ n.ID))).length : Int) ∧
    ((GoMap.keys s.Nodes).filter (fun t => decide (t ≠ n.ID))).Nodup ∧
    n.ID ∉ (GoMap.keys s.Nodes).filter (fun t => decide (t ≠ n.ID)) ∧
    (∀ t, t ∈ (GoMap.keys s.Nodes).filter (fun t => decide (t ≠ n.ID)) ↔
      GoMap.contains s.Nodes t = true ∧ t ≠ n.ID) ∧
    ∃ own relay,
      (n.ReceiveTransaction s tx).2.EventQueue.Perm (s.EventQueue ++ own ++ relay) ∧
      own.length ≤ 1 ∧ (∀ e ∈ own, e.Type_ = EventType.EvAttemptMining) ∧
      relay = relayTxEvents tx s.Cfg s.CurrentTime
        ((GoMap.keys s.Nodes).filter (fun t => decide (t ≠ n.ID))) s.Rng
        (s.NextHandle + own.length) ∧
      relay.map (fun e => e.Data) =
        ((GoMap.keys s.Nodes).filter (fun t => decide (t ≠ n.ID))).map
          (fun t => EventData.ReceiveTransactionData t tx) ∧
      ∀ e ∈ relay, e.Type_ = EventType.EvReceiveTransaction ∧
        e.Priority = EventType.EvReceiveTransaction.toInt ∧
        ∃ r1, e.Timestamp = s.CurrentTime + (CalculateNetworkDelay s.Cfg r1).1 := by
  have hnd : ((GoMap.keys s.Nodes).filter (fun t => decide (t ≠ n.ID))).Nodup :=
    List.Nodup.filter _ (List.nodup_dedup _)
  have hself : n.ID ∉ (GoMap.keys s.Nodes).filter (fun t => decide (t ≠ n.ID)) := by
    simp
  have hmem : ∀ t, t ∈ (GoMap.keys s.Nodes).filter (fun t => decide (t ≠ n.ID)) ↔
      GoMap.contains s.Nodes t = true ∧ t ≠ n.ID := by
    intro t
    rw [List.mem_filter, GoMap.contains_iff_mem_keys, GoMap.keys, List.mem_dedup]
    simp
  unfold Node.ReceiveTransaction
  simp only [hk, Bool.false_eq_true, if_false]
  split
  · split
    · -- the delivery triggers a mining attempt
      rename_i hc _
      obtain ⟨f1, f2⟩ := relayTx_fold_spec tx (GoMap.keys s.Nodes)
        ({ n with
            Mempool := GoMap.set n.Mempool tx.ID tx, KnownTx := GoMap.set n.KnownTx tx.ID true,
            Stats := { n.Stats with ReceivedTx := n.Stats.ReceivedTx + 1,
                                    AddedToMempool := n.Stats.AddedToMempool + 1 },
            isWaitingToMine := false },
          s.ScheduleEvent s.CurrentTime EventType.EvAttemptMining
            (EventData.AttemptMiningData n.ID n.BestChainTip
              (GoMap.getD n.ChainWork n.BestChainTip 0 + 1)))
      have hs : ({ n with
            Mempool := GoMap.set n.Mempool tx.ID tx, KnownTx := GoMap.set n.KnownTx tx.ID true,
            Stats := { n.Stats with ReceivedTx := n.Stats.ReceivedTx + 1,
                                    AddedToMempool := n.Stats.AddedToMempool + 1 } } :
          Node).scheduleMiningAttempt s =
          s.ScheduleEvent s.CurrentTime EventType.EvAttemptMining
            (EventData.AttemptMiningData n.ID n.BestChainTip
              (GoMap.getD n.ChainWork n.BestChainTip 0 + 1)) := by
        simp only [Node.scheduleMiningAttempt, hc.2.2, Option.isSome_none, Bool.false_eq_true,
          if_false]
      rw [hs]
      simp only [Simulation.ScheduleEvent, Simulation.ScheduleEventWithPriority] at f1 f2 ⊢
      rw [f1]
      refine ⟨rfl, by rw [GoMap.get?_set, if_pos rfl], rfl,
        by rw [GoMap.contains_set]; simp, rfl, rfl, hnd, hself, hmem,
        [{ Timestamp := s.CurrentTime, Type_ := EventType.EvAttemptMining,
           Data := EventData.AttemptMiningData n.ID n.BestChainTip
             (GoMap.getD n.ChainWork n.BestChainTip 0 + 1),
           Priority := EventType.EvAttemptMining.toInt, handle := s.NextHandle }], _, ?_,
        by simp, by simp, rfl, relayTxEvents_data _ _ _ _ _ _, relayTxEvents_each _ _ _ _ _ _⟩
      refine f2.trans ?_
      exact List.Perm.append_right _ (heapPush_perm _ _)
    · obtain ⟨f1, f2⟩ := relayTx_fold_spec tx (GoMap.keys s.Nodes)
        ({ n with
            Mempool := GoMap.set n.Mempool tx.ID tx, KnownTx := GoMap.set n.KnownTx tx.ID true,
            Stats := { n.Stats with ReceivedTx := n.Stats.ReceivedTx + 1,
                                    AddedToMempool := n.Stats.AddedToMempool + 1 } }, s)
      simp only at f1 f2 ⊢
      rw [f1]
      exact ⟨rfl, by rw [GoMap.get?_set, if_pos rfl], rfl,
        by rw [GoMap.contains_set]; simp, rfl, rfl, hnd, hself, hmem,
        [], _, by simpa using f2, by simp, by simp, rfl, relayTxEvents_data _ _ _ _ _ _,
        relayTxEvents_each _ _ _ _ _ _⟩
  · obtain ⟨f1, f2⟩ := relayTx_fold_spec tx (GoMap.keys s.Nodes)
      ({ n with
          Mempool := GoMap.set n.Mempool tx.ID tx, KnownTx := GoMap.set n.KnownTx tx.ID true,
          Stats := { n.Stats with ReceivedTx := n.Stats.ReceivedTx + 1,
                                  AddedToMempool := n.Stats.AddedToMempool + 1 } }, s)
    simp only at f1 f2 ⊢
    rw [f1]
    exact ⟨rfl, by rw [GoMap.get?_set, if_pos rfl], rfl,
      by rw [GoMap.contains_set]; simp, rfl, rfl, hnd, hself, hmem,
      [], _, by simpa using f2, by simp, by simp, rfl, relayTxEvents_data _ _ _ _ _ _,
      relayTxEvents_each _ _ _ _ _ _⟩

/-- C15 for `exTx` delivered to node 0 of the three nodes of `exSim3`: one event for node 1
and one for node 2. -/
theorem C15_tx_flooding_witness :
    GoMap.contains exNode.KnownTx exTx.ID = false ∧
    (GoMap.keys exSim3.Nodes).filter (fun t => decide (t ≠ exNode.ID)) = [1, 2] ∧
    (exNode.ReceiveTransaction exSim3 exTx).1.Stats.RelayedTx = 2 ∧
    (exNode.ReceiveTransaction exSim3 exTx).2.EventQueue.length = 2 ∧
    ((exNode.ReceiveTransaction exSim3 exTx).1.Mempool = GoMap.set exNode.Mempool exTx.ID exTx ∧
    GoMap.get? (exNode.ReceiveTransaction exSim3 exTx).1.Mempool exTx.ID = some exTx ∧
    (exNode.ReceiveTransaction exSim3 exTx).1.KnownTx = GoMap.set exNode.KnownTx exTx.ID true ∧
    GoMap.contains (exNode.ReceiveTransaction exSim3 exTx).1.KnownTx exTx.ID = true ∧
    (exNode.ReceiveTransaction exSim3 exTx).1.Stats.AddedToMempool =
      exNode.Stats.AddedToMempool + 1 ∧
    (exNode.ReceiveTransaction exSim3 exTx).1.Stats.RelayedTx = exNode.Stats.RelayedTx +
      (((GoMap.keys exSim3.Nodes).filter (fun t => decide (t ≠ exNode.ID))).length : Int) ∧
    ((GoMap.keys exSim3.Nodes).filter (fun t => decide (t ≠ exNode.ID))).Nodup ∧
    exNode.ID ∉ (GoMap.keys exSim3.Nodes).filter (fun t => decide (t ≠ exNode.ID)) ∧
    (∀ t, t ∈ (GoMap.keys exSim3.Nodes).filter (fun t => decide (t ≠ exNode.ID)) ↔
      GoMap.contains exSim3.Nodes t = true ∧ t ≠ exNode.ID) ∧
    ∃ own relay,
      (exNode.ReceiveTransaction exSim3 exTx).2.EventQueue.Perm
        (exSim3.EventQueue ++ own ++ relay) ∧
      own.length ≤ 1 ∧ (∀ e ∈ own, e.Type_ = EventType.EvAttemptMining) ∧
      relay = relayTxEvents exTx exSim3.Cfg exSim3.CurrentTime
        ((GoMap.keys exSim3.Nodes).filter (fun t => decide (t ≠ exNode.ID))) exSim3.Rng
        (exSim3.NextHandle + own.length) ∧
      relay.map (fun e => e.Data) =
        ((GoMap.keys exSim3.Nodes).filter (fun t => decide (t ≠ exNode.ID))).map
          (fun t => EventData.ReceiveTransactionData t exTx) ∧
      ∀ e ∈ relay, e.Type_ = EventType.EvReceiveTransaction ∧
        e.Priority = EventType.EvReceiveTransaction.toInt ∧
        ∃ r1, e.Timestamp = exSim3.CurrentTime + (CalculateNetworkDelay exSim3.Cfg r1).1) :=
  ⟨by decide, by decide, by decide, by decide, C15_tx_flooding exNode exSim3 exTx (by decide)⟩

/-! ## C16: the order of transaction deliveries -/

/-- The mempool and the known-transaction set after one `ReceiveTransaction` call. -/
theorem receiveTransaction_pool (n : Node) (s : Simulation) (tx : Transaction) :
    (GoMap.contains n.KnownTx tx.ID = true →
      (n.ReceiveTransaction s tx).1.Mempool = n.Mempool ∧
      (n.ReceiveTransaction s tx).1.KnownTx = n.KnownTx) ∧
    (GoMap.contains n.KnownTx tx.ID = false →
      (n.ReceiveTransaction s tx).1.Mempool = GoMap.set n.Mempool tx.ID tx ∧
      (n.ReceiveTransaction s tx).1.KnownTx = GoMap.set n.KnownTx tx.ID true) := by
  refine ⟨?_, ?_⟩
  · intro hk
    unfold Node.ReceiveTransaction
    simp only [hk, if_true, and_self]
  · intro hk
    unfold Node.ReceiveTransaction
    simp only [hk, Bool.false_eq_true, if_false]
    rw [(relayTx_fold_spec tx _ _).1]
    split
    · split <;> exact ⟨rfl, rfl⟩
    · exact ⟨rfl, rfl⟩

/-- Deliveries of transactions with other ids, or of any transactions when the id is known,
leave the entries of the id as they are. -/
theorem deliverTxs_other (l : List Transaction) (n : Node) (s : Simulation) (k : String)
    (h : GoMap.contains n.KnownTx k = true ∨ ∀ tx ∈ l, tx.ID ≠ k) :
    GoMap.get? (deliverTxs l (n, s)).1.Mempool k = GoMap.get? n.Mempool k ∧
    GoMap.get? (deliverTxs l (n, s)).1.KnownTx k = GoMap.get? n.KnownTx k := by
  induction l generalizing n s with
  | nil => exact ⟨rfl, rfl⟩
  | cons t l ih =>
    unfold deliverTxs
    obtain ⟨p1, p2⟩ := receiveTransaction_pool n s t
    by_cases hk : GoMap.contains n.KnownTx t.ID = true
    · obtain ⟨e1, e2⟩ := p1 hk
      have h' : GoMap.contains (n.ReceiveTransaction s t).1.KnownTx k = true ∨
          ∀ tx ∈ l, tx.ID ≠ k := by
        rcases h with h | h
        · exact Or.inl (by rw [e2]; exact h)
        · exact Or.inr (fun tx htx => h tx (List.mem_cons_of_mem _ htx))
      obtain ⟨i1, i2⟩ := ih (n.ReceiveTransaction s t).1 (n.ReceiveTransaction s t).2 h'
      rw [i1, i2, e1, e2]
      exact ⟨rfl, rfl⟩
    · have hk' : GoMap.contains n.KnownTx t.ID = false := by simpa using hk
      obtain ⟨e1, e2⟩ := p2 hk'
      have hne : t.ID ≠ k := by
        rcases h with h | h
        · intro e
          rw [e] at hk
          exact hk h
        · exact h t (List.mem_cons_self _ _)
      have h' : GoMap.contains (n.ReceiveTransaction s t).1.KnownTx k = true ∨
          ∀ tx ∈ l, tx.ID ≠ k := by
        rcases h with h | h
        · refine Or.inl ?_
          rw [e2, GoMap.contains_set]
          simp [h]
        · exact Or.inr (fun tx htx => h tx (List.mem_cons_of_mem _ htx))
      obtain ⟨i1, i2⟩ := ih (n.ReceiveTransaction s t).1 (n.ReceiveTransaction s t).2 h'
      rw [i1, i2, e1, e2, GoMap.get?_set, GoMap.get?_set, if_neg (fun e => hne e.symm),
        if_neg (fun e => hne e.symm)]
      exact ⟨rfl, rfl⟩

/-- The delivery of the only transaction of the list with an id that is not yet known puts
that transaction in the mempool. -/
theorem deliverTxs_new (l : List Transaction) (n : Node) (s : Simulation) (tx : Transaction)
    (hk : GoMap.contains n.KnownTx tx.ID = false) (hm : tx ∈ l)
    (hu : ∀ t ∈ l, t.ID = tx.ID → t = tx) :
    GoMap.get? (deliverTxs l (n, s)).1.Mempool tx.ID = some tx ∧
    GoMap.get? (deliverTxs l (n, s)).1.KnownTx tx.ID = some true := by
  induction l generalizing n s with
  | nil => simp at hm
  | cons t l ih =>
    unfold deliverTxs
    obtain ⟨p1, p2⟩ := receiveTransaction_pool n s t
    by_cases ht : t.ID = tx.ID
    · have e : t = tx := hu t (List.mem_cons_self _ _) ht
      subst e
      obtain ⟨e1, e2⟩ := p2 hk
      have hkn : GoMap.contains (n.ReceiveTransaction s t).1.KnownTx t.ID = true := by
        rw [e2, GoMap.contains_set]; simp
      obtain ⟨i1, i2⟩ := deliverTxs_other l (n.ReceiveTransaction s t).1
        (n.ReceiveTransaction s t).2 t.ID (Or.inl hkn)
      rw [i1, i2, e1, e2, GoMap.get?_set, GoMap.get?_set, if_pos rfl, if_pos rfl]
      exact ⟨rfl, rfl⟩
    · have hm' : tx ∈ l := by
        rcases List.mem_cons.1 hm with e | e
        · exact absurd (by rw [e]) ht
        · exact e
      have hk' : GoMap.contains (n.ReceiveTransaction s t).1.KnownTx tx.ID = false := by
        by_cases hkt : GoMap.contains n.KnownTx t.ID = true
        · rw [(p1 hkt).2]; exact hk
        · have hkt' : GoMap.contains n.KnownTx t.ID = false := by simpa using hkt
          rw [(p2 hkt').2, GoMap.contains_set]
          simp only [hk, Bool.or_false, decide_eq_false_iff_not]
          exact fun e => ht e.symm
      exact ih (n.ReceiveTransaction s t).1 (n.ReceiveTransaction s t).2 hk' hm'
        (fun t' ht' => hu t' (List.mem_cons_of_mem _ ht'))

/-- Transactions with pairwise distinct ids are told apart by their ids. -/
theorem unique_of_nodup_ids (l : List Transaction) (hd : (l.map (fun tx => tx.ID)).Nodup)
    (tx : Transaction) (hm : tx ∈ l) : ∀ t ∈ l, t.ID = tx.ID → t = tx := by
  intro t ht e
  exact List.inj_on_of_nodup_map hd ht hm e

/-- C16: for every node state and every two lists of transactions with pairwise distinct ids
that are permutations of each other (two transactions in either order in particular),
delivering them with `ReceiveTransaction` yields the same final mempool and the same
`known_tx` set: every id has the same entry in both. -/
theorem C16_tx_delivery_commutes (n : Node) (s s' : Simulation) (l1 l2 : List Transaction)
    (hp : l1.Perm l2) (hd : (l1.map (fun tx => tx.ID)).Nodup) (k : String) :
    GoMap.get? (deliverTxs l1 (n, s)).1.Mempool k =
      GoMap.get? (deliverTxs l2 (n, s')).1.Mempool k ∧
    GoMap.get? (deliverTxs l1 (n, s)).1.KnownTx k =
      GoMap.get? (deliverTxs l2 (n, s')).1.KnownTx k := by
  have hd2 : (l2.map (fun tx => tx.ID)).Nodup := (hp.map _).nodup_iff.1 hd
  by_cases hk : GoMap.contains n.KnownTx k = true
  · obtain ⟨a1, a2⟩ := deliverTxs_other l1 n s k (Or.inl hk)
    obtain ⟨b1, b2⟩ := deliverTxs_other l2 n s' k (Or.inl hk)
    rw [a1, a2, b1, b2]
    exact ⟨rfl, rfl⟩
  · have hk' : GoMap.contains n.KnownTx k = false := by simpa using hk
    by_cases hex : ∃ tx ∈ l1, tx.ID = k
    · obtain ⟨tx, hm, rfl⟩ := hex
      obtain ⟨a1, a2⟩ := deliverTxs_new l1 n s tx hk' hm (unique_of_nodup_ids l1 hd tx hm)
      obtain ⟨b1, b2⟩ := deliverTxs_new l2 n s' tx hk' (hp.mem_iff.1 hm)
        (unique_of_nodup_ids l2 hd2 tx (hp.mem_iff.1 hm))
      rw [a1, a2, b1, b2]
      exact ⟨rfl, rfl⟩
    · have h1 : ∀ tx ∈ l1, tx.ID ≠ k := fun tx hm e => hex ⟨tx, hm, e⟩
      have h2 : ∀ tx ∈ l2, tx.ID ≠ k := fun tx hm e => hex ⟨tx, hp.mem_iff.2 hm, e⟩
      obtain ⟨a1, a2⟩ := deliverTxs_other l1 n s k (Or.inr h1)
      obtain ⟨b1, b2⟩ := deliverTxs_other l2 n s' k (Or.inr h2)
      rw [a1, a2, b1, b2]
      exact ⟨rfl, rfl⟩

/-- C16 for `exTx` and `exTx2` delivered to node 0 of `exSim3` in both orders, at the id of
`exTx2`. -/
theorem C16_tx_delivery_commutes_witness :
    ([exTx, exTx2].Perm [exTx2, exTx] ∧ ([exTx, exTx2].map (fun tx => tx.ID)).Nodup) ∧
    (GoMap.get? (deliverTxs [exTx, exTx2] (exNode, exSim3)).1.Mempool "tx-2-9" =
      GoMap.get? (deliverTxs [exTx2, exTx] (exNode, exSim3)).1.Mempool "tx-2-9" ∧
    GoMap.get? (deliverTxs [exTx, exTx2] (exNode, exSim3)).1.KnownTx "tx-2-9" =
      GoMap.get? (deliverTxs [exTx2, exTx] (exNode, exSim3)).1.KnownTx "tx-2-9") ∧
    GoMap.get? (deliverTxs [exTx, exTx2] (exNode, exSim3)).1.Mempool "tx-2-9" = some exTx2 :=
  ⟨⟨List.Perm.swap _ _ _, by decide⟩,
    C16_tx_delivery_commutes exNode exSim3 exSim3 [exTx, exTx2] [exTx2, exTx]
      (List.Perm.swap _ _ _) (by decide) "tx-2-9",
    by decide⟩

/-! ## C19: found blocks and the current mining job -/

theorem sameMined_refl (n : Node) : n.sameMined n := ⟨rfl, fun h => h⟩

theorem sameMined_trans {a b c : Node} (h1 : a.sameMined b) (h2 : b.sameMined c) :
    a.sameMined c :=
  ⟨h2.1.trans h1.1, fun h => h2.2 (h1.2 h)⟩

theorem relayBlock_fold_mined (b : Block) (l : List Int) (acc : Node × Simulation) :
    acc.1.sameMined (l.foldl (relayBlockStep b) acc).1 := by
  induction l generalizing acc with
  | nil => exact sameMined_refl _
  | cons t l ih =>
    rw [List.foldl_cons]
    refine sameMined_trans ?_ (ih _)
    unfold relayBlockStep
    split
    · exact sameMined_refl _
    · exact ⟨rfl, fun h => h⟩

theorem restartMining_mined (n : Node) (s : Simulation) : n.sameMined (n.restartMining s).1 := by
  unfold Node.restartMining
  split
  · exact sameMined_refl _
  · simp only
    split <;> exact ⟨rfl, fun _ => rfl⟩

theorem restoreTx_mined (newBlocks : List Block) (n : Node) (tx : Transaction) :
    n.sameMined (restoreTx newBlocks n tx) := by
  unfold restoreTx
  split
  · exact sameMined_refl _
  · split
    · exact ⟨rfl, fun h => h⟩
    · split
      · exact ⟨rfl, fun h => h⟩
      · exact sameMined_refl _

theorem restoreTx_fold_mined (newBlocks : List Block) (txs : List Transaction) (n : Node) :
    n.sameMined (txs.foldl (restoreTx newBlocks) n) := by
  induction txs generalizing n with
  | nil => exact sameMined_refl _
  | cons tx txs ih => exact sameMined_trans (restoreTx_mined newBlocks n tx) (ih _)

theorem restoreAll_mined (newBlocks staleBlocks : List Block) (n : Node) :
    n.sameMined (staleBlocks.foldl
      (fun (acc : Node) staleBlock => staleBlock.Transactions.foldl (restoreTx newBlocks) acc)
      n) := by
  induction staleBlocks generalizing n with
  | nil => exact sameMined_refl _
  | cons sb l ih => exact sameMined_trans (restoreTx_fold_mined newBlocks _ n) (ih _)

theorem handleReorg_mined (n : Node) (s : Simulation) (x y : String) (r : Node × Simulation)
    (h : n.handleReorg s x y = some r) : n.sameMined r.1 := by
  unfold Node.handleReorg at h
  simp only at h
  split at h
  · exact absurd h (by simp)
  · split at h
    · cases h
      exact ⟨rfl, fun h => h⟩
    · split at h
      · exact absurd h (by simp)
      · split at h
        · exact absurd h (by simp)
        · cases h
          exact sameMined_trans ⟨rfl, fun h => h⟩ (restoreAll_mined _ _ _)

theorem updateMempool_mined (b : Block) (n : Node) :
    n.sameMined (n.updateMempoolForNewBlock b) := by
  unfold Node.updateMempoolForNewBlock
  generalize b.Transactions = txs
  induction txs generalizing n with
  | nil => exact sameMined_refl _
  | cons tx txs ih =>
    rw [List.foldl_cons]
    exact sameMined_trans ⟨rfl, fun h => h⟩ (ih _)

theorem forkChoice_mined (n : Node) (s : Simulation) (b : Block) (r : Node × Simulation)
    (h : n.forkChoice s b = some r) : n.sameMined r.1 := by
  unfold Node.forkChoice at h
  simp only at h
  split at h
  · split at h
    · exact absurd h (by simp)
    · rename_i n2 s2 hre
      cases h
      have hre2 : n.sameMined n2 := by
        split at hre
        · exact sameMined_trans ⟨rfl, fun h => h⟩ (handleReorg_mined _ _ _ _ _ hre)
        · cases hre
          exact ⟨rfl, fun h => h⟩
      exact sameMined_trans hre2
        (sameMined_trans (relayBlock_fold_mined b _ (n2, s2)) (restartMining_mined _ _))
  · cases h
    exact relayBlock_fold_mined b _ (n, s)

/-- Block delivery keeps the mined-block counter and starts no mining job. -/
theorem receiveBlock_mined (n : Node) (s : Simulation) (b : Block) (r : Node × Simulation)
    (h : n.ReceiveBlock s b = some r) : n.sameMined r.1 := by
  unfold Node.ReceiveBlock at h
  simp only at h
  split at h
  · cases h; exact ⟨rfl, fun h => h⟩
  · split at h
    · cases h; exact ⟨rfl, fun h => h⟩
    · split at h
      · cases h; exact ⟨rfl, fun h => h⟩
      · refine sameMined_trans ?_ (forkChoice_mined _ _ b r h)
        refine sameMined_trans (b := (({ n with Stats := { n.Stats with
          ReceivedBlocks := n.Stats.ReceivedBlocks + 1 } } : Node).recordBlock
            b).updateMempoolForNewBlock b) ?_ ?_
        · exact sameMined_trans (b := ({ n with Stats := { n.Stats with
            ReceivedBlocks := n.Stats.ReceivedBlocks + 1 } } : Node).recordBlock b)
            ⟨rfl, fun h => h⟩ (updateMempool_mined b _)
        · unfold Node.replayOrphans
          split
          · exact sameMined_refl _
          · exact ⟨rfl, fun h => h⟩

/-- C19: for every node state and every `BlockFound` event `e` that is not the event stored
in `current_mining_job` (the job is empty, or its handle is not the handle of `e`, whatever
block `e` carries), `ProcessFoundBlock` returns the node and the simulation, with the
`tx_status` table and the event queue, as they were.  When `e` is the stored event of a miner,
`ProcessFoundBlock` is the delivery of the block with `found_time = e.timestamp` to the own
`ReceiveBlock` of the node with the job cleared and the mined blocks incremented by one, after
the first inclusions are recorded in `tx_status`; when it returns, the job is empty and the
mined blocks are one more than before, and it returns in every state of the delivery
invariant. -/
theorem C19_stale_job_discarded (n : Node) (s : Simulation) (blk : Block) (e : Event) :
    (n.CurrentMiningJob.map (fun j => j.handle) ≠ some e.handle →
      n.ProcessFoundBlock s blk e = some (n, s)) ∧
    (n.IsMiner = true → n.CurrentMiningJob.map (fun j => j.handle) = some e.handle →
      n.ProcessFoundBlock s blk e =
        ({ n with CurrentMiningJob := none,
                  Stats := { n.Stats with MinedBlocks := n.Stats.MinedBlocks + 1 } } :
          Node).ReceiveBlock
          { s with TxStatus :=
              markIncluded { blk with FoundTime := e.Timestamp } e.Timestamp s.TxStatus }
          { blk with FoundTime := e.Timestamp } ∧
      (∀ r, n.ProcessFoundBlock s blk e = some r →
        r.1.CurrentMiningJob = none ∧ r.1.Stats.MinedBlocks = n.Stats.MinedBlocks + 1) ∧
      (n.Inv s.GenesisBlock.Hash → ∃ r, n.ProcessFoundBlock s blk e = some r)) := by
  refine ⟨?_, ?_⟩
  · intro hne
    unfold Node.ProcessFoundBlock
    rw [if_neg hne]
    split <;> rfl
  · intro hm hj
    have hrun : n.ProcessFoundBlock s blk e =
        ({ n with CurrentMiningJob := none,
                  Stats := { n.Stats with MinedBlocks := n.Stats.MinedBlocks + 1 } } :
          Node).ReceiveBlock
          { s with TxStatus :=
              markIncluded { blk with FoundTime := e.Timestamp } e.Timestamp s.TxStatus }
          { blk with FoundTime := e.Timestamp } := by
      unfold Node.ProcessFoundBlock
      simp only [hm, Bool.true_eq_false, if_false, hj, if_true]
    refine ⟨hrun, ?_, ?_⟩
    · intro r hr
      rw [hrun] at hr
      obtain ⟨h1, h2⟩ := receiveBlock_mined _ _ _ r hr
      exact ⟨h2 rfl, h1⟩
    · intro hi
      rw [hrun]
      obtain ⟨r, hr, _⟩ := inv_receiveBlock
        ({ n with CurrentMiningJob := none,
                  Stats := { n.Stats with MinedBlocks := n.Stats.MinedBlocks + 1 } } : Node)
        { s with TxStatus :=
            markIncluded { blk with FoundTime := e.Timestamp } e.Timestamp s.TxStatus }
        { blk with FoundTime := e.Timestamp } s.GenesisBlock.Hash
        (inv_of_sameTree n _ _ (by simp [Node.sameTree]) hi) rfl
      exact ⟨r, hr⟩

/-- C19 at the miner `exMiner`: an event with the block of the job under another handle is
discarded, the event of the job is processed. -/
theorem C19_stale_job_discarded_witness :
    (exMiner.CurrentMiningJob.map (fun j => j.handle) ≠ some exFoundStale.handle ∧
      exMiner.ProcessFoundBlock exSim exA1 exFoundStale = some (exMiner, exSim)) ∧
    (exMiner.IsMiner = true ∧
      exMiner.CurrentMiningJob.map (fun j => j.handle) = some exFoundJob.handle ∧
      exMiner.Inv exSim.GenesisBlock.Hash ∧
      (∀ r, exMiner.ProcessFoundBlock exSim exA1 exFoundJob = some r →
        r.1.CurrentMiningJob = none ∧ r.1.Stats.MinedBlocks = exMiner.Stats.MinedBlocks + 1) ∧
      ∃ r, exMiner.ProcessFoundBlock exSim exA1 exFoundJob = some r) :=
  have hi : exMiner.Inv exSim.GenesisBlock.Hash :=
    inv_of_sameTree (NewNode 1 true exSim) exMiner _ (by simp [Node.sameTree, exMiner])
      (inv_newNode 1 true exSim)
  ⟨⟨by decide, (C19_stale_job_discarded exMiner exSim exA1 exFoundStale).1 (by decide)⟩,
    by decide, by decide, hi,
    ((C19_stale_job_discarded exMiner exSim exA1 exFoundJob).2 (by decide) (by decide)).2.1,
    ((C19_stale_job_discarded exMiner exSim exA1 exFoundJob).2 (by decide) (by decide)).2.2 hi⟩

/-! ## C18: the size of a candidate block -/

theorem swapAt_perm {α : Type} [DecidableEq α] (xs : List α) (i j : Nat) :
    (swapAt xs i j).Perm xs := by
  unfold swapAt
  split
  · rename_i a b ha hb
    exact set_set_perm xs i j a b ha hb
  · exact List.Perm.refl _

theorem shuffleLoop_perm {α : Type} [DecidableEq α] (i : Nat) (xs : List α) (r : Rand) :
    (shuffleLoop i xs r).1.Perm xs := by
  induction i generalizing xs r with
  | zero => exact List.Perm.refl _
  | succ i ih =>
    unfold shuffleLoop
    exact (ih _ _).trans (swapAt_perm xs _ _)

theorem shuffle_perm {α : Type} [DecidableEq α] (r : Rand) (xs : List α) :
    (r.Shuffle xs).1.Perm xs :=
  shuffleLoop_perm _ _ _

theorem wrapInt64_ge (x : Int) (h1 : -18446744073709551616 ≤ x)
    (h2 : x ≤ 9223372036854775807) :
    x ≤ wrapInt64 x ∧ -9223372036854775808 ≤ wrapInt64 x ∧
    (-9223372036854775808 ≤ x → wrapInt64 x = x) := by
  unfold wrapInt64
  omega

/-- The packing loop on transactions whose sizes are `int` values that do not carry the limit
past the largest `int`: it appends a sublist of its input whose sizes add up to no more than
the growth of the byte count, never passes the limit, and picks nothing when no transaction
fits. -/
theorem packTxs_spec (limit : Int) (l sel : List Transaction) (cur : Int)
    (hl : ∀ tx ∈ l, -9223372036854775808 ≤ tx.Size ∧ limit + tx.Size ≤ 9223372036854775807)
    (h0 : -9223372036854775808 ≤ cur) (hc : cur ≤ limit) :
    ∃ picked, (packTxs limit l sel cur).1 = sel ++ picked ∧ picked.Sublist l ∧
      cur + (picked.map (fun tx => tx.Size)).sum ≤ (packTxs limit l sel cur).2 ∧
      (packTxs limit l sel cur).2 ≤ limit ∧
      ((∀ tx ∈ l, limit < cur + tx.Size) → picked = []) := by
  induction l generalizing sel cur with
  | nil => exact ⟨[], by simp [packTxs], List.Sublist.refl _, by simp [packTxs],
      by simpa [packTxs] using hc, fun _ => rfl⟩
  | cons tx l ih =>
    obtain ⟨s0, s1⟩ := hl tx (List.mem_cons_self _ _)
    obtain ⟨w1, w2, w3⟩ := wrapInt64_ge (cur + tx.Size) (by omega) (by omega)
    have hl1 : ∀ t ∈ l, -9223372036854775808 ≤ t.Size ∧ limit + t.Size ≤ 9223372036854775807 :=
      fun t ht => hl t (List.mem_cons_of_mem _ ht)
    unfold packTxs
    by_cases hcl : wrapInt64 (cur + tx.Size) ≤ limit
    · rw [if_pos hcl]
      obtain ⟨picked, p1, p2, p3, p4, _⟩ :=
        ih (sel ++ [tx]) (wrapInt64 (cur + tx.Size)) hl1 w2 hcl
      refine ⟨tx :: picked, by rw [p1]; simp, p2.cons₂ tx, ?_, p4, ?_⟩
      · simp only [List.map_cons, List.sum_cons]
        omega
      · intro hall
        have := hall tx (List.mem_cons_self _ _)
        rw [w3 (by omega)] at hcl
        omega
    · rw [if_neg hcl]
      obtain ⟨picked, p1, p2, p3, p4, p5⟩ := ih sel cur hl1 h0 hc
      exact ⟨picked, p1, p2.cons tx, p3, p4,
        fun hall => p5 (fun t ht => hall t (List.mem_cons_of_mem _ ht))⟩

theorem GoMap.mem_values {K V : Type} [DecidableEq K] (m : GoMap K V) (v : V)
    (h : v ∈ GoMap.values m) : ∃ k, GoMap.get? m k = some v := by
  unfold GoMap.values at h
  obtain ⟨k, _, hk⟩ := List.mem_filterMap.1 h
  exact ⟨k, hk⟩

theorem candidateBlock_txs (n : Node) (s : Simulation) (p : String) (h : Int) :
    (n.candidateBlock s p h).Transactions =
      (packTxs s.Cfg.BlockSizeLimitBytes (s.Rng.Shuffle (GoMap.values n.Mempool)).1 [] 0).1 ∧
    (n.candidateBlock s p h).Header.NumTx = ((n.candidateBlock s p h).Transactions.length : Int) :=
  ⟨rfl, rfl⟩

set_option maxRecDepth 100000 in
/-- C18, the claim fails: in the run of `exCfgWrap` (three nodes, one miner, two
transactions of `2 ^ 62` bytes injected without delay, a limit of `2 ^ 62 + 10` bytes; the
checks of `main` on the flags pass) the miner holds both transactions when its mining attempt
is popped.  The byte count of the packing loop wraps around at the second transaction, the
candidate block carries both, `2 ^ 63` bytes, and it is the block of the mining job of the
miner after the round. -/
theorem C18_wrap_counterexample :
    (0 < exCfgWrap.BlockSizeLimitBytes ∧ 0 < exCfgWrap.MinTransactionSizeBytes ∧
      exCfgWrap.MinTransactionSizeBytes ≤ exCfgWrap.MaxTransactionSizeBytes ∧
      exCfgWrap.NumMiners ≤ exCfgWrap.NumNodes ∧ 0 < exCfgWrap.SimulationDuration ∧
      exCfgWrap.NetworkDelayMin ≤ exCfgWrap.NetworkDelayMax) ∧
    ((NewSimulation exCfgWrap 1000 { seq := fun i => (i : Int), pos := 0 } exSha).runStart).isSome
      = true ∧
    exWrapBefore.Cfg.BlockSizeLimitBytes = 4611686018427387914 ∧
    (GoMap.get? exWrapBefore.Nodes 0).isSome = true ∧
    (GoMap.values exWrapMiner.Mempool).map (fun tx => (tx.ID, tx.Size)) =
      [("tx-2-12", 4611686018427387904), ("tx-1-10", 4611686018427387904)] ∧
    (heapPop exWrapBefore.EventQueue).map (fun p => (p.1.Type_, p.1.Data, p.1.Timestamp)) =
      some (EventType.EvAttemptMining,
        EventData.AttemptMiningData 0 exWrapBefore.GenesisBlock.Hash 1,
        exWrapBefore.CurrentTime) ∧
    (exWrapMiner.candidateBlock exWrapBefore exWrapBefore.GenesisBlock.Hash 1).Transactions.map
      (fun tx => tx.Size) = [4611686018427387904, 4611686018427387904] ∧
    ¬ ((exWrapMiner.candidateBlock exWrapBefore exWrapBefore.GenesisBlock.Hash
      1).Transactions.map (fun tx => tx.Size)).sum ≤ exWrapBefore.Cfg.BlockSizeLimitBytes ∧
    (GoMap.get? (exAfterRounds 1 exWrapBefore).Nodes 0).map
        (fun n => n.CurrentMiningJob.map (fun ev => ev.Data)) =
      some (some (EventData.BlockFoundData 0
        (exWrapMiner.candidateBlock exWrapBefore exWrapBefore.GenesisBlock.Hash 1))) := by
  decide

/-- C18, amended: for every mempool whose transaction sizes are `int` values that do not
carry the limit past the largest `int` (`limit + size <= 2 ^ 63 - 1`), every shuffle order
(every state of the random source) and every `BlockSizeLimitBytes >= 0`, the
candidate block built by `AttemptMining` contains only mempool transactions, each at most as
often as the mempool holds it, its header `NumTx` is their count, and the sum of their sizes
is at most the limit; if every mempool transaction is larger than the limit the candidate
block is empty.  The block of the mining job that an attempt past its guards records is this
candidate block. -/
theorem C18_block_size_cap (n : Node) (s : Simulation) (p : String) (h : Int)
    (hlim : 0 ≤ s.Cfg.BlockSizeLimitBytes)
    (hsz : ∀ tx ∈ GoMap.values n.Mempool,
      -9223372036854775808 ≤ tx.Size ∧
        s.Cfg.BlockSizeLimitBytes + tx.Size ≤ 9223372036854775807) :
    (n.candidateBlock s p h).Transactions.Subperm (GoMap.values n.Mempool) ∧
    (∀ tx ∈ (n.candidateBlock s p h).Transactions, ∃ k, GoMap.get? n.Mempool k = some tx) ∧
    (n.candidateBlock s p h).Header.NumTx = ((n.candidateBlock s p h).Transactions.length : Int) ∧
    ((n.candidateBlock s p h).Transactions.map (fun tx => tx.Size)).sum ≤
      s.Cfg.BlockSizeLimitBytes ∧
    ((∀ tx ∈ GoMap.values n.Mempool, s.Cfg.BlockSizeLimitBytes < tx.Size) →
      (n.candidateBlock s p h).Transactions = []) ∧
    (n.IsMiner = true → p = n.BestChainTip → h = GoMap.getD n.ChainWork n.BestChainTip 0 + 1 →
      ∀ ev, (n.AttemptMining s p h).1.CurrentMiningJob = some ev →
        ev.Data = EventData.BlockFoundData n.ID (n.candidateBlock s p h)) := by
  have hperm := shuffle_perm s.Rng (GoMap.values n.Mempool)
  obtain ⟨picked, p1, p2, p3, p4, p5⟩ := packTxs_spec s.Cfg.BlockSizeLimitBytes
    (s.Rng.Shuffle (GoMap.values n.Mempool)).1 [] 0
    (fun tx hm => hsz tx (hperm.mem_iff.1 hm)) (by omega) hlim
  have htx := (candidateBlock_txs n s p h).1
  rw [List.nil_append] at p1
  have hsub : (n.candidateBlock s p h).Transactions.Subperm (GoMap.values n.Mempool) := by
    rw [htx, p1]
    exact p2.subperm.trans hperm.subperm
  refine ⟨hsub, fun tx htx1 => GoMap.mem_values _ _ (hsub.subset htx1),
    (candidateBlock_txs n s p h).2, ?_, ?_, ?_⟩
  · rw [htx, p1]
    omega
  · intro hall
    rw [htx, p1]
    refine p5 (fun tx hm => ?_)
    have := hall tx (hperm.mem_iff.1 hm)
    omega
  · intro hm hp hh ev hev
    unfold Node.AttemptMining at hev
    simp only [hm, Bool.true_eq_false, if_false, hp, ne_eq, not_true_eq_false, hh] at hev
    split at hev
    · simp only [Option.some.injEq] at hev
      rw [← hev]
      simp only [Node.candidateBlock, hp, hh]
    · exact absurd hev (by simp)

set_option maxRecDepth 100000 in
/-- C18, amended, for a mempool of three transactions of 100, 250 and 700 bytes under the
limit of 1000 bytes of `exCfg`. -/
theorem C18_block_size_cap_witness :
    0 ≤ exSim.Cfg.BlockSizeLimitBytes ∧
    (∀ tx ∈ GoMap.values exMinerFull.Mempool,
      -9223372036854775808 ≤ tx.Size ∧
        exSim.Cfg.BlockSizeLimitBytes + tx.Size ≤ 9223372036854775807) ∧
    (exMinerFull.candidateBlock exSim "genesis" 1).Transactions.length = 2 ∧
    ((exMinerFull.candidateBlock exSim "genesis" 1).Transactions.Subperm
      (GoMap.values exMinerFull.Mempool) ∧
    (∀ tx ∈ (exMinerFull.candidateBlock exSim "genesis" 1).Transactions,
      ∃ k, GoMap.get? exMinerFull.Mempool k = some tx) ∧
    (exMinerFull.candidateBlock exSim "genesis" 1).Header.NumTx =
      ((exMinerFull.candidateBlock exSim "genesis" 1).Transactions.length : Int) ∧
    ((exMinerFull.candidateBlock exSim "genesis" 1).Transactions.map (fun tx => tx.Size)).sum ≤
      exSim.Cfg.BlockSizeLimitBytes ∧
    ((∀ tx ∈ GoMap.values exMinerFull.Mempool, exSim.Cfg.BlockSizeLimitBytes < tx.Size) →
      (exMinerFull.candidateBlock exSim "genesis" 1).Transactions = []) ∧
    (exMinerFull.IsMiner = true → "genesis" = exMinerFull.BestChainTip →
      1 = GoMap.getD exMinerFull.ChainWork exMinerFull.BestChainTip 0 + 1 →
      ∀ ev, (exMinerFull.AttemptMining exSim "genesis" 1).1.CurrentMiningJob = some ev →
        ev.Data = EventData.BlockFoundData exMinerFull.ID
          (exMinerFull.candidateBlock exSim "genesis" 1))) :=
  ⟨by decide, by decide, by decide,
    C18_block_size_cap exMinerFull exSim "genesis" 1 (by decide) (by decide)⟩

/-! ## The heap order -/

theorem before_iff (a b : Event) :
    a.before b = true ↔
      a.Timestamp < b.Timestamp ∨ (a.Timestamp = b.Timestamp ∧ a.Priority < b.Priority) := by
  unfold Event.before
  split
  · simp; omega
  · split
    · simp; omega
    · simp; omega

theorem before_false_iff (a b : Event) :
    a.before b = false ↔
      b.Timestamp < a.Timestamp ∨ (b.Timestamp = a.Timestamp ∧ b.Priority ≤ a.Priority) := by
  rw [← Bool.not_eq_true, before_iff]
  omega

theorem before_asymm (a b : Event) (h : a.before b = true) : b.before a = false := by
  rw [before_iff] at h
  rw [before_false_iff]
  omega

theorem before_false_trans (a b c : Event) (h1 : a.before b = false) (h2 : b.before c = false) :
    a.before c = false := by
  rw [before_false_iff] at *
  omega

theorem before_false_of_before (a b c : Event) (h1 : a.before b = false)
    (h2 : c.before b = true) : a.before c = false := by
  rw [before_false_iff] at *
  rw [before_iff] at h2
  omega

theorem before_irrefl (a : Event) : a.before a = false := by
  rw [before_false_iff]
  omega

theorem less_eq (q : EventQueue) (i j : Nat) (a b : Event) (ha : q[i]? = some a)
    (hb : q[j]? = some b) : EventQueue.Less q i j = a.before b := by
  unfold EventQueue.Less Event.before
  rw [ha, hb]

theorem less_true (q : EventQueue) (i j : Nat) (h : EventQueue.Less q i j = true) :
    ∃ a b, q[i]? = some a ∧ q[j]? = some b ∧ a.before b = true := by
  cases ha : q[i]? with
  | none => simp [EventQueue.Less, ha] at h
  | some a =>
    cases hb : q[j]? with
    | none => simp [EventQueue.Less, ha, hb] at h
    | some b => exact ⟨a, b, rfl, rfl, by rw [← less_eq q i j a b ha hb]; exact h⟩

theorem swap_get (q : EventQueue) (i j k : Nat) (a b : Event) (ha : q[i]? = some a)
    (hb : q[j]? = some b) :
    (EventQueue.Swap q i j)[k]? = if k = j then some a else if k = i then some b else q[k]? := by
  obtain ⟨hi, _⟩ := List.getElem?_eq_some_iff.1 ha
  obtain ⟨hj, _⟩ := List.getElem?_eq_some_iff.1 hb
  unfold EventQueue.Swap
  rw [ha, hb]
  simp only
  rw [List.getElem?_set, List.getElem?_set]
  by_cases e1 : k = j
  · subst e1
    simp [hj]
  · have e1' : ¬ j = k := fun e => e1 e.symm
    rw [if_neg e1', if_neg e1]
    by_cases e2 : k = i
    · subst e2
      simp [hi]
    · have e2' : ¬ i = k := fun e => e2 e.symm
      rw [if_neg e2', if_neg e2]

/-- Sifting up restores the heap order when only the element at `j` may be before its parent
and the children of `j` are not before the parent of `j`. -/
theorem heapUpLoop_heap (fuel : Nat) (q : EventQueue) (j : Nat) (hf : j < fuel)
    (h1 : ∀ c, 0 < c → c ≠ j → okPair q c ((c - 1) / 2))
    (h2 : 0 < j → ∀ c, 0 < c → (c - 1) / 2 = j → okPair q c ((j - 1) / 2)) :
    IsHeap (heapUpLoop fuel q j) := by
  induction fuel generalizing q j with
  | zero => omega
  | succ fuel ih =>
    unfold heapUpLoop
    simp only
    by_cases hc : (j - 1) / 2 = j ∨ EventQueue.Less q j ((j - 1) / 2) = false
    · rw [if_pos hc]
      intro c hc0
      by_cases e : c = j
      · subst e
        intro a b ha hb
        rcases hc with hc | hc
        · omega
        · rw [← less_eq q c _ a b ha hb]; exact hc
      · exact h1 c hc0 e
    · rw [if_neg hc]
      have hne : (j - 1) / 2 ≠ j := fun e => hc (Or.inl e)
      have hl : EventQueue.Less q j ((j - 1) / 2) = true := by
        cases h : EventQueue.Less q j ((j - 1) / 2) with
        | true => rfl
        | false => exact absurd (Or.inr h) hc
      obtain ⟨aj, ai, haj, hai, hlt⟩ := less_true q _ _ hl
      have hj0 : 0 < j := by omega
      refine ih (EventQueue.Swap q ((j - 1) / 2) j) ((j - 1) / 2) (by omega) ?_ ?_
      · intro c hc0 hci a b ha hb
        rw [swap_get q _ _ c ai aj hai haj] at ha
        rw [swap_get q _ _ ((c - 1) / 2) ai aj hai haj] at hb
        by_cases e1 : c = j
        · subst e1
          rw [if_pos rfl] at ha
          rw [if_neg hne, if_pos rfl] at hb
          cases ha; cases hb
          exact before_asymm _ _ hlt
        · rw [if_neg e1, if_neg hci] at ha
          by_cases e2 : (c - 1) / 2 = j
          · rw [if_pos e2] at hb
            cases hb
            exact h2 hj0 c hc0 e2 a _ ha hai
          · rw [if_neg e2] at hb
            by_cases e3 : (c - 1) / 2 = (j - 1) / 2
            · rw [if_pos e3] at hb
              cases hb
              have := h1 c hc0 e1 a ai ha (by rw [e3]; exact hai)
              exact before_false_of_before _ _ _ this hlt
            · rw [if_neg e3] at hb
              exact h1 c hc0 e1 a b ha hb
      · intro hi0 c hc0 hpc a b ha hb
        rw [swap_get q _ _ c ai aj hai haj] at ha
        rw [swap_get q _ _ (((j - 1) / 2 - 1) / 2) ai aj hai haj] at hb
        rw [if_neg (by omega), if_neg (by omega)] at hb
        have hib := h1 ((j - 1) / 2) hi0 hne ai b hai hb
        by_cases e1 : c = j
        · rw [if_pos e1] at ha
          cases ha
          exact hib
          
        · rw [if_neg e1, if_neg (by omega)] at ha
          have := h1 c hc0 e1 a ai ha (by rw [hpc]; exact hai)
          exact before_false_trans _ _ _ this hib

theorem heapPush_heap (q : EventQueue) (e : Event) (h : IsHeap q) : IsHeap (heapPush q e) := by
  unfold heapPush heapUp
  refine heapUpLoop_heap _ _ _ (by omega) ?_ ?_
  · intro c hc0 hcn a b ha hb
    have hcl : c < q.length := by
      have := (List.getElem?_eq_some_iff.1 ha).1
      simp at this
      omega
    rw [List.getElem?_append_left hcl] at ha
    rw [List.getElem?_append_left (by omega)] at hb
    exact h c hc0 a b ha hb
  · intro _ c hc0 hpc a b ha _
    have := (List.getElem?_eq_some_iff.1 ha).1
    simp at this
    omega

/-- Sifting down from `i` restores the heap order below `n` when only the children of `i` may
be before it and are not before the parent of `i`. -/
theorem heapDownLoop_heap (fuel : Nat) (q : EventQueue) (i n : Nat) (hf : n ≤ fuel + i)
    (hn : n ≤ q.length)
    (h1 : ∀ c, 0 < c → c < n → (c - 1) / 2 ≠ i → okPair q c ((c - 1) / 2))
    (h2 : 0 < i → ∀ c, 0 < c → c < n → (c - 1) / 2 = i → okPair q c ((i - 1) / 2)) :
    ∀ c, 0 < c → c < n → okPair (heapDownLoop fuel q i n) c ((c - 1) / 2) := by
  induction fuel generalizing q i with
  | zero =>
    intro c hc0 hcn
    exact h1 c hc0 hcn (by omega)
  | succ fuel ih =>
    unfold heapDownLoop
    simp only
    by_cases hnj : n ≤ 2 * i + 1
    · rw [if_pos hnj]
      intro c hc0 hcn
      exact h1 c hc0 hcn (by omega)
    · rw [if_neg hnj]
      have hj : (if 2 * i + 1 + 1 < n ∧ EventQueue.Less q (2 * i + 1 + 1) (2 * i + 1) = true
          then 2 * i + 1 + 1 else 2 * i + 1) < n ∧
          ((if 2 * i + 1 + 1 < n ∧ EventQueue.Less q (2 * i + 1 + 1) (2 * i + 1) = true
            then 2 * i + 1 + 1 else 2 * i + 1) - 1) / 2 = i ∧
          0 < (if 2 * i + 1 + 1 < n ∧ EventQueue.Less q (2 * i + 1 + 1) (2 * i + 1) = true
            then 2 * i + 1 + 1 else 2 * i + 1) ∧
          ∀ c, 0 < c → c < n → (c - 1) / 2 = i →
            c ≠ (if 2 * i + 1 + 1 < n ∧ EventQueue.Less q (2 * i + 1 + 1) (2 * i + 1) = true
              then 2 * i + 1 + 1 else 2 * i + 1) →
            ∀ a aj, q[c]? = some a →
              q[(if 2 * i + 1 + 1 < n ∧ EventQueue.Less q (2 * i + 1 + 1) (2 * i + 1) = true
                then 2 * i + 1 + 1 else 2 * i + 1)]? = some aj → a.before aj = false := by
        by_cases hcond : 2 * i + 1 + 1 < n ∧ EventQueue.Less q (2 * i + 1 + 1) (2 * i + 1) = true
        · rw [if_pos hcond]
          refine ⟨hcond.1, by omega, by omega, ?_⟩
          intro c hc0 hcn hpc hne a aj ha haj
          have hc1 : c = 2 * i + 1 := by omega
          subst hc1
          have := less_eq q _ _ aj a haj ha
          rw [hcond.2] at this
          exact before_asymm _ _ this.symm
        · rw [if_neg hcond]
          refine ⟨by omega, by omega, by omega, ?_⟩
          intro c hc0 hcn hpc hne a aj ha haj
          have hc1 : c = 2 * i + 1 + 1 := by omega
          subst hc1
          have hl : EventQueue.Less q (2 * i + 1 + 1) (2 * i + 1) = false := by
            cases h : EventQueue.Less q (2 * i + 1 + 1) (2 * i + 1) with
            | false => rfl
            | true => exact absurd ⟨hcn, h⟩ hcond
          rw [less_eq q _ _ a aj ha haj] at hl
          exact hl
      generalize (if 2 * i + 1 + 1 < n ∧ EventQueue.Less q (2 * i + 1 + 1) (2 * i + 1) = true
          then 2 * i + 1 + 1 else 2 * i + 1) = j at hj
      obtain ⟨hjn, hpj, hj0, hother⟩ := hj
      have hjl : j < q.length := by omega
      by_cases hl : EventQueue.Less q j i = false
      · rw [if_pos hl]
        intro c hc0 hcn
        by_cases hpc : (c - 1) / 2 = i
        · intro a b ha hb
          rw [hpc] at hb
          by_cases e : c = j
          · subst e
            rw [← less_eq q c i a b ha hb]
            exact hl
          · have haj : q[j]? = some q[j] := List.getElem?_eq_getElem hjl
            have h3 := hother c hc0 hcn hpc e a q[j] ha haj
            have h4 : (q[j]).before b = false := by
              rw [← less_eq q j i q[j] b haj hb]
              exact hl
            exact before_false_trans _ _ _ h3 h4
        · exact h1 c hc0 hcn hpc
      · rw [if_neg hl]
        have hl' : EventQueue.Less q j i = true := by
          cases h : EventQueue.Less q j i with
          | true => rfl
          | false => exact absurd h hl
        obtain ⟨aj, ai, haj, hai, hlt⟩ := less_true q _ _ hl'
        have hij : i ≠ j := by omega
        refine ih (EventQueue.Swap q i j) j (by omega) (by rw [swap_length]; exact hn) ?_ ?_
        · intro c hc0 hcn hpcj a b ha hb
          rw [swap_get q _ _ c ai aj hai haj] at ha
          rw [swap_get q _ _ ((c - 1) / 2) ai aj hai haj] at hb
          rw [if_neg hpcj] at hb
          by_cases e1 : c = j
          · rw [if_pos e1] at ha
            rw [if_pos (by omega)] at hb
            cases ha; cases hb
            exact before_asymm _ _ hlt
          · rw [if_neg e1] at ha
            by_cases e2 : c = i
            · rw [if_pos e2] at ha
              cases ha
              rw [if_neg (by omega)] at hb
              have := h2 (by omega) j hj0 hjn hpj _ b haj
              rw [e2] at hb
              exact this hb
            · rw [if_neg e2] at ha
              by_cases e3 : (c - 1) / 2 = i
              · rw [if_pos e3] at hb
                cases hb
                exact hother c hc0 hcn e3 e1 a _ ha haj
              · rw [if_neg e3] at hb
                exact h1 c hc0 hcn e3 a b ha hb
        · intro _ c hc0 hcn hpc a b ha hb
          rw [swap_get q _ _ c ai aj hai haj] at ha
          rw [swap_get q _ _ ((j - 1) / 2) ai aj hai haj] at hb
          rw [if_neg (by omega), if_neg (by omega)] at ha
          rw [if_neg (by omega), if_pos hpj] at hb
          cases hb
          exact h1 c hc0 hcn (by omega) a _ ha (by rw [hpc]; exact haj)

theorem heapPop_heap (q : EventQueue) (e : Event) (q1 : EventQueue) (h : IsHeap q)
    (hp : heapPop q = some (e, q1)) : IsHeap q1 := by
  unfold heapPop at hp
  simp only at hp
  split at hp
  · rename_i e0 hl
    cases hp
    obtain ⟨_, hlen⟩ := heapDownLoop_last (q.length - 1) (EventQueue.Swap q 0 (q.length - 1)) 0
      (q.length - 1)
    rw [swap_length] at hlen
    have hd := heapDownLoop_heap (q.length - 1) (EventQueue.Swap q 0 (q.length - 1)) 0
      (q.length - 1) (by omega) (by rw [swap_length]; omega) ?_ (fun h0 => absurd h0 (by omega))
    · intro c hc0 a b ha hb
      have hcl : c < q.length - 1 := by
        have := (List.getElem?_eq_some_iff.1 ha).1
        simp only [List.length_dropLast] at this
        unfold heapDown at this
        rw [hlen] at this
        exact this
      have ha' : (heapDown (EventQueue.Swap q 0 (q.length - 1)) 0 (q.length - 1))[c]? = some a := by
        rw [← ha, List.dropLast_eq_take, List.getElem?_take]
        unfold heapDown
        rw [hlen, if_pos hcl]
      have hb' : (heapDown (EventQueue.Swap q 0 (q.length - 1)) 0 (q.length - 1))[(c - 1) / 2]? =
          some b := by
        rw [← hb, List.dropLast_eq_take, List.getElem?_take]
        unfold heapDown
        rw [hlen, if_pos (by omega)]
      exact hd c hc0 hcl a b ha' hb'
    · intro c hc0 hcn hpc
      intro a b ha hb
      rw [swap_getElem_other q _ _ c (by omega) (by omega)] at ha
      rw [swap_getElem_other q _ _ ((c - 1) / 2) (by omega) (by omega)] at hb
      exact h c hc0 a b ha hb
  · exact absurd hp (by simp)

/-- In a heap no element is before the element at index 0. -/
theorem heap_root_min (q : EventQueue) (h : IsHeap q) (first : Event) (hf : q[0]? = some first)
    (j : Nat) : ∀ a, q[j]? = some a → a.before first = false := by
  induction j using Nat.strong_induction_on with
  | _ j ih =>
    intro a ha
    by_cases hj : j = 0
    · subst hj
      rw [hf] at ha
      cases ha
      exact before_irrefl _
    · have hjl := (List.getElem?_eq_some_iff.1 ha).1
      have hpl : (j - 1) / 2 < q.length := by omega
      have hb : q[(j - 1) / 2]? = some q[(j - 1) / 2] := List.getElem?_eq_getElem hpl
      exact before_false_trans _ _ _ (h j (by omega) a _ ha hb) (ih _ (by omega) _ hb)

theorem heapReachable_heap (q : EventQueue) (h : HeapReachable q) : IsHeap q := by
  induction h with
  | empty => intro c _ a b ha; simp at ha
  | push q e _ ih => exact heapPush_heap q e ih
  | pop q e q1 _ hp ih => exact heapPop_heap q e q1 ih hp

theorem heapPop_some (q : EventQueue) (first : Event) (rest : List Event)
    (hq : q = first :: rest) : ∃ q1, heapPop q = some (first, q1) := by
  cases hp : heapPop q with
  | none =>
    unfold heapPop at hp
    simp only at hp
    split at hp
    · exact absurd hp (by simp)
    · rename_i hl
      rw [List.getLast?_eq_none_iff] at hl
      have := (heapDownLoop_last (q.length - 1) (EventQueue.Swap q 0 (q.length - 1)) 0
        (q.length - 1)).2
      unfold heapDown at hl
      rw [hl, swap_length, hq] at this
      simp at this
  | some r =>
    obtain ⟨e, q1⟩ := r
    have := heapPop_head q e q1 hp
    rw [hq] at this
    simp only [List.head?_cons, Option.some.injEq] at this
    subst this
    exact ⟨q1, rfl⟩

/-! ## The handlers only push on the queue -/

theorem relayTx_fold_queue (P : EventQueue → Prop) (hP : ∀ q e, P q → P (heapPush q e))
    (tx : Transaction) (l : List Int) (acc : Node × Simulation) (h : P acc.2.EventQueue) :
    P (l.foldl (relayTxStep tx) acc).2.EventQueue := by
  induction l generalizing acc with
  | nil => exact h
  | cons t l ih =>
    rw [List.foldl_cons]
    refine ih _ ?_
    unfold relayTxStep
    split
    · exact h
    · exact hP _ _ h

theorem relayBlock_fold_queue (P : EventQueue → Prop) (hP : ∀ q e, P q → P (heapPush q e))
    (b : Block) (l : List Int) (acc : Node × Simulation) (h : P acc.2.EventQueue) :
    P (l.foldl (relayBlockStep b) acc).2.EventQueue := by
  induction l generalizing acc with
  | nil => exact h
  | cons t l ih =>
    rw [List.foldl_cons]
    refine ih _ ?_
    unfold relayBlockStep
    split
    · exact h
    · exact hP _ _ h

theorem scheduleMiningAttempt_queue (P : EventQueue → Prop)
    (hP : ∀ q e, P q → P (heapPush q e)) (n : Node) (s : Simulation) (h : P s.EventQueue) :
    P (n.scheduleMiningAttempt s).EventQueue := by
  unfold Node.scheduleMiningAttempt
  split
  · exact h
  · exact hP _ _ h

theorem restartMining_queue (P : EventQueue → Prop) (hP : ∀ q e, P q → P (heapPush q e))
    (n : Node) (s : Simulation) (h : P s.EventQueue) : P (n.restartMining s).2.EventQueue := by
  unfold Node.restartMining
  split
  · exact h
  · simp only
    split
    · exact scheduleMiningAttempt_queue P hP _ _ h
    · exact h

theorem receiveTransaction_queue (P : EventQueue → Prop) (hP : ∀ q e, P q → P (heapPush q e))
    (n : Node) (s : Simulation) (tx : Transaction) (h : P s.EventQueue) :
    P (n.ReceiveTransaction s tx).2.EventQueue := by
  unfold Node.ReceiveTransaction
  simp only
  split
  · exact h
  · refine relayTx_fold_queue P hP tx _ _ ?_
    split
    · split
      · exact scheduleMiningAttempt_queue P hP _ _ h
      · exact h
    · exact h

theorem replayFold_queue (P : EventQueue → Prop) (hP : ∀ q e, P q → P (heapPush q e))
    (nd : Node) (l : List Block) (s : Simulation) (h : P s.EventQueue) :
    P (l.foldl (fun (acc : Simulation) ob =>
        acc.ScheduleEventWithPriority acc.CurrentTime EventType.EvReceiveBlock
          (EventData.ReceiveBlockData nd.ID ob) 0) s).EventQueue := by
  induction l generalizing s with
  | nil => exact h
  | cons o l ih =>
    rw [List.foldl_cons]
    exact ih _ (hP _ _ h)

theorem replayOrphans_queue (P : EventQueue → Prop) (hP : ∀ q e, P q → P (heapPush q e))
    (n : Node) (s : Simulation) (b : Block) (h : P s.EventQueue) :
    P (n.replayOrphans s b).2.EventQueue := by
  unfold Node.replayOrphans
  split
  · exact h
  · exact replayFold_queue P hP n _ s h

theorem forkChoice_queue (P : EventQueue → Prop) (hP : ∀ q e, P q → P (heapPush q e))
    (n : Node) (s : Simulation) (b : Block) (r : Node × Simulation)
    (hr : n.forkChoice s b = some r) (h : P s.EventQueue) : P r.2.EventQueue := by
  unfold Node.forkChoice at hr
  simp only at hr
  split at hr
  · split at hr
    · exact absurd hr (by simp)
    · rename_i n2 s2 hre
      cases hr
      have h2 : P s2.EventQueue := by
        split at hre
        · rw [(handleReorg_frame _ _ _ _ _ hre).2.2.1]; exact h
        · cases hre; exact h
      exact restartMining_queue P hP _ _ (relayBlock_fold_queue P hP b _ (n2, s2) h2)
  · cases hr
    exact relayBlock_fold_queue P hP b _ (n, s) h

theorem receiveBlock_queue (P : EventQueue → Prop) (hP : ∀ q e, P q → P (heapPush q e))
    (n : Node) (s : Simulation) (b : Block) (r : Node × Simulation)
    (hr : n.ReceiveBlock s b = some r) (h : P s.EventQueue) : P r.2.EventQueue := by
  unfold Node.ReceiveBlock at hr
  simp only at hr
  split at hr
  · cases hr; exact h
  · split at hr
    · cases hr; exact h
    · split at hr
      · cases hr; exact h
      · exact forkChoice_queue P hP _ _ b r hr (replayOrphans_queue P hP _ _ b h)

theorem attemptMining_queue (P : EventQueue → Prop) (hP : ∀ q e, P q → P (heapPush q e))
    (n : Node) (s : Simulation) (parent : String) (height : Int) (h : P s.EventQueue) :
    P (n.AttemptMining s parent height).2.EventQueue := by
  unfold Node.AttemptMining
  split
  · exact h
  · split
    · exact h
    · split
      · exact h
      · simp only
        split
        · exact hP _ _ h
        · exact h

theorem processFoundBlock_queue (P : EventQueue → Prop) (hP : ∀ q e, P q → P (heapPush q e))
    (n : Node) (s : Simulation) (blk : Block) (event : Event) (r : Node × Simulation)
    (hr : n.ProcessFoundBlock s blk event = some r) (h : P s.EventQueue) :
    P r.2.EventQueue := by
  unfold Node.ProcessFoundBlock at hr
  split at hr
  · cases hr; exact h
  · split at hr
    · exact receiveBlock_queue P hP _ _ _ r hr h
    · cases hr; exact h

theorem handleInjectTransaction_queue (P : EventQueue → Prop)
    (hP : ∀ q e, P q → P (heapPush q e)) (s s1 : Simulation)
    (hr : s.handleInjectTransaction = some s1) (h : P s.EventQueue) : P s1.EventQueue := by
  unfold Simulation.handleInjectTransaction at hr
  split at hr
  · cases hr; exact h
  · split at hr
    · cases hr; exact h
    · simp only at hr
      split at hr
      · exact absurd hr (by simp)
      · split at hr
        · split at hr <;> cases hr
          · exact hP _ _ (hP _ _ h)
          · exact hP _ _ h
        · cases hr
          exact hP _ _ h

theorem dispatch_queue (P : EventQueue → Prop) (hP : ∀ q e, P q → P (heapPush q e))
    (s s1 : Simulation) (event : Event) (hr : s.dispatch event = some s1)
    (h : P s.EventQueue) : P s1.EventQueue := by
  unfold Simulation.dispatch at hr
  split at hr
  · exact handleInjectTransaction_queue P hP s s1 hr h
  · split at hr
    · cases hr
      exact receiveTransaction_queue P hP _ _ _ h
    · cases hr; exact h
  · split at hr
    · cases hr
      exact attemptMining_queue P hP _ _ _ _ h
    · cases hr; exact h
  · split at hr
    · split at hr
      · rename_i r hr'
        cases hr
        exact processFoundBlock_queue P hP _ s _ _ r hr' h
      · exact absurd hr (by simp)
    · cases hr; exact h
  · split at hr
    · split at hr
      · rename_i r hr'
        cases hr
        exact receiveBlock_queue P hP _ s _ r hr' h
      · exact absurd hr (by simp)
    · cases hr; exact h
  · exact absurd hr (by simp)

/-! ## `Setup` leaves the queue alone -/

theorem setupNodes_queue (nodeIDs : List Int) (l : List Nat) (s : Simulation) (c : Int) :
    (setupNodes nodeIDs l s c).EventQueue = s.EventQueue := by
  induction l generalizing s c with
  | nil => rfl
  | cons i l ih =>
    unfold setupNodes
    simp only
    split
    · rw [ih]
    · rw [ih]

theorem connectPeers_queue (i k : Int) (fuel : Nat) (s s1 : Simulation) (pc ac : Int)
    (h : connectPeers i k fuel s pc ac = some s1) : s1.EventQueue = s.EventQueue := by
  induction fuel generalizing s pc ac with
  | zero => simp [connectPeers] at h
  | succ fuel ih =>
    unfold connectPeers at h
    by_cases hc0 : pc < k
    · rw [if_pos hc0] at h
      cases hn : GoMap.get? s.Nodes i with
      | none => simp [hn] at h
      | some ni =>
        simp only [hn] at h
        by_cases hc : (ni.Peers.length : Int) < s.Cfg.NumNodes - 1
        · rw [if_pos hc] at h
          cases hr : s.Rng.Intn s.Cfg.NumNodes with
          | none => simp [hr] at h
          | some pr =>
            obtain ⟨peerID, r1⟩ := pr
            simp only [hr] at h
            by_cases hp : peerID ≠ i ∧ contains ni.Peers peerID = false
            · rw [if_pos hp] at h
              cases hq : GoMap.get? (GoMap.set s.Nodes i (ni.AddPeer peerID)) peerID with
              | none => simp [hq] at h
              | some np =>
                simp only [hq] at h
                have h3 : (addReverseEdge
                    { ({ s with Rng := r1 } : Simulation) with
                      Nodes := GoMap.set s.Nodes i (ni.AddPeer peerID) } peerID i np).EventQueue =
                    s.EventQueue := by
                  unfold addReverseEdge
                  split <;> rfl
                split at h
                · cases h; exact h3
                · exact (ih _ _ _ h).trans h3
            · rw [if_neg hp] at h
              split at h
              · cases h; rfl
              · have e := ih _ _ _ h
                exact e
        · rw [if_neg hc] at h
          cases h; rfl
    · rw [if_neg hc0] at h
      cases h; rfl

theorem setupPeers_queue (l : List Nat) (s s1 : Simulation) (h : setupPeers l s = some s1) :
    s1.EventQueue = s.EventQueue := by
  induction l generalizing s with
  | nil => simp [setupPeers] at h; subst h; rfl
  | cons i l ih =>
    unfold setupPeers at h
    split at h
    · exact absurd h (by simp)
    · split at h
      · exact absurd h (by simp)
      · rename_i s2 hc
        have e := connectPeers_queue _ _ _ _ _ _ _ hc
        exact (ih _ h).trans e

theorem setup_queue (s s1 : Simulation) (h : s.Setup = some s1) :
    s1.EventQueue = s.EventQueue := by
  unfold Simulation.Setup at h
  split at h
  · exact absurd h (by simp)
  · exact (setupPeers_queue _ _ _ h).trans (setupNodes_queue _ _ _ _)

theorem heapPush_nil (e : Event) : heapPush [] e = [e] := by
  simp [heapPush, heapUp, heapUpLoop]

/-- At the entry of the main loop the queue of a fresh simulation is empty or holds the first
injection event alone. -/
theorem newSimulation_queue (cfg : Config) (t : Int) (rng : Rand)
    (sha : BlockHeader → List String → String) (s0 : Simulation)
    (h : (NewSimulation cfg t rng sha).runStart = some s0) :
    s0.EventQueue = [] ∨
    (F64.lt { m := 0, e := 0 } cfg.TransactionRatePerSec = true ∧
      ∃ e, s0.EventQueue = [e] ∧
        e.Timestamp = s0.StartTime + injectDelay cfg.TransactionRatePerSec) := by
  obtain ⟨_, hcfg⟩ := newSimulation_entry cfg t rng sha s0 h
  unfold Simulation.runStart at h
  split at h
  · exact absurd h (by simp)
  · rename_i s1 hs
    have hq := setup_queue _ _ hs
    split at h
    · rename_i hcond
      cases h
      simp only [Simulation.ScheduleEvent, Simulation.ScheduleEventWithPriority] at hcfg ⊢
      rw [hq]
      refine Or.inr ⟨by rw [← hcfg]; exact hcond.1,
        { Timestamp := s1.StartTime + injectDelay s1.Cfg.TransactionRatePerSec,
          Type_ := EventType.EvInjectTransaction, Data := EventData.InjectTransactionData,
          Priority := EventType.EvInjectTransaction.toInt, handle := s1.NextHandle },
        heapPush_nil _, ?_⟩
      rw [hcfg]
    · cases h
      exact Or.inl hq

/-! ## C12: the queue is a min-heap -/

/-- A dispatching round pops the queue and dispatches the popped event, clamped to the
current time, in the state with the rest of the queue. -/
theorem loopStep_dispatched_pop (s s2 : Simulation) (h : s.loopStep = LoopStep.dispatched s2) :
    ∃ event0 queue, heapPop s.EventQueue = some (event0, queue) ∧
      event0.Timestamp - s.StartTime < s.Cfg.SimulationDuration ∧
      ({ s with EventQueue := queue,
                CurrentTime := (if event0.Timestamp < s.CurrentTime then
                  { event0 with Timestamp := s.CurrentTime } else event0).Timestamp } :
        Simulation).dispatch
        (if event0.Timestamp < s.CurrentTime then { event0 with Timestamp := s.CurrentTime }
          else event0) = some s2 := by
  unfold Simulation.loopStep at h
  split at h
  · exact absurd h (by simp)
  · rename_i first rest hq
    simp only at h
    split at h
    · exact absurd h (by simp)
    · rename_i hlt
      split at h
      · exact absurd h (by simp)
      · rename_i event0 queue hpop
        split at h
        · exact absurd h (by simp)
        · rename_i s3 hd
          cases h
          have hh := heapPop_head _ _ _ hpop
          rw [hq] at hh
          simp only [List.head?_cons, Option.some.injEq] at hh
          subst hh
          exact ⟨first, queue, hpop, by omega, hd⟩

/-- The queue of every state of the main loop of a fresh simulation is made by heap pushes
and pops from the empty queue. -/
theorem loop_heapReachable (cfg : Config) (t : Int) (rng : Rand)
    (sha : BlockHeader → List String → String) (s0 s : Simulation)
    (h : (NewSimulation cfg t rng sha).runStart = some s0) (hr : LoopReaches s0 s) :
    HeapReachable s.EventQueue := by
  induction hr with
  | entry =>
    rcases newSimulation_queue cfg t rng sha s0 h with e | ⟨_, e, he, _⟩
    · rw [e]; exact HeapReachable.empty
    · rw [he, ← heapPush_nil]
      exact HeapReachable.push _ _ HeapReachable.empty
  | round s s1 _ hstep ih =>
    obtain ⟨event0, queue, hpop, _, hd⟩ := loopStep_dispatched_pop s s1 hstep
    exact dispatch_queue HeapReachable (fun q e hq => HeapReachable.push q e hq) _ _ _ hd
      (HeapReachable.pop _ _ _ ih hpop)

/-- C12: after any sequence of heap pushes and pops from the empty queue, the event at
index 0 of a queue that is not empty (the event that `Run` peeks) is the event that the next
pop returns, its timestamp is no later than that of every queued event, and among the queued
events with that same timestamp it has the lowest priority value.  The queue of `Run` is such
a queue in every round of the main loop. -/
theorem C12_min_heap (q : EventQueue) (hr : HeapReachable q) (first : Event)
    (rest : List Event) (hq : q = first :: rest) :
    (∃ q1, heapPop q = some (first, q1) ∧ HeapReachable q1) ∧
    (∀ e ∈ q, first.Timestamp ≤ e.Timestamp ∧
      (e.Timestamp = first.Timestamp → first.Priority ≤ e.Priority)) ∧
    (∀ (cfg : Config) (t : Int) (rng : Rand) (sha : BlockHeader → List String → String)
      (s0 s : Simulation), (NewSimulation cfg t rng sha).runStart = some s0 →
      LoopReaches s0 s → HeapReachable s.EventQueue) := by
  refine ⟨?_, ?_, fun cfg t rng sha s0 s h hl => loop_heapReachable cfg t rng sha s0 s h hl⟩
  · obtain ⟨q1, hp⟩ := heapPop_some q first rest hq
    exact ⟨q1, hp, HeapReachable.pop q first q1 hr hp⟩
  · intro e he
    obtain ⟨j, hj⟩ := List.getElem?_of_mem he
    have h0 : q[0]? = some first := by rw [hq]; simp
    have := heap_root_min q (heapReachable_heap q hr) first h0 j e hj
    rw [before_false_iff] at this
    omega

/-- C12 for the queue of three pushes: the event at time 3 with priority 1 comes first. -/
theorem C12_min_heap_witness :
    (HeapReachable exQueue ∧ exQueue = exEvC :: [exEvA, exEvB]) ∧
    ((∃ q1, heapPop exQueue = some (exEvC, q1) ∧ HeapReachable q1) ∧
    (∀ e ∈ exQueue, exEvC.Timestamp ≤ e.Timestamp ∧
      (e.Timestamp = exEvC.Timestamp → exEvC.Priority ≤ e.Priority)) ∧
    (∀ (cfg : Config) (t : Int) (rng : Rand) (sha : BlockHeader → List String → String)
      (s0 s : Simulation), (NewSimulation cfg t rng sha).runStart = some s0 →
      LoopReaches s0 s → HeapReachable s.EventQueue)) :=
  have hr : HeapReachable exQueue :=
    HeapReachable.push _ _ (HeapReachable.push _ _ (HeapReachable.push _ _ HeapReachable.empty))
  ⟨⟨hr, by decide⟩, C12_min_heap exQueue hr exEvC [exEvA, exEvB] (by decide)⟩

/-! ## C13: ties in the queue order -/

theorem heapDownLoop_perm (fuel : Nat) (q : EventQueue) (i n : Nat) :
    (heapDownLoop fuel q i n).Perm q := by
  induction fuel generalizing q i with
  | zero => exact List.Perm.refl _
  | succ fuel ih =>
    unfold heapDownLoop
    simp only
    split
    · exact List.Perm.refl _
    · generalize (if 2 * i + 1 + 1 < n ∧ EventQueue.Less q (2 * i + 1 + 1) (2 * i + 1) = true
          then 2 * i + 1 + 1 else 2 * i + 1) = j
      split
      · exact List.Perm.refl _
      · exact (ih _ _).trans (swap_perm q _ _)

theorem heapPop_perm (q : EventQueue) (e : Event) (q1 : EventQueue)
    (h : heapPop q = some (e, q1)) : (e :: q1).Perm q := by
  unfold heapPop at h
  simp only at h
  split at h
  · rename_i e0 hl
    cases h
    have hp : (heapDown (EventQueue.Swap q 0 (q.length - 1)) 0 (q.length - 1)).Perm q :=
      (heapDownLoop_perm _ _ _ _).trans (swap_perm q _ _)
    have hd := List.dropLast_append_getLast? e (by rw [Option.mem_def]; exact hl)
    refine List.Perm.trans ?_ hp
    nth_rewrite 2 [← hd]
    exact (List.perm_append_singleton _ _).symm
  · exact absurd h (by simp)

/-- Draining a heap gives its events, each once, in non-decreasing order of timestamp and
priority. -/
theorem drain_sorted (fuel : Nat) (q : EventQueue) (hf : q.length ≤ fuel) (h : IsHeap q) :
    (drain fuel q).Perm q ∧
    (drain fuel q).Pairwise (fun a b => b.before a = false) := by
  induction fuel generalizing q with
  | zero =>
    have : q = [] := List.length_eq_zero.1 (by omega)
    subst this
    exact ⟨List.Perm.refl _, List.Pairwise.nil⟩
  | succ fuel ih =>
    cases q with
    | nil => simp [drain, heapPop, heapDown, EventQueue.Swap, heapDownLoop]
    | cons first rest =>
      obtain ⟨q1, hp⟩ := heapPop_some (first :: rest) first rest rfl
      have hperm := heapPop_perm _ _ _ hp
      have hlen : q1.length ≤ fuel := by
        have := hperm.length_eq
        simp only [List.length_cons] at this hf
        omega
      obtain ⟨i1, i2⟩ := ih q1 hlen (heapPop_heap _ _ _ h hp)
      unfold drain
      rw [hp]
      refine ⟨(List.Perm.cons first i1).trans hperm, List.Pairwise.cons ?_ i2⟩
      intro b hb
      have hbq : b ∈ first :: rest := hperm.subset (List.mem_cons_of_mem _ (i1.subset hb))
      obtain ⟨j, hj⟩ := List.getElem?_of_mem hbq
      exact heap_root_min _ h first (by simp) j b hj

/-- C13 fails as stated: of three events with the same timestamp and the same priority,
pushed in the order 1, 2, 3, the third is popped before the second. -/
theorem C13_fifo_counterexample :
    (exTie 2).Timestamp = (exTie 3).Timestamp ∧ (exTie 2).Priority = (exTie 3).Priority ∧
    drain 3 (heapPush (heapPush (heapPush [] (exTie 1)) (exTie 2)) (exTie 3)) =
      [exTie 1, exTie 3, exTie 2] := by
  decide

/-- C13, amended: the queue order is the order on timestamp and priority alone.  The events
of a queue made by heap pushes and pops are popped, each once, in non-decreasing order of
timestamp and, at equal timestamps, of priority; the order among events that agree in both is
that of the heap layout. -/
theorem C13_pop_order (q : EventQueue) (hr : HeapReachable q) :
    (drain q.length q).Perm q ∧
    (drain q.length q).Pairwise
      (fun a b => a.Timestamp < b.Timestamp ∨
        (a.Timestamp = b.Timestamp ∧ a.Priority ≤ b.Priority)) := by
  obtain ⟨h1, h2⟩ := drain_sorted q.length q (le_refl _) (heapReachable_heap q hr)
  refine ⟨h1, h2.imp ?_⟩
  intro a b hab
  rw [before_false_iff] at hab
  exact hab

/-- C13, amended, for the queue of three pushes `exQueue`. -/
theorem C13_pop_order_witness :
    HeapReachable exQueue ∧
    drain exQueue.length exQueue = [exEvC, exEvB, exEvA] ∧
    ((drain exQueue.length exQueue).Perm exQueue ∧
    (drain exQueue.length exQueue).Pairwise
      (fun a b => a.Timestamp < b.Timestamp ∨
        (a.Timestamp = b.Timestamp ∧ a.Priority ≤ b.Priority))) :=
  have hr : HeapReachable exQueue :=
    HeapReachable.push _ _ (HeapReachable.push _ _ (HeapReachable.push _ _ HeapReachable.empty))
  ⟨hr, by decide, C13_pop_order exQueue hr⟩

/-! ## Floating point: the number of bits -/

theorem log2Loop_spec (fuel n : Nat) (hn : 0 < n) (hf : n ≤ fuel) :
    2 ^ log2Loop fuel n ≤ n ∧ n < 2 ^ (log2Loop fuel n + 1) := by
  induction fuel generalizing n with
  | zero => omega
  | succ fuel ih =>
    unfold log2Loop
    by_cases h2 : n < 2
    · rw [if_pos h2]
      simp
      omega
    · rw [if_neg h2]
      obtain ⟨a1, a2⟩ := ih (n / 2) (by omega) (by omega)
      rw [pow_succ] at a2 ⊢
      rw [pow_succ]
      constructor <;> omega

theorem bitLen_spec (a : Nat) (ha : 0 < a) :
    0 < bitLen a ∧ 2 ^ (bitLen a - 1) ≤ a ∧ a < 2 ^ bitLen a := by
  unfold bitLen
  rw [if_neg (by omega)]
  obtain ⟨h1, h2⟩ := log2Loop_spec a a ha (le_refl _)
  exact ⟨by omega, by simpa using h1, h2⟩

theorem bitLen_zero : bitLen 0 = 0 := rfl

theorem bitLen_le_iff (a n : Nat) : bitLen a ≤ n ↔ a < 2 ^ n := by
  by_cases ha : a = 0
  · subst ha
    simp [bitLen_zero]
  · obtain ⟨h0, h1, h2⟩ := bitLen_spec a (by omega)
    constructor
    · intro h
      exact lt_of_lt_of_le h2 (Nat.pow_le_pow_right (by omega) h)
    · intro h
      by_contra hc
      have : 2 ^ n ≤ 2 ^ (bitLen a - 1) := Nat.pow_le_pow_right (by omega) (by omega)
      omega

theorem bitLen_mono (a b : Nat) (h : a ≤ b) : bitLen a ≤ bitLen b := by
  rw [bitLen_le_iff]
  by_cases hb : b = 0
  · subst hb
    have : a = 0 := by omega
    subst this
    simp [bitLen_zero]
  · exact lt_of_le_of_lt h (bitLen_spec b (by omega)).2.2

theorem bitLen_eq (a k : Nat) (h1 : 2 ^ k ≤ a) (h2 : a < 2 ^ (k + 1)) : bitLen a = k + 1 := by
  have ha : 0 < a := lt_of_lt_of_le (by positivity) h1
  apply le_antisymm
  · rw [bitLen_le_iff]; exact h2
  · by_contra hc
    have : bitLen a ≤ k := by omega
    rw [bitLen_le_iff] at this
    omega

theorem bitLen_mul_pow (a k : Nat) (ha : 0 < a) : bitLen (a * 2 ^ k) = bitLen a + k := by
  obtain ⟨h0, h1, h2⟩ := bitLen_spec a ha
  have e : bitLen a + k = (bitLen a - 1 + k) + 1 := by omega
  rw [e]
  apply bitLen_eq
  · rw [pow_add]
    exact Nat.mul_le_mul_right _ h1
  · have : bitLen a - 1 + k + 1 = bitLen a + k := by omega
    rw [this, pow_add]
    exact Nat.mul_lt_mul_of_pos_right h2 (by positivity)

/-! ## Floating point: rounding a quotient -/

theorem rne_bounds (a sh : Nat) : a / 2 ^ sh ≤ rne a sh ∧ rne a sh ≤ a / 2 ^ sh + 1 := by
  unfold rne
  split <;> omega

theorem rne_zero (a : Nat) : rne a 0 = a := by
  unfold rne
  simp [Nat.mod_one]

theorem rne_mono (a1 a2 sh : Nat) (h : a1 ≤ a2) : rne a1 sh ≤ rne a2 sh := by
  have hq : a1 / 2 ^ sh ≤ a2 / 2 ^ sh := Nat.div_le_div_right h
  by_cases e : a1 / 2 ^ sh = a2 / 2 ^ sh
  · have hr : a1 % 2 ^ sh ≤ a2 % 2 ^ sh := by
      have h1 := Nat.div_add_mod a1 (2 ^ sh)
      have h2 := Nat.div_add_mod a2 (2 ^ sh)
      rw [e] at h1
      omega
    unfold rne
    rw [e]
    split
    · rename_i hc
      split
      · omega
      · rename_i hc2
        exfalso
        apply hc2
        rcases hc with hc | hc
        · exact Or.inl (by omega)
        · by_cases e2 : a1 % 2 ^ sh = a2 % 2 ^ sh
          · rw [← e2]; exact Or.inr hc
          · exact Or.inl (by omega)
    · split <;> omega
  · have := (rne_bounds a1 sh).2
    have := (rne_bounds a2 sh).1
    omega

theorem rne_scale (a sh k : Nat) : rne (a * 2 ^ k) (sh + k) = rne a sh := by
  have hp : 0 < 2 ^ k := by positivity
  have hq : a * 2 ^ k / 2 ^ (sh + k) = a / 2 ^ sh := by
    rw [pow_add, Nat.mul_div_mul_right _ _ hp]
  have hr : a * 2 ^ k % 2 ^ (sh + k) = a % 2 ^ sh * 2 ^ k := by
    rw [pow_add, Nat.mul_mod_mul_right]
  unfold rne
  rw [hq, hr]
  by_cases hs : sh = 0
  · subst hs
    simp only [pow_zero, Nat.mod_one, zero_mul, Nat.div_one, zero_add]
    have h1 : ¬ (2 ^ (k - 1) < 0 ∨ 0 = 2 ^ (k - 1) ∧ a % 2 = 1) := by
      have : 0 < 2 ^ (k - 1) := by positivity
      omega
    have h2 : ¬ (2 ^ (0 - 1) < 0 ∨ 0 = 2 ^ (0 - 1) ∧ a % 2 = 1) := by
      simp
    rw [if_neg h1, if_neg h2]
  · have hh : 2 ^ (sh + k - 1) = 2 ^ (sh - 1) * 2 ^ k := by
      rw [← pow_add]
      congr 1
      omega
    rw [hh]
    have c1 : 2 ^ (sh - 1) * 2 ^ k < a % 2 ^ sh * 2 ^ k ↔ 2 ^ (sh - 1) < a % 2 ^ sh :=
      Nat.mul_lt_mul_right hp
    have c2 : a % 2 ^ sh * 2 ^ k = 2 ^ (sh - 1) * 2 ^ k ↔ a % 2 ^ sh = 2 ^ (sh - 1) :=
      Nat.mul_left_inj (by omega)
    simp only [c1, c2]

/-! ## Floating point: the order -/

theorem f64_le_iff (x y : F64) (c : Int) (hx : c ≤ x.e) (hy : c ≤ y.e) :
    F64.le x y = true ↔ x.m * 2 ^ (x.e - c).toNat ≤ y.m * 2 ^ (y.e - c).toNat := by
  unfold F64.le
  simp only [decide_eq_true_eq]
  have hc : c ≤ min x.e y.e := le_min hx hy
  have ex : (x.e - c).toNat = (x.e - min x.e y.e).toNat + (min x.e y.e - c).toNat := by omega
  have ey : (y.e - c).toNat = (y.e - min x.e y.e).toNat + (min x.e y.e - c).toNat := by omega
  rw [ex, ey, pow_add, pow_add, ← mul_assoc, ← mul_assoc]
  exact (mul_le_mul_right (by positivity)).symm

theorem f64_le_refl (x : F64) : F64.le x x = true := by
  rw [f64_le_iff x x x.e (le_refl _) (le_refl _)]

theorem f64_le_trans (x y z : F64) (h1 : F64.le x y = true) (h2 : F64.le y z = true) :
    F64.le x z = true := by
  have cx : min x.e (min y.e z.e) ≤ x.e := min_le_left _ _
  have cy : min x.e (min y.e z.e) ≤ y.e := le_trans (min_le_right _ _) (min_le_left _ _)
  have cz : min x.e (min y.e z.e) ≤ z.e := le_trans (min_le_right _ _) (min_le_right _ _)
  rw [f64_le_iff x y _ cx cy] at h1
  rw [f64_le_iff y z _ cy cz] at h2
  rw [f64_le_iff x z _ cx cz]
  exact le_trans h1 h2

/-! ## Floating point: rounding -/

theorem round_eq (x : F64) :
    F64.round x =
      if bitLen x.m.natAbs ≤ 53 then x
      else
        { m := if x.m < 0 then -((rne x.m.natAbs (bitLen x.m.natAbs - 53) : Nat) : Int)
               else ((rne x.m.natAbs (bitLen x.m.natAbs - 53) : Nat) : Int),
          e := x.e + ((bitLen x.m.natAbs - 53 : Nat) : Int) } := by
  unfold F64.round rne
  simp only

theorem round_nat (a : Nat) (e : Int) :
    F64.round { m := (a : Int), e := e } =
      if bitLen a ≤ 53 then { m := (a : Int), e := e }
      else { m := ((rne a (bitLen a - 53) : Nat) : Int), e := e + ((bitLen a - 53 : Nat) : Int) } := by
  rw [round_eq]
  simp only [Int.natAbs_ofNat]
  have : ¬ ((a : Int) < 0) := by omega
  simp only [this, if_false]

theorem round_neg (m e : Int) :
    F64.round { m := -m, e := e } =
      { m := -(F64.round { m := m, e := e }).m, e := (F64.round { m := m, e := e }).e } := by
  rw [round_eq, round_eq]
  simp only [Int.natAbs_neg]
  split
  · rfl
  · rename_i hb
    have hm : m ≠ 0 := by
      intro e0
      subst e0
      simp [bitLen_zero] at hb
    by_cases hneg : m < 0
    · have : ¬ (-m < 0) := by omega
      simp only [this, hneg, if_false, if_true, neg_neg]
    · have : -m < 0 := by omega
      simp only [this, hneg, if_false, if_true]

theorem f64_le_neg (m1 e1 m2 e2 : Int) :
    F64.le { m := -m2, e := e2 } { m := -m1, e := e1 } =
      F64.le { m := m1, e := e1 } { m := m2, e := e2 } := by
  unfold F64.le
  simp only [min_comm e2 e1, neg_mul, neg_le_neg_iff]

theorem rne_range (a : Nat) (hb : 53 < bitLen a) :
    2 ^ 52 ≤ rne a (bitLen a - 53) ∧ rne a (bitLen a - 53) ≤ 2 ^ 53 := by
  have ha : 0 < a := by
    by_contra h0
    have : a = 0 := by omega
    subst this
    simp [bitLen_zero] at hb
  obtain ⟨_, h1, h2⟩ := bitLen_spec a ha
  have hp : 0 < 2 ^ (bitLen a - 53) := by positivity
  have e1 : 2 ^ (bitLen a - 1) = 2 ^ 52 * 2 ^ (bitLen a - 53) := by
    rw [← pow_add]; congr 1; omega
  have e2 : 2 ^ bitLen a = 2 ^ 53 * 2 ^ (bitLen a - 53) := by
    rw [← pow_add]; congr 1; omega
  have q1 : 2 ^ 52 ≤ a / 2 ^ (bitLen a - 53) := by
    rw [Nat.le_div_iff_mul_le hp, ← e1]; exact h1
  have q2 : a / 2 ^ (bitLen a - 53) < 2 ^ 53 := by
    rw [Nat.div_lt_iff_lt_mul hp, ← e2]; exact h2
  have := rne_bounds a (bitLen a - 53)
  omega

/-- Rounding is monotone on the magnitudes at one exponent. -/
theorem round_mono_nat (a1 a2 : Nat) (e : Int) (h : a1 ≤ a2) :
    F64.le (F64.round { m := (a1 : Int), e := e }) (F64.round { m := (a2 : Int), e := e }) =
      true := by
  rw [round_nat, round_nat]
  have hb := bitLen_mono a1 a2 h
  by_cases h2 : bitLen a2 ≤ 53
  · have h1 : bitLen a1 ≤ 53 := by omega
    rw [if_pos h1, if_pos h2, f64_le_iff _ _ e (le_refl _) (le_refl _)]
    simp only [sub_self, Int.toNat_zero, pow_zero, mul_one]
    exact_mod_cast h
  · rw [if_neg h2]
    obtain ⟨r1, r2⟩ := rne_range a2 (by omega)
    by_cases h1 : bitLen a1 ≤ 53
    · rw [if_pos h1, f64_le_iff _ _ e (le_refl _) (by simp)]
      simp only [sub_self, Int.toNat_zero, pow_zero, mul_one, add_sub_cancel_left,
        Int.toNat_ofNat]
      have ha1 : a1 < 2 ^ 53 := (bitLen_le_iff a1 53).1 h1
      have hp : 2 ≤ 2 ^ (bitLen a2 - 53) := by
        calc 2 = 2 ^ 1 := by norm_num
          _ ≤ 2 ^ (bitLen a2 - 53) := Nat.pow_le_pow_right (by omega) (by omega)
      have : a1 ≤ rne a2 (bitLen a2 - 53) * 2 ^ (bitLen a2 - 53) := by
        calc a1 ≤ 2 ^ 52 * 2 := by omega
          _ ≤ rne a2 (bitLen a2 - 53) * 2 ^ (bitLen a2 - 53) := Nat.mul_le_mul r1 hp
      exact_mod_cast this
    · rw [if_neg h1, f64_le_iff _ _ e (by simp) (by simp)]
      simp only [add_sub_cancel_left, Int.toNat_ofNat]
      obtain ⟨s1, s2⟩ := rne_range a1 (by omega)
      by_cases hs : bitLen a1 = bitLen a2
      · rw [hs]
        have := rne_mono a1 a2 (bitLen a2 - 53) h
        have := Nat.mul_le_mul_right (2 ^ (bitLen a2 - 53)) this
        exact_mod_cast this
      · have hlt : bitLen a1 - 53 + 1 ≤ bitLen a2 - 53 := by omega
        have hp : 2 ^ (bitLen a1 - 53) * 2 ≤ 2 ^ (bitLen a2 - 53) := by
          rw [← pow_succ]
          exact Nat.pow_le_pow_right (by omega) hlt
        have : rne a1 (bitLen a1 - 53) * 2 ^ (bitLen a1 - 53) ≤
            rne a2 (bitLen a2 - 53) * 2 ^ (bitLen a2 - 53) := by
          calc rne a1 (bitLen a1 - 53) * 2 ^ (bitLen a1 - 53)
              ≤ 2 ^ 53 * 2 ^ (bitLen a1 - 53) := Nat.mul_le_mul_right _ s2
            _ = 2 ^ 52 * (2 ^ (bitLen a1 - 53) * 2) := by ring
            _ ≤ rne a2 (bitLen a2 - 53) * 2 ^ (bitLen a2 - 53) := Nat.mul_le_mul r1 hp
        exact_mod_cast this

theorem round_m_nonneg (x : F64) (h : 0 ≤ x.m) : 0 ≤ (F64.round x).m := by
  rw [round_eq]
  split
  · exact h
  · have : ¬ x.m < 0 := by omega
    simp only [this, if_false]
    omega

theorem round_m_nonpos (x : F64) (h : x.m ≤ 0) : (F64.round x).m ≤ 0 := by
  rw [round_eq]
  split
  · exact h
  · rename_i hb
    have hm : x.m ≠ 0 := by
      intro e0
      rw [e0] at hb
      simp [bitLen_zero] at hb
    have : x.m < 0 := by omega
    simp only [this, if_true]
    omega

theorem round_m_pos (x : F64) (h : 0 < x.m) : 0 < (F64.round x).m := by
  rw [round_eq]
  split
  · exact h
  · rename_i hb
    have : ¬ x.m < 0 := by omega
    simp only [this, if_false]
    have := (rne_range x.m.natAbs (by omega)).1
    have : 0 < rne x.m.natAbs (bitLen x.m.natAbs - 53) := lt_of_lt_of_le (by positivity) this
    omega

theorem f64_le_of_signs (x y : F64) (hx : x.m ≤ 0) (hy : 0 ≤ y.m) : F64.le x y = true := by
  rw [f64_le_iff x y (min x.e y.e) (min_le_left _ _) (min_le_right _ _)]
  have h1 : x.m * 2 ^ (x.e - min x.e y.e).toNat ≤ 0 :=
    mul_nonpos_of_nonpos_of_nonneg hx (by positivity)
  have h2 : 0 ≤ y.m * 2 ^ (y.e - min x.e y.e).toNat := mul_nonneg hy (by positivity)
  omega

/-- Rounding is monotone on the mantissas at one exponent. -/
theorem round_mono_same (m1 m2 e : Int) (h : m1 ≤ m2) :
    F64.le (F64.round { m := m1, e := e }) (F64.round { m := m2, e := e }) = true := by
  by_cases h1 : 0 ≤ m1
  · obtain ⟨a1, rfl⟩ := Int.eq_ofNat_of_zero_le h1
    obtain ⟨a2, rfl⟩ := Int.eq_ofNat_of_zero_le (le_trans h1 h)
    exact round_mono_nat a1 a2 e (by omega)
  · by_cases h2 : 0 ≤ m2
    · exact f64_le_of_signs _ _ (round_m_nonpos _ (by simp only; omega))
        (round_m_nonneg _ h2)
    · obtain ⟨a1, ha1⟩ := Int.eq_ofNat_of_zero_le (show 0 ≤ -m1 by omega)
      obtain ⟨a2, ha2⟩ := Int.eq_ofNat_of_zero_le (show 0 ≤ -m2 by omega)
      have e1 : m1 = -(a1 : Int) := by omega
      have e2 : m2 = -(a2 : Int) := by omega
      rw [e1, e2, round_neg, round_neg, f64_le_neg]
      exact round_mono_nat a2 a1 e (by omega)

/-- Rounding does not depend on the representation of the number: the natural case. -/
theorem round_scale_nat (a : Nat) (e : Int) (k : Nat) :
    F64.le (F64.round { m := ((a * 2 ^ k : Nat) : Int), e := e - (k : Int) })
      (F64.round { m := (a : Int), e := e }) = true ∧
    F64.le (F64.round { m := (a : Int), e := e })
      (F64.round { m := ((a * 2 ^ k : Nat) : Int), e := e - (k : Int) }) = true := by
  by_cases ha : a = 0
  · subst ha
    simp only [zero_mul, round_nat, bitLen_zero, Nat.zero_le, if_true]
    constructor <;>
      · rw [f64_le_iff _ _ (e - (k : Int)) (by simp) (by simp)]
        simp
  · have hb := bitLen_mul_pow a k (by omega)
    rw [round_nat, round_nat, hb]
    by_cases c1 : bitLen a + k ≤ 53
    · have c2 : bitLen a ≤ 53 := by omega
      rw [if_pos c1, if_pos c2]
      constructor <;>
        · rw [f64_le_iff _ _ (e - (k : Int)) (by simp) (by simp)]
          simp
    · rw [if_neg c1]
      by_cases c2 : bitLen a ≤ 53
      · rw [if_pos c2]
        have hk : a * 2 ^ k = a * 2 ^ (53 - bitLen a) * 2 ^ (bitLen a + k - 53) := by
          rw [mul_assoc, ← pow_add]
          congr 2
          omega
        have hr : rne (a * 2 ^ k) (bitLen a + k - 53) = a * 2 ^ (53 - bitLen a) := by
          rw [hk]
          have := rne_scale (a * 2 ^ (53 - bitLen a)) 0 (bitLen a + k - 53)
          rw [zero_add] at this
          rw [this, rne_zero]
        rw [hr]
        have he : e - (k : Int) + ((bitLen a + k - 53 : Nat) : Int) =
            e - ((53 - bitLen a : Nat) : Int) := by omega
        rw [he]
        constructor <;>
          · rw [f64_le_iff _ _ (e - ((53 - bitLen a : Nat) : Int)) (by simp) (by simp)]
            simp
      · rw [if_neg c2]
        have hs : bitLen a + k - 53 = bitLen a - 53 + k := by omega
        have he : e - (k : Int) + ((bitLen a + k - 53 : Nat) : Int) =
            e + ((bitLen a - 53 : Nat) : Int) := by omega
        rw [he, hs, rne_scale]
        exact ⟨f64_le_refl _, f64_le_refl _⟩

/-- Rounding does not depend on the representation of the number. -/
theorem round_scale (m e : Int) (k : Nat) :
    F64.le (F64.round { m := m * 2 ^ k, e := e - (k : Int) }) (F64.round { m := m, e := e }) =
      true ∧
    F64.le (F64.round { m := m, e := e }) (F64.round { m := m * 2 ^ k, e := e - (k : Int) }) =
      true := by
  by_cases h : 0 ≤ m
  · obtain ⟨a, rfl⟩ := Int.eq_ofNat_of_zero_le h
    have := round_scale_nat a e k
    simpa using this
  · obtain ⟨a, ha⟩ := Int.eq_ofNat_of_zero_le (show 0 ≤ -m by omega)
    have e1 : m = -(a : Int) := by omega
    have e2 : m * 2 ^ k = -(((a * 2 ^ k : Nat) : Int)) := by
      rw [e1]; push_cast; ring
    rw [e2, e1, round_neg, round_neg, f64_le_neg, f64_le_neg]
    exact (round_scale_nat a e k).symm

/-- Rounding is monotone. -/
theorem round_mono (x y : F64) (h : F64.le x y = true) :
    F64.le (F64.round x) (F64.round y) = true := by
  have hx := round_scale x.m x.e (x.e - min x.e y.e).toNat
  have hy := round_scale y.m y.e (y.e - min x.e y.e).toNat
  have ex : x.e - ((x.e - min x.e y.e).toNat : Int) = min x.e y.e := by omega
  have ey : y.e - ((y.e - min x.e y.e).toNat : Int) = min x.e y.e := by omega
  rw [ex] at hx
  rw [ey] at hy
  have hm : x.m * 2 ^ (x.e - min x.e y.e).toNat ≤ y.m * 2 ^ (y.e - min x.e y.e).toNat := by
    unfold F64.le at h
    simpa using h
  exact f64_le_trans _ _ _ hx.2 (f64_le_trans _ _ _ (round_mono_same _ _ _ hm) hy.1)

/-! ## Floating point: sums and quotients -/

theorem pow_split (m e c mn : Int) (h1 : c ≤ mn) (h2 : mn ≤ e) :
    m * 2 ^ (e - mn).toNat * 2 ^ (mn - c).toNat = m * 2 ^ (e - c).toNat := by
  rw [mul_assoc, ← pow_add]
  congr 2
  omega

/-- A sum of floats is at most another when the exact sums compare so. -/
theorem add_le_add_of (x1 y1 x2 y2 : F64) (c : Int) (h1 : c ≤ x1.e) (h2 : c ≤ y1.e)
    (h3 : c ≤ x2.e) (h4 : c ≤ y2.e)
    (h : x1.m * 2 ^ (x1.e - c).toNat + y1.m * 2 ^ (y1.e - c).toNat ≤
      x2.m * 2 ^ (x2.e - c).toNat + y2.m * 2 ^ (y2.e - c).toNat) :
    F64.le (F64.add x1 y1) (F64.add x2 y2) = true := by
  unfold F64.add
  apply round_mono
  rw [f64_le_iff _ _ c (le_min h1 h2) (le_min h3 h4)]
  simp only
  rw [add_mul, add_mul, pow_split _ _ _ _ (le_min h1 h2) (min_le_left _ _),
    pow_split _ _ _ _ (le_min h1 h2) (min_le_right _ _),
    pow_split _ _ _ _ (le_min h3 h4) (min_le_left _ _),
    pow_split _ _ _ _ (le_min h3 h4) (min_le_right _ _)]
  exact h

theorem float64OfInt_small (n : Int) (h : n.natAbs < 2 ^ 53) :
    float64OfInt n = { m := n, e := 0 } := by
  unfold float64OfInt
  rw [round_eq, if_pos ((bitLen_le_iff _ _).2 h)]

/-- The magnitude that `F64.div` rounds is monotone in the magnitude of the numerator. -/
theorem div_mag_mono (a1 a2 d k : Nat) (h : a1 ≤ a2) :
    2 * (a1 * 2 ^ k / d) + (if a1 * 2 ^ k % d = 0 then 0 else 1) ≤
      2 * (a2 * 2 ^ k / d) + (if a2 * 2 ^ k % d = 0 then 0 else 1) := by
  have hm : a1 * 2 ^ k ≤ a2 * 2 ^ k := Nat.mul_le_mul_right _ h
  have hq : a1 * 2 ^ k / d ≤ a2 * 2 ^ k / d := Nat.div_le_div_right hm
  have e1 := Nat.div_add_mod (a1 * 2 ^ k) d
  have e2 := Nat.div_add_mod (a2 * 2 ^ k) d
  by_cases e : a1 * 2 ^ k / d = a2 * 2 ^ k / d
  · rw [e] at e1 ⊢
    split
    · omega
    · split
      · omega
      · omega
  · split <;> split <;> omega

/-- The quotient by a positive float is monotone in an integer numerator. -/
theorem div_mono_num (n1 n2 : Int) (y : F64) (hy : 0 < y.m) (h : n1 ≤ n2) :
    F64.le (F64.div { m := n1, e := 0 } y) (F64.div { m := n2, e := 0 } y) = true := by
  unfold F64.div
  have hy0 : y.m ≠ 0 := by omega
  have hyn : ¬ y.m < 0 := by omega
  simp only [hy0, if_false, hyn, eq_iff_iff, iff_false, not_lt]
  apply round_mono_same
  by_cases h1 : 0 ≤ n1
  · have h2 : 0 ≤ n2 := le_trans h1 h
    rw [if_pos h1, if_pos h2]
    have := div_mag_mono n1.natAbs n2.natAbs y.m.natAbs (64 + bitLen y.m.natAbs) (by omega)
    exact_mod_cast this
  · rw [if_neg h1]
    by_cases h2 : 0 ≤ n2
    · rw [if_pos h2]
      omega
    · rw [if_neg h2]
      have := div_mag_mono n2.natAbs n1.natAbs y.m.natAbs (64 + bitLen y.m.natAbs) (by omega)
      have : ((2 * (n2.natAbs * 2 ^ (64 + bitLen y.m.natAbs) / y.m.natAbs) +
          (if n2.natAbs * 2 ^ (64 + bitLen y.m.natAbs) % y.m.natAbs = 0 then 0 else 1) : Nat) :
          Int) ≤
          ((2 * (n1.natAbs * 2 ^ (64 + bitLen y.m.natAbs) / y.m.natAbs) +
          (if n1.natAbs * 2 ^ (64 + bitLen y.m.natAbs) % y.m.natAbs = 0 then 0 else 1) : Nat) :
          Int) := by exact_mod_cast this
      omega

theorem div_m_nonneg (n : Int) (y : F64) (hy : 0 < y.m) (h : 0 ≤ n) :
    0 ≤ (F64.div { m := n, e := 0 } y).m := by
  unfold F64.div
  have hy0 : y.m ≠ 0 := by omega
  have hyn : ¬ y.m < 0 := by omega
  simp only [hy0, if_false, hyn, eq_iff_iff, iff_false, not_lt]
  apply round_m_nonneg
  simp only [h, if_true]
  omega

theorem div_m_nonpos (n : Int) (y : F64) (hy : 0 < y.m) (h : n ≤ 0) :
    (F64.div { m := n, e := 0 } y).m ≤ 0 := by
  unfold F64.div
  have hy0 : y.m ≠ 0 := by omega
  have hyn : ¬ y.m < 0 := by omega
  simp only [hy0, if_false, hyn, eq_iff_iff, iff_false, not_lt]
  apply round_m_nonpos
  simp only
  split
  · have : n = 0 := by omega
    subst this
    simp
  · omega

/-! ## Floating point: `Duration.Seconds` -/

theorem tdivmod_facts (a : Int) :
    a = 1000000000 * a.tdiv 1000000000 + a.tmod 1000000000 ∧
    (0 ≤ a → 0 ≤ a.tmod 1000000000 ∧ a.tmod 1000000000 < 1000000000) ∧
    (a < 0 → -1000000000 < a.tmod 1000000000 ∧ a.tmod 1000000000 ≤ 0) := by
  have h0 := Int.tdiv_add_tmod a 1000000000
  refine ⟨h0.symm, fun h => ⟨Int.tmod_nonneg _ h, Int.tmod_lt_of_pos _ (by norm_num)⟩, ?_⟩
  intro h
  have hp : 0 ≤ -a := by omega
  have h1 := Int.tdiv_add_tmod (-a) 1000000000
  have h2 := Int.tmod_nonneg 1000000000 hp
  have h3 := Int.tmod_lt_of_pos (-a) (show (0 : Int) < 1000000000 by norm_num)
  have h4 := Int.neg_tdiv a 1000000000
  rw [h4] at h1
  omega

set_option maxRecDepth 100000 in
theorem div_one_le :
    F64.le (F64.div { m := 1000000000, e := 0 } { m := 1000000000, e := 0 })
      { m := 1, e := 0 } = true := by
  decide

set_option maxRecDepth 100000 in
theorem div_neg_one_ge :
    F64.le { m := -1, e := 0 }
      (F64.div { m := -1000000000, e := 0 } { m := 1000000000, e := 0 }) = true := by
  decide

/-- The seconds of a duration in the 64-bit range are monotone in the duration. -/
theorem Seconds_mono (a b : Int) (hab : a ≤ b) (ha : -2 ^ 63 ≤ a) (hb : b < 2 ^ 63) :
    F64.le (Seconds a) (Seconds b) = true := by
  obtain ⟨a1, a2, a3⟩ := tdivmod_facts a
  obtain ⟨b1, b2, b3⟩ := tdivmod_facts b
  unfold Seconds
  simp only
  generalize a.tdiv 1000000000 = sa at *
  generalize a.tmod 1000000000 = na at *
  generalize b.tdiv 1000000000 = sb at *
  generalize b.tmod 1000000000 = nb at *
  have hna : -1000000000 < na ∧ na < 1000000000 := by
    by_cases h : 0 ≤ a
    · have := a2 h; omega
    · have := a3 (by omega); omega
  have hnb : -1000000000 < nb ∧ nb < 1000000000 := by
    by_cases h : 0 ≤ b
    · have := b2 h; omega
    · have := b3 (by omega); omega
  have e63 : (2 : Int) ^ 63 = 9223372036854775808 := by norm_num
  rw [e63] at ha hb
  have e53 : (2 : Nat) ^ 53 = 9007199254740992 := by norm_num
  rw [float64OfInt_small sa (by rw [e53]; omega), float64OfInt_small sb (by rw [e53]; omega),
    float64OfInt_small na (by rw [e53]; omega), float64OfInt_small nb (by rw [e53]; omega)]
  have hD : (0 : Int) < ({ m := 1000000000, e := 0 } : F64).m := by norm_num
  have fa1 : F64.le (F64.div { m := na, e := 0 } { m := 1000000000, e := 0 })
      { m := 1, e := 0 } = true :=
    f64_le_trans _ _ _ (div_mono_num na 1000000000 _ hD (by omega)) div_one_le
  have fb1 : F64.le { m := -1, e := 0 }
      (F64.div { m := nb, e := 0 } { m := 1000000000, e := 0 }) = true :=
    f64_le_trans _ _ _ div_neg_one_ge (div_mono_num (-1000000000) nb _ hD (by omega))
  have hc0 : min 0 (min (F64.div { m := na, e := 0 } { m := 1000000000, e := 0 }).e
      (F64.div { m := nb, e := 0 } { m := 1000000000, e := 0 }).e) ≤ 0 := min_le_left _ _
  have hca : min 0 (min (F64.div { m := na, e := 0 } { m := 1000000000, e := 0 }).e
      (F64.div { m := nb, e := 0 } { m := 1000000000, e := 0 }).e) ≤
      (F64.div { m := na, e := 0 } { m := 1000000000, e := 0 }).e :=
    le_trans (min_le_right _ _) (min_le_left _ _)
  have hcb : min 0 (min (F64.div { m := na, e := 0 } { m := 1000000000, e := 0 }).e
      (F64.div { m := nb, e := 0 } { m := 1000000000, e := 0 }).e) ≤
      (F64.div { m := nb, e := 0 } { m := 1000000000, e := 0 }).e :=
    le_trans (min_le_right _ _) (min_le_right _ _)
  refine add_le_add_of _ _ _ _ _ hc0 hca hc0 hcb ?_
  rw [f64_le_iff _ _ _ hca hc0] at fa1
  rw [f64_le_iff _ _ _ hc0 hcb] at fb1
  simp only at fa1 fb1 ⊢
  have hP : (0 : Int) < 2 ^ (0 - min 0 (min
      (F64.div { m := na, e := 0 } { m := 1000000000, e := 0 }).e
      (F64.div { m := nb, e := 0 } { m := 1000000000, e := 0 }).e)).toNat := by positivity
  have hPa : (0 : Int) ≤ 2 ^ ((F64.div { m := na, e := 0 } { m := 1000000000, e := 0 }).e -
      min 0 (min (F64.div { m := na, e := 0 } { m := 1000000000, e := 0 }).e
      (F64.div { m := nb, e := 0 } { m := 1000000000, e := 0 }).e)).toNat := by positivity
  have hPb : (0 : Int) ≤ 2 ^ ((F64.div { m := nb, e := 0 } { m := 1000000000, e := 0 }).e -
      min 0 (min (F64.div { m := na, e := 0 } { m := 1000000000, e := 0 }).e
      (F64.div { m := nb, e := 0 } { m := 1000000000, e := 0 }).e)).toNat := by positivity
  by_cases hs : sa = sb
  · subst hs
    have hn : na ≤ nb := by omega
    have := div_mono_num na nb { m := 1000000000, e := 0 } hD hn
    rw [f64_le_iff _ _ _ hca hcb] at this
    omega
  · have hlt : sa + 1 ≤ sb := by
      by_cases h : 0 ≤ a
      · have := a2 h
        have := b2 (by omega)
        omega
      · have := a3 (by omega)
        by_cases h' : 0 ≤ b
        · have := b2 h'
          omega
        · have := b3 (by omega)
          omega
    have hmul := mul_le_mul_of_nonneg_right hlt (le_of_lt hP)
    by_cases h : 0 ≤ a
    · have hnb0 : 0 ≤ nb := (b2 (by omega)).1
      have hY := mul_nonneg (div_m_nonneg nb { m := 1000000000, e := 0 } hD hnb0) hPb
      nlinarith
    · have hna0 : na ≤ 0 := (a3 (by omega)).2
      have hX := mul_nonpos_of_nonpos_of_nonneg
        (div_m_nonpos na { m := 1000000000, e := 0 } hD hna0) hPa
      nlinarith

/-! ## C20: the find time without a range -/

/-- Without a range of find times `CalculateTimeToFind` draws nothing and returns the
minimum. -/
theorem calculateTimeToFind_det (cfg : Config) (r : Rand)
    (h : cfg.FindTimeMax ≤ cfg.FindTimeMin) (hlo : -2 ^ 63 ≤ cfg.FindTimeMax)
    (hhi : cfg.FindTimeMin < 2 ^ 63) :
    CalculateTimeToFind cfg r = (cfg.FindTimeMin, r) := by
  have hle := Seconds_mono cfg.FindTimeMax cfg.FindTimeMin h hlo hhi
  have hr : F64.le (F64.sub (Seconds cfg.FindTimeMax) (Seconds cfg.FindTimeMin))
      { m := 0, e := 0 } = true := by
    refine f64_le_of_signs _ _ ?_ (le_refl _)
    unfold F64.sub F64.add
    apply round_m_nonpos
    unfold F64.le at hle
    simp only [decide_eq_true_eq] at hle
    simp only [neg_mul]
    omega
  unfold CalculateTimeToFind
  simp only [hr, if_true]

/-- C20: when `FindTimeMax <= FindTimeMin` (both in the 64-bit range of a duration),
`CalculateTimeToFind` returns exactly `FindTimeMin` and draws nothing, and an `AttemptMining`
that passes its guards at the virtual time `t` pushes exactly one `BlockFound` event, with the
timestamp `t + FindTimeMin` and the candidate block, and records it in `current_mining_job`
if `t + FindTimeMin - start_time < SimulationDuration`; otherwise it pushes no event and
leaves `current_mining_job` empty. -/
theorem C20_deterministic_find_time (n : Node) (s : Simulation) (parent : String)
    (height : Int) (hdet : s.Cfg.FindTimeMax ≤ s.Cfg.FindTimeMin)
    (hlo : -2 ^ 63 ≤ s.Cfg.FindTimeMax) (hhi : s.Cfg.FindTimeMin < 2 ^ 63)
    (hm : n.IsMiner = true) (hp : parent = n.BestChainTip)
    (hh : height = GoMap.getD n.ChainWork n.BestChainTip 0 + 1) :
    (∀ r, CalculateTimeToFind s.Cfg r = (s.Cfg.FindTimeMin, r)) ∧
    (s.CurrentTime + s.Cfg.FindTimeMin - s.StartTime < s.Cfg.SimulationDuration →
      (n.AttemptMining s parent height).1.CurrentMiningJob =
        some { Timestamp := s.CurrentTime + s.Cfg.FindTimeMin, Type_ := EventType.EvBlockFound,
               Data := EventData.BlockFoundData n.ID (n.candidateBlock s parent height),
               Priority := EventType.EvBlockFound.toInt, handle := s.NextHandle } ∧
      (n.AttemptMining s parent height).2.EventQueue.Perm
        (s.EventQueue ++
          [{ Timestamp := s.CurrentTime + s.Cfg.FindTimeMin, Type_ := EventType.EvBlockFound,
             Data := EventData.BlockFoundData n.ID (n.candidateBlock s parent height),
             Priority := EventType.EvBlockFound.toInt, handle := s.NextHandle }])) ∧
    (¬ (s.CurrentTime + s.Cfg.FindTimeMin - s.StartTime < s.Cfg.SimulationDuration) →
      (n.AttemptMining s parent height).1.CurrentMiningJob = none ∧
      (n.AttemptMining s parent height).2.EventQueue = s.EventQueue) := by
  have hdet' := fun r => calculateTimeToFind_det s.Cfg r hdet hlo hhi
  refine ⟨hdet', ?_, ?_⟩
  · intro hz
    unfold Node.AttemptMining
    simp only [hm, Bool.true_eq_false, if_false, hp, ne_eq, not_true_eq_false, hh, hdet', hz,
      if_true]
    exact ⟨rfl, heapPush_perm _ _⟩
  · intro hz
    unfold Node.AttemptMining
    simp only [hm, Bool.true_eq_false, if_false, hp, ne_eq, not_true_eq_false, hh, hdet', hz]
    exact ⟨trivial, trivial⟩

set_option maxRecDepth 100000 in
/-- C20 for the miner `exMinerFull` in `exSim`, whose find time is one second, at time 0. -/
theorem C20_deterministic_find_time_witness :
    (exSim.Cfg.FindTimeMax ≤ exSim.Cfg.FindTimeMin ∧ -2 ^ 63 ≤ exSim.Cfg.FindTimeMax ∧
      exSim.Cfg.FindTimeMin < 2 ^ 63 ∧ exMinerFull.IsMiner = true ∧
      "genesis" = exMinerFull.BestChainTip ∧
      (1 : Int) = GoMap.getD exMinerFull.ChainWork exMinerFull.BestChainTip 0 + 1 ∧
      exSim.CurrentTime + exSim.Cfg.FindTimeMin - exSim.StartTime <
        exSim.Cfg.SimulationDuration) ∧
    ((∀ r, CalculateTimeToFind exSim.Cfg r = (exSim.Cfg.FindTimeMin, r)) ∧
    (exSim.CurrentTime + exSim.Cfg.FindTimeMin - exSim.StartTime < exSim.Cfg.SimulationDuration →
      (exMinerFull.AttemptMining exSim "genesis" 1).1.CurrentMiningJob =
        some { Timestamp := exSim.CurrentTime + exSim.Cfg.FindTimeMin,
               Type_ := EventType.EvBlockFound,
               Data := EventData.BlockFoundData exMinerFull.ID
                 (exMinerFull.candidateBlock exSim "genesis" 1),
               Priority := EventType.EvBlockFound.toInt, handle := exSim.NextHandle } ∧
      (exMinerFull.AttemptMining exSim "genesis" 1).2.EventQueue.Perm
        (exSim.EventQueue ++
          [{ Timestamp := exSim.CurrentTime + exSim.Cfg.FindTimeMin,
             Type_ := EventType.EvBlockFound,
             Data := EventData.BlockFoundData exMinerFull.ID
               (exMinerFull.candidateBlock exSim "genesis" 1),
             Priority := EventType.EvBlockFound.toInt, handle := exSim.NextHandle }])) ∧
    (¬ (exSim.CurrentTime + exSim.Cfg.FindTimeMin - exSim.StartTime <
        exSim.Cfg.SimulationDuration) →
      (exMinerFull.AttemptMining exSim "genesis" 1).1.CurrentMiningJob = none ∧
      (exMinerFull.AttemptMining exSim "genesis" 1).2.EventQueue = exSim.EventQueue)) :=
  ⟨⟨by decide, by decide, by decide, by decide, by decide, by decide, by decide⟩,
    C20_deterministic_find_time exMinerFull exSim "genesis" 1 (by decide) (by decide)
      (by decide) (by decide) (by decide) (by decide)⟩

/-! ## C17: the mining threshold -/

set_option maxRecDepth 100000 in
theorem c95_eq :
    F64.div (float64OfInt 95) (float64OfInt 100) = { m := 8556839292003942, e := -53 } := by
  decide

theorem f64_le_zero_false (x : F64) (h : 0 < x.m) : F64.le x { m := 0, e := 0 } = false := by
  unfold F64.le
  simp only [zero_mul, decide_eq_false_iff_not, not_le]
  positivity

theorem rne_le_of_lt (a sh N : Nat) (h : a < N * 2 ^ sh) : rne a sh ≤ N := by
  have hq : a / 2 ^ sh < N := (Nat.div_lt_iff_lt_mul (by positivity)).2 h
  have := (rne_bounds a sh).2
  omega

theorem rne_gt_of_lt (a sh N : Nat) (h : N * 2 ^ sh + 2 ^ (sh - 1) < a) : N + 1 ≤ rne a sh := by
  have hq : N ≤ a / 2 ^ sh :=
    (Nat.le_div_iff_mul_le (by positivity)).2
      (Nat.le_of_lt (Nat.lt_of_le_of_lt (Nat.le_add_right _ _) h))
  by_cases e : N = a / 2 ^ sh
  · have hr : 2 ^ (sh - 1) < a % 2 ^ sh := by
      have := Nat.div_add_mod a (2 ^ sh)
      rw [← e, mul_comm] at this
      omega
    unfold rne
    rw [if_pos (Or.inl hr)]
    omega
  · have := (rne_bounds a sh).1
    omega

/-- The byte count that `canAttemptMiningNow` adds up in a 64-bit `int` is the exact sum,
wrapped around once. -/
theorem wrapSum_eq (l : List Transaction) (a b : Int) (h : a = wrapInt64 b) :
    List.foldl (fun acc (tx : Transaction) => wrapInt64 (acc + tx.Size)) a l =
      wrapInt64 (List.foldl (fun acc (tx : Transaction) => acc + tx.Size) b l) := by
  induction l generalizing a b with
  | nil => exact h
  | cons tx rest ih =>
    simp only [List.foldl_cons]
    apply ih
    rw [h]
    unfold wrapInt64
    omega

/-- The float comparison of `canAttemptMiningNow` agrees with the exact one for a positive
limit below `2 ^ 48` and a byte sum below `2 ^ 53` in absolute value. -/
theorem threshold_core (L : Nat) (sum : Int) (hL0 : 0 < L) (hL : L < 2 ^ 48)
    (hs : sum.natAbs < 2 ^ 53) :
    F64.le (F64.mul { m := (L : Int), e := 0 } { m := 8556839292003942, e := -53 })
      { m := sum, e := 0 } = true ↔ 95 * (L : Int) ≤ 100 * sum := by
  unfold F64.mul
  simp only
  have hcast : (L : Int) * 8556839292003942 = ((L * 8556839292003942 : Nat) : Int) := by
    push_cast; rfl
  rw [hcast, round_nat]
  have e48 : (2 : Nat) ^ 48 = 281474976710656 := by norm_num
  have e53 : (2 : Nat) ^ 53 = 9007199254740992 := by norm_num
  have e53i : (2 : Int) ^ 53 = 9007199254740992 := by norm_num
  rw [e48] at hL
  rw [e53] at hs
  by_cases hb : bitLen (L * 8556839292003942) ≤ 53
  · rw [if_pos hb, f64_le_iff _ _ (0 + -53) (le_refl _) (by norm_num)]
    simp only [sub_self, Int.toNat_zero, pow_zero, mul_one]
    have : ((0 : Int) - (0 + -53)).toNat = 53 := by omega
    rw [this, e53i]
    push_cast
    omega
  · rw [if_neg hb]
    have hb101 : bitLen (L * 8556839292003942) ≤ 101 := by
      rw [bitLen_le_iff]
      have : (2 : Nat) ^ 101 = 281474976710656 * 9007199254740992 := by norm_num
      rw [this]
      exact Nat.mul_lt_mul'' hL (by norm_num)
    generalize hsh : bitLen (L * 8556839292003942) - 53 = sh
    have hsh1 : 1 ≤ sh := by omega
    have hsh2 : sh ≤ 48 := by omega
    have hle : (0 : Int) + -53 + (sh : Int) ≤ 0 := by omega
    rw [f64_le_iff _ _ (0 + -53 + (sh : Int)) (le_refl _) hle]
    simp only [sub_self, Int.toNat_zero, pow_zero, mul_one]
    have ht : ((0 : Int) - (0 + -53 + (sh : Int))).toNat = 53 - sh := by omega
    rw [ht]
    have hWT : 2 ^ (53 - sh) * 2 ^ sh = (2 : Nat) ^ 53 := by
      rw [← pow_add]; congr 1; omega
    rw [e53] at hWT
    have hW2 : 2 ^ (sh - 1) * 2 = (2 : Nat) ^ sh := by
      rw [← pow_succ]; congr 1; omega
    have hW48 : (2 : Nat) ^ sh ≤ 281474976710656 := by
      rw [← e48]; exact Nat.pow_le_pow_right (by norm_num) hsh2
    have hT : 0 < (2 : Nat) ^ (53 - sh) := by positivity
    constructor
    · intro hle2
      by_contra hc
      by_cases hneg : sum < 0
      · have h1 : sum * (2 : Int) ^ (53 - sh) < 0 :=
          mul_neg_of_neg_of_pos hneg (by positivity)
        omega
      · obtain ⟨S, rfl⟩ := Int.eq_ofNat_of_zero_le (show 0 ≤ sum by omega)
        have hNW : S * 2 ^ (53 - sh) * 2 ^ sh = S * 9007199254740992 := by
          rw [mul_assoc, hWT]
        have hlt : S * 2 ^ (53 - sh) * 2 ^ sh + 2 ^ (sh - 1) < L * 8556839292003942 := by
          rw [hNW]
          omega
        have := rne_gt_of_lt _ _ _ hlt
        have h2 : ((rne (L * 8556839292003942) sh : Nat) : Int) ≤
            ((S * 2 ^ (53 - sh) : Nat) : Int) := by
          push_cast
          exact hle2
        omega
    · intro h95
      obtain ⟨S, rfl⟩ := Int.eq_ofNat_of_zero_le (show 0 ≤ sum by omega)
      have hNW : S * 2 ^ (53 - sh) * 2 ^ sh = S * 9007199254740992 := by
        rw [mul_assoc, hWT]
      have hlt : L * 8556839292003942 < S * 2 ^ (53 - sh) * 2 ^ sh := by
        rw [hNW]
        omega
      have := rne_le_of_lt _ _ _ hlt
      have h2 : ((rne (L * 8556839292003942) sh : Nat) : Int) ≤
          ((S * 2 ^ (53 - sh) : Nat) : Int) := by
        exact_mod_cast this
      push_cast at h2
      exact h2

set_option maxRecDepth 100000 in
/-- C17 fails as stated: with a limit of `5 * 2 ^ 57` bytes and a mempool of
`19 * 2 ^ 55 - 1` bytes, one byte below 95% of the limit, the float comparison of
`canAttemptMiningNow` answers true. -/
theorem C17_rounding_counterexample :
    exMinerHuge.IsMiner = true ∧ exSimHuge.Cfg.BlockSizeLimitBytes = 5 * 2 ^ 57 ∧
    exMinerHuge.mempoolBytes = 19 * 2 ^ 55 - 1 ∧
    exMinerHuge.canAttemptMiningNow exSimHuge = true ∧
    ¬ (exSimHuge.Cfg.BlockSizeLimitBytes ≤ 0 ∨
      95 * exSimHuge.Cfg.BlockSizeLimitBytes ≤ 100 * exMinerHuge.mempoolBytes) := by
  decide

/-- C17, amended: for a `BlockSizeLimitBytes` below `2 ^ 48` and a mempool byte sum below
`2 ^ 53` in absolute value, `canAttemptMiningNow` returns true exactly when the node is a
miner and either `BlockSizeLimitBytes <= 0` or `100 * sum >= 95 * limit`; it returns false for
every non-miner. -/
theorem C17_mining_threshold (n : Node) (s : Simulation)
    (hl : s.Cfg.BlockSizeLimitBytes < 2 ^ 48) (hs : n.mempoolBytes.natAbs < 2 ^ 53) :
    (n.canAttemptMiningNow s = true ↔
      n.IsMiner = true ∧
        (s.Cfg.BlockSizeLimitBytes ≤ 0 ∨
          95 * s.Cfg.BlockSizeLimitBytes ≤ 100 * n.mempoolBytes)) ∧
    (n.IsMiner = false → n.canAttemptMiningNow s = false) := by
  have hnm : n.IsMiner = false → n.canAttemptMiningNow s = false := by
    intro h
    unfold Node.canAttemptMiningNow
    rw [if_pos h]
  refine ⟨?_, hnm⟩
  by_cases hm : n.IsMiner = false
  · rw [hnm hm]
    simp [hm]
  · have hm' : n.IsMiner = true := by simpa using hm
    unfold Node.canAttemptMiningNow
    rw [if_neg hm, c95_eq]
    simp only [hm', true_and]
    by_cases h0 : s.Cfg.BlockSizeLimitBytes ≤ 0
    · have hr : F64.le (F64.mul (float64OfInt s.Cfg.BlockSizeLimitBytes)
          { m := 8556839292003942, e := -53 }) { m := 0, e := 0 } = true := by
        refine f64_le_of_signs _ _ ?_ (le_refl _)
        unfold F64.mul
        apply round_m_nonpos
        simp only
        exact mul_nonpos_of_nonpos_of_nonneg (round_m_nonpos _ h0) (by norm_num)
      rw [if_pos hr]
      simp [h0]
    · obtain ⟨L, hL⟩ := Int.eq_ofNat_of_zero_le (show 0 ≤ s.Cfg.BlockSizeLimitBytes by omega)
      have hL0 : 0 < L := by omega
      have hL48 : L < 2 ^ 48 := by
        rw [hL] at hl
        exact_mod_cast hl
      have e53 : (2 : Nat) ^ 53 = 9007199254740992 := by norm_num
      have e48 : (2 : Nat) ^ 48 = 281474976710656 := by norm_num
      have hf : float64OfInt s.Cfg.BlockSizeLimitBytes = { m := (L : Int), e := 0 } := by
        rw [hL]
        exact float64OfInt_small _ (by rw [e53]; rw [e48] at hL48; omega)
      have hr : F64.le (F64.mul (float64OfInt s.Cfg.BlockSizeLimitBytes)
          { m := 8556839292003942, e := -53 }) { m := 0, e := 0 } = false := by
        apply f64_le_zero_false
        unfold F64.mul
        apply round_m_pos
        rw [hf]
        simp only
        positivity
      rw [hr]
      simp only [Bool.false_eq_true, if_false, h0, false_or]
      have hfold : List.foldl (fun acc (tx : Transaction) => wrapInt64 (acc + tx.Size)) 0
          (GoMap.values n.Mempool) = n.mempoolBytes := by
        have h1 := wrapSum_eq (GoMap.values n.Mempool) 0 0 (by decide)
        rw [h1]
        have h2 : n.mempoolBytes.natAbs < 9007199254740992 := by
          rw [← e53]
          exact hs
        show wrapInt64 n.mempoolBytes = n.mempoolBytes
        unfold wrapInt64
        omega
      rw [hfold, hf, float64OfInt_small _ hs]
      have := threshold_core L n.mempoolBytes hL0 hL48 hs
      rw [hL]
      exact this

set_option maxRecDepth 100000 in
/-- C17, amended, for the miner `exMinerFull`, whose mempool holds 1050 bytes, under the
limit of 1000 bytes of `exCfg`. -/
theorem C17_mining_threshold_witness :
    (exSim.Cfg.BlockSizeLimitBytes < 2 ^ 48 ∧ exMinerFull.mempoolBytes.natAbs < 2 ^ 53) ∧
    exMinerFull.canAttemptMiningNow exSim = true ∧
    ((exMinerFull.canAttemptMiningNow exSim = true ↔
      exMinerFull.IsMiner = true ∧
        (exSim.Cfg.BlockSizeLimitBytes ≤ 0 ∨
          95 * exSim.Cfg.BlockSizeLimitBytes ≤ 100 * exMinerFull.mempoolBytes)) ∧
    (exMinerFull.IsMiner = false → exMinerFull.canAttemptMiningNow exSim = false)) :=
  ⟨⟨by decide, by decide⟩, by decide,
    C17_mining_threshold exMinerFull exSim (by decide) (by decide)⟩

/-! ## C11: the duration horizon -/

theorem intOfFloat64_nonneg (x : F64) (h : 0 ≤ x.m) : 0 ≤ intOfFloat64 x := by
  unfold intOfFloat64
  split
  · exact mul_nonneg h (by positivity)
  · have : ¬ x.m < 0 := by omega
    rw [if_neg this]
    exact Int.ofNat_nonneg _

theorem injectDelay_nonneg (rate : F64) (h : F64.lt { m := 0, e := 0 } rate = true) :
    0 ≤ injectDelay rate := by
  have hp : 0 < rate.m := by
    unfold F64.lt at h
    simp only [zero_mul, decide_eq_true_eq] at h
    exact pos_of_mul_pos_left h (by positivity)
  unfold injectDelay
  apply intOfFloat64_nonneg
  have e53 : (2 : Nat) ^ 53 = 9007199254740992 := by norm_num
  rw [float64OfInt_small 1000000000 (by rw [e53]; decide)]
  exact div_m_nonneg 1000000000 rate hp (by norm_num)

/-- With a duration that is not positive the main loop of a fresh simulation dispatches
nothing: its queue is empty or holds the first injection, which is not before the start. -/
theorem entry_no_round (cfg : Config) (t : Int) (rng : Rand)
    (sha : BlockHeader → List String → String) (s0 s1 : Simulation)
    (h : (NewSimulation cfg t rng sha).runStart = some s0)
    (hD : s0.Cfg.SimulationDuration ≤ 0) : s0.loopStep ≠ LoopStep.dispatched s1 := by
  intro hstep
  obtain ⟨first, hf, hlt, _⟩ := loopStep_dispatched s0 s1 hstep
  rcases newSimulation_queue cfg t rng sha s0 h with e | ⟨hrate, e, he, hts⟩
  · rw [e] at hf
    simp at hf
  · rw [he] at hf
    simp only [List.head?_cons, Option.some.injEq] at hf
    subst hf
    have := injectDelay_nonneg _ hrate
    omega

theorem loop_entry_of_nonpos (cfg : Config) (t : Int) (rng : Rand)
    (sha : BlockHeader → List String → String) (s0 s : Simulation)
    (h : (NewSimulation cfg t rng sha).runStart = some s0)
    (hD : s0.Cfg.SimulationDuration ≤ 0) (hr : LoopReaches s0 s) : s = s0 := by
  induction hr with
  | entry => rfl
  | round s s1 _ hstep ih =>
    subst ih
    exact absurd hstep (entry_no_round cfg t rng sha _ s1 h hD)

theorem heapReachable_first_min (q : EventQueue) (hr : HeapReachable q) (first : Event)
    (rest : List Event) (hq : q = first :: rest) :
    ∀ e ∈ q, first.Timestamp ≤ e.Timestamp ∧
      (e.Timestamp = first.Timestamp → first.Priority ≤ e.Priority) := by
  intro e he
  obtain ⟨j, hj⟩ := List.getElem?_of_mem he
  have h0 : q[0]? = some first := by rw [hq]; simp
  have := heap_root_min q (heapReachable_heap q hr) first h0 j e hj
  rw [before_false_iff] at this
  omega

/-- C11: in every round of the main loop of `Run` on a fresh simulation, the event that is
popped and dispatched has `timestamp - start_time < SimulationDuration`, also after the clamp
to the current time; and when the event at the head of the queue, which is a minimum of the
queued events, has `timestamp - start_time >= SimulationDuration`, the loop stops with
`current_time = start_time + SimulationDuration` and the queue as it was, that event
included. -/
theorem C11_duration_horizon (cfg : Config) (t : Int) (rng : Rand)
    (sha : BlockHeader → List String → String) (s0 s : Simulation)
    (h0 : (NewSimulation cfg t rng sha).runStart = some s0) (hr : LoopReaches s0 s) :
    (∀ s1, s.loopStep = LoopStep.dispatched s1 →
      ∃ event0 queue, heapPop s.EventQueue = some (event0, queue) ∧
        event0.Timestamp - s.StartTime < s.Cfg.SimulationDuration ∧
        (s.clamp event0).Timestamp - s.StartTime < s.Cfg.SimulationDuration ∧
        (s.afterPop queue (s.clamp event0)).dispatch (s.clamp event0) = some s1) ∧
    (∀ first rest, s.EventQueue = first :: rest →
      (∀ e ∈ s.EventQueue, first.Timestamp ≤ e.Timestamp ∧
        (e.Timestamp = first.Timestamp → first.Priority ≤ e.Priority)) ∧
      (s.Cfg.SimulationDuration ≤ first.Timestamp - s.StartTime →
        ∃ s1, s.loopStep = LoopStep.stopped s1 ∧
          s1.CurrentTime = s.StartTime + s.Cfg.SimulationDuration ∧
          s1.EventQueue = s.EventQueue)) := by
  refine ⟨?_, ?_⟩
  · intro s1 hstep
    obtain ⟨event0, queue, hpop, hlt, hd⟩ := loopStep_dispatched_pop s s1 hstep
    refine ⟨event0, queue, hpop, hlt, ?_, hd⟩
    by_cases hD : 0 < s0.Cfg.SimulationDuration
    · have hw := loop_within_horizon s0 s hD (newSimulation_entry cfg t rng sha s0 h0).1 hr
      unfold Simulation.clamp
      split
      · exact hw
      · exact hlt
    · have e := loop_entry_of_nonpos cfg t rng sha s0 s h0 (by omega) hr
      subst e
      exact absurd hstep (entry_no_round cfg t rng sha _ s1 h0 (by omega))
  · intro first rest hq
    refine ⟨heapReachable_first_min _ (loop_heapReachable cfg t rng sha s0 s h0 hr) first rest hq,
      ?_⟩
    intro hge
    refine ⟨{ s with CurrentTime := s.StartTime + s.Cfg.SimulationDuration }, ?_, rfl, rfl⟩
    unfold Simulation.loopStep
    rw [hq]
    simp only [hge, if_true]

theorem exEntry_start :
    (NewSimulation exCfg 1000 { seq := fun i => (i : Int), pos := 0 } exSha).runStart =
      some exEntry := by
  unfold exEntry
  cases h : (NewSimulation exCfg 1000 { seq := fun i => (i : Int), pos := 0 } exSha).runStart with
  | none =>
    have : ((NewSimulation exCfg 1000 { seq := fun i => (i : Int), pos := 0 }
      exSha).runStart).isSome = true := by decide
    rw [h] at this
    simp at this
  | some v => rfl

set_option maxRecDepth 100000 in
/-- C11 on the simulation of `exCfg` after two rounds of the main loop, where the third round
dispatches. -/
theorem C11_duration_horizon_witness :
    ((NewSimulation exCfg 1000 { seq := fun i => (i : Int), pos := 0 } exSha).runStart =
        some exEntry ∧
      LoopReaches exEntry (exAfterRounds 2 exEntry) ∧
      (exAfterRounds 2 exEntry).loopStep = LoopStep.dispatched (exAfterRounds 3 exEntry)) ∧
    ((∀ s1, (exAfterRounds 2 exEntry).loopStep = LoopStep.dispatched s1 →
      ∃ event0 queue, heapPop (exAfterRounds 2 exEntry).EventQueue = some (event0, queue) ∧
        event0.Timestamp - (exAfterRounds 2 exEntry).StartTime <
          (exAfterRounds 2 exEntry).Cfg.SimulationDuration ∧
        ((exAfterRounds 2 exEntry).clamp event0).Timestamp -
            (exAfterRounds 2 exEntry).StartTime <
          (exAfterRounds 2 exEntry).Cfg.SimulationDuration ∧
        ((exAfterRounds 2 exEntry).afterPop queue
          ((exAfterRounds 2 exEntry).clamp event0)).dispatch
          ((exAfterRounds 2 exEntry).clamp event0) = some s1) ∧
    (∀ first rest, (exAfterRounds 2 exEntry).EventQueue = first :: rest →
      (∀ e ∈ (exAfterRounds 2 exEntry).EventQueue, first.Timestamp ≤ e.Timestamp ∧
        (e.Timestamp = first.Timestamp → first.Priority ≤ e.Priority)) ∧
      ((exAfterRounds 2 exEntry).Cfg.SimulationDuration ≤
          first.Timestamp - (exAfterRounds 2 exEntry).StartTime →
        ∃ s1, (exAfterRounds 2 exEntry).loopStep = LoopStep.stopped s1 ∧
          s1.CurrentTime = (exAfterRounds 2 exEntry).StartTime +
            (exAfterRounds 2 exEntry).Cfg.SimulationDuration ∧
          s1.EventQueue = (exAfterRounds 2 exEntry).EventQueue))) :=
  have hreach : LoopReaches exEntry (exAfterRounds 2 exEntry) :=
    LoopReaches.round (exAfterRounds 1 exEntry) (exAfterRounds 2 exEntry)
      (LoopReaches.round exEntry (exAfterRounds 1 exEntry) LoopReaches.entry rfl) rfl
  ⟨⟨exEntry_start, hreach, rfl⟩,
    C11_duration_horizon exCfg 1000 { seq := fun i => (i : Int), pos := 0 } exSha exEntry
      (exAfterRounds 2 exEntry) exEntry_start hreach⟩

/-! ## C23: the priority of the delivery of an injected transaction -/

theorem heapPop_not_later (q : EventQueue) (hq : HeapReachable q) (d e x : Event)
    (q1 : EventQueue) (hd : d ∈ q) (hb : d.before e = true) (hp : heapPop q = some (x, q1)) :
    x ≠ e := by
  intro hx
  subst hx
  have hh := heapPop_head q x q1 hp
  obtain ⟨j, hj⟩ := List.getElem?_of_mem hd
  have h0 : q[0]? = some x := by
    cases q with
    | nil => simp at hh
    | cons a l => simp at hh; simp [hh]
  have := heap_root_min q (heapReachable_heap q hq) x h0 j d hj
  rw [this] at hb
  exact absurd hb (by simp)

/-- C23, the claim fails: with a zero delay between injections the handler schedules the
delivery of the injected transaction (priority 1) and the next injection (default priority 0
of its kind) at the same time, and the queue hands out the injection first: the priority 1 is
not lower than the default priority of every kind. -/
theorem C23_priority_counterexample :
    exSimFast.handleInjectTransaction.map
        (fun s1 => (drain 2 s1.EventQueue).map (fun e => (e.Type_, e.Timestamp, e.Priority))) =
      some [(EventType.EvInjectTransaction, 0, EventType.EvInjectTransaction.toInt),
            (EventType.EvReceiveTransaction, 0, 1)] ∧
    ¬ (1 : Int) < EventType.EvInjectTransaction.toInt ∧
    ¬ (1 : Int) < EventType.EvReceiveTransaction.toInt := by
  set_option maxRecDepth 100000 in decide

/-- C23, amended: the delivery that `handleInjectTransaction` schedules for the injected
transaction carries the priority 1, which is strictly lower than the default priority of the
kinds AttemptMining, BlockFound and ReceiveBlock, equal to the default priority of
ReceiveTransaction and higher than the default priority of InjectTransaction; so no
default-priority event of the three former kinds with the same timestamp is popped while the
delivery is queued. -/
theorem C23_injection_priority (s s1 : Simulation)
    (hsrc : s.TxSource.GeneratedCount < s.TxSource.TotalToGenerate)
    (h : s.handleInjectTransaction = some s1) :
    ∃ d origin tx, d ∈ s1.EventQueue ∧
      (s.TxSource.GetNextTransaction s.Cfg s.Rng s.CurrentTime).2.2 = some tx ∧
      d = { Timestamp := s.CurrentTime, Type_ := EventType.EvReceiveTransaction,
            Data := EventData.ReceiveTransactionData origin tx, Priority := 1,
            handle := s.NextHandle } ∧
      d.Priority < EventType.EvAttemptMining.toInt ∧
      d.Priority < EventType.EvBlockFound.toInt ∧
      d.Priority < EventType.EvReceiveBlock.toInt ∧
      d.Priority = EventType.EvReceiveTransaction.toInt ∧
      EventType.EvInjectTransaction.toInt < d.Priority ∧
      ∀ (q : EventQueue) (e x : Event) (q1 : EventQueue), HeapReachable q → d ∈ q → e ∈ q →
        e.Timestamp = d.Timestamp → e.Priority = e.Type_.toInt →
        (e.Type_ = EventType.EvAttemptMining ∨ e.Type_ = EventType.EvBlockFound ∨
          e.Type_ = EventType.EvReceiveBlock) →
        heapPop q = some (x, q1) → x ≠ e := by
  unfold Simulation.handleInjectTransaction at h
  rw [if_neg (by omega)] at h
  split at h
  · rename_i hnone
    unfold SimpleTxSource.GetNextTransaction at hnone
    rw [if_neg (by omega)] at hnone
    simp at hnone
  · rename_i src1 r1 tx hget
    simp only at h
    split at h
    · exact absurd h (by simp)
    · rename_i origin r2 hintn
      refine ⟨_, origin, tx, ?_, by rw [hget], rfl, ?_, ?_, ?_, ?_, ?_, ?_⟩
      · have hin : ∀ (q : EventQueue) (e : Event), e ∈ heapPush q e := fun q e =>
          (heapPush_perm q e).mem_iff.mpr (by simp)
        have hkeep : ∀ (q : EventQueue) (a e : Event), a ∈ q → a ∈ heapPush q e := fun q a e ha =>
          (heapPush_perm q e).mem_iff.mpr (by simp [ha])
        split at h
        · split at h
          · cases h
            exact hkeep _ _ _ (hin _ _)
          · cases h
            exact hin _ _
        · cases h
          exact hin _ _
      · show (1 : Int) < EventType.EvAttemptMining.toInt
        decide
      · show (1 : Int) < EventType.EvBlockFound.toInt
        decide
      · show (1 : Int) < EventType.EvReceiveBlock.toInt
        decide
      · show (1 : Int) = EventType.EvReceiveTransaction.toInt
        decide
      · show EventType.EvInjectTransaction.toInt < (1 : Int)
        decide
      · intro q e x q1 hq hd he hts hpr hk hp
        refine heapPop_not_later q hq _ e x q1 hd ?_ hp
        rw [before_iff]
        right
        refine ⟨hts.symm, ?_⟩
        rw [hpr]
        show (1 : Int) < _
        rcases hk with k | k | k <;> rw [k] <;> decide

set_option maxRecDepth 100000 in
theorem C23_injection_priority_witness :
    exSim3.TxSource.GeneratedCount < exSim3.TxSource.TotalToGenerate ∧
    ∃ d origin tx, d ∈ (exSim3.handleInjectTransaction.getD exSim3).EventQueue ∧
      (exSim3.TxSource.GetNextTransaction exSim3.Cfg exSim3.Rng exSim3.CurrentTime).2.2 =
        some tx ∧
      d = { Timestamp := exSim3.CurrentTime, Type_ := EventType.EvReceiveTransaction,
            Data := EventData.ReceiveTransactionData origin tx, Priority := 1,
            handle := exSim3.NextHandle } ∧
      d.Priority < EventType.EvAttemptMining.toInt ∧
      d.Priority < EventType.EvBlockFound.toInt ∧
      d.Priority < EventType.EvReceiveBlock.toInt ∧
      d.Priority = EventType.EvReceiveTransaction.toInt ∧
      EventType.EvInjectTransaction.toInt < d.Priority ∧
      ∀ (q : EventQueue) (e x : Event) (q1 : EventQueue), HeapReachable q → d ∈ q → e ∈ q →
        e.Timestamp = d.Timestamp → e.Priority = e.Type_.toInt →
        (e.Type_ = EventType.EvAttemptMining ∨ e.Type_ = EventType.EvBlockFound ∨
          e.Type_ = EventType.EvReceiveBlock) →
        heapPop q = some (x, q1) → x ≠ e :=
  ⟨by decide, C23_injection_priority exSim3 _ (by decide) rfl⟩

/-! ## C28: chain work equals header height -/

theorem workIsHeight_of_sameTree (n n1 : Node) (hs : n.sameTree n1) (h : n.WorkIsHeight) :
    n1.WorkIsHeight := by
  obtain ⟨_, _, e3, e4, _⟩ := hs
  unfold Node.WorkIsHeight
  rw [e3, e4]
  exact h

theorem workIsHeight_newNode (id : Int) (isMiner : Bool) (s : Simulation)
    (h0 : s.GenesisBlock.Header.Height = 0) : (NewNode id isMiner s).WorkIsHeight := by
  constructor
  · intro h
    simp only [NewNode, GoMap.contains_set]
    rfl
  · intro h blk hb
    simp only [NewNode, GoMap.get?_set] at hb ⊢
    split at hb
    · cases hb
      rename_i e
      simp [e, h0]
    · simp [GoMap.get?] at hb

theorem workIsHeight_receiveBlock (n : Node) (s : Simulation) (b : Block) (r : Node × Simulation)
    (hw : n.WorkIsHeight) (h : n.ReceiveBlock s b = some r) : r.1.WorkIsHeight := by
  by_cases hk : GoMap.contains n.Blocks b.Hash = true
  · rw [receiveBlock_known n s b hk] at h; cases h
    exact workIsHeight_of_sameTree n _ (by simp [Node.sameTree]) hw
  · have hk' : GoMap.contains n.Blocks b.Hash = false := by simpa using hk
    cases hp : GoMap.get? n.Blocks b.Header.PrevHash with
    | none =>
      rw [receiveBlock_orphan n s b hk' hp] at h; cases h
      exact ⟨hw.1, hw.2⟩
    | some parent =>
      by_cases hh : b.Header.Height = parent.Header.Height + 1
      · rw [receiveBlock_accept n s b parent hk' hp hh] at h
        obtain ⟨_, _, f3, f4, _⟩ := beforeChoice_node n s b
        obtain ⟨hs, _⟩ := forkChoice_frame _ _ b r h
        refine workIsHeight_of_sameTree _ r.1 hs ?_
        have hpw : n.work b.Header.PrevHash = parent.Header.Height := by
          unfold Node.work GoMap.getD
          rw [hw.2 _ _ hp]
          rfl
        constructor
        · intro h
          show GoMap.contains (beforeChoice n s b).1.ChainWork h =
            GoMap.contains (beforeChoice n s b).1.Blocks h
          rw [f3, f4, GoMap.contains_set, GoMap.contains_set, hw.1]
        · intro h blk hb
          have hb' : GoMap.get? (beforeChoice n s b).1.Blocks h = some blk := hb
          show GoMap.get? (beforeChoice n s b).1.ChainWork h = some blk.Header.Height
          rw [f3, GoMap.get?_set] at hb'
          rw [f4, GoMap.get?_set]
          split at hb'
          · rename_i e
            cases hb'
            rw [if_pos e, hpw, hh]
          · rename_i e
            rw [if_neg e]
            exact hw.2 _ _ hb'
      · rw [receiveBlock_badHeight n s b parent hk' hp hh] at h; cases h
        exact workIsHeight_of_sameTree n _ (by simp [Node.sameTree]) hw

theorem workIsHeight_of_reachable (g : Block) (h0 : g.Header.Height = 0) (n : Node)
    (h : ReachableByBlocks g n) : n.WorkIsHeight := by
  induction h with
  | init id isMiner s hs => exact workIsHeight_newNode id isMiner s (by rw [hs]; exact h0)
  | step n s b n1 s1 _ _ hr ih => exact workIsHeight_receiveBlock n s b _ ih hr

/-- C28: in every node state reached from `NewNode` with a genesis of height 0 by `ReceiveBlock`
calls, `Blocks` and `ChainWork` have the same keys and the chain work of every block is its
header height; every block but the genesis has a height one above the height of its parent;
and a new block whose height differs from the height of its known parent plus one is not
added to `Blocks`. -/
theorem C28_chain_work_is_height (g : Block) (h0 : g.Header.Height = 0) (n : Node)
    (hr : ReachableByBlocks g n) :
    (∀ h, GoMap.contains n.ChainWork h = GoMap.contains n.Blocks h) ∧
    (∀ h blk, GoMap.get? n.Blocks h = some blk →
      GoMap.get? n.ChainWork h = some blk.Header.Height) ∧
    (∀ h blk, GoMap.get? n.Blocks h = some blk → h ≠ g.Hash →
      ∃ parent, GoMap.get? n.Blocks blk.Header.PrevHash = some parent ∧
        blk.Header.Height = parent.Header.Height + 1) ∧
    ∀ (s : Simulation) (b parent : Block), GoMap.contains n.Blocks b.Hash = false →
      GoMap.get? n.Blocks b.Header.PrevHash = some parent →
      b.Header.Height ≠ parent.Header.Height + 1 →
      ∃ n1, n.ReceiveBlock s b = some (n1, s) ∧ n1.Blocks = n.Blocks ∧
        n1.ChainWork = n.ChainWork ∧ GoMap.contains n1.Blocks b.Hash = false := by
  have hw := workIsHeight_of_reachable g h0 n hr
  have hi := inv_of_reachable g n hr
  refine ⟨hw.1, hw.2, ?_, ?_⟩
  · intro h blk hb hne
    obtain ⟨_, hp⟩ := hi.1
    obtain ⟨hc, w, hw1, hw2⟩ := hp h blk hb hne
    obtain ⟨parent, hpar⟩ := (GoMap.contains_iff _ _).1 hc
    refine ⟨parent, hpar, ?_⟩
    have e1 := hw.2 _ _ hb
    have e2 := hw.2 _ _ hpar
    rw [hw2] at e1
    rw [hw1] at e2
    have e3 : w + 1 = blk.Header.Height := Option.some.inj e1
    have e4 : w = parent.Header.Height := Option.some.inj e2
    omega
  · intro s b parent hk hp hh
    exact ⟨_, receiveBlock_badHeight n s b parent hk hp hh, rfl, rfl, hk⟩

theorem C28_chain_work_is_height_witness :
    exGenesis.Header.Height = 0 ∧
    (∀ h, GoMap.contains (exRun [exA1, exA2, exB1]).1.ChainWork h =
      GoMap.contains (exRun [exA1, exA2, exB1]).1.Blocks h) ∧
    (∀ h blk, GoMap.get? (exRun [exA1, exA2, exB1]).1.Blocks h = some blk →
      GoMap.get? (exRun [exA1, exA2, exB1]).1.ChainWork h = some blk.Header.Height) ∧
    (∀ h blk, GoMap.get? (exRun [exA1, exA2, exB1]).1.Blocks h = some blk → h ≠ exGenesis.Hash →
      ∃ parent, GoMap.get? (exRun [exA1, exA2, exB1]).1.Blocks blk.Header.PrevHash = some parent ∧
        blk.Header.Height = parent.Header.Height + 1) ∧
    ∀ (s : Simulation) (b parent : Block),
      GoMap.contains (exRun [exA1, exA2, exB1]).1.Blocks b.Hash = false →
      GoMap.get? (exRun [exA1, exA2, exB1]).1.Blocks b.Header.PrevHash = some parent →
      b.Header.Height ≠ parent.Header.Height + 1 →
      ∃ n1, (exRun [exA1, exA2, exB1]).1.ReceiveBlock s b = some (n1, s) ∧
        n1.Blocks = (exRun [exA1, exA2, exB1]).1.Blocks ∧
        n1.ChainWork = (exRun [exA1, exA2, exB1]).1.ChainWork ∧
        GoMap.contains n1.Blocks b.Hash = false :=
  ⟨rfl, C28_chain_work_is_height exGenesis rfl _
    (reachable_exRun [exA1, exA2, exB1] _ rfl)⟩

/-! ## The handlers keep the books of the simulation -/

theorem booked_refl (n : Node) (s : Simulation) : n.booked s (n, s) := by
  simp [Node.booked]

theorem booked_trans (n : Node) (s : Simulation) (r r1 : Node × Simulation)
    (h1 : n.booked s r) (h2 : r.1.booked r.2 r1) : n.booked s r1 := by
  obtain ⟨a1, a2, a3, a4, a5, a6⟩ := h1
  obtain ⟨b1, b2, b3, b4, b5, b6⟩ := h2
  refine ⟨b1.trans a1, b2.trans a2, b3.trans a3, fun k => (b4 k).trans (a4 k), by omega, by omega⟩

theorem relayBlock_fold_booked (b : Block) (l : List Int) (acc : Node × Simulation) :
    acc.1.booked acc.2 (l.foldl (relayBlockStep b) acc) := by
  induction l generalizing acc with
  | nil => exact booked_refl _ _
  | cons t l ih =>
    refine booked_trans _ _ _ _ ?_ (ih _)
    unfold relayBlockStep
    split <;> simp [Node.booked, Simulation.ScheduleEvent, Simulation.ScheduleEventWithPriority]

theorem relayBlock_booked (n : Node) (s : Simulation) (b : Block) :
    n.booked s (n.relayBlock s b) :=
  relayBlock_fold_booked b _ (n, s)

theorem scheduleMiningAttempt_booked (n : Node) (s : Simulation) :
    n.booked s (n, n.scheduleMiningAttempt s) := by
  unfold Node.scheduleMiningAttempt
  split <;> simp [Node.booked, Simulation.ScheduleEvent, Simulation.ScheduleEventWithPriority]

theorem restartMining_booked (n : Node) (s : Simulation) : n.booked s (n.restartMining s) := by
  unfold Node.restartMining
  split
  · exact booked_refl _ _
  · simp only
    split
    · have := scheduleMiningAttempt_booked
        { n with CurrentMiningJob := none, isWaitingToMine := false } s
      exact this
    · simp [Node.booked]

theorem restoreTx_stats (newBlocks : List Block) (n : Node) (tx : Transaction) :
    (restoreTx newBlocks n tx).Stats = n.Stats := by
  unfold restoreTx
  split
  · rfl
  · split
    · rfl
    · split <;> rfl

theorem restoreTx_fold_stats (newBlocks : List Block) (txs : List Transaction) (n : Node) :
    (txs.foldl (restoreTx newBlocks) n).Stats = n.Stats := by
  induction txs generalizing n with
  | nil => rfl
  | cons tx txs ih => exact (ih _).trans (restoreTx_stats newBlocks n tx)

theorem restoreAll_stats (newBlocks staleBlocks : List Block) (n : Node) :
    (staleBlocks.foldl
      (fun (acc : Node) staleBlock => staleBlock.Transactions.foldl (restoreTx newBlocks) acc)
      n).Stats = n.Stats := by
  induction staleBlocks generalizing n with
  | nil => rfl
  | cons sb l ih => exact (ih _).trans (restoreTx_fold_stats newBlocks sb.Transactions n)

theorem staleWalk_ge (blocks : GoMap String Block) (a : String) (fuel : Nat) (h : String)
    (acc : List Block) (cnt : Int) (r : List Block × Int)
    (hr : staleWalk blocks a fuel h acc cnt = some r) :
    cnt ≤ r.2 ∧ r.2 - cnt = (r.1.length : Int) - (acc.length : Int) := by
  induction fuel generalizing h acc cnt with
  | zero => simp [staleWalk] at hr
  | succ fuel ih =>
    unfold staleWalk at hr
    split at hr
    · cases hr; simp
    · split at hr
      · cases hr; simp
      · have := ih _ _ _ hr
        simp only [List.length_append, List.length_singleton] at this
        push_cast at this
        omega

/-- The reorg adds to the global stale counter what it adds to the stale counter of the node,
and it counts itself once. -/
theorem handleReorg_booked (n : Node) (s : Simulation) (x y : String) (r : Node × Simulation)
    (h : n.handleReorg s x y = some r) :
    n.booked s r ∧ r.1.Stats.HandledReorgs = n.Stats.HandledReorgs + 1 := by
  unfold Node.handleReorg at h
  simp only at h
  split at h
  · exact absurd h (by simp)
  · split at h
    · cases h
      simp [Node.booked]
    · split at h
      · exact absurd h (by simp)
      · rename_i staleBlocks stale hw
        split at h
        · exact absurd h (by simp)
        · rename_i newBlocks _
          cases h
          have hge := (staleWalk_ge _ _ _ _ _ _ _ hw).1
          have hst := restoreAll_stats newBlocks staleBlocks
            { n with Stats := { n.Stats with HandledReorgs := n.Stats.HandledReorgs + 1,
                                              StaleBlocksInReorg := stale } }
          refine ⟨⟨rfl, rfl, rfl, fun _ => rfl, ?_, ?_⟩, ?_⟩
          · simp only [hst]
            exact hge
          · simp only [hst, Simulation.IncrementStaleCounterBy]
            omega
          · simp only [hst]

theorem updateMempool_stats (b : Block) (n : Node) :
    (n.updateMempoolForNewBlock b).Stats = n.Stats := by
  unfold Node.updateMempoolForNewBlock
  generalize b.Transactions = txs
  induction txs generalizing n with
  | nil => rfl
  | cons tx txs ih =>
    rw [List.foldl_cons]
    exact (ih _).trans rfl

theorem replayFold_booked (nd : Node) (l : List Block) (s : Simulation) :
    nd.booked s (nd, l.foldl (fun (acc : Simulation) ob =>
        acc.ScheduleEventWithPriority acc.CurrentTime EventType.EvReceiveBlock
          (EventData.ReceiveBlockData nd.ID ob) 0) s) := by
  induction l generalizing s with
  | nil => exact booked_refl _ _
  | cons ob l ih =>
    rw [List.foldl_cons]
    refine booked_trans nd s (nd, _) _ ?_ (ih _)
    simp [Node.booked, Simulation.ScheduleEventWithPriority]

theorem replayOrphans_booked (n : Node) (s : Simulation) (b : Block) :
    n.booked s (n.replayOrphans s b) := by
  unfold Node.replayOrphans
  split
  · exact booked_refl _ _
  · rename_i orphans _
    have h := replayFold_booked n orphans s
    obtain ⟨a1, a2, a3, a4, a5, a6⟩ := h
    exact ⟨a1, a2, a3, a4, by simp, by simpa using a6⟩

theorem forkChoice_booked (n : Node) (s : Simulation) (b : Block) (r : Node × Simulation)
    (h : n.forkChoice s b = some r) : n.booked s r := by
  unfold Node.forkChoice at h
  simp only at h
  split at h
  · split at h
    · exact absurd h (by simp)
    · rename_i n2 s2 hre
      cases h
      have hre2 : n.booked s (n2, s2) := by
        split at hre
        · have := (handleReorg_booked _ _ _ _ _ hre).1
          exact this
        · cases hre
          simp [Node.booked]
      exact booked_trans _ _ _ _ hre2
        (booked_trans _ _ _ _ (relayBlock_booked n2 s2 b) (restartMining_booked _ _))
  · cases h
    exact relayBlock_booked n s b

theorem beforeChoice_booked (n : Node) (s : Simulation) (b : Block) :
    n.booked s (beforeChoice n s b) := by
  unfold beforeChoice
  refine booked_trans n s
    ((({ n with Stats := { n.Stats with ReceivedBlocks := n.Stats.ReceivedBlocks + 1 } }).recordBlock
      b).updateMempoolForNewBlock b, s) _ ?_ (replayOrphans_booked _ s b)
  refine ⟨rfl, rfl, rfl, fun _ => rfl, ?_, ?_⟩
  · simp only [updateMempool_stats, Node.recordBlock]
    exact le_refl _
  · simp only [updateMempool_stats, Node.recordBlock]
    omega

theorem receiveBlock_booked (n : Node) (s : Simulation) (b : Block) (r : Node × Simulation)
    (h : n.ReceiveBlock s b = some r) : n.booked s r := by
  by_cases hk : GoMap.contains n.Blocks b.Hash = true
  · rw [receiveBlock_known n s b hk] at h; cases h; simp [Node.booked]
  · have hk' : GoMap.contains n.Blocks b.Hash = false := by simpa using hk
    cases hp : GoMap.get? n.Blocks b.Header.PrevHash with
    | none => rw [receiveBlock_orphan n s b hk' hp] at h; cases h; simp [Node.booked]
    | some parent =>
      by_cases hh : b.Header.Height = parent.Header.Height + 1
      · rw [receiveBlock_accept n s b parent hk' hp hh] at h
        exact booked_trans _ _ _ _ (beforeChoice_booked n s b) (forkChoice_booked _ _ b r h)
      · rw [receiveBlock_badHeight n s b parent hk' hp hh] at h; cases h; simp [Node.booked]

theorem relayTx_fold_booked (tx : Transaction) (l : List Int) (acc : Node × Simulation) :
    acc.1.booked acc.2 (l.foldl (relayTxStep tx) acc) := by
  induction l generalizing acc with
  | nil => exact booked_refl _ _
  | cons t l ih =>
    refine booked_trans _ _ _ _ ?_ (ih _)
    unfold relayTxStep
    split <;> simp [Node.booked, Simulation.ScheduleEvent, Simulation.ScheduleEventWithPriority]

theorem receiveTransaction_booked (n : Node) (s : Simulation) (tx : Transaction) :
    n.booked s (n.ReceiveTransaction s tx) := by
  unfold Node.ReceiveTransaction
  simp only
  split
  · simp [Node.booked]
  · refine booked_trans _ _ _ _ ?_ (relayTx_fold_booked tx _ _)
    split
    · split
      · have := scheduleMiningAttempt_booked
          { n with
            Stats := { n.Stats with ReceivedTx := n.Stats.ReceivedTx + 1,
                                    AddedToMempool := n.Stats.AddedToMempool + 1 },
            Mempool := GoMap.set n.Mempool tx.ID tx,
            KnownTx := GoMap.set n.KnownTx tx.ID true } s
        obtain ⟨a1, a2, a3, a4, a5, a6⟩ := this
        exact ⟨a1, a2, a3, a4, by simp, by simpa using a6⟩
      · simp [Node.booked]
    · simp [Node.booked]

theorem attemptMining_booked (n : Node) (s : Simulation) (parent : String) (height : Int) :
    n.booked s (n.AttemptMining s parent height) := by
  unfold Node.AttemptMining
  split
  · exact booked_refl _ _
  · split
    · exact booked_refl _ _
    · split
      · exact booked_refl _ _
      · simp only
        split <;> simp [Node.booked]

theorem markIncluded_keys (blk : Block) (t : Int) (status : GoMap String TxMetadata) (k : String) :
    GoMap.contains (markIncluded blk t status) k = GoMap.contains status k := by
  unfold markIncluded
  generalize blk.Transactions = txs
  induction txs generalizing status with
  | nil => rfl
  | cons tx txs ih =>
    rw [List.foldl_cons, ih]
    split
    · rename_i m hm
      split
      · rw [GoMap.contains_set]
        by_cases e : k = tx.ID
        · subst e
          simp [GoMap.contains, hm]
        · simp [e]
      · rfl
    · rfl

theorem processFoundBlock_booked (n : Node) (s : Simulation) (blk : Block) (event : Event)
    (r : Node × Simulation) (h : n.ProcessFoundBlock s blk event = some r) : n.booked s r := by
  unfold Node.ProcessFoundBlock at h
  split at h
  · cases h; exact booked_refl _ _
  · split at h
    · obtain ⟨a1, a2, a3, a4, a5, a6⟩ := receiveBlock_booked _ _ _ _ h
      exact ⟨a1, a2, a3, fun k => (a4 k).trans (markIncluded_keys _ _ _ k), a5, a6⟩
    · cases h; exact booked_refl _ _

/-! ## Block hashes are not empty -/

/-- A fresh node of a simulation whose genesis hash is not empty has no block with the empty
hash. -/
theorem noEmptyHash_newNode (id : Int) (isMiner : Bool) (s : Simulation)
    (hg : s.GenesisBlock.Hash ≠ "") : GoMap.contains (NewNode id isMiner s).Blocks "" = false := by
  simp only [NewNode, GoMap.contains_set]
  have : decide ("" = s.GenesisBlock.Hash) = false := decide_eq_false (fun e => hg e.symm)
  rw [this]
  rfl

/-- The delivery of a block whose hash is not empty leaves the node without a block with the
empty hash. -/
theorem noEmptyHash_receiveBlock (n : Node) (s : Simulation) (b : Block) (r : Node × Simulation)
    (hne : GoMap.contains n.Blocks "" = false) (hb : b.Hash ≠ "")
    (h : n.ReceiveBlock s b = some r) : GoMap.contains r.1.Blocks "" = false := by
  by_cases hk : GoMap.contains n.Blocks b.Hash = true
  · rw [receiveBlock_known n s b hk] at h; cases h; exact hne
  · have hk1 : GoMap.contains n.Blocks b.Hash = false := by simpa using hk
    cases hp : GoMap.get? n.Blocks b.Header.PrevHash with
    | none => rw [receiveBlock_orphan n s b hk1 hp] at h; cases h; exact hne
    | some parent =>
      by_cases hh : b.Header.Height = parent.Header.Height + 1
      · rw [receiveBlock_accept n s b parent hk1 hp hh] at h
        obtain ⟨_, _, f3, _⟩ := beforeChoice_node n s b
        obtain ⟨hs, _⟩ := forkChoice_frame _ _ b r h
        rw [hs.2.2.1]
        show GoMap.contains (beforeChoice n s b).1.Blocks "" = false
        rw [f3, GoMap.contains_set, hne]
        have : decide ("" = b.Hash) = false := decide_eq_false (fun e => hb e.symm)
        rw [this]
        rfl
      · rw [receiveBlock_badHeight n s b parent hk1 hp hh] at h; cases h; exact hne

/-! ## C24: the common-ancestor search -/

/-- C24: in a well-formed node none of whose blocks has the empty string as hash (every hash
of a run is a digest of 64 hex digits), for every two hashes `x`, `y` in `blocks` the
search returns, and its result is a non-empty hash
that is the lowest common ancestor of `x` and `y` (reached from both along `prev_hash`, and no
block reached from both has a larger chain work); when `x` or `y` has no chain-work entry the
result is the empty string. -/
theorem C24_lowest_common_ancestor (n : Node) (s : Simulation) (gh : String)
    (hwf : n.WellFormed gh) (hne : GoMap.contains n.Blocks "" = false) :
    (∀ x y, GoMap.contains n.Blocks x = true → GoMap.contains n.Blocks y = true →
      ∃ a, n.findCommonAncestor s x y = some a ∧ a ≠ "" ∧ n.LowestCommonAncestor gh x y a) ∧
    ∀ x y, GoMap.get? n.ChainWork x = none ∨ GoMap.get? n.ChainWork y = none →
      n.findCommonAncestor s x y = some "" := by
  constructor
  · intro x y hx hy
    obtain ⟨a, ha, hcase⟩ := wf_findCommonAncestor n s gh hwf x y hx hy
    have hlca : n.LowestCommonAncestor gh x y a := by
      rcases hcase with h | ⟨_, h⟩
      · exact h
      · rw [hne] at h; exact absurd h (by simp)
    refine ⟨a, ha, ?_, hlca⟩
    intro e
    have wa := hlca.1
    rw [e, hne] at wa
    exact absurd wa (by simp)
  · intro x y h
    unfold Node.findCommonAncestor
    rcases h with h | h
    · rw [h]
    · rw [h]
      cases GoMap.get? n.ChainWork x <;> rfl

theorem C24_lowest_common_ancestor_witness :
    (exRun [exA1, exA2, exB1, exB2]).1.WellFormed "genesis" ∧
    GoMap.contains (exRun [exA1, exA2, exB1, exB2]).1.Blocks "" = false ∧
    (∀ x y, GoMap.contains (exRun [exA1, exA2, exB1, exB2]).1.Blocks x = true →
      GoMap.contains (exRun [exA1, exA2, exB1, exB2]).1.Blocks y = true →
      ∃ a, (exRun [exA1, exA2, exB1, exB2]).1.findCommonAncestor exSim x y = some a ∧ a ≠ "" ∧
        (exRun [exA1, exA2, exB1, exB2]).1.LowestCommonAncestor "genesis" x y a) ∧
    ∀ x y, GoMap.get? (exRun [exA1, exA2, exB1, exB2]).1.ChainWork x = none ∨
        GoMap.get? (exRun [exA1, exA2, exB1, exB2]).1.ChainWork y = none →
      (exRun [exA1, exA2, exB1, exB2]).1.findCommonAncestor exSim x y = some "" :=
  ⟨(inv_of_reachable exGenesis _ (reachable_exRun [exA1, exA2, exB1, exB2] _ rfl)).1, by decide,
    C24_lowest_common_ancestor (exRun [exA1, exA2, exB1, exB2]).1 exSim "genesis"
      (inv_of_reachable exGenesis _ (reachable_exRun [exA1, exA2, exB1, exB2] _ rfl)).1
      (by decide)⟩

/-! ## C25: the stale blocks of a reorg -/

theorem wf_pathTo_length (n : Node) (gh : String) (hwf : n.WellFormed gh) (h a : String)
    (hr : Reaches n.Blocks gh h a) (hin : GoMap.contains n.Blocks h = true) :
    ((n.pathTo h a).length : Int) = n.work h - n.work a := by
  have hlt : n.work h - n.work a < ((n.work h - n.work a).toNat + 1 : Nat) := by
    have := (wf_reaches n gh hwf h a hr hin).2.1
    omega
  have hw := wf_staleWalk n gh hwf h a hr hin _ [] 0 hlt
  have := (staleWalk_ge _ _ _ _ _ _ _ hw).2
  simp only [List.nil_append, List.length_nil] at this
  push_cast at this
  omega

/-- C25: in a well-formed node none of whose blocks has the empty string as hash (every hash
of a run is a digest of 64 hex digits), the reorg from `old_tip` to `new_tip` (both in
`blocks`) returns; with `a` their lowest common
ancestor it raises the stale counter of the node and the global stale counter by the same
amount, the number of blocks on the path from `old_tip` back to but excluding `a`, which is
`chain_work[old_tip] - chain_work[a]`, and it raises `handled_reorgs` by one. -/
theorem C25_stale_accounting (n : Node) (s : Simulation) (gh : String)
    (hwf : n.WellFormed gh) (hne : GoMap.contains n.Blocks "" = false) (oldTip newTip : String)
    (hx : GoMap.contains n.Blocks oldTip = true) (hy : GoMap.contains n.Blocks newTip = true) :
    ∃ a r, n.LowestCommonAncestor gh oldTip newTip a ∧
      n.findCommonAncestor s oldTip newTip = some a ∧
      n.handleReorg s oldTip newTip = some r ∧
      r.1.Stats.StaleBlocksInReorg =
        n.Stats.StaleBlocksInReorg + ((n.pathTo oldTip a).length : Int) ∧
      r.2.GlobalStaleCount = s.GlobalStaleCount + ((n.pathTo oldTip a).length : Int) ∧
      ((n.pathTo oldTip a).length : Int) = n.work oldTip - n.work a ∧
      r.1.Stats.HandledReorgs = n.Stats.HandledReorgs + 1 := by
  obtain ⟨a, ha, hcase⟩ := wf_findCommonAncestor n s gh hwf oldTip newTip hx hy
  have hlca : n.LowestCommonAncestor gh oldTip newTip a := by
    rcases hcase with h | ⟨_, h⟩
    · exact h
    · rw [hne] at h; exact absurd h (by simp)
  obtain ⟨wa, r1, r2, _⟩ := id hlca
  have na := (wf_genesis_and_nonneg n gh hwf oldTip hx).2 a wa
  have fx := wf_work_lt_walkFuel n gh hwf oldTip hx
  have fy := wf_work_lt_walkFuel n gh hwf newTip hy
  have ha' : ({ n with Stats := { n.Stats with HandledReorgs := n.Stats.HandledReorgs + 1 } } :
      Node).findCommonAncestor s oldTip newTip = some a := ha
  have e : a ≠ "" := by
    intro e; rw [e, hne] at wa; exact absurd wa (by simp)
  have hlen := wf_pathTo_length n gh hwf oldTip a r1 hx
  have hrun : ∃ r, n.handleReorg s oldTip newTip = some r ∧
      r.1.Stats.StaleBlocksInReorg = n.Stats.StaleBlocksInReorg + (n.work oldTip - n.work a) ∧
      r.2.GlobalStaleCount = s.GlobalStaleCount + (n.work oldTip - n.work a) ∧
      r.1.Stats.HandledReorgs = n.Stats.HandledReorgs + 1 := by
    unfold Node.handleReorg
    simp only [ha', e, if_false]
    rw [wf_staleWalk n gh hwf oldTip a r1 hx _ _ _ (by omega)]
    simp only
    rw [wf_newWalk n gh hwf newTip a r2 hy _ _ (by omega)]
    refine ⟨_, rfl, ?_, ?_, ?_⟩
    · simp only [restoreAll_stats]
    · simp only [Simulation.IncrementStaleCounterBy]
      omega
    · simp only [restoreAll_stats]
  obtain ⟨r, h1, h2, h3, h4⟩ := hrun
  exact ⟨a, r, hlca, ha, h1, by rw [h2, hlen], by rw [h3, hlen], hlen, h4⟩

theorem C25_stale_accounting_witness :
    (exRun [exA1, exA2, exB1, exB2]).1.WellFormed "genesis" ∧
    GoMap.contains (exRun [exA1, exA2, exB1, exB2]).1.Blocks "" = false ∧
    GoMap.contains (exRun [exA1, exA2, exB1, exB2]).1.Blocks "blockA2" = true ∧
    GoMap.contains (exRun [exA1, exA2, exB1, exB2]).1.Blocks "blockB2" = true ∧
    ∃ a r, (exRun [exA1, exA2, exB1, exB2]).1.LowestCommonAncestor "genesis" "blockA2" "blockB2" a ∧
      (exRun [exA1, exA2, exB1, exB2]).1.findCommonAncestor exSim "blockA2" "blockB2" = some a ∧
      (exRun [exA1, exA2, exB1, exB2]).1.handleReorg exSim "blockA2" "blockB2" = some r ∧
      r.1.Stats.StaleBlocksInReorg =
        (exRun [exA1, exA2, exB1, exB2]).1.Stats.StaleBlocksInReorg +
          (((exRun [exA1, exA2, exB1, exB2]).1.pathTo "blockA2" a).length : Int) ∧
      r.2.GlobalStaleCount =
        exSim.GlobalStaleCount +
          (((exRun [exA1, exA2, exB1, exB2]).1.pathTo "blockA2" a).length : Int) ∧
      (((exRun [exA1, exA2, exB1, exB2]).1.pathTo "blockA2" a).length : Int) =
        (exRun [exA1, exA2, exB1, exB2]).1.work "blockA2" -
          (exRun [exA1, exA2, exB1, exB2]).1.work a ∧
      r.1.Stats.HandledReorgs = (exRun [exA1, exA2, exB1, exB2]).1.Stats.HandledReorgs + 1 :=
  ⟨(inv_of_reachable exGenesis _ (reachable_exRun [exA1, exA2, exB1, exB2] _ rfl)).1, by decide,
    by decide, by decide,
    C25_stale_accounting (exRun [exA1, exA2, exB1, exB2]).1 exSim "genesis"
      (inv_of_reachable exGenesis _ (reachable_exRun [exA1, exA2, exB1, exB2] _ rfl)).1
      (by decide) "blockA2" "blockB2" (by decide) (by decide)⟩

/-! ## C26: a pending mining job builds on the current tip -/

theorem sameJob_refl (n : Node) : n.sameJob n := ⟨rfl, rfl⟩

theorem sameJob_trans {a b c : Node} (h1 : a.sameJob b) (h2 : b.sameJob c) : a.sameJob c :=
  ⟨h2.1.trans h1.1, h2.2.trans h1.2⟩

theorem relayBlock_fold_job (b : Block) (l : List Int) (acc : Node × Simulation) :
    acc.1.sameJob (l.foldl (relayBlockStep b) acc).1 := by
  induction l generalizing acc with
  | nil => exact sameJob_refl _
  | cons t l ih =>
    refine sameJob_trans ?_ (ih _)
    unfold relayBlockStep
    split <;> simp [Node.sameJob]

theorem relayTx_fold_job (tx : Transaction) (l : List Int) (acc : Node × Simulation) :
    acc.1.sameJob (l.foldl (relayTxStep tx) acc).1 ∧
    acc.1.sameTree (l.foldl (relayTxStep tx) acc).1 := by
  induction l generalizing acc with
  | nil => exact ⟨sameJob_refl _, sameTree_refl _⟩
  | cons t l ih =>
    obtain ⟨i1, i2⟩ := ih (relayTxStep tx acc t)
    have : acc.1.sameJob (relayTxStep tx acc t).1 ∧ acc.1.sameTree (relayTxStep tx acc t).1 := by
      unfold relayTxStep
      split <;> simp [Node.sameJob, Node.sameTree]
    exact ⟨sameJob_trans this.1 i1, sameTree_trans this.2 i2⟩

theorem restoreTx_job (newBlocks : List Block) (n : Node) (tx : Transaction) :
    (restoreTx newBlocks n tx).CurrentMiningJob = n.CurrentMiningJob := by
  unfold restoreTx
  split
  · rfl
  · split
    · rfl
    · split <;> rfl

theorem restoreTx_fold_job (newBlocks : List Block) (txs : List Transaction) (n : Node) :
    (txs.foldl (restoreTx newBlocks) n).CurrentMiningJob = n.CurrentMiningJob := by
  induction txs generalizing n with
  | nil => rfl
  | cons tx txs ih => exact (ih _).trans (restoreTx_job newBlocks n tx)

theorem restoreAll_job (newBlocks staleBlocks : List Block) (n : Node) :
    (staleBlocks.foldl
      (fun (acc : Node) staleBlock => staleBlock.Transactions.foldl (restoreTx newBlocks) acc)
      n).CurrentMiningJob = n.CurrentMiningJob := by
  induction staleBlocks generalizing n with
  | nil => rfl
  | cons sb l ih => exact (ih _).trans (restoreTx_fold_job newBlocks sb.Transactions n)

theorem handleReorg_job (n : Node) (s : Simulation) (x y : String) (r : Node × Simulation)
    (h : n.handleReorg s x y = some r) : r.1.CurrentMiningJob = n.CurrentMiningJob := by
  unfold Node.handleReorg at h
  simp only at h
  split at h
  · exact absurd h (by simp)
  · split at h
    · cases h; rfl
    · split at h
      · exact absurd h (by simp)
      · split at h
        · exact absurd h (by simp)
        · cases h
          exact restoreAll_job _ _ _

theorem updateMempool_job (b : Block) (n : Node) :
    (n.updateMempoolForNewBlock b).CurrentMiningJob = n.CurrentMiningJob := by
  unfold Node.updateMempoolForNewBlock
  generalize b.Transactions = txs
  induction txs generalizing n with
  | nil => rfl
  | cons tx txs ih =>
    rw [List.foldl_cons]
    exact (ih _).trans rfl

theorem beforeChoice_job (n : Node) (s : Simulation) (b : Block) :
    n.sameJob (beforeChoice n s b).1 := by
  unfold beforeChoice Node.replayOrphans
  split
  · exact ⟨by rw [updateMempool_job]; rfl, by rw [updateMempool_stats]; rfl⟩
  · exact ⟨by simp only [updateMempool_job]; rfl, by simp only [updateMempool_stats]; rfl⟩

theorem restartMining_job (n : Node) (s : Simulation) :
    (n.restartMining s).1.Stats.HandledReorgs = n.Stats.HandledReorgs ∧
    (n.IsMiner = true → (n.restartMining s).1.CurrentMiningJob = none) ∧
    (n.IsMiner = false → (n.restartMining s).1.CurrentMiningJob = n.CurrentMiningJob) := by
  unfold Node.restartMining
  split
  · rename_i h
    simp [h]
  · rename_i h
    simp only
    split <;> simp [h]

/-- The fork choice keeps the mining job when the tip stays, and otherwise leaves a miner
without one. -/
theorem forkChoice_job (n : Node) (s : Simulation) (b : Block) (r : Node × Simulation)
    (h : n.forkChoice s b = some r) :
    (r.1.CurrentMiningJob = n.CurrentMiningJob ∧ r.1.BestChainTip = n.BestChainTip) ∨
    (n.IsMiner = true ∧ r.1.CurrentMiningJob = none) ∨
    (n.IsMiner = false ∧ r.1.CurrentMiningJob = n.CurrentMiningJob) := by
  unfold Node.forkChoice at h
  simp only at h
  split at h
  · split at h
    · exact absurd h (by simp)
    · rename_i n2 s2 hre
      cases h
      have hre2 : n2.CurrentMiningJob = n.CurrentMiningJob ∧ n2.IsMiner = n.IsMiner := by
        split at hre
        · exact ⟨handleReorg_job _ _ _ _ _ hre, (handleReorg_frame _ _ _ _ _ hre).1.2.1⟩
        · cases hre
          exact ⟨rfl, rfl⟩
      have hrel := relayBlock_fold_job b (GoMap.keys s2.Nodes) (n2, s2)
      have hrelT := (relayBlock_frame n2 s2 b).1.2.1
      obtain ⟨_, j1, j2⟩ := restartMining_job (n2.relayBlock s2 b).1 (n2.relayBlock s2 b).2
      right
      cases hm : n.IsMiner with
      | true =>
        left
        exact ⟨rfl, j1 (by rw [hrelT, hre2.2, hm])⟩
      | false =>
        right
        refine ⟨rfl, ?_⟩
        rw [j2 (by rw [hrelT, hre2.2, hm])]
        exact hrel.1.trans hre2.1
  · cases h
    left
    exact ⟨(relayBlock_fold_job b _ (n, s)).1, (relayBlock_frame n s b).1.2.2.2.2.1⟩

theorem receiveTransaction_job (n : Node) (s : Simulation) (tx : Transaction) :
    n.sameJob (n.ReceiveTransaction s tx).1 ∧ n.sameTree (n.ReceiveTransaction s tx).1 := by
  unfold Node.ReceiveTransaction
  simp only
  split
  · simp [Node.sameJob, Node.sameTree]
  · refine ⟨sameJob_trans ?_ (relayTx_fold_job tx _ _).1,
      sameTree_trans ?_ (relayTx_fold_job tx _ _).2⟩
    · split
      · split <;> simp [Node.sameJob]
      · simp [Node.sameJob]
    · split
      · split <;> simp [Node.sameTree]
      · simp [Node.sameTree]

theorem attemptMining_tree (n : Node) (s : Simulation) (parent : String) (height : Int) :
    n.sameTree (n.AttemptMining s parent height).1 := by
  unfold Node.AttemptMining
  split
  · exact sameTree_refl _
  · split
    · exact sameTree_refl _
    · split
      · exact sameTree_refl _
      · simp only
        split <;> simp [Node.sameTree]

theorem jobOnTip_of_same (n n1 : Node) (hj : n1.CurrentMiningJob = n.CurrentMiningJob)
    (ht : n1.BestChainTip = n.BestChainTip) (hw : n1.work n.BestChainTip = n.work n.BestChainTip)
    (h : n.JobOnTip) : n1.JobOnTip := by
  intro ev hev
  rw [hj] at hev
  obtain ⟨id, blk, e1, e2, e3⟩ := h ev hev
  exact ⟨id, blk, e1, by rw [ht]; exact e2, by rw [ht, hw]; exact e3⟩

theorem jobOnTip_of_none (n : Node) (h : n.CurrentMiningJob = none) : n.JobOnTip := by
  intro ev hev
  rw [h] at hev
  exact absurd hev (by simp)

theorem jobOnTip_attemptMining (n : Node) (s : Simulation) (parent : String) (height : Int)
    (h : n.JobOnTip) : (n.AttemptMining s parent height).1.JobOnTip ∧
      (n.IsMiner = false → (n.AttemptMining s parent height).1.CurrentMiningJob =
        n.CurrentMiningJob) := by
  unfold Node.AttemptMining
  split
  · exact ⟨h, fun _ => rfl⟩
  · rename_i hm
    split
    · exact ⟨h, fun _ => rfl⟩
    · rename_i hp
      split
      · exact ⟨h, fun _ => rfl⟩
      · rename_i hh
        simp only
        split
        · refine ⟨?_, fun e => absurd e hm⟩
          intro ev hev
          simp only [Option.some.injEq] at hev
          subst hev
          refine ⟨_, _, rfl, ?_, ?_⟩
          · simp only [NewBlock]
            simpa using hp
          · simp only [NewBlock]
            simpa [Node.work] using hh
        · exact ⟨jobOnTip_of_none _ rfl, fun e => absurd e hm⟩

/-- Block delivery keeps the invariant of the mining job. -/
theorem jobOnTip_receiveBlock (n : Node) (s : Simulation) (b : Block) (r : Node × Simulation)
    (gh : String) (hi : n.Inv gh) (hj : n.JobOnTip)
    (hnm : n.IsMiner = false → n.CurrentMiningJob = none)
    (h : n.ReceiveBlock s b = some r) :
    r.1.JobOnTip ∧ (r.1.IsMiner = false → r.1.CurrentMiningJob = none) := by
  by_cases hk : GoMap.contains n.Blocks b.Hash = true
  · rw [receiveBlock_known n s b hk] at h; cases h
    exact ⟨jobOnTip_of_same n _ rfl rfl rfl hj, hnm⟩
  · have hk' : GoMap.contains n.Blocks b.Hash = false := by simpa using hk
    cases hp : GoMap.get? n.Blocks b.Header.PrevHash with
    | none =>
      rw [receiveBlock_orphan n s b hk' hp] at h; cases h
      exact ⟨jobOnTip_of_same n _ rfl rfl rfl hj, hnm⟩
    | some parent =>
      by_cases hh : b.Header.Height = parent.Header.Height + 1
      · rw [receiveBlock_accept n s b parent hk' hp hh] at h
        obtain ⟨i1, i2, i3, i4, _⟩ := id hi
        obtain ⟨_, f2, f3, f4, f5, _⟩ := beforeChoice_node n s b
        have hpc : GoMap.contains n.Blocks b.Header.PrevHash = true :=
          (GoMap.contains_iff _ _).2 ⟨parent, hp⟩
        obtain ⟨w1, w2, w3, w4⟩ := wf_insert n (beforeChoice n s b).1 gh i1 i2 b hk' hpc f3 f4
        obtain ⟨hs, _⟩ := forkChoice_frame _ _ b r h
        obtain ⟨_, hsM, _, hsC, _⟩ := hs
        have hbj := beforeChoice_job n s b
        have hmr : r.1.IsMiner = n.IsMiner := hsM.trans f2
        rcases forkChoice_job _ _ b r h with ⟨c1, c2⟩ | ⟨c1, c2⟩ | ⟨c1, c2⟩
        · refine ⟨jobOnTip_of_same n _ (c1.trans hbj.1) (c2.trans f5) ?_ hj, ?_⟩
          · rw [work_congr _ r.1 hsC]
            exact w2 _ i3
          · intro e
            rw [c1, hbj.1]
            exact hnm (by rw [← hmr]; exact e)
        · exact ⟨jobOnTip_of_none _ c2, fun _ => c2⟩
        · have : r.1.CurrentMiningJob = none := by
            rw [c2, hbj.1]
            exact hnm (by rw [← f2]; exact c1)
          exact ⟨jobOnTip_of_none _ this, fun _ => this⟩
      · rw [receiveBlock_badHeight n s b parent hk' hp hh] at h; cases h
        exact ⟨jobOnTip_of_same n _ rfl rfl rfl hj, hnm⟩

/-- The invariant of the node states reachable through the four handlers. -/
theorem handlers_invariant (g : Block) (n : Node) (h : ReachableByHandlers g n) :
    n.Inv g.Hash ∧ n.JobOnTip ∧ (n.IsMiner = false → n.CurrentMiningJob = none) ∧
    (g.Header.Height = 0 → n.WorkIsHeight) := by
  induction h with
  | init id isMiner s hs =>
    refine ⟨by rw [← hs]; exact inv_newNode id isMiner s, jobOnTip_of_none _ rfl, fun _ => rfl,
      fun h0 => workIsHeight_newNode id isMiner s (by rw [hs]; exact h0)⟩
  | tx n s t _ ih =>
    obtain ⟨i1, i2, i3, i4⟩ := ih
    obtain ⟨j, tr⟩ := receiveTransaction_job n s t
    refine ⟨inv_of_sameTree n _ _ tr i1, ?_, ?_, fun h0 => workIsHeight_of_sameTree n _ tr (i4 h0)⟩
    · exact jobOnTip_of_same n _ j.1 tr.2.2.2.2.1 (work_congr n _ tr.2.2.2.1 _) i2
    · intro e
      rw [j.1]
      exact i3 (by rw [← tr.2.1]; exact e)
  | block n s b r _ hs hr ih =>
    obtain ⟨i1, i2, i3, i4⟩ := ih
    obtain ⟨r2, h1, h2⟩ := inv_receiveBlock n s b g.Hash i1 (by rw [hs])
    rw [hr] at h1
    cases h1
    obtain ⟨j1, j2⟩ := jobOnTip_receiveBlock n s b r g.Hash i1 i2 i3 hr
    exact ⟨h2, j1, j2, fun h0 => workIsHeight_receiveBlock n s b r (i4 h0) hr⟩
  | attempt n s parent height _ ih =>
    obtain ⟨i1, i2, i3, i4⟩ := ih
    have tr := attemptMining_tree n s parent height
    obtain ⟨j1, j2⟩ := jobOnTip_attemptMining n s parent height i2
    refine ⟨inv_of_sameTree n _ _ tr i1, j1, ?_, fun h0 => workIsHeight_of_sameTree n _ tr (i4 h0)⟩
    intro e
    have e' : n.IsMiner = false := by rw [← tr.2.1]; exact e
    rw [j2 e']
    exact i3 e'
  | found n s blk e r _ hs hr ih =>
    obtain ⟨i1, i2, i3, i4⟩ := ih
    unfold Node.ProcessFoundBlock at hr
    split at hr
    · cases hr
      exact ⟨i1, i2, i3, i4⟩
    · split at hr
      · have i1' : ({ n with
            CurrentMiningJob := none,
            Stats := { n.Stats with MinedBlocks := n.Stats.MinedBlocks + 1 } } : Node).Inv g.Hash :=
          inv_of_sameTree n _ _ (by simp [Node.sameTree]) i1
        have h2 : r.1.Inv g.Hash := by
          obtain ⟨r2, h1, h2⟩ := inv_receiveBlock _
            ({ s with TxStatus := (markIncluded ({ blk with FoundTime := e.Timestamp })
                e.Timestamp s.TxStatus) }) ({ blk with FoundTime := e.Timestamp }) g.Hash i1'
            (by rw [← hs])
          rw [hr] at h1
          cases h1
          exact h2
        obtain ⟨j1, j2⟩ := jobOnTip_receiveBlock _ _ _ r g.Hash i1' (jobOnTip_of_none _ rfl)
          (fun _ => rfl) hr
        refine ⟨h2, j1, j2, fun h0 => workIsHeight_receiveBlock _ _ _ r ?_ hr⟩
        exact workIsHeight_of_sameTree n _ (by simp [Node.sameTree]) (i4 h0)
      · cases hr
        exact ⟨i1, i2, i3, i4⟩

/-- The fork choice for a block that extends the tip: the tip moves to `b` without a reorg,
then the block is relayed and mining restarts. -/
theorem forkChoice_extend (n : Node) (s : Simulation) (b : Block)
    (hmove : n.work n.BestChainTip < n.work b.Hash) (hprev : b.Header.PrevHash = n.BestChainTip) :
    n.forkChoice s b =
      some ((({ n with BestChainTip := b.Hash } : Node).relayBlock s b).1.restartMining
        (({ n with BestChainTip := b.Hash } : Node).relayBlock s b).2) := by
  unfold Node.forkChoice
  have hmove' : GoMap.getD n.ChainWork n.BestChainTip 0 < GoMap.getD n.ChainWork b.Hash 0 := hmove
  simp only [hmove', if_true, ne_eq, hprev, not_true_eq_false, if_false]

/-- C26: in every node state reached from `NewNode` through `ReceiveTransaction`,
`ReceiveBlock`, `AttemptMining` and `ProcessFoundBlock`, a pending mining job carries a
candidate block with `prev_hash = best_tip` and `height = chain_work[best_tip] + 1`; hence,
the genesis having height 0, when `ProcessFoundBlock` gets the event of the pending job (the
same allocation, so the same payload) and the hash of its block is not in `blocks`, the call
returns, the block is in `blocks` and is the new best tip, and no reorg is counted. -/
theorem C26_job_builds_on_tip (g : Block) (n : Node) (hr : ReachableByHandlers g n) :
    (∀ ev, n.CurrentMiningJob = some ev →
      ∃ id blk, ev.Data = EventData.BlockFoundData id blk ∧
        blk.Header.PrevHash = n.BestChainTip ∧
        blk.Header.Height = n.work n.BestChainTip + 1) ∧
    ∀ (s : Simulation) (job e : Event) (miner : Int) (blk : Block),
      g.Header.Height = 0 → s.GenesisBlock = g → n.CurrentMiningJob = some job →
      e.handle = job.handle → e.Data = job.Data → e.Data = EventData.BlockFoundData miner blk →
      GoMap.contains n.Blocks blk.Hash = false →
      ∃ r, n.ProcessFoundBlock s blk e = some r ∧ r.1.BestChainTip = blk.Hash ∧
        GoMap.contains r.1.Blocks blk.Hash = true ∧
        r.1.work blk.Hash = n.work n.BestChainTip + 1 ∧
        r.1.Stats.HandledReorgs = n.Stats.HandledReorgs := by
  obtain ⟨hi, hj, hnm, hwh⟩ := handlers_invariant g n hr
  refine ⟨hj, ?_⟩
  intro s job e miner blk h0 hs hjob hh hd hdata hnew
  obtain ⟨id1, blk1, d1, d2, d3⟩ := hj job hjob
  have hblk : blk1 = blk := by
    rw [hd, d1] at hdata
    cases hdata
    rfl
  subst hblk
  have hm : n.IsMiner = true := by
    cases hm : n.IsMiner with
    | true => rfl
    | false => rw [hnm hm] at hjob; exact absurd hjob (by simp)
  obtain ⟨i1, i2, i3, i4, _⟩ := id hi
  obtain ⟨parent, hpar⟩ := (GoMap.contains_iff _ _).1 i3
  have hw := hwh h0
  have hwt : n.work n.BestChainTip = parent.Header.Height := by
    unfold Node.work GoMap.getD
    rw [hw.2 _ _ hpar]
    rfl
  have hrun : n.ProcessFoundBlock s blk1 e =
      ({ n with
          CurrentMiningJob := none,
          Stats := { n.Stats with MinedBlocks := n.Stats.MinedBlocks + 1 } } : Node).ReceiveBlock
        ({ s with TxStatus := (markIncluded ({ blk1 with FoundTime := e.Timestamp }) e.Timestamp
            s.TxStatus) })
        ({ blk1 with FoundTime := e.Timestamp }) := by
    unfold Node.ProcessFoundBlock
    simp [hm, hjob, hh]
  rw [hrun]
  generalize hn1 : ({ n with
      CurrentMiningJob := none,
      Stats := { n.Stats with MinedBlocks := n.Stats.MinedBlocks + 1 } } : Node) = n1
  generalize hs1 : ({ s with TxStatus := (markIncluded ({ blk1 with FoundTime := e.Timestamp })
      e.Timestamp s.TxStatus) } : Simulation) = s1
  generalize hfb : ({ blk1 with FoundTime := e.Timestamp } : Block) = fb
  have hfbH : fb.Hash = blk1.Hash := by rw [← hfb]
  have hfbP : fb.Header.PrevHash = n.BestChainTip := by rw [← hfb]; exact d2
  have hn1T : n1.sameTree n := by rw [← hn1]; simp [Node.sameTree]
  have hn1S : n1.Stats.HandledReorgs = n.Stats.HandledReorgs ∧
      n1.Stats.StaleBlocksInReorg = n.Stats.StaleBlocksInReorg := by rw [← hn1]; exact ⟨rfl, rfl⟩
  have hwf1 : n1.WellFormed g.Hash := wf_congr n n1 _ (by rw [← hn1]) (by rw [← hn1]) i1
  have hg1 : GoMap.contains n1.Blocks g.Hash = true := by rw [← hn1]; exact i2
  have hnew1 : GoMap.contains n1.Blocks fb.Hash = false := by rw [← hn1, hfbH]; exact hnew
  have hpc1 : GoMap.contains n1.Blocks fb.Header.PrevHash = true := by
    rw [← hn1, hfbP]; exact i3
  have hp1 : GoMap.get? n1.Blocks fb.Header.PrevHash = some parent := by
    rw [← hn1, hfbP]; exact hpar
  have hh1 : fb.Header.Height = parent.Header.Height + 1 := by
    rw [← hfb]
    show blk1.Header.Height = _
    rw [d3, hwt]
  rw [receiveBlock_accept n1 s1 fb parent hnew1 hp1 hh1]
  obtain ⟨_, _, f3, f4, f5, _⟩ := beforeChoice_node n1 s1 fb
  obtain ⟨w1, w2, w3, w4⟩ := wf_insert n1 (beforeChoice n1 s1 fb).1 g.Hash hwf1 hg1 fb hnew1 hpc1
    f3 f4
  have htip1 : n1.BestChainTip = n.BestChainTip := by rw [← hn1]
  have hwork1 : ∀ h, n1.work h = n.work h := fun h => work_congr n n1 (by rw [← hn1]) h
  have hmove : (beforeChoice n1 s1 fb).1.work (beforeChoice n1 s1 fb).1.BestChainTip <
      (beforeChoice n1 s1 fb).1.work fb.Hash := by
    rw [f5, w3, w2 _ (by rw [htip1, ← hn1]; exact i3), hfbP, htip1]
    omega
  have hprev : fb.Header.PrevHash = (beforeChoice n1 s1 fb).1.BestChainTip := by
    rw [f5, htip1]; exact hfbP
  rw [forkChoice_extend _ _ fb hmove hprev]
  refine ⟨_, rfl, ?_, ?_, ?_, ?_⟩
  · have t1 := (relayBlock_frame ({ (beforeChoice n1 s1 fb).1 with BestChainTip := fb.Hash })
      (beforeChoice n1 s1 fb).2 fb).1
    have t2 := (restartMining_frame
      (({ (beforeChoice n1 s1 fb).1 with BestChainTip := fb.Hash } : Node).relayBlock
        (beforeChoice n1 s1 fb).2 fb).1
      (({ (beforeChoice n1 s1 fb).1 with BestChainTip := fb.Hash } : Node).relayBlock
        (beforeChoice n1 s1 fb).2 fb).2).1
    rw [(sameTree_trans t1 t2).2.2.2.2.1]
    exact hfbH
  · have t1 := (relayBlock_frame ({ (beforeChoice n1 s1 fb).1 with BestChainTip := fb.Hash })
      (beforeChoice n1 s1 fb).2 fb).1
    have t2 := (restartMining_frame
      (({ (beforeChoice n1 s1 fb).1 with BestChainTip := fb.Hash } : Node).relayBlock
        (beforeChoice n1 s1 fb).2 fb).1
      (({ (beforeChoice n1 s1 fb).1 with BestChainTip := fb.Hash } : Node).relayBlock
        (beforeChoice n1 s1 fb).2 fb).2).1
    rw [(sameTree_trans t1 t2).2.2.1]
    exact (w4 _).2 (Or.inl hfbH.symm)
  · have t1 := (relayBlock_frame ({ (beforeChoice n1 s1 fb).1 with BestChainTip := fb.Hash })
      (beforeChoice n1 s1 fb).2 fb).1
    have t2 := (restartMining_frame
      (({ (beforeChoice n1 s1 fb).1 with BestChainTip := fb.Hash } : Node).relayBlock
        (beforeChoice n1 s1 fb).2 fb).1
      (({ (beforeChoice n1 s1 fb).1 with BestChainTip := fb.Hash } : Node).relayBlock
        (beforeChoice n1 s1 fb).2 fb).2).1
    rw [work_congr _ _ (sameTree_trans t1 t2).2.2.2.1, ← hfbH]
    show (beforeChoice n1 s1 fb).1.work fb.Hash = _
    rw [w3, hfbP, hwork1]
  · have j1 := (relayBlock_fold_job fb (GoMap.keys (beforeChoice n1 s1 fb).2.Nodes)
      (({ (beforeChoice n1 s1 fb).1 with BestChainTip := fb.Hash } : Node),
        (beforeChoice n1 s1 fb).2)).2
    have j2 := (restartMining_job
      (({ (beforeChoice n1 s1 fb).1 with BestChainTip := fb.Hash } : Node).relayBlock
        (beforeChoice n1 s1 fb).2 fb).1
      (({ (beforeChoice n1 s1 fb).1 with BestChainTip := fb.Hash } : Node).relayBlock
        (beforeChoice n1 s1 fb).2 fb).2).1
    rw [j2]
    exact (j1.trans (beforeChoice_job n1 s1 fb).2).trans hn1S.1

set_option maxRecDepth 100000 in
theorem C26_job_builds_on_tip_witness :
    ReachableByHandlers exGenesis exMinerJob ∧
    exMinerJob.CurrentMiningJob.map (fun e => e.handle) = some 0 ∧
    (∀ ev, exMinerJob.CurrentMiningJob = some ev →
      ∃ id blk, ev.Data = EventData.BlockFoundData id blk ∧
        blk.Header.PrevHash = exMinerJob.BestChainTip ∧
        blk.Header.Height = exMinerJob.work exMinerJob.BestChainTip + 1) ∧
    ∀ (s : Simulation) (job e : Event) (miner : Int) (blk : Block),
      exGenesis.Header.Height = 0 → s.GenesisBlock = exGenesis →
      exMinerJob.CurrentMiningJob = some job →
      e.handle = job.handle → e.Data = job.Data → e.Data = EventData.BlockFoundData miner blk →
      GoMap.contains exMinerJob.Blocks blk.Hash = false →
      ∃ r, exMinerJob.ProcessFoundBlock s blk e = some r ∧ r.1.BestChainTip = blk.Hash ∧
        GoMap.contains r.1.Blocks blk.Hash = true ∧
        r.1.work blk.Hash = exMinerJob.work exMinerJob.BestChainTip + 1 ∧
        r.1.Stats.HandledReorgs = exMinerJob.Stats.HandledReorgs :=
  ⟨ReachableByHandlers.attempt _ exSim "genesis" 1 (ReachableByHandlers.init 1 true exSim rfl),
    by decide,
    C26_job_builds_on_tip exGenesis exMinerJob
      (ReachableByHandlers.attempt _ exSim "genesis" 1 (ReachableByHandlers.init 1 true exSim rfl))⟩

/-! ## Node tables without double keys -/

theorem GoMap.values_of_nodup {K V : Type} [DecidableEq K] (m : GoMap K V)
    (h : (m.map Prod.fst).Nodup) : GoMap.values m = m.map Prod.snd := by
  unfold GoMap.values GoMap.keys
  rw [List.Nodup.dedup h]
  induction m with
  | nil => rfl
  | cons p m ih =>
    obtain ⟨k, v⟩ := p
    simp only [List.map_cons, List.nodup_cons] at h
    simp only [List.map_cons, List.filterMap_cons, GoMap.get?, if_true]
    congr 1
    rw [← ih h.2]
    apply List.filterMap_congr
    intro k' hk'
    have : k ≠ k' := fun e => h.1 (e ▸ hk')
    simp [GoMap.get?, this]

theorem GoMap.nodup_set {K V : Type} [DecidableEq K] (m : GoMap K V) (k : K) (v : V)
    (h : (m.map Prod.fst).Nodup) : ((GoMap.set m k v).map Prod.fst).Nodup := by
  unfold GoMap.set GoMap.del
  simp only [List.map_cons, List.nodup_cons]
  constructor
  · intro hk
    obtain ⟨p, hp, e⟩ := List.mem_map.1 hk
    have := (List.mem_filter.1 hp).2
    simp only [decide_eq_true_eq] at this
    exact this e
  · exact List.Nodup.sublist (List.Sublist.map _ (List.filter_sublist _)) h

theorem GoMap.del_of_not_mem {K V : Type} [DecidableEq K] (m : GoMap K V) (k : K)
    (h : k ∉ m.map Prod.fst) : GoMap.del m k = m := by
  unfold GoMap.del
  rw [List.filter_eq_self]
  intro p hp
  simp only [decide_eq_true_eq]
  intro e
  exact h (List.mem_map.2 ⟨p, hp, e⟩)

theorem sum_del (f : Node → Int) (m : GoMap Int Node) (k : Int) (old : Node)
    (h : (m.map Prod.fst).Nodup) (hk : GoMap.get? m k = some old) :
    ((GoMap.del m k).map (fun p => f p.2)).sum = (m.map (fun p => f p.2)).sum - f old := by
  induction m with
  | nil => simp [GoMap.get?] at hk
  | cons p m ih =>
    obtain ⟨k0, v0⟩ := p
    simp only [List.map_cons, List.nodup_cons] at h
    by_cases e : k0 = k
    · subst e
      simp only [GoMap.get?, if_true, Option.some.injEq] at hk
      subst hk
      have hd := GoMap.del_of_not_mem m k0 h.1
      unfold GoMap.del at hd ⊢
      simp only [List.filter_cons, ne_eq, not_true_eq_false, decide_False, Bool.false_eq_true,
        if_false, hd, List.map_cons, List.sum_cons]
      omega
    · simp only [GoMap.get?, e, if_false] at hk
      have := ih h.2 hk
      unfold GoMap.del at this ⊢
      simp only [List.filter_cons, ne_eq, e, not_false_eq_true, decide_True, if_true,
        List.map_cons, List.sum_cons, this]
      omega

theorem staleSum_of_nodup (m : GoMap Int Node) (h : (m.map Prod.fst).Nodup) :
    staleSum m = (m.map (fun p => p.2.Stats.StaleBlocksInReorg)).sum := by
  unfold staleSum
  rw [GoMap.values_of_nodup m h, List.map_map]
  rfl

theorem staleSum_set (m : GoMap Int Node) (k : Int) (old v : Node)
    (h : (m.map Prod.fst).Nodup) (hk : GoMap.get? m k = some old) :
    staleSum (GoMap.set m k v) =
      staleSum m - old.Stats.StaleBlocksInReorg + v.Stats.StaleBlocksInReorg := by
  rw [staleSum_of_nodup _ (GoMap.nodup_set m k v h), staleSum_of_nodup m h]
  have := sum_del (fun n => n.Stats.StaleBlocksInReorg) m k old h hk
  unfold GoMap.set
  simp only [List.map_cons, List.sum_cons, this]
  omega

/-! ## `Setup` keeps what the creation of nodes and the peer wiring keep -/

theorem setupNodes_inv (P : Simulation → Prop)
    (hminer : ∀ s id, P s → P { s with MinerIDs := s.MinerIDs ++ [id] })
    (hnode : ∀ s id m, P s → P { s with Nodes := GoMap.set s.Nodes id (NewNode id m s) })
    (nodeIDs : List Int) (l : List Nat) (s : Simulation) (c : Int) (h : P s) :
    P (setupNodes nodeIDs l s c) := by
  induction l generalizing s c with
  | nil => exact h
  | cons i l ih =>
    unfold setupNodes
    simp only
    split
    · exact ih _ _ (hnode _ _ _ (hminer _ _ h))
    · exact ih _ _ (hnode _ _ _ h)

theorem connectPeers_inv (P : Simulation → Prop)
    (hrng : ∀ s r, P s → P { s with Rng := r })
    (hpeer : ∀ s k ni p, P s → GoMap.get? s.Nodes k = some ni →
      P { s with Nodes := GoMap.set s.Nodes k (ni.AddPeer p) })
    (i k : Int) (fuel : Nat) (s s1 : Simulation) (pc ac : Int)
    (h : connectPeers i k fuel s pc ac = some s1) (h0 : P s) : P s1 := by
  induction fuel generalizing s pc ac with
  | zero => simp [connectPeers] at h
  | succ fuel ih =>
    unfold connectPeers at h
    by_cases hc0 : pc < k
    · rw [if_pos hc0] at h
      cases hn : GoMap.get? s.Nodes i with
      | none => simp [hn] at h
      | some ni =>
        simp only [hn] at h
        by_cases hc : (ni.Peers.length : Int) < s.Cfg.NumNodes - 1
        · rw [if_pos hc] at h
          cases hr : s.Rng.Intn s.Cfg.NumNodes with
          | none => simp [hr] at h
          | some pr =>
            obtain ⟨peerID, r1⟩ := pr
            simp only [hr] at h
            by_cases hp : peerID ≠ i ∧ contains ni.Peers peerID = false
            · rw [if_pos hp] at h
              cases hq : GoMap.get? (GoMap.set s.Nodes i (ni.AddPeer peerID)) peerID with
              | none => simp [hq] at h
              | some np =>
                simp only [hq] at h
                have h2 : P { ({ s with Rng := r1 } : Simulation) with
                    Nodes := GoMap.set s.Nodes i (ni.AddPeer peerID) } :=
                  hpeer { s with Rng := r1 } i ni peerID (hrng s r1 h0) hn
                have h3 : P (addReverseEdge
                    { ({ s with Rng := r1 } : Simulation) with
                      Nodes := GoMap.set s.Nodes i (ni.AddPeer peerID) } peerID i np) := by
                  unfold addReverseEdge
                  split
                  · exact hpeer _ peerID np i h2 hq
                  · exact h2
                split at h
                · cases h; exact h3
                · exact ih _ _ _ h h3
            · rw [if_neg hp] at h
              split at h
              · cases h; exact hrng s r1 h0
              · exact ih _ _ _ h (hrng s r1 h0)
        · rw [if_neg hc] at h
          cases h; exact h0
    · rw [if_neg hc0] at h
      cases h; exact h0

theorem setupPeers_inv (P : Simulation → Prop)
    (hrng : ∀ s r, P s → P { s with Rng := r })
    (hpeer : ∀ s k ni p, P s → GoMap.get? s.Nodes k = some ni →
      P { s with Nodes := GoMap.set s.Nodes k (ni.AddPeer p) })
    (l : List Nat) (s s1 : Simulation) (h : setupPeers l s = some s1) (h0 : P s) : P s1 := by
  induction l generalizing s with
  | nil => simp [setupPeers] at h; subst h; exact h0
  | cons i l ih =>
    unfold setupPeers at h
    split at h
    · exact absurd h (by simp)
    · split at h
      · exact absurd h (by simp)
      · rename_i s2 hc
        exact ih _ h (connectPeers_inv P hrng hpeer _ _ _ _ _ _ _ hc (hrng s _ h0))

/-- A property of the simulation that the four updates of `Setup` keep holds after `Setup`. -/
theorem setup_inv (P : Simulation → Prop)
    (hrng : ∀ s r, P s → P { s with Rng := r })
    (hminer : ∀ s id, P s → P { s with MinerIDs := s.MinerIDs ++ [id] })
    (hnode : ∀ s id m, P s → P { s with Nodes := GoMap.set s.Nodes id (NewNode id m s) })
    (hpeer : ∀ s k ni p, P s → GoMap.get? s.Nodes k = some ni →
      P { s with Nodes := GoMap.set s.Nodes k (ni.AddPeer p) })
    (s s1 : Simulation) (h : s.Setup = some s1) (h0 : P s) : P s1 := by
  unfold Simulation.Setup at h
  split at h
  · exact absurd h (by simp)
  · rename_i nodeIDs r1 _
    exact setupPeers_inv P hrng hpeer _ _ _ h
      (setupNodes_inv P hminer hnode nodeIDs _ _ 0 (hrng s r1 h0))

/-! ## C27: the global stale counter is the sum of the stale counters of the nodes -/

theorem addPeer_stats (n : Node) (p : Int) : (n.AddPeer p).Stats = n.Stats := by
  unfold Node.AddPeer
  split <;> rfl

theorem mem_set {K V : Type} [DecidableEq K] (m : GoMap K V) (k : K) (v : V) (p : K × V)
    (h : p ∈ GoMap.set m k v) : p = (k, v) ∨ p ∈ m := by
  unfold GoMap.set GoMap.del at h
  rcases List.mem_cons.1 h with e | e
  · exact Or.inl e
  · exact Or.inr (List.mem_filter.1 e).1

theorem staleSum_zero (m : GoMap Int Node) (h : (m.map Prod.fst).Nodup)
    (hz : ∀ p ∈ m, p.2.Stats.StaleBlocksInReorg = 0) : staleSum m = 0 := by
  rw [staleSum_of_nodup m h]
  induction m with
  | nil => rfl
  | cons p m ih =>
    simp only [List.map_cons, List.nodup_cons] at h
    simp only [List.map_cons, List.sum_cons]
    rw [hz p (List.mem_cons_self _ _), ih h.2 (fun q hq => hz q (List.mem_cons_of_mem _ hq))]
    rfl

/-- After `Setup` on a simulation without nodes the node table has no double key and all
stale counters are those of the start. -/
theorem setup_stale (s s1 : Simulation) (h : s.Setup = some s1) (hn : s.Nodes = []) :
    s1.GlobalStaleCount = s.GlobalStaleCount ∧ (s1.Nodes.map Prod.fst).Nodup ∧
    ∀ p ∈ s1.Nodes, p.2.Stats.StaleBlocksInReorg = 0 := by
  refine setup_inv
    (fun x => x.GlobalStaleCount = s.GlobalStaleCount ∧ (x.Nodes.map Prod.fst).Nodup ∧
      ∀ p ∈ x.Nodes, p.2.Stats.StaleBlocksInReorg = 0)
    ?_ ?_ ?_ ?_ s s1 h ⟨rfl, by rw [hn]; exact List.nodup_nil, by rw [hn]; simp⟩
  · intro x r hx
    exact hx
  · intro x id hx
    exact hx
  · intro x id m hx
    refine ⟨hx.1, GoMap.nodup_set _ _ _ hx.2.1, ?_⟩
    intro p hp
    rcases mem_set _ _ _ _ hp with e | e
    · rw [e]; rfl
    · exact hx.2.2 p e
  · intro x k ni p hx hk
    refine ⟨hx.1, GoMap.nodup_set _ _ _ hx.2.1, ?_⟩
    intro q hq
    rcases mem_set _ _ _ _ hq with e | e
    · rw [e]
      show (ni.AddPeer p).Stats.StaleBlocksInReorg = 0
      rw [addPeer_stats]
      have hmem : (k, ni) ∈ x.Nodes := by
        clear hq
        have := hk
        revert this
        generalize x.Nodes = m
        intro hm
        induction m with
        | nil => simp [GoMap.get?] at hm
        | cons a m ih =>
          obtain ⟨k0, v0⟩ := a
          by_cases e0 : k0 = k
          · subst e0
            simp only [GoMap.get?, if_true, Option.some.injEq] at hm
            subst hm
            exact List.mem_cons_self _ _
          · simp only [GoMap.get?, e0, if_false] at hm
            exact List.mem_cons_of_mem _ (ih hm)
      exact hx.2.2 _ hmem
    · exact hx.2.2 q e

theorem handleInjectTransaction_nodes (s s1 : Simulation)
    (h : s.handleInjectTransaction = some s1) :
    s1.Nodes = s.Nodes ∧ s1.GlobalStaleCount = s.GlobalStaleCount ∧ s1.MinerIDs = s.MinerIDs := by
  unfold Simulation.handleInjectTransaction at h
  split at h
  · cases h; exact ⟨rfl, rfl, rfl⟩
  · split at h
    · cases h; exact ⟨rfl, rfl, rfl⟩
    · simp only at h
      split at h
      · exact absurd h (by simp)
      · split at h
        · split at h <;> cases h <;> exact ⟨rfl, rfl, rfl⟩
        · cases h
          exact ⟨rfl, rfl, rfl⟩

/-- One dispatch keeps the balance of the stale counters and does not lower the global one. -/
theorem dispatch_stale (s s1 : Simulation) (e : Event) (h : s.dispatch e = some s1)
    (hn : (s.Nodes.map Prod.fst).Nodup) (hb : s.GlobalStaleCount = staleSum s.Nodes) :
    (s1.Nodes.map Prod.fst).Nodup ∧ s1.GlobalStaleCount = staleSum s1.Nodes ∧
    s.GlobalStaleCount ≤ s1.GlobalStaleCount := by
  have key : ∀ (target : Int) (node : Node) (r : Node × Simulation),
      GoMap.get? s.Nodes target = some node → node.booked s r →
      (({ r.2 with Nodes := GoMap.set r.2.Nodes target r.1 } : Simulation).Nodes.map
        Prod.fst).Nodup ∧
      ({ r.2 with Nodes := GoMap.set r.2.Nodes target r.1 } : Simulation).GlobalStaleCount =
        staleSum ({ r.2 with Nodes := GoMap.set r.2.Nodes target r.1 } : Simulation).Nodes ∧
      s.GlobalStaleCount ≤
        ({ r.2 with Nodes := GoMap.set r.2.Nodes target r.1 } : Simulation).GlobalStaleCount := by
    intro target node r hget hbk
    obtain ⟨b1, _, _, _, b5, b6⟩ := hbk
    simp only [b1]
    refine ⟨GoMap.nodup_set _ _ _ hn, ?_, ?_⟩
    · rw [staleSum_set _ _ node _ hn hget]
      omega
    · omega
  have same : (s.Nodes.map Prod.fst).Nodup ∧ s.GlobalStaleCount = staleSum s.Nodes ∧
      s.GlobalStaleCount ≤ s.GlobalStaleCount := ⟨hn, hb, le_refl _⟩
  unfold Simulation.dispatch at h
  split at h
  · obtain ⟨e1, e2, _⟩ := handleInjectTransaction_nodes s s1 h
    rw [e1, e2]
    exact same
  · split at h
    · rename_i node hget
      cases h
      exact key _ node _ hget (receiveTransaction_booked _ _ _)
    · cases h; exact same
  · split at h
    · rename_i node hget
      cases h
      exact key _ node _ hget (attemptMining_booked _ _ _ _)
    · cases h; exact same
  · split at h
    · split at h
      · rename_i node hget _ r hr
        cases h
        exact key _ node _ hget (processFoundBlock_booked _ _ _ _ r hr)
      · exact absurd h (by simp)
    · cases h; exact same
  · split at h
    · split at h
      · rename_i node hget _ r hr
        cases h
        exact key _ node _ hget (receiveBlock_booked _ _ _ r hr)
      · exact absurd h (by simp)
    · cases h; exact same
  · exact absurd h (by simp)

theorem reaches_stale (s0 s : Simulation) (hr : DispatchReaches s0 s)
    (hn : (s0.Nodes.map Prod.fst).Nodup) (hb : s0.GlobalStaleCount = staleSum s0.Nodes) :
    (s.Nodes.map Prod.fst).Nodup ∧ s.GlobalStaleCount = staleSum s.Nodes ∧
    s0.GlobalStaleCount ≤ s.GlobalStaleCount := by
  induction hr with
  | start => exact ⟨hn, hb, le_refl _⟩
  | step s s1 q t e _ hd ih =>
    obtain ⟨i1, i2, i3⟩ := ih
    obtain ⟨j1, j2, j3⟩ := dispatch_stale _ s1 e hd i1 i2
    exact ⟨j1, j2, le_trans i3 j3⟩

/-- C27: in every simulation state reached from the state after `Setup` (of a simulation
created by `NewSimulation`) by dispatching events, the global stale counter equals the sum of
the stale counters of all nodes; and it never decreases: it is not below its value in any
earlier state. -/
theorem C27_global_stale_is_sum (cfg : Config) (t : Int) (rng : Rand)
    (sha : BlockHeader → List String → String) (s0 s s1 : Simulation)
    (h0 : (NewSimulation cfg t rng sha).Setup = some s0) (hr : DispatchReaches s0 s)
    (hr1 : DispatchReaches s s1) :
    s.GlobalStaleCount = staleSum s.Nodes ∧ s1.GlobalStaleCount = staleSum s1.Nodes ∧
    s.GlobalStaleCount ≤ s1.GlobalStaleCount := by
  obtain ⟨a1, a2, a3⟩ := setup_stale _ s0 h0 rfl
  have hb0 : s0.GlobalStaleCount = staleSum s0.Nodes := by
    rw [staleSum_zero s0.Nodes a2 a3, a1]
    rfl
  obtain ⟨b1, b2, _⟩ := reaches_stale s0 s hr a2 hb0
  obtain ⟨c1, c2, c3⟩ := reaches_stale s s1 hr1 b1 b2
  exact ⟨b2, c2, c3⟩

theorem exDeliver_reaches (s0 s : Simulation) (b : Block) (h : DispatchReaches s0 s)
    (hd : (s.dispatch
      { Timestamp := s.CurrentTime, Type_ := EventType.EvReceiveBlock,
        Data := EventData.ReceiveBlockData 0 b, Priority := 4, handle := 0 }).isSome = true) :
    DispatchReaches s0 (exDeliver s b) := by
  refine DispatchReaches.step s _ s.EventQueue s.CurrentTime
    { Timestamp := s.CurrentTime, Type_ := EventType.EvReceiveBlock,
      Data := EventData.ReceiveBlockData 0 b, Priority := 4, handle := 0 } h ?_
  show s.dispatch _ = some (exDeliver s b)
  unfold exDeliver
  cases hx : s.dispatch
      { Timestamp := s.CurrentTime, Type_ := EventType.EvReceiveBlock,
        Data := EventData.ReceiveBlockData 0 b, Priority := 4, handle := 0 } with
  | none => rw [hx] at hd; exact absurd hd (by simp)
  | some x => rfl

set_option maxRecDepth 100000 in
theorem C27_global_stale_is_sum_witness :
    (NewSimulation { exCfg with NumMiners := 1 } 1000 { seq := fun i => (i : Int), pos := 0 }
      exSha).Setup = some exSetup ∧
    DispatchReaches exSetup exForked ∧ DispatchReaches exForked exReorged ∧
    exForked.GlobalStaleCount = 0 ∧ exReorged.GlobalStaleCount = 1 ∧
    exForked.GlobalStaleCount = staleSum exForked.Nodes ∧
    exReorged.GlobalStaleCount = staleSum exReorged.Nodes ∧
    exForked.GlobalStaleCount ≤ exReorged.GlobalStaleCount :=
  ⟨rfl,
    exDeliver_reaches _ _ _ (exDeliver_reaches _ _ _ DispatchReaches.start (by decide))
      (by decide),
    exDeliver_reaches _ _ _ DispatchReaches.start (by decide), by decide, by decide,
    C27_global_stale_is_sum { exCfg with NumMiners := 1 } 1000
      { seq := fun i => (i : Int), pos := 0 } exSha exSetup exForked exReorged rfl
      (exDeliver_reaches _ _ _ (exDeliver_reaches _ _ _ DispatchReaches.start (by decide))
        (by decide))
      (exDeliver_reaches _ _ _ DispatchReaches.start (by decide))⟩

/-! ## Transaction ids with different counts differ -/

theorem digitChar_spec (k : Nat) (h : k < 10) :
    (Nat.digitChar k).toNat - 48 = k ∧ Nat.digitChar k ≠ '-' := by
  interval_cases k <;> decide

theorem decimalValue_append (l : List Char) (c : Char) :
    decimalValue (l ++ [c]) = 10 * decimalValue l + (c.toNat - 48) := by
  simp [decimalValue, List.foldl_append]

theorem toDigitsCore_spec (fuel n : Nat) (ds : List Char) (h : n < fuel) :
    ∃ pre, Nat.toDigitsCore 10 fuel n ds = pre ++ ds ∧ decimalValue pre = n ∧ '-' ∉ pre := by
  induction fuel generalizing n ds with
  | zero => omega
  | succ fuel ih =>
    obtain ⟨d1, d2⟩ := digitChar_spec (n % 10) (Nat.mod_lt _ (by decide))
    simp only [Nat.toDigitsCore]
    split
    · rename_i h0
      refine ⟨[Nat.digitChar (n % 10)], rfl, ?_, ?_⟩
      · simp only [decimalValue, List.foldl_cons, List.foldl_nil, d1]
        omega
      · simp only [List.mem_singleton]
        exact fun e => d2 e.symm
    · rename_i h0
      obtain ⟨pre, e1, e2, e3⟩ := ih (n / 10) (Nat.digitChar (n % 10) :: ds) (by omega)
      refine ⟨pre ++ [Nat.digitChar (n % 10)], by rw [e1]; simp, ?_, ?_⟩
      · rw [decimalValue_append, e2, d1]
        omega
      · simp only [List.mem_append, List.mem_singleton, not_or]
        exact ⟨e3, fun e => d2 e.symm⟩

theorem repr_spec (n : Nat) : decimalValue (Nat.repr n).data = n ∧ '-' ∉ (Nat.repr n).data := by
  obtain ⟨pre, e1, e2, e3⟩ := toDigitsCore_spec (n + 1) n [] (by omega)
  have : (Nat.repr n).data = pre := by
    show Nat.toDigitsCore 10 (n + 1) n [] = pre
    rw [e1, List.append_nil]
  rw [this]
  exact ⟨e2, e3⟩

theorem digits_before_dash (l1 l2 r1 r2 : List Char) (h1 : '-' ∉ l1) (h2 : '-' ∉ l2)
    (h : l1 ++ '-' :: r1 = l2 ++ '-' :: r2) : l1 = l2 := by
  induction l1 generalizing l2 with
  | nil =>
    cases l2 with
    | nil => rfl
    | cons c l2 =>
      simp only [List.nil_append, List.cons_append, List.cons.injEq] at h
      exact absurd (h.1 ▸ List.mem_cons_self _ _) h2
  | cons c l1 ih =>
    cases l2 with
    | nil =>
      simp only [List.nil_append, List.cons_append, List.cons.injEq] at h
      exact absurd (h.1 ▸ List.mem_cons_self _ _) h1
    | cons c2 l2 =>
      simp only [List.cons_append, List.cons.injEq] at h
      rw [h.1, ih l2 (fun e => h1 (List.mem_cons_of_mem _ e))
        (fun e => h2 (List.mem_cons_of_mem _ e)) h.2]

/-- The id format `tx-<count>-<tag>` determines the count. -/
theorem txId_count_inj (c c1 g g1 : Int) (hc : 0 ≤ c) (hc1 : 0 ≤ c1)
    (h : "tx-" ++ toString c ++ "-" ++ toString g = "tx-" ++ toString c1 ++ "-" ++ toString g1) :
    c = c1 := by
  obtain ⟨n, rfl⟩ := Int.eq_ofNat_of_zero_le hc
  obtain ⟨n1, rfl⟩ := Int.eq_ofNat_of_zero_le hc1
  have e : ∀ k : Nat, toString (k : Int) = Nat.repr k := fun _ => rfl
  rw [e, e] at h
  have hd := congrArg String.data h
  simp only [String.data_append] at hd
  simp only [List.cons_append, List.nil_append, List.append_assoc, List.cons.injEq, true_and] at hd
  have := digits_before_dash _ _ _ _ (repr_spec n).2 (repr_spec n1).2 hd
  have v := congrArg decimalValue this
  rw [(repr_spec n).1, (repr_spec n1).1] at v
  rw [v]

/-! ## C21: the injection cap -/

/-- The states at the head of the main loop of `Run` are reached by dispatching events. -/
theorem dispatchReaches_of_loop (s0 s : Simulation) (h : LoopReaches s0 s) :
    DispatchReaches s0 s := by
  induction h with
  | entry => exact DispatchReaches.start
  | round s s1 _ hs ih =>
    obtain ⟨event0, queue, _, _, hd⟩ := loopStep_dispatched_pop s s1 hs
    exact DispatchReaches.step s s1 queue _ _ ih hd

theorem getNext_spec (src : SimpleTxSource) (cfg : Config) (r : Rand) (now : Int)
    (h : src.GeneratedCount < src.TotalToGenerate) :
    ∃ (r1 : Rand) (tx : Transaction) (g : Int), src.GetNextTransaction cfg r now =
        ({ src with GeneratedCount := src.GeneratedCount + 1 }, r1, some tx) ∧
      tx.ID = "tx-" ++ toString (src.GeneratedCount + 1) ++ "-" ++ toString g := by
  unfold SimpleTxSource.GetNextTransaction
  rw [if_neg (by omega)]
  exact ⟨_, _, _, rfl, rfl⟩

theorem dispatch_inject (s : Simulation) (e : Event)
    (he : e.Type_ = EventType.EvInjectTransaction) : s.dispatch e = s.handleInjectTransaction := by
  unfold Simulation.dispatch
  rw [he]

theorem handleInject_exhausted (s : Simulation)
    (h : s.TxSource.TotalToGenerate ≤ s.TxSource.GeneratedCount) :
    s.handleInjectTransaction = some s := by
  unfold Simulation.handleInjectTransaction
  rw [if_pos h]

theorem handleInject_total (s : Simulation) (hn : 0 < s.Cfg.NumNodes) :
    ∃ s1, s.handleInjectTransaction = some s1 := by
  unfold Simulation.handleInjectTransaction
  split
  · exact ⟨_, rfl⟩
  · split
    · exact ⟨_, rfl⟩
    · simp only
      split
      · rename_i hi
        unfold Rand.Intn at hi
        rw [if_neg (by omega)] at hi
        exact absurd hi (by simp)
      · split
        · split <;> exact ⟨_, rfl⟩
        · exact ⟨_, rfl⟩

/-- What one injection does to a source that is not exhausted. -/
theorem handleInject_spec (s s1 : Simulation)
    (hlt : s.TxSource.GeneratedCount < s.TxSource.TotalToGenerate)
    (h : s.handleInjectTransaction = some s1) :
    ∃ (tx : Transaction) (origin g : Int),
      tx.ID = "tx-" ++ toString (s.TxSource.GeneratedCount + 1) ++ "-" ++ toString g ∧
      s1.TxSource = { s.TxSource with GeneratedCount := s.TxSource.GeneratedCount + 1 } ∧
      s1.TxStatus =
        GoMap.set s.TxStatus tx.ID
          { InjectTime := s.CurrentTime, FirstBlockTime := 0, ConfirmedTime := 0,
            IncludedInBlock := "", IsConfirmed := false } ∧
      s1.AllInputTxHashes = GoMap.set s.AllInputTxHashes tx.ID true ∧
      s1.Cfg = s.Cfg ∧
      (s1.EventQueue.Perm
          (s.EventQueue ++
            [{ Timestamp := s.CurrentTime, Type_ := EventType.EvReceiveTransaction,
               Data := EventData.ReceiveTransactionData origin tx, Priority := 1,
               handle := s.NextHandle }]) ∨
        (s.TxSource.GeneratedCount + 1 < s.TxSource.TotalToGenerate ∧
          ∃ i, i.Type_ = EventType.EvInjectTransaction ∧
            s1.EventQueue.Perm
              (s.EventQueue ++
                [{ Timestamp := s.CurrentTime, Type_ := EventType.EvReceiveTransaction,
                   Data := EventData.ReceiveTransactionData origin tx, Priority := 1,
                   handle := s.NextHandle }, i]))) := by
  obtain ⟨r1, tx, g, hget, hid⟩ := getNext_spec s.TxSource s.Cfg s.Rng s.CurrentTime hlt
  unfold Simulation.handleInjectTransaction at h
  rw [if_neg (by omega), hget] at h
  simp only at h
  split at h
  · exact absurd h (by simp)
  · rename_i origin r2 _
    refine ⟨tx, origin, g, hid, ?_⟩
    split at h
    · rename_i hc
      split at h
      · cases h
        refine ⟨rfl, rfl, rfl, rfl, Or.inr ⟨hc.1,
          { Timestamp := s.CurrentTime + injectDelay s.Cfg.TransactionRatePerSec,
            Type_ := EventType.EvInjectTransaction, Data := EventData.InjectTransactionData,
            Priority := EventType.EvInjectTransaction.toInt, handle := s.NextHandle + 1 },
          rfl, ?_⟩⟩
        refine (heapPush_perm _ _).trans ?_
        have := (heapPush_perm s.EventQueue
          { Timestamp := s.CurrentTime, Type_ := EventType.EvReceiveTransaction,
            Data := EventData.ReceiveTransactionData origin tx, Priority := 1,
            handle := s.NextHandle }).append_right
          [{ Timestamp := s.CurrentTime + injectDelay s.Cfg.TransactionRatePerSec,
             Type_ := EventType.EvInjectTransaction, Data := EventData.InjectTransactionData,
             Priority := EventType.EvInjectTransaction.toInt, handle := s.NextHandle + 1 }]
        simpa [Simulation.ScheduleEventWithPriority] using this
      · cases h
        exact ⟨rfl, rfl, rfl, rfl, Or.inl (heapPush_perm _ _)⟩
    · cases h
      exact ⟨rfl, rfl, rfl, rfl, Or.inl (heapPush_perm _ _)⟩

theorem injected_inject (s s1 : Simulation) (hi : s.Injected)
    (h : s.handleInjectTransaction = some s1) :
    s1.Injected ∧ s1.TxSource.TotalToGenerate = s.TxSource.TotalToGenerate ∧ s1.Cfg = s.Cfg := by
  by_cases hlt : s.TxSource.GeneratedCount < s.TxSource.TotalToGenerate
  · obtain ⟨tx, origin, g, e1, e2, e3, _, e5, _⟩ := handleInject_spec s s1 hlt h
    obtain ⟨i1, i2, i3⟩ := hi
    refine ⟨⟨by rw [e2]; show 0 ≤ s.TxSource.GeneratedCount + 1; omega,
      by rw [e2]; show s.TxSource.GeneratedCount + 1 ≤ s.TxSource.TotalToGenerate; omega, ?_⟩,
      by rw [e2], e5⟩
    intro k hk
    rw [e3, GoMap.contains_set] at hk
    rw [e2]
    show ∃ c g : Int, 1 ≤ c ∧ c ≤ s.TxSource.GeneratedCount + 1 ∧ _
    by_cases ek : k = tx.ID
    · exact ⟨_, g, by omega, le_refl _, by rw [ek, e1]⟩
    · simp only [ek, decide_False, Bool.false_or] at hk
      obtain ⟨c, g1, c1, c2, c3⟩ := i3 k hk
      exact ⟨c, g1, c1, by omega, c3⟩
  · rw [handleInject_exhausted s (by omega)] at h
    cases h
    exact ⟨hi, rfl, rfl⟩

theorem injected_dispatch (s s1 : Simulation) (e : Event) (hi : s.Injected)
    (h : s.dispatch e = some s1) :
    s1.Injected ∧ s1.TxSource.TotalToGenerate = s.TxSource.TotalToGenerate ∧ s1.Cfg = s.Cfg := by
  have hcfg := (dispatch_clock s s1 e h).2.2.1
  have key : ∀ (target : Int) (node : Node) (r : Node × Simulation), node.booked s r →
      ({ r.2 with Nodes := GoMap.set r.2.Nodes target r.1 } : Simulation).Injected ∧
      ({ r.2 with Nodes := GoMap.set r.2.Nodes target r.1 } :
        Simulation).TxSource.TotalToGenerate = s.TxSource.TotalToGenerate := by
    intro target node r hb
    obtain ⟨_, b2, _, b4, _⟩ := hb
    obtain ⟨i1, i2, i3⟩ := hi
    refine ⟨⟨?_, ?_, ?_⟩, ?_⟩
    · show 0 ≤ r.2.TxSource.GeneratedCount
      rw [b2]; exact i1
    · show r.2.TxSource.GeneratedCount ≤ r.2.TxSource.TotalToGenerate
      rw [b2]; exact i2
    · intro k hk
      have hk' : GoMap.contains r.2.TxStatus k = true := hk
      rw [b4] at hk'
      show ∃ c g : Int, 1 ≤ c ∧ c ≤ r.2.TxSource.GeneratedCount ∧ _
      rw [b2]
      exact i3 k hk'
    · show r.2.TxSource.TotalToGenerate = _
      rw [b2]
  refine ⟨?_, ?_, hcfg⟩
  all_goals
    unfold Simulation.dispatch at h
    split at h
    · first
        | exact (injected_inject s s1 hi h).1
        | exact (injected_inject s s1 hi h).2.1
    · split at h
      · cases h
        first
          | exact (key _ _ _ (receiveTransaction_booked _ _ _)).1
          | exact (key _ _ _ (receiveTransaction_booked _ _ _)).2
      · cases h
        first
          | exact hi
          | rfl
    · split at h
      · cases h
        first
          | exact (key _ _ _ (attemptMining_booked _ _ _ _)).1
          | exact (key _ _ _ (attemptMining_booked _ _ _ _)).2
      · cases h
        first
          | exact hi
          | rfl
    · split at h
      · split at h
        · rename_i r hr
          cases h
          first
            | exact (key _ _ _ (processFoundBlock_booked _ _ _ _ r hr)).1
            | exact (key _ _ _ (processFoundBlock_booked _ _ _ _ r hr)).2
        · exact absurd h (by simp)
      · cases h
        first
          | exact hi
          | rfl
    · split at h
      · split at h
        · rename_i r hr
          cases h
          first
            | exact (key _ _ _ (receiveBlock_booked _ _ _ r hr)).1
            | exact (key _ _ _ (receiveBlock_booked _ _ _ r hr)).2
        · exact absurd h (by simp)
      · cases h
        first
          | exact hi
          | rfl
    · exact absurd h (by simp)

theorem injected_reaches (s0 s : Simulation) (hr : DispatchReaches s0 s) (hi : s0.Injected) :
    s.Injected ∧ s.TxSource.TotalToGenerate = s0.TxSource.TotalToGenerate ∧ s.Cfg = s0.Cfg := by
  induction hr with
  | start => exact ⟨hi, rfl, rfl⟩
  | step s s1 q t e _ hd ih =>
    obtain ⟨i1, i2, i3⟩ := ih
    obtain ⟨j1, j2, j3⟩ := injected_dispatch _ s1 e (by exact i1) hd
    exact ⟨j1, j2.trans i2, j3.trans i3⟩

theorem runStart_source (s s0 : Simulation) (h : s.runStart = some s0) :
    s0.TxSource = s.TxSource ∧ s0.TxStatus = s.TxStatus ∧ s0.Cfg = s.Cfg := by
  unfold Simulation.runStart at h
  split at h
  · exact absurd h (by simp)
  · rename_i s1 hs
    have h1 : s1.TxSource = s.TxSource ∧ s1.TxStatus = s.TxStatus ∧ s1.Cfg = s.Cfg :=
      setup_inv (fun x => x.TxSource = s.TxSource ∧ x.TxStatus = s.TxStatus ∧ x.Cfg = s.Cfg)
        (fun _ _ hx => hx) (fun _ _ hx => hx) (fun _ _ _ hx => hx) (fun _ _ _ _ hx _ => hx)
        s s1 hs ⟨rfl, rfl, rfl⟩
    split at h
    · cases h
      exact h1
    · cases h
      exact h1

/-- C21: with `TotalInputTransactions >= 0`, in every state of a run (from `NewSimulation`
through the start of `Run` and any dispatches) the counter of the source does not exceed
`TotalInputTransactions`.  A dispatch of `InjectTransaction` on a source that is not exhausted
returns when there is a node, and when it returns it has raised the counter by exactly one and
recorded one `TxStatus` entry under an id that was no key before; when this was the last
transaction, the only event added to the queue is the delivery of the transaction.  A dispatch
on an exhausted source returns the state as it was.  The run of the example with
`TotalInputTransactions = 5` ends with the counter at 5, five `TxStatus` entries and an empty
queue. -/
theorem C21_injection_cap (cfg : Config) (t : Int) (rng : Rand)
    (sha : BlockHeader → List String → String) (s0 s : Simulation) (e : Event)
    (hT : 0 ≤ cfg.TotalInputTransactions)
    (h0 : (NewSimulation cfg t rng sha).runStart = some s0) (hr : DispatchReaches s0 s)
    (he : e.Type_ = EventType.EvInjectTransaction) :
    s.TxSource.GeneratedCount ≤ cfg.TotalInputTransactions ∧
    s.TxSource.TotalToGenerate = cfg.TotalInputTransactions ∧
    (s.TxSource.GeneratedCount < cfg.TotalInputTransactions →
      (0 < cfg.NumNodes → ∃ s1, s.dispatch e = some s1) ∧
      ∀ s1, s.dispatch e = some s1 →
        ∃ tx origin,
          s1.TxSource.GeneratedCount = s.TxSource.GeneratedCount + 1 ∧
          GoMap.contains s.TxStatus tx.ID = false ∧
          s1.TxStatus =
            GoMap.set s.TxStatus tx.ID
              { InjectTime := s.CurrentTime, FirstBlockTime := 0, ConfirmedTime := 0,
                IncludedInBlock := "", IsConfirmed := false } ∧
          (s1.TxSource.GeneratedCount = cfg.TotalInputTransactions →
            s1.EventQueue.Perm
              (s.EventQueue ++
                [{ Timestamp := s.CurrentTime, Type_ := EventType.EvReceiveTransaction,
                   Data := EventData.ReceiveTransactionData origin tx, Priority := 1,
                   handle := s.NextHandle }]))) ∧
    (cfg.TotalInputTransactions ≤ s.TxSource.GeneratedCount → s.dispatch e = some s) ∧
    ((NewSimulation exCfg 1000 { seq := fun i => (i : Int), pos := 0 } exSha).Run 60).map
        (fun x => (exCfg.TotalInputTransactions, x.TxSource.GeneratedCount,
          (GoMap.keys x.TxStatus).length, x.EventQueue.length)) = some (5, 5, 5, 0) := by
  obtain ⟨a1, a2, a3⟩ := runStart_source _ s0 h0
  have hi0 : s0.Injected := by
    refine ⟨by rw [a1]; exact le_refl _, by rw [a1]; exact hT, ?_⟩
    intro k hk
    rw [a2] at hk
    exact absurd hk (by simp [NewSimulation, GoMap.contains, GoMap.get?])
  obtain ⟨⟨i1, i2, i3⟩, b2, b3⟩ := injected_reaches s0 s hr hi0
  have htot : s.TxSource.TotalToGenerate = cfg.TotalInputTransactions := by rw [b2, a1]; rfl
  have hcfg : s.Cfg = cfg := by rw [b3, a3]; rfl
  rw [dispatch_inject s e he]
  refine ⟨by rw [← htot]; exact i2, htot, ?_, ?_, ?_⟩
  · intro hlt
    refine ⟨fun hn => handleInject_total s (by rw [hcfg]; exact hn), ?_⟩
    intro s1 h1
    obtain ⟨tx, origin, g, e1, e2, e3, _, _, e6⟩ := handleInject_spec s s1 (by omega) h1
    refine ⟨tx, origin, by rw [e2], ?_, e3, ?_⟩
    · rw [Bool.eq_false_iff]
      intro hk
      obtain ⟨c, g1, c1, c2, c3⟩ := i3 _ hk
      rw [e1] at c3
      have := txId_count_inj _ _ _ _ (by omega) (by omega) c3
      omega
    · intro hlast
      rw [e2] at hlast
      have hlast' : s.TxSource.GeneratedCount + 1 = cfg.TotalInputTransactions := hlast
      rcases e6 with h | ⟨h, _⟩
      · exact h
      · omega
  · intro hge
    exact handleInject_exhausted s (by omega)
  · set_option maxRecDepth 1000000 in decide

set_option maxRecDepth 100000 in
theorem C21_injection_cap_witness :
    0 ≤ exCfg.TotalInputTransactions ∧
    (NewSimulation exCfg 1000 { seq := fun i => (i : Int), pos := 0 } exSha).runStart =
      some exEntry ∧
    (exTie 1).Type_ = EventType.EvInjectTransaction ∧
    exEntry.TxSource.GeneratedCount ≤ exCfg.TotalInputTransactions ∧
    exEntry.TxSource.TotalToGenerate = exCfg.TotalInputTransactions ∧
    (exEntry.TxSource.GeneratedCount < exCfg.TotalInputTransactions →
      (0 < exCfg.NumNodes → ∃ s1, exEntry.dispatch (exTie 1) = some s1) ∧
      ∀ s1, exEntry.dispatch (exTie 1) = some s1 →
        ∃ tx origin,
          s1.TxSource.GeneratedCount = exEntry.TxSource.GeneratedCount + 1 ∧
          GoMap.contains exEntry.TxStatus tx.ID = false ∧
          s1.TxStatus =
            GoMap.set exEntry.TxStatus tx.ID
              { InjectTime := exEntry.CurrentTime, FirstBlockTime := 0, ConfirmedTime := 0,
                IncludedInBlock := "", IsConfirmed := false } ∧
          (s1.TxSource.GeneratedCount = exCfg.TotalInputTransactions →
            s1.EventQueue.Perm
              (exEntry.EventQueue ++
                [{ Timestamp := exEntry.CurrentTime, Type_ := EventType.EvReceiveTransaction,
                   Data := EventData.ReceiveTransactionData origin tx, Priority := 1,
                   handle := exEntry.NextHandle }]))) ∧
    (exCfg.TotalInputTransactions ≤ exEntry.TxSource.GeneratedCount →
      exEntry.dispatch (exTie 1) = some exEntry) ∧
    ((NewSimulation exCfg 1000 { seq := fun i => (i : Int), pos := 0 } exSha).Run 60).map
        (fun x => (exCfg.TotalInputTransactions, x.TxSource.GeneratedCount,
          (GoMap.keys x.TxStatus).length, x.EventQueue.length)) = some (5, 5, 5, 0) :=
  ⟨by decide, rfl, rfl,
    C21_injection_cap exCfg 1000 { seq := fun i => (i : Int), pos := 0 } exSha exEntry exEntry
      (exTie 1) (by decide) rfl DispatchReaches.start rfl⟩

/-! ## `rand.Perm` returns a permutation -/

theorem set_at_length {α : Type} (a z : List α) (v w : α) :
    (a ++ v :: z).set a.length w = a ++ w :: z := by
  induction a with
  | nil => rfl
  | cons c a ih => simp [ih]

theorem getD_at_length {α : Type} (a z : List α) (v d : α) :
    (a ++ v :: z).getD a.length d = v := by
  induction a with
  | nil => rfl
  | cons c a ih => simpa using ih

theorem set_append_perm (a : List Int) (j : Nat) (b x : Int) (h : a[j]? = some b) :
    ((a ++ [b]).set j x).Perm (a ++ [x]) := by
  induction a generalizing j with
  | nil => simp at h
  | cons c a ih =>
    cases j with
    | zero =>
      simp only [List.getElem?_cons_zero, Option.some.injEq] at h
      subst h
      simp only [List.cons_append, List.set_cons_zero]
      rw [List.perm_iff_count]
      intro y
      simp only [List.count_cons, List.count_append, List.count_nil]
      omega
    | succ j =>
      simp only [List.getElem?_cons_succ] at h
      simp only [List.cons_append, List.set_cons_succ]
      exact List.Perm.cons c (ih j h)

theorem set_append_left_lt {α : Type} (a z : List α) (j : Nat) (x : α) (h : j < a.length) :
    (a ++ z).set j x = a.set j x ++ z := by
  induction a generalizing j with
  | nil => simp at h
  | cons c a ih =>
    cases j with
    | zero => rfl
    | succ j =>
      simp only [List.cons_append, List.set_cons_succ, List.cons.injEq, true_and]
      exact ih j (by simpa using h)

theorem getD_append_lt (a z : List Int) (j : Nat) (h : j < a.length) :
    (a ++ z).getD j 0 = a.getD j 0 ∧ a[j]? = some (a.getD j 0) := by
  induction a generalizing j with
  | nil => simp at h
  | cons c a ih =>
    cases j with
    | zero => simp
    | succ j => simpa using ih j (by simpa using h)

/-- One round of the loop of `rand.Perm` on a slice whose first `a.length` entries are `a` and
whose next entry is zero. -/
theorem permStep_spec (a z : List Int) (j : Nat) (hj : j ≤ a.length) :
    ∃ a1, ((a ++ 0 :: z).set a.length ((a ++ 0 :: z).getD j 0)).set j (a.length : Int) =
        a1 ++ z ∧
      a1.Perm (a ++ [(a.length : Int)]) ∧ a1.length = a.length + 1 := by
  rcases Nat.lt_or_eq_of_le hj with h | h
  · obtain ⟨g1, g2⟩ := getD_append_lt a (0 :: z) j h
    rw [g1, set_at_length]
    refine ⟨(a ++ [a.getD j 0]).set j (a.length : Int), ?_, set_append_perm a j _ _ g2, by simp⟩
    have : a ++ a.getD j 0 :: z = (a ++ [a.getD j 0]) ++ z := by simp
    rw [this, set_append_left_lt _ _ _ _ (by simp; omega)]
  · subst h
    rw [getD_at_length, set_at_length, set_at_length]
    exact ⟨a ++ [(a.length : Int)], by simp, List.Perm.refl _, by simp⟩

theorem permLoop_spec (n : Nat) : ∀ (a : List Int) (r : Rand),
    (permLoop (List.range' a.length n) (a ++ List.replicate n 0) r).1.Perm
      (a ++ (List.range' a.length n).map Int.ofNat) := by
  induction n with
  | zero =>
    intro a r
    simp [permLoop]
  | succ n ih =>
    intro a r
    rw [List.range'_succ, List.replicate_succ]
    unfold permLoop
    simp only
    have hj : ((r.seq r.pos) % ((a.length : Int) + 1)).toNat ≤ a.length := by
      have h1 := Int.emod_lt_of_pos (r.seq r.pos) (show (0 : Int) < (a.length : Int) + 1 by omega)
      omega
    obtain ⟨a1, e1, e2, e3⟩ := permStep_spec a (List.replicate n 0) _ hj
    rw [e1]
    have := ih a1 { r with pos := r.pos + 1 }
    rw [e3] at this
    refine this.trans ?_
    simp only [List.map_cons]
    have h2 : a ++ Int.ofNat a.length :: List.map Int.ofNat (List.range' (a.length + 1) n) =
        (a ++ [(a.length : Int)]) ++ List.map Int.ofNat (List.range' (a.length + 1) n) := by
      simp
    rw [h2]
    exact List.Perm.append_right _ e2

/-- The slice that `rand.Perm` returns for `n >= 0` is a permutation of `0, ..., n - 1`. -/
theorem perm_spec (r : Rand) (n : Int) (h : 0 ≤ n) :
    ∃ p r1, r.Perm n = some (p, r1) ∧ p.Perm ((List.range n.toNat).map Int.ofNat) := by
  unfold Rand.Perm
  rw [if_neg (by omega)]
  refine ⟨_, _, rfl, ?_⟩
  have := permLoop_spec n.toNat [] r
  simpa [List.range_eq_range'] using this

/-! ## The first loop of `Setup` -/

theorem filter_range_succ (cand : Nat → Bool) (k : Nat) :
    ((List.range (k + 1)).filter cand).length =
      ((List.range k).filter cand).length + (if cand k = true then 1 else 0) := by
  rw [List.range_succ, List.filter_append, List.length_append]
  by_cases h : cand k = true
  · simp [h]
  · simp [h]

theorem filter_cons_cand (cand : Nat → Bool) (k : Nat) (l : List Nat) :
    (k :: l).filter cand = (if cand k = true then [k] else []) ++ l.filter cand := by
  by_cases h : cand k = true
  · simp [h]
  · simp [h]

/-- The first loop of `Setup` from index `i` on, when the miner quota is never the reason to
pass over a candidate: the nodes `i, ..., i + n - 1` are created, each a miner exactly if its
permuted index is below the number of miners, and the ids of the miners are appended in
order. -/
theorem setupNodes_spec (p : List Int) (M : Int) (N : Nat)
    (hH : ∀ k : Nat, k < N → p.getD k 0 < M →
      (((List.range k).filter (fun i => decide (p.getD i 0 < M))).length : Int) < M)
    (n : Nat) : ∀ (i : Nat) (s : Simulation) (c : Int), i + n ≤ N → s.Cfg.NumMiners = M →
      c = (((List.range i).filter (fun i => decide (p.getD i 0 < M))).length : Int) →
      (setupNodes p (List.range' i n) s c).MinerIDs =
        s.MinerIDs ++
          ((List.range' i n).filter (fun i => decide (p.getD i 0 < M))).map Int.ofNat ∧
      (∀ k : Nat, i ≤ k → k < i + n →
        ∃ nd, GoMap.get? (setupNodes p (List.range' i n) s c).Nodes (k : Int) = some nd ∧
          nd.ID = (k : Int) ∧ nd.IsMiner = decide (p.getD k 0 < M)) ∧
      ∀ key : Int, (∀ k : Nat, i ≤ k → k < i + n → key ≠ (k : Int)) →
        GoMap.get? (setupNodes p (List.range' i n) s c).Nodes key = GoMap.get? s.Nodes key := by
  induction n with
  | zero =>
    intro i s c _ _ _
    refine ⟨by simp [setupNodes], ?_, ?_⟩
    · intro k h1 h2
      omega
    · intro key _
      simp [setupNodes]
  | succ n ih =>
    intro i s c hiN hM hc
    rw [List.range'_succ]
    unfold setupNodes
    simp only
    by_cases hcand : p.getD i 0 < M
    · have hq : c < M := by rw [hc]; exact hH i (by omega) hcand
      rw [if_pos ⟨by rw [hM]; simpa using hcand, by rw [hM]; exact hq⟩]
      obtain ⟨h1, h2, h3⟩ := ih (i + 1)
        ({ ({ s with MinerIDs := s.MinerIDs ++ [(i : Int)] } : Simulation) with
          Nodes := GoMap.set s.Nodes (i : Int)
            (NewNode (i : Int) true { s with MinerIDs := s.MinerIDs ++ [(i : Int)] }) })
        (c + 1) (by omega) hM
        (by
          rw [filter_range_succ, hc, if_pos (by simpa using hcand)]
          push_cast
          rfl)
      dsimp only at h1 h2 h3 ⊢
      refine ⟨?_, ?_, ?_⟩
      · rw [h1, filter_cons_cand, if_pos (by simpa using hcand)]
        simp
      · intro k hk1 hk2
        by_cases e : k = i
        · subst e
          rw [h3 (k : Int) (fun k' a b => by omega), GoMap.get?_set, if_pos rfl]
          exact ⟨_, rfl, rfl, (decide_eq_true hcand).symm⟩
        · exact h2 k (by omega) (by omega)
      · intro key hkey
        rw [h3 key (fun k a b => hkey k (by omega) (by omega)), GoMap.get?_set,
          if_neg (hkey i (le_refl _) (by omega))]
    · rw [if_neg (fun h => hcand (by simpa [hM] using h.1))]
      obtain ⟨h1, h2, h3⟩ := ih (i + 1)
        ({ s with Nodes := GoMap.set s.Nodes (i : Int) (NewNode (i : Int) false s) })
        c (by omega) hM
        (by
          rw [filter_range_succ, hc, if_neg (by simpa using hcand)]
          push_cast
          omega)
      dsimp only at h1 h2 h3 ⊢
      refine ⟨?_, ?_, ?_⟩
      · rw [h1, filter_cons_cand, if_neg (by simpa using hcand)]
        simp
      · intro k hk1 hk2
        by_cases e : k = i
        · subst e
          rw [h3 (k : Int) (fun k' a b => by omega), GoMap.get?_set, if_pos rfl]
          exact ⟨_, rfl, rfl, (decide_eq_false hcand).symm⟩
        · exact h2 k (by omega) (by omega)
      · intro key hkey
        rw [h3 key (fun k a b => hkey k (by omega) (by omega)), GoMap.get?_set,
          if_neg (hkey i (le_refl _) (by omega))]

/-! ## Counting the candidates of a permutation -/

theorem countP_lt_range (m n : Nat) :
    List.countP (fun (i : Nat) => decide ((i : Int) < (m : Int))) (List.range n) = min m n := by
  induction n with
  | zero => simp
  | succ n ih =>
    rw [List.range_succ, List.countP_append, ih]
    by_cases h : n < m
    · have : decide ((n : Int) < (m : Int)) = true := by simpa using h
      simp only [List.countP_cons, List.countP_nil, this, if_true]
      omega
    · have : decide ((n : Int) < (m : Int)) = false := by simpa using h
      simp only [List.countP_cons, List.countP_nil, this]
      simp only [Bool.false_eq_true, if_false]
      omega

theorem perm_as_map (p : List Int) (N : Nat) (h : p.length = N) :
    p = (List.range N).map (fun i => p.getD i 0) := by
  apply List.ext_getElem
  · simp [h]
  · intro i h1 h2
    simp [List.getD_eq_getElem?_getD, List.getElem?_eq_getElem h1]

/-- In a permutation of `0, ..., N - 1` exactly `M` positions hold a value below `M`, when
`0 <= M <= N`, and before each of these positions there are fewer than `M` of them. -/
theorem candidates_count (p : List Int) (N : Nat) (M : Int)
    (hp : p.Perm ((List.range N).map Int.ofNat)) (h0 : 0 ≤ M) (h1 : M ≤ (N : Int)) :
    ((((List.range N).filter (fun i => decide (p.getD i 0 < M))).length : Nat) : Int) = M ∧
    ∀ k : Nat, k < N → p.getD k 0 < M →
      (((List.range k).filter (fun i => decide (p.getD i 0 < M))).length : Int) < M := by
  have hlen : p.length = N := by rw [hp.length_eq]; simp
  have hall : ((List.range N).filter (fun i => decide (p.getD i 0 < M))).length = M.toNat := by
    rw [← List.countP_eq_length_filter]
    have e1 : List.countP (fun v => decide (v < M)) p =
        List.countP (fun i => decide (p.getD i 0 < M)) (List.range N) := by
      conv_lhs => rw [perm_as_map p N hlen]
      rw [List.countP_map]
      rfl
    rw [← e1, hp.countP_eq, List.countP_map]
    obtain ⟨m, rfl⟩ := Int.eq_ofNat_of_zero_le h0
    have := countP_lt_range m N
    have e2 : ((fun v => decide (v < (m : Int))) ∘ Int.ofNat) =
        (fun i : Nat => decide ((i : Int) < (m : Int))) := rfl
    rw [e2, this]
    simp only [Int.toNat_ofNat]
    omega
  refine ⟨by rw [hall]; omega, ?_⟩
  intro k hk hc
  have hsub : ((List.range (k + 1)).filter (fun i => decide (p.getD i 0 < M))).length ≤
      ((List.range N).filter (fun i => decide (p.getD i 0 < M))).length :=
    List.Sublist.length_le (List.Sublist.filter _ (List.range_sublist.2 (by omega)))
  rw [filter_range_succ, if_pos (by simpa using hc), hall] at hsub
  omega

/-! ## The peer wiring of `Setup` returns -/

theorem isSome_set (m : GoMap Int Node) (N : Int)
    (h : ∀ key : Int, 0 ≤ key → key < N → (GoMap.get? m key).isSome = true) (a : Int) (v : Node) :
    ∀ key : Int, 0 ≤ key → key < N → (GoMap.get? (GoMap.set m a v) key).isSome = true := by
  intro key h1 h2
  rw [GoMap.get?_set]
  split
  · rfl
  · exact h key h1 h2

theorem connectPeers_total (N i k : Int) (hi0 : 0 ≤ i) (hiN : i < N) :
    ∀ (fuel : Nat) (s : Simulation) (pc ac : Int), s.Cfg.NumNodes = N →
      (∀ key : Int, 0 ≤ key → key < N → (GoMap.get? s.Nodes key).isSome = true) →
      0 ≤ ac → ac ≤ 2 * N → 2 * N + 2 ≤ (fuel : Int) + ac →
      ∃ s1, connectPeers i k fuel s pc ac = some s1 := by
  intro fuel
  induction fuel with
  | zero =>
    intro s pc ac _ _ h1 h2 h3
    simp only [Nat.cast_zero] at h3
    omega
  | succ fuel ih =>
    intro s pc ac hN hK h1 h2 h3
    unfold connectPeers
    by_cases hc0 : pc < k
    · rw [if_pos hc0]
      obtain ⟨ni, hni⟩ := Option.isSome_iff_exists.1 (hK i hi0 hiN)
      simp only [hni]
      by_cases hc : (ni.Peers.length : Int) < s.Cfg.NumNodes - 1
      · rw [if_pos hc]
        have hr : s.Rng.Intn s.Cfg.NumNodes =
            some ((s.Rng.seq s.Rng.pos) % s.Cfg.NumNodes, { s.Rng with pos := s.Rng.pos + 1 }) := by
          unfold Rand.Intn
          rw [if_neg (by omega)]
        simp only [hr]
        have hp0 : 0 ≤ (s.Rng.seq s.Rng.pos) % s.Cfg.NumNodes :=
          Int.emod_nonneg _ (by omega)
        have hp1 : (s.Rng.seq s.Rng.pos) % s.Cfg.NumNodes < N := by
          rw [← hN]
          exact Int.emod_lt_of_pos _ (by omega)
        by_cases hp : (s.Rng.seq s.Rng.pos) % s.Cfg.NumNodes ≠ i ∧
            contains ni.Peers ((s.Rng.seq s.Rng.pos) % s.Cfg.NumNodes) = false
        · rw [if_pos hp]
          have hK2 := isSome_set s.Nodes N hK i
            (ni.AddPeer ((s.Rng.seq s.Rng.pos) % s.Cfg.NumNodes))
          obtain ⟨np, hnp⟩ := Option.isSome_iff_exists.1 (hK2 _ hp0 hp1)
          simp only [hnp]
          split
          · exact ⟨_, rfl⟩
          · rename_i hac
            refine ih _ _ _ ?_ ?_ (by omega) ?_ ?_
            · unfold addReverseEdge
              split <;> exact hN
            · unfold addReverseEdge
              split
              · exact isSome_set _ N hK2 _ _
              · exact hK2
            · have : (addReverseEdge
                  { ({ s with Rng := { s.Rng with pos := s.Rng.pos + 1 } } : Simulation) with
                    Nodes := GoMap.set s.Nodes i
                      (ni.AddPeer ((s.Rng.seq s.Rng.pos) % s.Cfg.NumNodes)) }
                  ((s.Rng.seq s.Rng.pos) % s.Cfg.NumNodes) i np).Cfg.NumNodes = N := by
                unfold addReverseEdge
                split <;> exact hN
              rw [this] at hac
              omega
            · push_cast at h3 ⊢
              omega
        · rw [if_neg hp]
          split
          · exact ⟨_, rfl⟩
          · rename_i hac
            refine ih _ _ _ hN hK (by omega) ?_ ?_
            · have hac' : ¬ N * 2 < ac + 1 := by rw [← hN]; exact hac
              omega
            · push_cast at h3 ⊢
              omega
      · rw [if_neg hc]
        exact ⟨_, rfl⟩
    · rw [if_neg hc0]
      exact ⟨_, rfl⟩

theorem setupPeers_total (N : Int) (l : List Nat) (hl : ∀ i ∈ l, (i : Int) < N) :
    ∀ (s : Simulation), s.Cfg.NumNodes = N →
      (∀ key : Int, 0 ≤ key → key < N → (GoMap.get? s.Nodes key).isSome = true) →
      ∃ s1, setupPeers l s = some s1 := by
  induction l with
  | nil => intro s _ _; exact ⟨_, rfl⟩
  | cons i l ih =>
    intro s hN hK
    unfold setupPeers
    have hr : s.Rng.Intn 3 = some ((s.Rng.seq s.Rng.pos) % 3, { s.Rng with pos := s.Rng.pos + 1 }) := by
      unfold Rand.Intn
      rw [if_neg (by omega)]
    simp only [hr]
    have hiN := hl i (List.mem_cons_self _ _)
    obtain ⟨s1, h1⟩ := connectPeers_total N (i : Int) (3 + (s.Rng.seq s.Rng.pos) % 3)
      (by omega) hiN (2 * s.Cfg.NumNodes + 2).toNat
      { s with Rng := { s.Rng with pos := s.Rng.pos + 1 } } 0 0 hN hK (le_refl _) (by omega)
      (by rw [hN]; omega)
    simp only [h1]
    have hinv := connectPeers_inv
      (fun x => x.Cfg.NumNodes = N ∧
        ∀ key : Int, 0 ≤ key → key < N → (GoMap.get? x.Nodes key).isSome = true)
      (fun _ _ hx => hx) (fun x a ni q hx _ => ⟨hx.1, isSome_set _ N hx.2 _ _⟩)
      _ _ _ _ _ _ _ h1 ⟨hN, hK⟩
    exact ih (fun j hj => hl j (List.mem_cons_of_mem _ hj)) s1 hinv.1 hinv.2

/-! ## C22: the designation of the miners -/

theorem addPeer_id (n : Node) (q : Int) :
    (n.AddPeer q).ID = n.ID ∧ (n.AddPeer q).IsMiner = n.IsMiner := by
  unfold Node.AddPeer
  split <;> exact ⟨rfl, rfl⟩

/-- The peer wiring keeps the miner list, and for every key the id and the miner flag of the
node. -/
theorem setupPeers_miners (l : List Nat) (s s1 : Simulation) (h : setupPeers l s = some s1) :
    s1.MinerIDs = s.MinerIDs ∧
    ∀ key, (GoMap.get? s1.Nodes key).map (fun n => (n.ID, n.IsMiner)) =
      (GoMap.get? s.Nodes key).map (fun n => (n.ID, n.IsMiner)) := by
  refine setupPeers_inv
    (fun x => x.MinerIDs = s.MinerIDs ∧
      ∀ key, (GoMap.get? x.Nodes key).map (fun n => (n.ID, n.IsMiner)) =
        (GoMap.get? s.Nodes key).map (fun n => (n.ID, n.IsMiner)))
    (fun _ _ hx => hx) ?_ l s s1 h ⟨rfl, fun _ => rfl⟩
  intro x k ni q hx hk
  refine ⟨hx.1, ?_⟩
  intro key
  show (GoMap.get? (GoMap.set x.Nodes k (ni.AddPeer q)) key).map _ = _
  rw [GoMap.get?_set]
  split
  · rename_i e
    rw [← hx.2 key, e, hk]
    simp [(addPeer_id ni q).1, (addPeer_id ni q).2]
  · exact hx.2 key

/-- C22: for `0 <= NumMiners <= NumNodes`, `Setup` on a new simulation draws a permutation `p`
of `0, ..., NumNodes - 1` and returns; afterwards every id `i < NumNodes` has a node, which is
a miner exactly if `p[i] < NumMiners`, there are no other nodes, and `MinerIDs` lists the ids
`i` with `p[i] < NumMiners` in increasing order, `NumMiners` of them. -/
theorem C22_miner_designation (cfg : Config) (t : Int) (rng : Rand)
    (sha : BlockHeader → List String → String) (h0 : 0 ≤ cfg.NumMiners)
    (h1 : cfg.NumMiners ≤ cfg.NumNodes) :
    ∃ p r1 s1, rng.Perm cfg.NumNodes = some (p, r1) ∧
      p.Perm ((List.range cfg.NumNodes.toNat).map Int.ofNat) ∧
      (NewSimulation cfg t rng sha).Setup = some s1 ∧
      (∀ i : Nat, (i : Int) < cfg.NumNodes →
        ∃ n, GoMap.get? s1.Nodes (i : Int) = some n ∧ n.ID = (i : Int) ∧
          (n.IsMiner = true ↔ p.getD i 0 < cfg.NumMiners)) ∧
      (∀ key n, GoMap.get? s1.Nodes key = some n → 0 ≤ key ∧ key < cfg.NumNodes) ∧
      s1.MinerIDs =
        ((List.range cfg.NumNodes.toNat).filter
          (fun i => decide (p.getD i 0 < cfg.NumMiners))).map Int.ofNat ∧
      (s1.MinerIDs.length : Int) = cfg.NumMiners ∧
      s1.MinerIDs.Pairwise (fun a b => a < b) := by
  have hN : ((cfg.NumNodes.toNat : Nat) : Int) = cfg.NumNodes := Int.toNat_of_nonneg (by omega)
  obtain ⟨p, r1, hperm, hp⟩ := perm_spec rng cfg.NumNodes (by omega)
  obtain ⟨hcount, hH⟩ := candidates_count p cfg.NumNodes.toNat cfg.NumMiners hp h0
    (by rw [hN]; exact h1)
  obtain ⟨m1, m2, m3⟩ := setupNodes_spec p cfg.NumMiners cfg.NumNodes.toNat hH cfg.NumNodes.toNat
    0 { NewSimulation cfg t rng sha with Rng := r1 } 0 (by omega) rfl (by simp)
  rw [← List.range_eq_range'] at m1 m2 m3
  have hcfg : (setupNodes p (List.range cfg.NumNodes.toNat)
      { NewSimulation cfg t rng sha with Rng := r1 } 0).Cfg = cfg :=
    (setupNodes_clock p _ { NewSimulation cfg t rng sha with Rng := r1 } 0).2.2.1
  obtain ⟨s1, hs1⟩ := setupPeers_total cfg.NumNodes (List.range cfg.NumNodes.toNat)
    (fun i hi => by rw [← hN]; exact_mod_cast List.mem_range.1 hi)
    (setupNodes p (List.range cfg.NumNodes.toNat)
      { NewSimulation cfg t rng sha with Rng := r1 } 0)
    (by rw [hcfg])
    (by
      intro key k0 k1
      obtain ⟨k, rfl⟩ := Int.eq_ofNat_of_zero_le k0
      obtain ⟨nd, e, _⟩ := m2 k (Nat.zero_le _) (by omega)
      rw [e]
      rfl)
  obtain ⟨f1, f2⟩ := setupPeers_miners _ _ s1 hs1
  have hids : s1.MinerIDs =
      ((List.range cfg.NumNodes.toNat).filter
        (fun i => decide (p.getD i 0 < cfg.NumMiners))).map Int.ofNat := by
    rw [f1, m1]
    rfl
  refine ⟨p, r1, s1, hperm, hp, ?_, ?_, ?_, hids, ?_, ?_⟩
  · unfold Simulation.Setup
    have e : (NewSimulation cfg t rng sha).Rng.Perm (NewSimulation cfg t rng sha).Cfg.NumNodes =
        some (p, r1) := hperm
    simp only [e]
    have e2 : (NewSimulation cfg t rng sha).Cfg.NumNodes = cfg.NumNodes := rfl
    rw [e2, hcfg]
    exact hs1
  · intro i hi
    obtain ⟨nd, e, e1, e2⟩ := m2 i (Nat.zero_le _) (by omega)
    have := f2 (i : Int)
    rw [e] at this
    cases hg : GoMap.get? s1.Nodes (i : Int) with
    | none => rw [hg] at this; exact absurd this (by simp)
    | some n =>
      rw [hg] at this
      simp only [Option.map_some', Option.some.injEq, Prod.mk.injEq] at this
      refine ⟨n, rfl, this.1.trans e1, ?_⟩
      rw [this.2, e2]
      simp
  · intro key n hk
    by_contra hcon
    have hnone : GoMap.get? (setupNodes p (List.range cfg.NumNodes.toNat)
        { NewSimulation cfg t rng sha with Rng := r1 } 0).Nodes key = none := by
      rw [m3 key (fun k _ hk2 e => hcon (by omega))]
      rfl
    have := f2 key
    rw [hk, hnone] at this
    exact absurd this (by simp)
  · rw [hids, List.length_map]
    exact hcount
  · rw [hids]
    refine List.Pairwise.map _ (fun a b hab => ?_)
      (List.Pairwise.filter _ (List.pairwise_lt_range _))
    show (a : Int) < (b : Int)
    exact_mod_cast hab

set_option maxRecDepth 100000 in
theorem C22_miner_designation_witness :
    0 ≤ exCfgTwo.NumMiners ∧ exCfgTwo.NumMiners ≤ exCfgTwo.NumNodes ∧
    ({ seq := fun _ => 0, pos := 0 } : Rand).Perm exCfgTwo.NumNodes =
      some ([2, 0, 1], { seq := fun _ => 0, pos := 3 }) ∧
    ((NewSimulation exCfgTwo 1000 { seq := fun _ => 0, pos := 0 } exSha).Setup).map
      (fun s => s.MinerIDs) = some [1, 2] ∧
    ∃ p r1 s1, ({ seq := fun _ => 0, pos := 0 } : Rand).Perm exCfgTwo.NumNodes = some (p, r1) ∧
      p.Perm ((List.range exCfgTwo.NumNodes.toNat).map Int.ofNat) ∧
      (NewSimulation exCfgTwo 1000 { seq := fun _ => 0, pos := 0 } exSha).Setup = some s1 ∧
      (∀ i : Nat, (i : Int) < exCfgTwo.NumNodes →
        ∃ n, GoMap.get? s1.Nodes (i : Int) = some n ∧ n.ID = (i : Int) ∧
          (n.IsMiner = true ↔ p.getD i 0 < exCfgTwo.NumMiners)) ∧
      (∀ key n, GoMap.get? s1.Nodes key = some n → 0 ≤ key ∧ key < exCfgTwo.NumNodes) ∧
      s1.MinerIDs =
        ((List.range exCfgTwo.NumNodes.toNat).filter
          (fun i => decide (p.getD i 0 < exCfgTwo.NumMiners))).map Int.ofNat ∧
      (s1.MinerIDs.length : Int) = exCfgTwo.NumMiners ∧
      s1.MinerIDs.Pairwise (fun a b => a < b) :=
  ⟨by decide, by decide, rfl, by decide,
    C22_miner_designation exCfgTwo 1000 { seq := fun _ => 0, pos := 0 } exSha (by decide)
      (by decide)⟩

end BlockSim
